import Mathlib

/-!
# Optimistic lock-based skip-list map (synchrobench, `skiplist-lock/optimistic-map.c`)

A shallow embedding of the single-threaded behaviour of the
`long -> void*` skip-list map of Herlihy, Lev, Luchangco and Shavit as
implemented in `optimistic-map.c`.

* The C heap is a list of nodes; the address of a node is its index.
  `malloc` appends, nothing is ever freed by the four map operations.
* A node pointer is an `Option Nat` (`none` is `NULL`); the arrays
  `preds` / `succs` hold addresses that were dereferenced by the search.
* A result `none` of an operation means that the C code does not return
  normally from that state: a `NULL` or wild pointer is dereferenced, an
  array is read out of bounds, a spin lock that is already held is taken
  again, a lock that is not held is released, or a loop runs out of fuel.
-/

namespace Synchrobench

/-! ## Data model (`skiplist-lock-map.h`) -/

/-- The record `sl_node_t`.  `key` is a `long`, `val` a `void*` (`0` is
`NULL`), `next` the array of forward pointers, `marked` / `fullylinked` the
two `volatile int` flags (only ever `0` or `1`) and `lock` tells whether the
node's spin lock is held. -/
structure sl_node where
  key : Int
  val : Nat
  toplevel : Nat
  next : List (Option Nat)
  marked : Bool
  fullylinked : Bool
  lock : Bool
deriving DecidableEq, Repr

/-- The record `sl_map_t`: the address of the head sentinel. -/
structure sl_map where
  head : Nat
deriving DecidableEq, Repr

/-- The heap: every node allocated so far, addressed by position. -/
abbrev sl_heap := List sl_node

/-- The constant `LONG_MAX` of an LP64 platform. -/
def LONG_MAX : Int := 9223372036854775807

/-- `#define VAL_MIN LONG_MAX` (line 53 of `skiplist-lock-map.h`). -/
def VAL_MIN : Int := LONG_MAX

/-- `#define VAL_MAX LONG_MAX` (line 54 of `skiplist-lock-map.h`). -/
def VAL_MAX : Int := LONG_MAX

/-- Modelled from the spec: `sl_new_simple_node` is declared in
`skiplist-lock-map.h` ("create a new node without setting its next fields")
but its body is not part of the sources.  The node gets the given key, value
and tower height, `toplevel` unset forward pointers, both flags cleared and a
free lock. -/
def sl_new_simple_node (key : Int) (val : Nat) (toplevel : Nat) : sl_node :=
  { key := key, val := val, toplevel := toplevel,
    next := List.replicate toplevel none,
    marked := false, fullylinked := false, lock := false }

/-- Modelled from the spec: `sl_set_new` is declared in `skiplist-lock-map.h`
but its body is not part of the sources.  A fresh map has a tail sentinel
(address `0`, key `VAL_MAX`, all forward pointers `NULL`) and a head sentinel
(address `1`, key `VAL_MIN`) of height `levelmax` whose forward pointers all
point to the tail; both sentinels are fully linked and unmarked. -/
def sl_set_new (levelmax : Nat) : sl_map × sl_heap :=
  ({ head := 1 },
   [ { key := VAL_MAX, val := 0, toplevel := levelmax,
       next := List.replicate levelmax none,
       marked := false, fullylinked := true, lock := false },
     { key := VAL_MIN, val := 0, toplevel := levelmax,
       next := List.replicate levelmax (some 0),
       marked := false, fullylinked := true, lock := false } ])

/-! ## Primitive heap accesses -/

/-- The macro `LOCK(&node->lock)` on a spin lock: taking a lock that is already
held never returns in a single-threaded run. -/
def LOCK (h : sl_heap) (a : Nat) : Option sl_heap :=
  match h[a]? with
  | none => none
  | some n => if n.lock then none else some (h.set a { n with lock := true })

/-- The macro `UNLOCK(&node->lock)`: releasing a lock that is not held is
undefined. -/
def UNLOCK (h : sl_heap) (a : Nat) : Option sl_heap :=
  match h[a]? with
  | none => none
  | some n => if n.lock then some (h.set a { n with lock := false }) else none

/-- The store `a->next[i] = v`. -/
def store_next (h : sl_heap) (a i : Nat) (v : Option Nat) : Option sl_heap :=
  match h[a]? with
  | none => none
  | some n =>
    if i < n.next.length then some (h.set a { n with next := n.next.set i v })
    else none

/-- The store `a->marked = 1`. -/
def set_marked (h : sl_heap) (a : Nat) : Option sl_heap :=
  match h[a]? with
  | none => none
  | some n => some (h.set a { n with marked := true })

/-- The store `a->fullylinked = 1`. -/
def set_fullylinked (h : sl_heap) (a : Nat) : Option sl_heap :=
  match h[a]? with
  | none => none
  | some n => some (h.set a { n with fullylinked := true })

/-! ## `optimistic-map.c` -/

/-- The function `ok_to_delete` (lines 21-23). -/
def ok_to_delete (node : sl_node) (found : Int) : Bool :=
  node.fullylinked && (((node.toplevel : Int) - 1 == found) && !node.marked)

/-- The inner loop `while (key > curr->key) { pred = curr; curr = pred->next[i]; }`
of `optimistic_search` (lines 39-42); returns the final `(pred, curr)`. -/
def search_scan (h : sl_heap) (key : Int) (i : Nat) :
    Nat → Nat → Option Nat → Option (Nat × Nat)
  | 0, _, _ => none
  | _ + 1, _, none => none
  | fuel + 1, pred, some c =>
    match h[c]? with
    | none => none
    | some n =>
      if key > n.key then
        match n.next[i]? with
        | none => none
        | some nx => search_scan h key i fuel c nx
      else some (pred, c)

/-- The outer loop `for (i = pred->toplevel - 1; i >= 0; i--)` of
`optimistic_search` (lines 37-49), with `n = i + 1` levels still to visit.
Returns `found` and the entries `0 .. n-1` of `preds` and `succs`. -/
def search_levels (h : sl_heap) (key : Int) (fuel : Nat) :
    Nat → Nat → Int → Option (Int × List Nat × List Nat)
  | 0, _, found => some (found, [], [])
  | i + 1, pred, found =>
    match h[pred]? with
    | none => none
    | some p =>
      match p.next[i]? with
      | none => none
      | some curr0 =>
        match search_scan h key i fuel pred curr0 with
        | none => none
        | some (pred1, curr1) =>
          match h[curr1]? with
          | none => none
          | some c =>
            match search_levels h key fuel i pred1
                (if found = -1 ∧ key = c.key then (i : Int) else found) with
            | none => none
            | some (f, ps, ss) => some (f, ps ++ [pred1], ss ++ [curr1])

/-- The function `optimistic_search` (lines 30-51), called with non-`NULL`
`preds` as all callers do (the parameter `fast` is not used by the body).
The result is `(found, preds, succs)`; the arrays are filled for the levels
below `head->toplevel`. -/
def optimistic_search (fuel : Nat) (h : sl_heap) (map : sl_map) (key : Int) :
    Option (Int × List Nat × List Nat) :=
  match h[map.head]? with
  | none => none
  | some hd => search_levels h key fuel hd.toplevel map.head (-1)

/-- The function `optimistic_get` (lines 58-73); `0` is `NULL`. -/
def optimistic_get (fuel : Nat) (h : sl_heap) (map : sl_map) (key : Int) :
    Option Nat :=
  match optimistic_search fuel h map key with
  | none => none
  | some (found, _, succs) =>
    if found ≠ -1 then
      match succs[found.toNat]? with
      | none => none
      | some a =>
        match h[a]? with
        | none => none
        | some n => some (if n.fullylinked && !n.marked then n.val else 0)
    else some 0

/-- The function `optimistic_find` (lines 83-94). -/
def optimistic_find (fuel : Nat) (h : sl_heap) (map : sl_map) (key : Int) :
    Option Int :=
  match optimistic_search fuel h map key with
  | none => none
  | some (found, _, succs) =>
    if found ≠ -1 then
      match succs[found.toNat]? with
      | none => none
      | some a =>
        match h[a]? with
        | none => none
        | some n => some (if n.fullylinked && !n.marked then 1 else 0)
    else some 0

/-- The loop of `unlock_levels` (lines 104-110) with `n` iterations left, at
index `i`, `old` being the node released last. -/
def unlock_levels_loop (nodes : List Nat) :
    Nat → Nat → Option Nat → sl_heap → Option sl_heap
  | 0, _, _, h => some h
  | n + 1, i, old, h =>
    match nodes[i]? with
    | none => none
    | some a =>
      if old ≠ some a then
        match UNLOCK h a with
        | none => none
        | some h1 => unlock_levels_loop nodes n (i + 1) (some a) h1
      else unlock_levels_loop nodes n (i + 1) (some a) h

/-- The function `unlock_levels` (lines 100-111): `i` runs from `0` to
`highestlevel` inclusive. -/
def unlock_levels (h : sl_heap) (nodes : List Nat) (highestlevel : Int) :
    Option sl_heap :=
  unlock_levels_loop nodes (highestlevel + 1).toNat 0 none h

/-- The test `!pred->marked && !succ->marked && pred->next[i] == succ` of
`optimistic_insert` (lines 157-159), evaluated left to right. -/
def insert_valid (h : sl_heap) (pred succ i : Nat) : Option Bool :=
  match h[pred]? with
  | none => none
  | some p =>
    if p.marked then some false
    else
      match h[succ]? with
      | none => none
      | some s =>
        if s.marked then some false
        else
          match p.next[i]? with
          | none => none
          | some nx => some (decide (nx = some succ))

/-- The test `!pred->marked && pred->next[i] == succ` of `optimistic_delete`
(lines 244-245). -/
def delete_valid (h : sl_heap) (pred succ i : Nat) : Option Bool :=
  match h[pred]? with
  | none => none
  | some p =>
    if p.marked then some false
    else
      match p.next[i]? with
      | none => none
      | some nx => some (decide (nx = some succ))

/-- The locking and validation loop `for (i = 0; valid && (i < toplevel); i++)`
shared by `optimistic_insert` (lines 147-160, `valid_at = insert_valid`) and
`optimistic_delete` (lines 236-246, `valid_at = delete_valid`), with `n`
levels left.  Returns `(valid, highest_locked, heap)`. -/
def validate_loop (valid_at : sl_heap → Nat → Nat → Nat → Option Bool)
    (preds succs : List Nat) :
    Nat → Nat → Option Nat → Int → sl_heap → Option (Bool × Int × sl_heap)
  | 0, _, _, highest_locked, h => some (true, highest_locked, h)
  | n + 1, i, prev_pred, highest_locked, h =>
    match preds[i]?, succs[i]? with
    | some pred, some succ =>
      match (if prev_pred ≠ some pred then
               (LOCK h pred).map (fun h1 => (h1, (i : Int), some pred))
             else some (h, highest_locked, prev_pred)) with
      | none => none
      | some (h1, hl1, prev1) =>
        match valid_at h1 pred succ i with
        | none => none
        | some true => validate_loop valid_at preds succs n (i + 1) prev1 hl1 h1
        | some false => some (false, hl1, h1)
    | _, _ => none

/-- The splice loop of `optimistic_insert` (lines 174-177) with `n` iterations
left, at level `i`: `new_node->next[i] = succs[i]; preds[i]->next[i] = new_node`. -/
def insert_splice (new_node : Nat) (preds succs : List Nat) :
    Nat → Nat → sl_heap → Option sl_heap
  | 0, _, h => some h
  | n + 1, i, h =>
    match preds[i]?, succs[i]? with
    | some pred, some succ =>
      match store_next h new_node i (some succ) with
      | none => none
      | some h1 =>
        match store_next h1 pred i (some new_node) with
        | none => none
        | some h2 => insert_splice new_node preds succs n (i + 1) h2
    | _, _ => none

/-- The retry loop `while (1)` of `optimistic_insert` (lines 132-185).
`toplevel` is the value returned by `get_rand_level()`; `backoff` is an
`unsigned int`.  The sleep of the backoff branch does not touch the heap. -/
def optimistic_insert_loop (map : sl_map) (key : Int) (val : Nat) (toplevel : Nat) :
    Nat → Nat → sl_heap → Option (Int × sl_heap)
  | 0, _, _ => none
  | fuel + 1, backoff, h =>
    match optimistic_search (fuel + 1) h map key with
    | none => none
    | some (found, preds, succs) =>
      if found ≠ -1 then
        match succs[found.toNat]? with
        | none => none
        | some nf =>
          match h[nf]? with
          | none => none
          | some node_found =>
            if !node_found.marked then
              -- `while (!node_found->fullylinked) {}` spins for ever when clear
              if node_found.fullylinked then some (0, h) else none
            else optimistic_insert_loop map key val toplevel fuel backoff h
      else
        match validate_loop insert_valid preds succs toplevel 0 none (-1) h with
        | none => none
        | some (false, highest_locked, h1) =>
          match unlock_levels h1 preds highest_locked with
          | none => none
          | some h2 =>
            optimistic_insert_loop map key val toplevel fuel
              ((backoff * 2) % 4294967296) h2
        | some (true, highest_locked, h1) =>
          match insert_splice h1.length preds succs toplevel 0
              (h1 ++ [sl_new_simple_node key val toplevel]) with
          | none => none
          | some h3 =>
            match set_fullylinked h3 h1.length with
            | none => none
            | some h4 =>
              match unlock_levels h4 preds highest_locked with
              | none => none
              | some h5 => some (1, h5)

/-- The function `optimistic_insert` (lines 119-186) with the tower height
drawn by `get_rand_level()` passed as `toplevel`.  Returns the `int` result
and the heap after the call. -/
def optimistic_insert (fuel : Nat) (h : sl_heap) (map : sl_map) (key : Int)
    (val : Nat) (toplevel : Nat) : Option (Int × sl_heap) :=
  optimistic_insert_loop map key val toplevel fuel 1 h

/-- The unlink loop `for (i = toplevel-1; i >= 0; i--)` of `optimistic_delete`
(lines 258-259) with at most `n` iterations left and `u = i + 1`:
`preds[i]->next[i] = node_todel->next[i]`. -/
def delete_unlink (node_todel : Nat) (preds : List Nat) :
    Nat → Nat → sl_heap → Option sl_heap
  | 0, _, h => some h
  | _ + 1, 0, h => some h
  | n + 1, i + 1, h =>
    match preds[i]?, h[node_todel]? with
    | some pred, some nd =>
      match nd.next[i]? with
      | none => none
      | some v =>
        match store_next h pred i v with
        | none => none
        | some h1 => delete_unlink node_todel preds n i h1
    | _, _ => none

/-- The condition `is_marked || (found != -1 && ok_to_delete(succs[found], found))`
of `optimistic_delete` (line 212). -/
def delete_cond (h : sl_heap) (is_marked : Bool) (found : Int) (succs : List Nat) :
    Option Bool :=
  if is_marked then some true
  else if found ≠ -1 then
    match succs[found.toNat]? with
    | none => none
    | some a =>
      match h[a]? with
      | none => none
      | some n => some (ok_to_delete n found)
  else some false

/-- The block `if (!is_marked) { ... }` of `optimistic_delete` (lines 213-231),
which locks and marks the victim `succs[found]` on the first pass.  The result
is `Sum.inl heap` when the function returns `0` because the victim got marked
meanwhile, and otherwise `Sum.inr (node_todel, toplevel, heap)`. -/
def delete_mark (h : sl_heap) (node_todel : Option Nat) (is_marked : Bool)
    (toplevel : Int) (found : Int) (succs : List Nat) :
    Option (sl_heap ⊕ (Option Nat × Int × sl_heap)) :=
  if !is_marked then
    match succs[found.toNat]? with
    | none => none
    | some a =>
      match LOCK h a with
      | none => none
      | some h1 =>
        match h1[a]? with
        | none => none
        | some nd =>
          if nd.marked then (UNLOCK h1 a).map (fun h2 => Sum.inl h2)
          else (set_marked h1 a).map (fun h2 => Sum.inr (some a, (nd.toplevel : Int), h2))
  else some (Sum.inr (node_todel, toplevel, h))

/-- The retry loop `while (1)` of `optimistic_delete` (lines 209-272); the
local variables `node_todel`, `is_marked`, `toplevel` and `backoff` are
carried from one iteration to the next. -/
def optimistic_delete_loop (map : sl_map) (key : Int) :
    Nat → Option Nat → Bool → Int → Nat → sl_heap → Option (Int × sl_heap)
  | 0, _, _, _, _, _ => none
  | fuel + 1, node_todel, is_marked, toplevel, backoff, h =>
    match optimistic_search (fuel + 1) h map key with
    | none => none
    | some (found, preds, succs) =>
      match delete_cond h is_marked found succs with
      | none => none
      | some false => some (0, h)
      | some true =>
        match delete_mark h node_todel is_marked toplevel found succs with
        | none => none
        | some (Sum.inl h2) => some (0, h2)
        | some (Sum.inr (none, _, _)) => none
        | some (Sum.inr (some nd, tl, h2)) =>
          match validate_loop delete_valid preds succs tl.toNat 0 none (-1) h2 with
          | none => none
          | some (false, highest_locked, h3) =>
            match unlock_levels h3 preds highest_locked with
            | none => none
            | some h4 =>
              optimistic_delete_loop map key fuel (some nd) true tl
                ((backoff * 2) % 4294967296) h4
          | some (true, highest_locked, h3) =>
            match delete_unlink nd preds tl.toNat tl.toNat h3 with
            | none => none
            | some h4 =>
              match UNLOCK h4 nd with
              | none => none
              | some h5 =>
                match unlock_levels h5 preds highest_locked with
                | none => none
                | some h6 => some (1, h6)

/-- The function `optimistic_delete` (lines 194-273).  Returns the `int`
result and the heap after the call. -/
def optimistic_delete (fuel : Nat) (h : sl_heap) (map : sl_map) (key : Int) :
    Option (Int × sl_heap) :=
  optimistic_delete_loop map key fuel none false (-1) 1 h

/-! ## Observations used by the statements -/

/-- The addresses met when following `next[i]` from the pointer `p` until
`NULL`. -/
def level_chain (h : sl_heap) (i : Nat) : Nat → Option Nat → Option (List Nat)
  | 0, _ => none
  | _ + 1, none => some []
  | fuel + 1, some a =>
    match h[a]? with
    | none => none
    | some n =>
      match n.next[i]? with
      | none => none
      | some nx => (level_chain h i fuel nx).map (fun l => a :: l)


/-- The read `a->key`. -/
def key_at (h : sl_heap) (a : Nat) : Option Int :=
  match h[a]? with
  | none => none
  | some n => some n.key

/-- The key of the node at `a` is strictly smaller than the key of the node
at `b`. -/
def key_lt (h : sl_heap) (a b : Nat) : Prop :=
  match key_at h a, key_at h b with
  | some x, some y => x < y
  | _, _ => False

/-- Sorted levels: at every level below `lm` the chain `next[i]` from the head
runs through strictly increasing keys and ends with the tail sentinel (the node
at address `0`). -/
def sorted_levels (lm head : Nat) (h : sl_heap) : Prop :=
  ∀ i, i < lm → ∃ c, level_chain h i (h.length + 1) (some head) = some (head :: c) ∧
    c.Pairwise (key_lt h) ∧ c.getLast? = some 0

/-- Tower subset: the chain of every level `i + 1` is a subsequence of the
chain of level `i`. -/
def tower_subset (lm head : Nat) (h : sl_heap) : Prop :=
  ∀ i, i + 1 < lm → ∃ c0 c1, level_chain h i (h.length + 1) (some head) = some c0 ∧
    level_chain h (i + 1) (h.length + 1) (some head) = some c1 ∧ List.Sublist c1 c0

/-- Full towers: every node on the level-`0` chain from the head is on the
chain of every level below its `toplevel`. -/
def full_towers (head : Nat) (h : sl_heap) : Prop :=
  ∀ c0, level_chain h 0 (h.length + 1) (some head) = some c0 →
    ∀ a ∈ c0, ∃ n, h[a]? = some n ∧ ∀ i, i < n.toplevel →
      ∃ ci, level_chain h i (h.length + 1) (some head) = some ci ∧ a ∈ ci

/-! ## Ghost description of a well-formed skip list -/

/-- A ghost entry: a node other than the head, by address, with its key, its
value and the number `top` of levels at which it is linked. -/
structure Ent where
  addr : Nat
  key : Int
  val : Nat
  top : Nat
deriving DecidableEq, Repr

/-- The read `a->next[i]`. -/
def next_at (h : sl_heap) (a i : Nat) : Option (Option Nat) :=
  match h[a]? with
  | none => none
  | some n => n.next[i]?

/-- The addresses of the entries linked at level `i`, in list order. -/
def lvl (i : Nat) (G : List Ent) : List Nat :=
  (G.filter (fun e => decide (i < e.top))).map Ent.addr

/-- The last element of `d :: l`. -/
def lastD : List Nat → Nat → Nat
  | [], d => d
  | a :: l, _ => lastD l a

/-- The first element of `l`, or `d`. -/
def firstD : List Nat → Nat → Nat
  | [], d => d
  | a :: _, _ => a

/-- The value `found` reported by the search for a key `k` when `hi` lists the
entries with a key `≥ k` and `n` levels are visited. -/
def found_spec (k : Int) (hi : List Ent) (n : Nat) : Int :=
  match hi with
  | [] => -1
  | e :: _ => if e.key = k then ((min e.top n : Nat) : Int) - 1 else -1

/-- Structural well-formedness: the list `G` of entries, sorted by key and
ending with the tail sentinel, describes the chain of every level. -/
structure Shape (lm head : Nat) (h : sl_heap) (G : List Ent) : Prop where
  hd : ∃ n, h[head]? = some n ∧ n.toplevel = lm ∧ n.next.length = lm
  ents : ∀ e ∈ G, ∃ n, h[e.addr]? = some n ∧ n.key = e.key ∧ n.val = e.val ∧
    e.top ≤ n.next.length ∧ e.top ≤ lm
  nodup : (head :: G.map Ent.addr).Nodup
  sorted : G.Pairwise (fun a b => a.key < b.key)
  tail : ∃ G0 t, G = G0 ++ [t] ∧ t.key = VAL_MAX ∧ t.top = lm ∧ t.addr = 0
  tail_next : ∀ i, i < lm → next_at h 0 i = some none
  links : ∀ i, i < lm →
    List.Chain' (fun a b => next_at h a i = some (some b)) (head :: lvl i G)

/-- The entries split around a key `k`: `lo` holds the keys below `k`, `hi` the
keys from `k` on and ends with the tail sentinel. -/
structure Around (lm head : Nat) (h : sl_heap) (k : Int) (lo hi : List Ent) : Prop where
  shape : Shape lm head h (lo ++ hi)
  below : ∀ e ∈ lo, e.key < k
  above : ∀ e ∈ hi, k ≤ e.key
  last : ∃ hi0 t, hi = hi0 ++ [t] ∧ t.top = lm

/-- Every entry is a visible node linked at all the levels of its tower, and the
tower of a node that holds a client key has at least one level. -/
def Live (h : sl_heap) (G : List Ent) : Prop :=
  ∀ e ∈ G, ∃ n, h[e.addr]? = some n ∧ n.toplevel = e.top ∧ n.next.length = e.top ∧
    (e.key < VAL_MAX → 1 ≤ e.top) ∧ n.marked = false ∧ n.fullylinked = true

/-- The locks held are exactly those of the addresses in `S`. -/
def LocksAre (S : Nat → Prop) (h : sl_heap) : Prop :=
  ∀ a n, h[a]? = some n → (n.lock = true ↔ S a)

/-- Two heaps of the same size whose nodes at every address `b` are related by
`P b`. -/
def HRel (P : Nat → sl_node → sl_node → Prop) (h h1 : sl_heap) : Prop :=
  h1.length = h.length ∧ ∀ b n n1, h[b]? = some n → h1[b]? = some n1 → P b n n1

/-- The fields read by the search and by the chains agree. -/
def same_struct (n n1 : sl_node) : Prop :=
  n1.key = n.key ∧ n1.val = n.val ∧ n1.toplevel = n.toplevel ∧ n1.next = n.next

/-- The tower height, the number of links and the two flags agree. -/
def same_flags (n n1 : sl_node) : Prop :=
  n1.toplevel = n.toplevel ∧ n1.next.length = n.next.length ∧
    n1.marked = n.marked ∧ n1.fullylinked = n.fullylinked

/-- Every field but the lock agrees. -/
def same_but_lock (n n1 : sl_node) : Prop :=
  same_struct n n1 ∧ n1.marked = n.marked ∧ n1.fullylinked = n.fullylinked

/-- Every field but the contents of the forward pointers agrees. -/
def same_but_next (n n1 : sl_node) : Prop :=
  n1.key = n.key ∧ n1.val = n.val ∧ n1.toplevel = n.toplevel ∧
    n1.next.length = n.next.length ∧ n1.marked = n.marked ∧
    n1.fullylinked = n.fullylinked ∧ n1.lock = n.lock

/-- Equal entries of `preds` below level `L` are contiguous. -/
def Contig (preds : List Nat) (L : Nat) : Prop :=
  ∀ j m i, j ≤ m → m ≤ i → i < L → preds[j]? = preds[i]? → preds[m]? = preds[i]?

/-- The value of `highest_locked` after the levels below `i` have been
visited: the last level at which the predecessor changed. -/
def HighestLocked (preds : List Nat) (i : Nat) (hl : Int) : Prop :=
  (i = 0 ∧ hl = -1) ∨
    ∃ m : Nat, hl = (m : Int) ∧ m < i ∧ ∀ j, m ≤ j → j < i → preds[j]? = preds[m]?

/-- The invariant of the map between two operations of a single thread. -/
structure Inv (lm head : Nat) (h : sl_heap) (G : List Ent) : Prop where
  shape : Shape lm head h G
  live : Live h G
  head_flags : ∃ n, h[head]? = some n ∧ n.marked = false ∧ n.fullylinked = true
  free : LocksAre (fun _ => False) h

/-- The map while `optimistic_delete` unlinks the tail sentinel: the entries
`lo` (all but the tail) still form the chain of every level, which ends with
the tail below level `u` and with `NULL` from level `u` on. -/
structure TailCut (lm head : Nat) (h : sl_heap) (lo : List Ent) (u : Nat) : Prop where
  hd : ∃ n, h[head]? = some n ∧ n.toplevel = lm ∧ n.next.length = lm
  ents : ∀ e ∈ lo, ∃ n, h[e.addr]? = some n ∧ n.toplevel = e.top ∧
    e.top ≤ n.next.length ∧ e.top ≤ lm
  nodup : (head :: (lo.map Ent.addr ++ [0])).Nodup
  tail_next : ∀ i, i < lm → next_at h 0 i = some none
  links : ∀ i, i < lm →
    List.Chain' (fun a b => next_at h a i = some (some b)) (head :: lvl i lo)
  cut : ∀ i, i < lm →
    next_at h (lastD (lvl i lo) head) i = some (if i < u then some 0 else none)

/-- A call of the map interface. -/
inductive sl_call where
  | insert (key : Int) (val : Nat) (toplevel : Nat)
  | delete (key : Int)
deriving DecidableEq, Repr

/-- The effect of one logged call on a sequential key-value map: only a call
that returned `1` changes it. -/
def model_step (M : Int → Option Nat) (ev : sl_call × Int) : Int → Option Nat :=
  if ev.2 = 1 then
    match ev.1 with
    | sl_call.insert key val _ => fun k => if k = key then some val else M k
    | sl_call.delete key => fun k => if k = key then none else M k
  else M

/-- The sequential key-value map described by a log of calls, oldest first. -/
def model (log : List (sl_call × Int)) : Int → Option Nat :=
  log.foldl model_step (fun _ => none)

/-- The entries and the sequential model agree on the client keys. -/
def Agrees (log : List (sl_call × Int)) (G : List Ent) : Prop :=
  ∀ (k : Int) (v : Nat), k < VAL_MAX →
    (model log k = some v ↔ ∃ e ∈ G, e.key = k ∧ e.val = v)

/-- The heaps reachable from a fresh map of height `lm` by single-threaded
calls of `optimistic_insert` (key below the tail key, tower height in
`[1, lm]`) and `optimistic_delete` (key below the tail key), together with the
log of the calls and their results, oldest first. -/
inductive Reachable (lm : Nat) : List (sl_call × Int) → sl_heap → Prop where
  | fresh : Reachable lm [] (sl_set_new lm).2
  | insert {log : List (sl_call × Int)} {h : sl_heap} (fuel : Nat) (key : Int)
      (val toplevel : Nat) (r : Int) (h1 : sl_heap) :
      Reachable lm log h → key < VAL_MAX → 1 ≤ toplevel → toplevel ≤ lm →
      optimistic_insert fuel h (sl_set_new lm).1 key val toplevel = some (r, h1) →
      Reachable lm (log ++ [(sl_call.insert key val toplevel, r)]) h1
  | delete {log : List (sl_call × Int)} {h : sl_heap} (fuel : Nat) (key : Int)
      (r : Int) (h1 : sl_heap) :
      Reachable lm log h → key < VAL_MAX →
      optimistic_delete fuel h (sl_set_new lm).1 key = some (r, h1) →
      Reachable lm (log ++ [(sl_call.delete key, r)]) h1

/-! ## Concrete heaps used to instantiate the statements -/

/-- The heap of a map of height `2` after `optimistic_insert(map, 5, 7)` with a
tower of height `2`: tail at `0`, head at `1`, the node of key `5` at `2`. -/
def one_key_heap : sl_heap :=
  [ { key := VAL_MAX, val := 0, toplevel := 2, next := [none, none],
      marked := false, fullylinked := true, lock := false },
    { key := VAL_MIN, val := 0, toplevel := 2, next := [some 2, some 2],
      marked := false, fullylinked := true, lock := false },
    { key := 5, val := 7, toplevel := 2, next := [some 0, some 0],
      marked := false, fullylinked := true, lock := false } ]

/-! ## The operations with a log of what they do to the nodes -/

/-- One step of a call that touches a node or is visible from outside, in
program order: a call of `optimistic_search`, a read of a field of the node at
`a`, `LOCK(&a->lock)`, `UNLOCK(&a->lock)`, the allocation of the node at `a` by
`sl_new_simple_node(key, val, toplevel)`, the stores `a->next[i] = v`, `a->marked = 1` and
`a->fullylinked = 1`, the branch `if (!valid)` entered with the given value of
`backoff`, and `nanosleep` called with the given `tv_sec` and `tv_nsec`. -/
inductive sl_event where
  | search
  | read (a : Nat)
  | lock (a : Nat)
  | unlock (a : Nat)
  | alloc (a : Nat) (key : Int) (val toplevel : Nat)
  | next (a i : Nat) (v : Option Nat)
  | marked (a : Nat)
  | fullylinked (a : Nat)
  | invalid (backoff : Nat)
  | sleep (sec nsec : Nat)
deriving DecidableEq, Repr

/-- The `struct timespec` computed by `optimistic_insert` (lines 165-166):
`tv_sec = backoff / 5000` and `tv_nsec = (backoff % 5000) * 1000000`, the
product being taken in `unsigned int`. -/
def insert_timeout (backoff : Nat) : Nat × Nat :=
  (backoff / 5000, ((backoff % 5000) * 1000000) % 4294967296)

/-- The `struct timespec` computed by `optimistic_delete` (lines 250-251):
`tv_sec = backoff / 5000` and `tv_nsec = (backoff % 5000) / 1000000`. -/
def delete_timeout (backoff : Nat) : Nat × Nat :=
  (backoff / 5000, (backoff % 5000) / 1000000)

/-- The loop of `search_scan` with its log: each test `key > curr->key` reads
`curr`, each step `curr = pred->next[i]` reads the new `pred`. -/
def search_scan_log (h : sl_heap) (key : Int) (i : Nat) :
    Nat → Nat → Option Nat → Option ((Nat × Nat) × List sl_event)
  | 0, _, _ => none
  | _ + 1, _, none => none
  | fuel + 1, pred, some c =>
    match h[c]? with
    | none => none
    | some n =>
      if key > n.key then
        match n.next[i]? with
        | none => none
        | some nx =>
          match search_scan_log h key i fuel c nx with
          | none => none
          | some (r, l) => some (r, sl_event.read c :: sl_event.read c :: l)
      else some ((pred, c), [sl_event.read c])

/-- The loop of `search_levels` with its log: `curr = pred->next[i]` reads
`pred`, then the scan, then `key == curr->key` reads `curr` when `found` is
still `-1`. -/
def search_levels_log (h : sl_heap) (key : Int) (fuel : Nat) :
    Nat → Nat → Int → Option ((Int × List Nat × List Nat) × List sl_event)
  | 0, _, found => some ((found, [], []), [])
  | i + 1, pred, found =>
    match h[pred]? with
    | none => none
    | some p =>
      match p.next[i]? with
      | none => none
      | some curr0 =>
        match search_scan_log h key i fuel pred curr0 with
        | none => none
        | some ((pred1, curr1), l1) =>
          match h[curr1]? with
          | none => none
          | some c =>
            match search_levels_log h key fuel i pred1
                (if found = -1 ∧ key = c.key then (i : Int) else found) with
            | none => none
            | some ((f, ps, ss), l2) =>
              some ((f, ps ++ [pred1], ss ++ [curr1]),
                sl_event.read pred :: l1 ++
                  (if found = -1 then [sl_event.read curr1] else []) ++ l2)

/-- The function `optimistic_search` with its log: the call itself, the read
of `pred->toplevel`, then the levels. -/
def optimistic_search_log (fuel : Nat) (h : sl_heap) (map : sl_map) (key : Int) :
    Option ((Int × List Nat × List Nat) × List sl_event) :=
  match h[map.head]? with
  | none => none
  | some hd =>
    match search_levels_log h key fuel hd.toplevel map.head (-1) with
    | none => none
    | some (r, l) => some (r, sl_event.search :: sl_event.read map.head :: l)

/-- The function `optimistic_get` with its log: after the search,
`succs[found]->fullylinked` is read when `found != -1`, `succs[found]->marked`
when the node is fully linked, and `succs[found]->val` when it is visible. -/
def optimistic_get_log (fuel : Nat) (h : sl_heap) (map : sl_map) (key : Int) :
    Option (Nat × List sl_event) :=
  match optimistic_search_log fuel h map key with
  | none => none
  | some ((found, _, succs), l) =>
    if found ≠ -1 then
      match succs[found.toNat]? with
      | none => none
      | some a =>
        match h[a]? with
        | none => none
        | some n =>
          some (if n.fullylinked && !n.marked then n.val else 0,
            l ++ sl_event.read a :: (if n.fullylinked then
              sl_event.read a :: (if !n.marked then [sl_event.read a] else []) else []))
    else some (0, l)

/-- The function `optimistic_find` with its log: after the search,
`succs[found]->fullylinked` is read when `found != -1` and `succs[found]->marked`
when the node is fully linked. -/
def optimistic_find_log (fuel : Nat) (h : sl_heap) (map : sl_map) (key : Int) :
    Option (Int × List sl_event) :=
  match optimistic_search_log fuel h map key with
  | none => none
  | some ((found, _, succs), l) =>
    if found ≠ -1 then
      match succs[found.toNat]? with
      | none => none
      | some a =>
        match h[a]? with
        | none => none
        | some n =>
          some (if n.fullylinked && !n.marked then 1 else 0,
            l ++ sl_event.read a :: (if n.fullylinked then [sl_event.read a] else []))
    else some (0, l)

/-- The loop of `unlock_levels` with its log. -/
def unlock_levels_loop_log (nodes : List Nat) :
    Nat → Nat → Option Nat → sl_heap → Option (sl_heap × List sl_event)
  | 0, _, _, h => some (h, [])
  | n + 1, i, old, h =>
    match nodes[i]? with
    | none => none
    | some a =>
      if old ≠ some a then
        match UNLOCK h a with
        | none => none
        | some h1 =>
          match unlock_levels_loop_log nodes n (i + 1) (some a) h1 with
          | none => none
          | some (h2, l) => some (h2, sl_event.unlock a :: l)
      else unlock_levels_loop_log nodes n (i + 1) (some a) h

/-- The function `unlock_levels` with its log. -/
def unlock_levels_log (h : sl_heap) (nodes : List Nat) (highestlevel : Int) :
    Option (sl_heap × List sl_event) :=
  unlock_levels_loop_log nodes (highestlevel + 1).toNat 0 none h

/-- The test of `insert_valid` with its log: `pred->marked` is read, then
`succ->marked` when `pred` is not marked, then `pred->next[i]` when neither
is. -/
def insert_valid_log (h : sl_heap) (pred succ i : Nat) : Option (Bool × List sl_event) :=
  match h[pred]? with
  | none => none
  | some p =>
    if p.marked then some (false, [sl_event.read pred])
    else
      match h[succ]? with
      | none => none
      | some s =>
        if s.marked then some (false, [sl_event.read pred, sl_event.read succ])
        else
          match p.next[i]? with
          | none => none
          | some nx =>
            some (decide (nx = some succ),
              [sl_event.read pred, sl_event.read succ, sl_event.read pred])

/-- The test of `delete_valid` with its log: `pred->marked` is read, then
`pred->next[i]` when `pred` is not marked. -/
def delete_valid_log (h : sl_heap) (pred succ i : Nat) : Option (Bool × List sl_event) :=
  match h[pred]? with
  | none => none
  | some p =>
    if p.marked then some (false, [sl_event.read pred])
    else
      match p.next[i]? with
      | none => none
      | some nx => some (decide (nx = some succ), [sl_event.read pred, sl_event.read pred])

/-- The loop of `validate_loop` with its log: the lock taken when `pred`
differs from `prev_pred`, then the reads of the validity test. -/
def validate_loop_log (valid_at : sl_heap → Nat → Nat → Nat → Option (Bool × List sl_event))
    (preds succs : List Nat) :
    Nat → Nat → Option Nat → Int → sl_heap →
      Option ((Bool × Int × sl_heap) × List sl_event)
  | 0, _, _, highest_locked, h => some ((true, highest_locked, h), [])
  | n + 1, i, prev_pred, highest_locked, h =>
    match preds[i]?, succs[i]? with
    | some pred, some succ =>
      match (if prev_pred ≠ some pred then
               (LOCK h pred).map (fun h1 => ((h1, (i : Int), some pred), [sl_event.lock pred]))
             else some ((h, highest_locked, prev_pred), [])) with
      | none => none
      | some ((h1, hl1, prev1), l1) =>
        match valid_at h1 pred succ i with
        | none => none
        | some (true, l2) =>
          match validate_loop_log valid_at preds succs n (i + 1) prev1 hl1 h1 with
          | none => none
          | some (r, l3) => some (r, l1 ++ l2 ++ l3)
        | some (false, l2) => some ((false, hl1, h1), l1 ++ l2)
    | _, _ => none

/-- The loop of `insert_splice` with its log. -/
def insert_splice_log (new_node : Nat) (preds succs : List Nat) :
    Nat → Nat → sl_heap → Option (sl_heap × List sl_event)
  | 0, _, h => some (h, [])
  | n + 1, i, h =>
    match preds[i]?, succs[i]? with
    | some pred, some succ =>
      match store_next h new_node i (some succ) with
      | none => none
      | some h1 =>
        match store_next h1 pred i (some new_node) with
        | none => none
        | some h2 =>
          match insert_splice_log new_node preds succs n (i + 1) h2 with
          | none => none
          | some (h3, l) =>
            some (h3, sl_event.next new_node i (some succ) ::
              sl_event.next pred i (some new_node) :: l)
    | _, _ => none

/-- The retry loop of `optimistic_insert` with its log.  The log is returned
also when the call does not return: it then covers the steps completed before
the loop ran out of fuel or the call went wrong. -/
def optimistic_insert_loop_log (map : sl_map) (key : Int) (val : Nat) (toplevel : Nat) :
    Nat → Nat → sl_heap → Option (Int × sl_heap) × List sl_event
  | 0, _, _ => (none, [])
  | fuel + 1, backoff, h =>
    match optimistic_search_log (fuel + 1) h map key with
    | none => (none, [])
    | some ((found, preds, succs), l0) =>
      if found ≠ -1 then
        match succs[found.toNat]? with
        | none => (none, l0)
        | some nf =>
          match h[nf]? with
          | none => (none, l0)
          | some node_found =>
            if !node_found.marked then
              -- `while (!node_found->fullylinked) {}` spins for ever when clear
              if node_found.fullylinked then
                (some (0, h), l0 ++ [sl_event.read nf, sl_event.read nf])
              else (none, l0 ++ [sl_event.read nf, sl_event.read nf])
            else
              ((optimistic_insert_loop_log map key val toplevel fuel backoff h).1,
                l0 ++ sl_event.read nf ::
                  (optimistic_insert_loop_log map key val toplevel fuel backoff h).2)
      else
        match validate_loop_log insert_valid_log preds succs toplevel 0 none (-1) h with
        | none => (none, l0)
        | some ((false, highest_locked, h1), l1) =>
          match unlock_levels_log h1 preds highest_locked with
          | none => (none, l0 ++ l1)
          | some (h2, l2) =>
            ((optimistic_insert_loop_log map key val toplevel fuel
                ((backoff * 2) % 4294967296) h2).1,
              l0 ++ l1 ++ l2 ++ sl_event.invalid backoff ::
                (if backoff > 5000 then
                  [sl_event.sleep (insert_timeout backoff).1 (insert_timeout backoff).2]
                 else []) ++
                (optimistic_insert_loop_log map key val toplevel fuel
                  ((backoff * 2) % 4294967296) h2).2)
        | some ((true, highest_locked, h1), l1) =>
          match insert_splice_log h1.length preds succs toplevel 0
              (h1 ++ [sl_new_simple_node key val toplevel]) with
          | none => (none, l0 ++ l1 ++ [sl_event.alloc h1.length key val toplevel])
          | some (h3, l3) =>
            match set_fullylinked h3 h1.length with
            | none => (none, l0 ++ l1 ++ sl_event.alloc h1.length key val toplevel :: l3)
            | some h4 =>
              match unlock_levels_log h4 preds highest_locked with
              | none =>
                (none, l0 ++ l1 ++ sl_event.alloc h1.length key val toplevel :: l3 ++
                  [sl_event.fullylinked h1.length])
              | some (h5, l5) =>
                (some (1, h5), l0 ++ l1 ++ sl_event.alloc h1.length key val toplevel :: l3 ++
                  sl_event.fullylinked h1.length :: l5)

/-- The function `optimistic_insert` with its log. -/
def optimistic_insert_log (fuel : Nat) (h : sl_heap) (map : sl_map) (key : Int)
    (val : Nat) (toplevel : Nat) : Option (Int × sl_heap) × List sl_event :=
  optimistic_insert_loop_log map key val toplevel fuel 1 h

/-- The loop of `delete_unlink` with its log: each iteration reads
`node_todel->next[i]` and stores it into `preds[i]->next[i]`. -/
def delete_unlink_log (node_todel : Nat) (preds : List Nat) :
    Nat → Nat → sl_heap → Option (sl_heap × List sl_event)
  | 0, _, h => some (h, [])
  | _ + 1, 0, h => some (h, [])
  | n + 1, i + 1, h =>
    match preds[i]?, h[node_todel]? with
    | some pred, some nd =>
      match nd.next[i]? with
      | none => none
      | some v =>
        match store_next h pred i v with
        | none => none
        | some h1 =>
          match delete_unlink_log node_todel preds n i h1 with
          | none => none
          | some (h2, l) =>
            some (h2, sl_event.read node_todel :: sl_event.next pred i v :: l)
    | _, _ => none

/-- The condition of `delete_cond` with its log: `ok_to_delete` reads
`node->fullylinked`, then `node->toplevel` when the node is fully linked, then
`node->marked` when `found` is its top level. -/
def delete_cond_log (h : sl_heap) (is_marked : Bool) (found : Int) (succs : List Nat) :
    Option (Bool × List sl_event) :=
  if is_marked then some (true, [])
  else if found ≠ -1 then
    match succs[found.toNat]? with
    | none => none
    | some a =>
      match h[a]? with
      | none => none
      | some n =>
        some (ok_to_delete n found,
          sl_event.read a :: (if n.fullylinked then
            sl_event.read a :: (if (n.toplevel : Int) - 1 = found then [sl_event.read a]
              else []) else []))
  else some (false, [])

/-- The block of `delete_mark` with its log: the victim is locked, its
`toplevel` and `marked` are read, and it is released or marked. -/
def delete_mark_log (h : sl_heap) (node_todel : Option Nat) (is_marked : Bool)
    (toplevel : Int) (found : Int) (succs : List Nat) :
    Option ((sl_heap ⊕ (Option Nat × Int × sl_heap)) × List sl_event) :=
  if !is_marked then
    match succs[found.toNat]? with
    | none => none
    | some a =>
      match LOCK h a with
      | none => none
      | some h1 =>
        match h1[a]? with
        | none => none
        | some nd =>
          if nd.marked then
            (UNLOCK h1 a).map (fun h2 =>
              (Sum.inl h2, [sl_event.lock a, sl_event.read a, sl_event.read a,
                sl_event.unlock a]))
          else
            (set_marked h1 a).map (fun h2 =>
              (Sum.inr (some a, (nd.toplevel : Int), h2),
                [sl_event.lock a, sl_event.read a, sl_event.read a, sl_event.marked a]))
  else some (Sum.inr (node_todel, toplevel, h), [])

/-- The retry loop of `optimistic_delete` with its log.  The log is returned
also when the call does not return: it then covers the steps completed before
the loop ran out of fuel or the call went wrong. -/
def optimistic_delete_loop_log (map : sl_map) (key : Int) :
    Nat → Option Nat → Bool → Int → Nat → sl_heap →
      Option (Int × sl_heap) × List sl_event
  | 0, _, _, _, _, _ => (none, [])
  | fuel + 1, node_todel, is_marked, toplevel, backoff, h =>
    match optimistic_search_log (fuel + 1) h map key with
    | none => (none, [])
    | some ((found, preds, succs), l0) =>
      match delete_cond_log h is_marked found succs with
      | none => (none, l0)
      | some (false, lc) => (some (0, h), l0 ++ lc)
      | some (true, lc) =>
        match delete_mark_log h node_todel is_marked toplevel found succs with
        | none => (none, l0 ++ lc)
        | some (Sum.inl h2, lk) => (some (0, h2), l0 ++ lc ++ lk)
        | some (Sum.inr (none, _, _), lk) => (none, l0 ++ lc ++ lk)
        | some (Sum.inr (some nd, tl, h2), lk) =>
          match validate_loop_log delete_valid_log preds succs tl.toNat 0 none (-1) h2 with
          | none => (none, l0 ++ lc ++ lk)
          | some ((false, highest_locked, h3), l1) =>
            match unlock_levels_log h3 preds highest_locked with
            | none => (none, l0 ++ lc ++ lk ++ l1)
            | some (h4, l2) =>
              ((optimistic_delete_loop_log map key fuel (some nd) true tl
                  ((backoff * 2) % 4294967296) h4).1,
                l0 ++ lc ++ lk ++ l1 ++ l2 ++ sl_event.invalid backoff ::
                  (if backoff > 5000 then
                    [sl_event.sleep (delete_timeout backoff).1 (delete_timeout backoff).2]
                   else []) ++
                  (optimistic_delete_loop_log map key fuel (some nd) true tl
                    ((backoff * 2) % 4294967296) h4).2)
          | some ((true, highest_locked, h3), l1) =>
            match delete_unlink_log nd preds tl.toNat tl.toNat h3 with
            | none => (none, l0 ++ lc ++ lk ++ l1)
            | some (h4, l3) =>
              match UNLOCK h4 nd with
              | none => (none, l0 ++ lc ++ lk ++ l1 ++ l3)
              | some h5 =>
                match unlock_levels_log h5 preds highest_locked with
                | none => (none, l0 ++ lc ++ lk ++ l1 ++ l3 ++ [sl_event.unlock nd])
                | some (h6, l6) =>
                  (some (1, h6), l0 ++ lc ++ lk ++ l1 ++ l3 ++ sl_event.unlock nd :: l6)

/-- The function `optimistic_delete` with its log. -/
def optimistic_delete_log (fuel : Nat) (h : sl_heap) (map : sl_map) (key : Int) :
    Option (Int × sl_heap) × List sl_event :=
  optimistic_delete_loop_log map key fuel none false (-1) 1 h

/-! ## Reading a log -/

/-- The effect of one step of a log on the heap; the steps that only read or
sleep leave it as it is. -/
def run_event (h : sl_heap) : sl_event → Option sl_heap
  | sl_event.lock a => LOCK h a
  | sl_event.unlock a => UNLOCK h a
  | sl_event.alloc a key val toplevel =>
    if a = h.length then some (h ++ [sl_new_simple_node key val toplevel]) else none
  | sl_event.next a i v => store_next h a i v
  | sl_event.marked a => set_marked h a
  | sl_event.fullylinked a => set_fullylinked h a
  | _ => some h

/-- The heap after the steps of a log. -/
def run_log : sl_heap → List sl_event → Option sl_heap
  | h, [] => some h
  | h, e :: l =>
    match run_event h e with
    | none => none
    | some h1 => run_log h1 l

/-- The addresses locked by the steps of a log, in order. -/
def locked_by : List sl_event → List Nat
  | [] => []
  | sl_event.lock a :: l => a :: locked_by l
  | _ :: l => locked_by l

/-- The addresses released by the steps of a log, in order. -/
def released_by : List sl_event → List Nat
  | [] => []
  | sl_event.unlock a :: l => a :: released_by l
  | _ :: l => released_by l

/-- The locks held after the steps of a log when `held` are held before it;
`none` when a step takes a lock that is held or releases one that is not. -/
def held_after : List Nat → List sl_event → Option (List Nat)
  | held, [] => some held
  | held, sl_event.lock a :: l =>
    if a ∈ held then none else held_after (held ++ [a]) l
  | held, sl_event.unlock a :: l =>
    if a ∈ held then held_after (held.erase a) l else none
  | held, _ :: l => held_after held l

/-- The stores of a log (to `next`, `marked` and `fullylinked`), in order. -/
def stores_of : List sl_event → List sl_event
  | [] => []
  | sl_event.next a i v :: l => sl_event.next a i v :: stores_of l
  | sl_event.marked a :: l => sl_event.marked a :: stores_of l
  | sl_event.fullylinked a :: l => sl_event.fullylinked a :: stores_of l
  | _ :: l => stores_of l

/-- The steps of a log that belong to the backoff: the entries into the branch
`if (!valid)` and the calls of `nanosleep`, in order. -/
def backoff_steps : List sl_event → List sl_event
  | [] => []
  | sl_event.invalid b :: l => sl_event.invalid b :: backoff_steps l
  | sl_event.sleep s n :: l => sl_event.sleep s n :: backoff_steps l
  | _ :: l => backoff_steps l

/-- The entries of an array of nodes that differ from the entry before them
(from `prev` for the first one): the nodes that the validation loop locks and
that `unlock_levels` releases. -/
def lock_seq : Option Nat → List Nat → List Nat
  | _, [] => []
  | prev, a :: l => if prev ≠ some a then a :: lock_seq (some a) l else lock_seq (some a) l

/-- A heap that a thread sees while another thread deletes the key `5` from a
map of height `1`: the node at `2` is marked and locked by its deleter and is
still linked after the head. -/
def contended_heap : sl_heap :=
  [ { key := VAL_MAX, val := 0, toplevel := 1, next := [none],
      marked := false, fullylinked := true, lock := false },
    { key := VAL_MIN, val := 0, toplevel := 1, next := [some 2],
      marked := false, fullylinked := true, lock := false },
    { key := 5, val := 7, toplevel := 1, next := [some 0],
      marked := true, fullylinked := true, lock := true } ]

/-! ## Lists -/

@[simp] theorem firstD_nil (d : Nat) : firstD [] d = d := rfl

@[simp] theorem firstD_cons (a : Nat) (l : List Nat) (d : Nat) : firstD (a :: l) d = a := rfl

@[simp] theorem lastD_nil (d : Nat) : lastD [] d = d := rfl

@[simp] theorem lastD_cons (a : Nat) (l : List Nat) (d : Nat) : lastD (a :: l) d = lastD l a := rfl

theorem lastD_append_cons (A : List Nat) (p : Nat) (Y : List Nat) (d : Nat) :
    lastD (A ++ p :: Y) d = lastD Y p := by
  induction A generalizing d with
  | nil => rfl
  | cons a A ih => exact ih a

theorem lastD_of_split {d p : Nat} {l X Y : List Nat} (hs : d :: l = X ++ p :: Y) :
    lastD l d = lastD Y p := by
  cases X with
  | nil =>
    simp only [List.nil_append, List.cons.injEq] at hs
    obtain ⟨rfl, rfl⟩ := hs
    rfl
  | cons x X =>
    simp only [List.cons_append, List.cons.injEq] at hs
    obtain ⟨rfl, rfl⟩ := hs
    exact lastD_append_cons X p Y d

theorem lastD_mem (l : List Nat) (d : Nat) : lastD l d ∈ d :: l := by
  induction l generalizing d with
  | nil => simp
  | cons a l ih =>
    have := ih a
    simp only [lastD_cons]
    exact List.mem_cons_of_mem _ this

theorem lastD_append (l1 l2 : List Nat) (d : Nat) :
    lastD (l1 ++ l2) d = lastD l2 (lastD l1 d) := by
  induction l1 generalizing d with
  | nil => rfl
  | cons a l ih => exact ih a

theorem lvl_append (i : Nat) (A B : List Ent) : lvl i (A ++ B) = lvl i A ++ lvl i B := by
  simp [lvl]

theorem lvl_nil (i : Nat) : lvl i [] = [] := rfl

theorem lvl_cons (i : Nat) (e : Ent) (G : List Ent) :
    lvl i (e :: G) = if i < e.top then e.addr :: lvl i G else lvl i G := by
  by_cases hlt : i < e.top <;> simp [lvl, List.filter_cons, hlt]

theorem mem_lvl {i a : Nat} {G : List Ent} :
    a ∈ lvl i G ↔ ∃ e ∈ G, i < e.top ∧ e.addr = a := by
  simp [lvl, List.mem_map, List.mem_filter, and_assoc]

theorem lvl_subset_succ (i : Nat) (G : List Ent) : lvl (i + 1) G ⊆ lvl i G := by
  intro a ha
  obtain ⟨e, he, hlt, rfl⟩ := mem_lvl.mp ha
  exact mem_lvl.mpr ⟨e, he, by omega, rfl⟩

theorem lvl_eq_nil_of_le {i : Nat} {G : List Ent} (hle : ∀ e ∈ G, e.top ≤ i) : lvl i G = [] := by
  simp only [lvl, List.map_eq_nil_iff, List.filter_eq_nil_iff, decide_eq_true_eq]
  intro e he
  have := hle e he
  omega

/-! ## Reads -/

theorem next_at_eq {h : sl_heap} {a i : Nat} {n : sl_node} (hn : h[a]? = some n) :
    next_at h a i = n.next[i]? := by
  simp [next_at, hn]

theorem next_at_some {h : sl_heap} {a i : Nat} {v : Option Nat}
    (hv : next_at h a i = some v) : ∃ n, h[a]? = some n ∧ n.next[i]? = some v := by
  unfold next_at at hv
  cases hn : h[a]? with
  | none => simp [hn] at hv
  | some n => exact ⟨n, rfl, by simpa [hn] using hv⟩

/-! ## The scan of one level -/

theorem search_scan_spec (h : sl_heap) (k : Int) (i : Nat) :
    ∀ (Y : List Nat) (p c : Nat) (rest : List Nat) (fuel : Nat),
      List.Chain' (fun a b => next_at h a i = some (some b)) (p :: (Y ++ c :: rest)) →
      (∀ y ∈ Y, ∃ n, h[y]? = some n ∧ n.key < k) →
      (∃ n, h[c]? = some n ∧ k ≤ n.key) →
      Y.length < fuel →
      search_scan h k i fuel p (some (firstD Y c)) = some (lastD Y p, c) := by
  intro Y
  induction Y with
  | nil =>
    intro p c rest fuel _ _ hc hf
    obtain ⟨n, hn, hk⟩ := hc
    obtain ⟨f, rfl⟩ : ∃ f, fuel = f + 1 := ⟨fuel - 1, by simp at hf; omega⟩
    simp [search_scan, hn, not_lt.mpr hk]
  | cons y Y ih =>
    intro p c rest fuel hch hY hc hf
    obtain ⟨f, rfl⟩ : ∃ f, fuel = f + 1 := ⟨fuel - 1, by simp at hf; omega⟩
    obtain ⟨n, hn, hk⟩ := hY y (List.mem_cons_self _ _)
    have hch1 : List.Chain' (fun a b => next_at h a i = some (some b)) (y :: (Y ++ c :: rest)) := by
      simpa using (List.chain'_cons'.mp hch).2
    have hnx : next_at h y i = some (some (firstD Y c)) := by
      cases Y with
      | nil => simpa using (List.chain'_cons.mp hch1).1
      | cons z Z => simpa using (List.chain'_cons.mp hch1).1
    rw [next_at_eq hn] at hnx
    have hrec := ih y c rest f hch1 (fun z hz => hY z (List.mem_cons_of_mem _ hz)) hc
      (by simp at hf; omega)
    simp [search_scan, hn, hk, hnx, hrec]

/-! ## The search on a well-formed list -/

theorem Around.hi_lvl {lm head : Nat} {h : sl_heap} {k : Int} {lo hi : List Ent}
    (ha : Around lm head h k lo hi) {i : Nat} (hi_lt : i < lm) :
    ∃ rest, lvl i hi = firstD (lvl i hi) 0 :: rest := by
  obtain ⟨hi0, t, rfl, ht⟩ := ha.last
  have hne : lvl i (hi0 ++ [t]) ≠ [] := by
    rw [lvl_append, lvl_cons]
    simp [ht, hi_lt]
  cases hl : lvl i (hi0 ++ [t]) with
  | nil => exact absurd hl hne
  | cons c rest => exact ⟨rest, by simp⟩

theorem Around.node_of_lo {lm head : Nat} {h : sl_heap} {k : Int} {lo hi : List Ent}
    (ha : Around lm head h k lo hi) {i y : Nat} (hy : y ∈ lvl i lo) :
    ∃ n, h[y]? = some n ∧ n.key < k := by
  obtain ⟨e, he, _, rfl⟩ := mem_lvl.mp hy
  obtain ⟨n, hn, hkey, _⟩ := ha.shape.ents e (List.mem_append_left _ he)
  exact ⟨n, hn, by rw [hkey]; exact ha.below e he⟩

theorem Around.node_of_hi {lm head : Nat} {h : sl_heap} {k : Int} {lo hi : List Ent}
    (ha : Around lm head h k lo hi) {i c : Nat} (hc : c ∈ lvl i hi) :
    ∃ n, h[c]? = some n ∧ k ≤ n.key := by
  obtain ⟨e, he, _, rfl⟩ := mem_lvl.mp hc
  obtain ⟨n, hn, hkey, _⟩ := ha.shape.ents e (List.mem_append_right _ he)
  exact ⟨n, hn, by rw [hkey]; exact ha.above e he⟩

/-- From the predecessor found one level up, the chain of level `i` leads
through keys below `k` to the first entry with a key `≥ k`. -/
theorem Around.level_path {lm head : Nat} {h : sl_heap} {k : Int} {lo hi : List Ent}
    (ha : Around lm head h k lo hi) {i : Nat} (hi_lt : i < lm) {p : Nat}
    (hp : p ∈ head :: lvl i lo) :
    ∃ Y rest, List.Chain' (fun a b => next_at h a i = some (some b))
        (p :: (Y ++ firstD (lvl i hi) 0 :: rest)) ∧
      (∀ y ∈ Y, y ∈ lvl i lo) ∧ lastD Y p = lastD (lvl i lo) head ∧
      Y.length ≤ lo.length := by
  obtain ⟨rest, hrest⟩ := ha.hi_lvl hi_lt
  obtain ⟨X, Y, hXY⟩ := List.append_of_mem hp
  have hch := ha.shape.links i hi_lt
  rw [lvl_append, ← List.cons_append, hXY, hrest, List.append_assoc] at hch
  have hlen : Y.length ≤ lo.length := by
    have h1 := congrArg List.length hXY
    have h2 : (lvl i lo).length ≤ lo.length := by
      unfold lvl
      rw [List.length_map]
      exact List.length_filter_le _ _
    simp only [List.length_cons, List.length_append] at h1
    omega
  refine ⟨Y, rest, ?_, ?_, (lastD_of_split hXY).symm, hlen⟩
  · simpa using hch.right_of_append
  · intro y hy
    cases X with
    | nil =>
      simp only [List.nil_append, List.cons.injEq] at hXY
      rw [hXY.2]; exact hy
    | cons x X =>
      simp only [List.cons_append, List.cons.injEq] at hXY
      rw [hXY.2]; simp [hy]

theorem Around.first_node {lm head : Nat} {h : sl_heap} {k : Int} {lo hi : List Ent}
    (ha : Around lm head h k lo hi) {i : Nat} (hi_lt : i < lm) :
    ∃ n, h[firstD (lvl i hi) 0]? = some n ∧ k ≤ n.key := by
  obtain ⟨rest, hrest⟩ := ha.hi_lvl hi_lt
  exact ha.node_of_hi (i := i) (by rw [hrest]; exact List.mem_cons_self _ _)

theorem Around.found_step {lm head : Nat} {h : sl_heap} {k : Int} {lo hi : List Ent}
    (ha : Around lm head h k lo hi) {i : Nat} (hi_lt : i < lm) {cn : sl_node}
    (hcn : h[firstD (lvl i hi) 0]? = some cn) (found : Int) :
    (if (if found = -1 ∧ k = cn.key then (i : Int) else found) = -1 then found_spec k hi i
      else (if found = -1 ∧ k = cn.key then (i : Int) else found)) =
    (if found = -1 then found_spec k hi (i + 1) else found) := by
  by_cases hf : found = -1
  swap
  · simp [hf]
  subst hf
  obtain ⟨rest, hrest⟩ := ha.hi_lvl hi_lt
  cases hhi : hi with
  | nil => rw [hhi] at hrest; simp [lvl] at hrest
  | cons e0 hi' =>
    subst hhi
    by_cases htop : i < e0.top
    · -- the first entry is linked at level `i`
      have hc : firstD (lvl i (e0 :: hi')) 0 = e0.addr := by simp [lvl_cons, htop]
      obtain ⟨n, hn, hkey, _⟩ := ha.shape.ents e0 (by simp)
      rw [hc, hn] at hcn
      obtain rfl : n = cn := by simpa using hcn
      by_cases hk : e0.key = k
      · have hmin : min e0.top (i + 1) = i + 1 := by omega
        have hi0 : ¬ ((i : Int) = -1) := by omega
        simp [found_spec, hk, hkey, hmin, hi0]
      · have hk' : ¬ (k = n.key) := by rw [hkey]; exact fun hh => hk hh.symm
        simp [found_spec, hk, hk']
    · -- the first entry is not linked at level `i`
      have hc : lvl i (e0 :: hi') = lvl i hi' := by simp [lvl_cons, htop]
      rw [hc] at hcn hrest
      have hmem : firstD (lvl i hi') 0 ∈ lvl i hi' := by
        rw [hrest]; exact List.mem_cons_self _ _
      obtain ⟨e, he, _, hea⟩ := mem_lvl.mp hmem
      obtain ⟨n, hn, hkey, _⟩ := ha.shape.ents e (by simp [he])
      rw [← hea, hn] at hcn
      obtain rfl : n = cn := by simpa using hcn
      have hsorted := ha.shape.sorted
      rw [List.pairwise_append] at hsorted
      have hlt : e0.key < e.key := (List.pairwise_cons.mp hsorted.2.1).1 e he
      have hge : k ≤ e0.key := ha.above e0 (by simp)
      have hk' : ¬ (k = n.key) := by rw [hkey]; omega
      have hmin : min e0.top i = min e0.top (i + 1) := by omega
      simp [found_spec, hk', hmin]

/-- The search visits the levels `n-1 .. 0` starting from the predecessor of
level `n` and records, at each level, the last node with a smaller key and the
first node with a key that is not smaller. -/
theorem Around.search_levels_spec {lm head : Nat} {h : sl_heap} {k : Int}
    {lo hi : List Ent} (ha : Around lm head h k lo hi) {fuel : Nat}
    (hfuel : lo.length < fuel) :
    ∀ n, n ≤ lm → ∀ found : Int,
      search_levels h k fuel n (lastD (lvl n lo) head) found =
        some (if found = -1 then found_spec k hi n else found,
          (List.range n).map (fun i => lastD (lvl i lo) head),
          (List.range n).map (fun i => firstD (lvl i hi) 0)) := by
  intro n
  induction n with
  | zero =>
    intro _ found
    have h0 : found_spec k hi 0 = -1 := by
      unfold found_spec
      cases hi with
      | nil => rfl
      | cons e _ => by_cases hk : e.key = k <;> simp [hk]
    by_cases hf : found = -1 <;> simp [search_levels, h0, hf]
  | succ n ih =>
    intro hn found
    have hlt : n < lm := hn
    have hp : lastD (lvl (n + 1) lo) head ∈ head :: lvl n lo := by
      rcases List.mem_cons.mp (lastD_mem (lvl (n + 1) lo) head) with h1 | h1
      · rw [h1]; exact List.mem_cons_self _ _
      · exact List.mem_cons_of_mem _ (lvl_subset_succ n lo h1)
    obtain ⟨Y, rest, hch, hY, hlast, hYle⟩ := ha.level_path hlt hp
    obtain ⟨cn, hcn, hck⟩ := ha.first_node hlt
    have hnx : next_at h (lastD (lvl (n + 1) lo) head) n =
        some (some (firstD Y (firstD (lvl n hi) 0))) := by
      cases Y with
      | nil => simpa using (List.chain'_cons.mp hch).1
      | cons z Z => simpa using (List.chain'_cons.mp hch).1
    obtain ⟨pn, hpn, hpnx⟩ := next_at_some hnx
    have hYlen : Y.length < fuel := by omega
    have hscan := search_scan_spec h k n Y _ _ rest fuel hch
      (fun y hy => ha.node_of_lo (hY y hy)) ⟨cn, hcn, hck⟩ hYlen
    rw [hlast] at hscan
    have hrec := ih (Nat.le_of_lt hn)
      (if found = -1 ∧ k = cn.key then (n : Int) else found)
    rw [ha.found_step hlt hcn found] at hrec
    simp only [search_levels, hpn, hpnx, hscan, hcn, hrec, List.range_succ, List.map_append,
      List.map_cons, List.map_nil]

/-! ## Heap relations and primitive stores -/

theorem HRel.refl {P : Nat → sl_node → sl_node → Prop} (hP : ∀ b n, P b n n) (h : sl_heap) :
    HRel P h h :=
  ⟨rfl, fun b n n1 hn hn1 => by
    rw [hn] at hn1
    obtain rfl : n = n1 := by simpa using hn1
    exact hP b n⟩

theorem HRel.mono {P Q : Nat → sl_node → sl_node → Prop} {h h1 : sl_heap}
    (hPQ : ∀ b n n1, P b n n1 → Q b n n1) (hr : HRel P h h1) : HRel Q h h1 :=
  ⟨hr.1, fun b n n1 hn hn1 => hPQ b n n1 (hr.2 b n n1 hn hn1)⟩

theorem HRel.get {P : Nat → sl_node → sl_node → Prop} {h h1 : sl_heap} (hr : HRel P h h1)
    {b : Nat} {n : sl_node} (hn : h[b]? = some n) : ∃ n1, h1[b]? = some n1 ∧ P b n n1 := by
  have hlt : b < h1.length := by
    rw [hr.1]
    exact (List.getElem?_eq_some.mp hn).1
  exact ⟨h1[b], List.getElem?_eq_getElem hlt, hr.2 b n _ hn (List.getElem?_eq_getElem hlt)⟩

theorem HRel.get_back {P : Nat → sl_node → sl_node → Prop} {h h1 : sl_heap}
    (hr : HRel P h h1) {b : Nat} {n1 : sl_node} (hn1 : h1[b]? = some n1) :
    ∃ n, h[b]? = some n ∧ P b n n1 := by
  have hlt : b < h.length := by
    rw [← hr.1]
    exact (List.getElem?_eq_some.mp hn1).1
  exact ⟨h[b], List.getElem?_eq_getElem hlt, hr.2 b _ n1 (List.getElem?_eq_getElem hlt) hn1⟩

theorem HRel.trans {P Q R : Nat → sl_node → sl_node → Prop} {h h1 h2 : sl_heap}
    (hPQ : ∀ b n n1 n2, P b n n1 → Q b n1 n2 → R b n n2)
    (h01 : HRel P h h1) (h12 : HRel Q h1 h2) : HRel R h h2 :=
  ⟨h12.1.trans h01.1, fun b n n2 hn hn2 => by
    obtain ⟨n1, hn1, hp⟩ := h01.get hn
    exact hPQ b n n1 n2 hp (h12.2 b n1 n2 hn1 hn2)⟩

/-- Replacing the node at `a` relates the heaps by any `P` that holds of the
old and new node at `a` and is reflexive elsewhere. -/
theorem HRel.set {P : Nat → sl_node → sl_node → Prop} {h : sl_heap} {a : Nat}
    {n n1 : sl_node} (hn : h[a]? = some n) (hP : P a n n1) (hrefl : ∀ b m, b ≠ a → P b m m) :
    HRel P h (h.set a n1) := by
  refine ⟨List.length_set _ _ _, fun b m m1 hm hm1 => ?_⟩
  by_cases hb : b = a
  · subst hb
    rw [hn] at hm
    obtain rfl : n = m := by simpa using hm
    have hlt : b < h.length := (List.getElem?_eq_some.mp hn).1
    rw [List.getElem?_set_self hlt] at hm1
    obtain rfl : n1 = m1 := by simpa using hm1
    exact hP
  · rw [List.getElem?_set_ne (Ne.symm hb)] at hm1
    rw [hm] at hm1
    obtain rfl : m = m1 := by simpa using hm1
    exact hrefl b m hb

theorem set_get_self {h : sl_heap} {a : Nat} {n : sl_node} (hn : h[a]? = some n)
    (n1 : sl_node) : (h.set a n1)[a]? = some n1 :=
  List.getElem?_set_self (List.getElem?_eq_some.mp hn).1

theorem set_get_ne {h : sl_heap} {a b : Nat} (hb : b ≠ a) (n1 : sl_node) :
    (h.set a n1)[b]? = h[b]? :=
  List.getElem?_set_ne (Ne.symm hb)

theorem LOCK_eq {h : sl_heap} {a : Nat} {n : sl_node} (hn : h[a]? = some n)
    (hfree : n.lock = false) : LOCK h a = some (h.set a { n with lock := true }) := by
  simp [LOCK, hn, hfree]

theorem UNLOCK_eq {h : sl_heap} {a : Nat} {n : sl_node} (hn : h[a]? = some n)
    (hheld : n.lock = true) : UNLOCK h a = some (h.set a { n with lock := false }) := by
  simp [UNLOCK, hn, hheld]

theorem store_next_eq {h : sl_heap} {a i : Nat} {n : sl_node} (hn : h[a]? = some n)
    (hi : i < n.next.length) (v : Option Nat) :
    store_next h a i v = some (h.set a { n with next := n.next.set i v }) := by
  simp [store_next, hn, hi]

theorem set_marked_eq {h : sl_heap} {a : Nat} {n : sl_node} (hn : h[a]? = some n) :
    set_marked h a = some (h.set a { n with marked := true }) := by
  simp [set_marked, hn]

theorem set_fullylinked_eq {h : sl_heap} {a : Nat} {n : sl_node} (hn : h[a]? = some n) :
    set_fullylinked h a = some (h.set a { n with fullylinked := true }) := by
  simp [set_fullylinked, hn]

/-! ## Preservation of the ghost description -/

theorem next_at_of_struct {h h1 : sl_heap}
    (hr : HRel (fun _ n n1 => same_struct n n1) h h1) (a i : Nat) :
    next_at h1 a i = next_at h a i := by
  unfold next_at
  cases hn : h[a]? with
  | none =>
    have : h1[a]? = none := by
      rw [List.getElem?_eq_none_iff] at hn ⊢
      rw [hr.1]; exact hn
    rw [this]
  | some n =>
    obtain ⟨n1, hn1, hs⟩ := hr.get hn
    rw [hn1]
    simp only []
    rw [hs.2.2.2]

theorem Shape.of_struct {lm head : Nat} {h h1 : sl_heap} {G : List Ent}
    (hs : Shape lm head h G) (hr : HRel (fun _ n n1 => same_struct n n1) h h1) :
    Shape lm head h1 G := by
  refine ⟨?_, ?_, hs.nodup, hs.sorted, hs.tail, ?_, ?_⟩
  · obtain ⟨n, hn, h1', h2'⟩ := hs.hd
    obtain ⟨n1, hn1, hst⟩ := hr.get hn
    exact ⟨n1, hn1, by rw [hst.2.2.1, h1'], by rw [hst.2.2.2, h2']⟩
  · intro e he
    obtain ⟨n, hn, hk, hv, ht, hl⟩ := hs.ents e he
    obtain ⟨n1, hn1, hst⟩ := hr.get hn
    exact ⟨n1, hn1, by rw [hst.1, hk], by rw [hst.2.1, hv], by rw [hst.2.2.2]; exact ht, hl⟩
  · intro i hi
    rw [next_at_of_struct hr]
    exact hs.tail_next i hi
  · intro i hi
    refine (hs.links i hi).imp ?_
    intro a b hab
    rw [next_at_of_struct hr]
    exact hab

theorem Live.of_flags {h h1 : sl_heap} {G : List Ent} (hl : Live h G)
    (hr : HRel (fun b n n1 => (∃ e ∈ G, e.addr = b) → same_flags n n1) h h1) :
    Live h1 G := by
  intro e he
  obtain ⟨n, hn, ht, hlen, htop, hm, hf⟩ := hl e he
  obtain ⟨n1, hn1, hfl⟩ := hr.get hn
  obtain ⟨f1, f2, f3, f4⟩ := hfl ⟨e, he, rfl⟩
  exact ⟨n1, hn1, by rw [f1, ht], by rw [f2, hlen], htop, by rw [f3, hm], by rw [f4, hf]⟩

theorem LocksAre.of_lock {S : Nat → Prop} {h h1 : sl_heap} (hl : LocksAre S h)
    (hr : HRel (fun _ n n1 => n1.lock = n.lock) h h1) : LocksAre S h1 := by
  intro a n1 hn1
  obtain ⟨n, hn, hlk⟩ := hr.get_back hn1
  rw [hlk]
  exact hl a n hn

/-! ## Predecessors and successors of a level -/

theorem cons_eq_append_lastD (l : List Nat) (d : Nat) : ∃ Z, d :: l = Z ++ [lastD l d] := by
  induction l generalizing d with
  | nil => exact ⟨[], rfl⟩
  | cons a l ih =>
    obtain ⟨Z, hZ⟩ := ih a
    exact ⟨d :: Z, by rw [lastD_cons, List.cons_append, ← hZ]⟩

theorem Around.adjacent {lm head : Nat} {h : sl_heap} {k : Int} {lo hi : List Ent}
    (ha : Around lm head h k lo hi) {i : Nat} (hi_lt : i < lm) :
    next_at h (lastD (lvl i lo) head) i = some (some (firstD (lvl i hi) 0)) := by
  obtain ⟨rest, hrest⟩ := ha.hi_lvl hi_lt
  obtain ⟨Z, hZ⟩ := cons_eq_append_lastD (lvl i lo) head
  have hch := ha.shape.links i hi_lt
  rw [lvl_append, ← List.cons_append, hZ, hrest, List.append_assoc] at hch
  have h2 := hch.right_of_append
  simpa using (List.chain'_cons.mp h2).1

theorem lvl_concat (x : Nat) (l : List Ent) (e : Ent) :
    lvl x (l ++ [e]) = if x < e.top then lvl x l ++ [e.addr] else lvl x l := by
  rw [lvl_append, lvl_cons, lvl_nil]
  by_cases hx : x < e.top <;> simp [hx]

theorem lastD_lvl_mem (head : Nat) (x : Nat) (l : List Ent) :
    lastD (lvl x l) head ∈ head :: l.map Ent.addr := by
  rcases List.mem_cons.mp (lastD_mem (lvl x l) head) with h1 | h1
  · rw [h1]; exact List.mem_cons_self _ _
  · obtain ⟨e, he, _, hea⟩ := mem_lvl.mp h1
    exact List.mem_cons_of_mem _ (List.mem_map.mpr ⟨e, he, hea⟩)

theorem lastD_lvl_contig (head : Nat) (lo : List Ent)
    (hnd : (head :: lo.map Ent.addr).Nodup) {j m i : Nat} (hjm : j ≤ m) (hmi : m ≤ i)
    (heq : lastD (lvl j lo) head = lastD (lvl i lo) head) :
    lastD (lvl m lo) head = lastD (lvl i lo) head := by
  induction lo using List.reverseRecOn with
  | nil => rfl
  | append_singleton l e ih =>
    have hnd' : (head :: l.map Ent.addr).Nodup := by
      refine List.Nodup.sublist ?_ hnd
      exact List.Sublist.cons₂ _ ((List.sublist_append_left l [e]).map _)
    have hfresh : e.addr ∉ head :: l.map Ent.addr := by
      intro hmem
      rw [List.map_append, ← List.cons_append] at hnd
      have := List.disjoint_of_nodup_append hnd
      exact this hmem (by simp)
    rw [lvl_concat, lvl_concat] at heq
    rw [lvl_concat, lvl_concat]
    by_cases hi : i < e.top
    · have hm : m < e.top := by omega
      simp [hi, hm, lastD_append]
    · by_cases hj : j < e.top
      · exfalso
        simp only [hj, hi, if_true, if_false, lastD_append, lastD_cons, lastD_nil] at heq
        exact hfresh (heq ▸ lastD_lvl_mem head i l)
      · have hm : ¬ m < e.top := by omega
        simp only [hj, hi, if_false] at heq
        simp only [hm, hi, if_false]
        exact ih hnd' heq

theorem getElem?_range_map {α : Type} (f : Nat → α) {n i : Nat} (hi : i < n) :
    ((List.range n).map f)[i]? = some (f i) := by
  simp [List.getElem?_map, List.getElem?_range hi]

theorem Around.contig {lm head : Nat} {h : sl_heap} {k : Int} {lo hi : List Ent}
    (ha : Around lm head h k lo hi) {L : Nat} (hL : L ≤ lm) :
    Contig ((List.range lm).map (fun i => lastD (lvl i lo) head)) L := by
  intro j m i hjm hmi hiL heq
  have hi' : i < lm := by omega
  have hnd : (head :: lo.map Ent.addr).Nodup := by
    refine List.Nodup.sublist ?_ ha.shape.nodup
    exact List.Sublist.cons₂ _ ((List.sublist_append_left lo hi).map _)
  rw [getElem?_range_map _ (by omega : j < lm), getElem?_range_map _ hi'] at heq
  rw [getElem?_range_map _ (by omega : m < lm), getElem?_range_map _ hi']
  exact congrArg some (lastD_lvl_contig head lo hnd hjm hmi (by simpa using heq))

/-! ## The locking and validation loop -/

theorem same_but_lock_refl (n : sl_node) : same_but_lock n n :=
  ⟨⟨rfl, rfl, rfl, rfl⟩, rfl, rfl⟩

theorem same_but_lock_trans {n n1 n2 : sl_node} (h1 : same_but_lock n n1)
    (h2 : same_but_lock n1 n2) : same_but_lock n n2 := by
  obtain ⟨⟨a1, a2, a3, a4⟩, a5, a6⟩ := h1
  obtain ⟨⟨b1, b2, b3, b4⟩, b5, b6⟩ := h2
  exact ⟨⟨b1.trans a1, b2.trans a2, b3.trans a3, b4.trans a4⟩, b5.trans a5, b6.trans a6⟩

theorem HRel.lock_trans {h h1 h2 : sl_heap} (h01 : HRel (fun _ => same_but_lock) h h1)
    (h12 : HRel (fun _ => same_but_lock) h1 h2) : HRel (fun _ => same_but_lock) h h2 :=
  HRel.trans (P := fun _ => same_but_lock) (Q := fun _ => same_but_lock)
    (R := fun _ => same_but_lock) (fun _ _ _ _ a b => same_but_lock_trans a b) h01 h12

theorem HRel.set_lock {h : sl_heap} {a : Nat} {n : sl_node} (hn : h[a]? = some n) (b : Bool) :
    HRel (fun _ => same_but_lock) h (h.set a { n with lock := b }) :=
  HRel.set hn ⟨⟨rfl, rfl, rfl, rfl⟩, rfl, rfl⟩ (fun _ m _ => same_but_lock_refl m)

theorem validate_loop_ok (valid_at : sl_heap → Nat → Nat → Nat → Option Bool)
    (preds succs : List Nat) (L : Nat) (h : sl_heap) (S0 : Nat → Prop)
    (hcontig : Contig preds L)
    (hS0 : ∀ i p, i < L → preds[i]? = some p → ¬ S0 p)
    (hvalid : ∀ h1, HRel (fun _ => same_but_lock) h h1 → ∀ i, i < L →
        ∃ p s, preds[i]? = some p ∧ succs[i]? = some s ∧ (∃ n, h[p]? = some n) ∧
          valid_at h1 p s i = some true) :
    ∀ n i prev hl hc, i + n = L →
      prev = (if i = 0 then none else preds[i - 1]?) →
      HRel (fun _ => same_but_lock) h hc →
      LocksAre (fun a => S0 a ∨ ∃ j, j < i ∧ preds[j]? = some a) hc →
      HighestLocked preds i hl →
      ∃ hl1 h1, validate_loop valid_at preds succs n i prev hl hc = some (true, hl1, h1) ∧
        HRel (fun _ => same_but_lock) h h1 ∧
        LocksAre (fun a => S0 a ∨ ∃ j, j < L ∧ preds[j]? = some a) h1 ∧
        HighestLocked preds L hl1 := by
  intro n
  induction n with
  | zero =>
    intro i prev hl hc hin _ hrel hlocks hhl
    obtain rfl : i = L := by omega
    exact ⟨hl, hc, rfl, hrel, hlocks, hhl⟩
  | succ n ih =>
    intro i prev hl hc hin hprev hrel hlocks hhl
    have hiL : i < L := by omega
    obtain ⟨p, s, hp, hs, ⟨np, hnp⟩, _⟩ := hvalid hc hrel i hiL
    by_cases hpp : prev = some p
    · -- the predecessor is the one locked last
      have hi0 : i ≠ 0 := by
        intro h0
        rw [h0] at hprev
        simp at hprev
        rw [hprev] at hpp
        exact absurd hpp (by simp)
      have hprev' : preds[i - 1]? = some p := by
        rw [← hpp, hprev]; simp [hi0]
      obtain ⟨_, _, _, _, _, hv⟩ := hvalid hc hrel i hiL
      have hv' : valid_at hc p s i = some true := by
        obtain ⟨p', s', hp', hs', _, hv'⟩ := hvalid hc hrel i hiL
        rw [hp] at hp'; rw [hs] at hs'
        obtain rfl : p = p' := by simpa using hp'
        obtain rfl : s = s' := by simpa using hs'
        exact hv'
      have hlocks' : LocksAre (fun a => S0 a ∨ ∃ j, j < i + 1 ∧ preds[j]? = some a) hc := by
        intro a na hna
        rw [hlocks a na hna]
        constructor
        · rintro (h1 | ⟨j, hj, hja⟩)
          · exact Or.inl h1
          · exact Or.inr ⟨j, by omega, hja⟩
        · rintro (h1 | ⟨j, hj, hja⟩)
          · exact Or.inl h1
          · by_cases hji : j = i
            · subst hji
              exact Or.inr ⟨j - 1, by omega, by rw [hprev', ← hja, hp]⟩
            · exact Or.inr ⟨j, by omega, hja⟩
      have hhl' : HighestLocked preds (i + 1) hl := by
        rcases hhl with ⟨h0, _⟩ | ⟨m, hm, hmi, hall⟩
        · exact absurd h0 hi0
        · refine Or.inr ⟨m, hm, by omega, fun j hmj hj => ?_⟩
          by_cases hji : j = i
          · subst hji
            rw [hp, ← hprev']
            exact hall (j - 1) (by omega) (by omega)
          · exact hall j hmj (by omega)
      obtain ⟨hl1, h1, hrun, hres⟩ := ih (i + 1) (some p) hl hc (by omega)
        (by simp [hp]) hrel hlocks' hhl'
      refine ⟨hl1, h1, ?_, hres⟩
      simp [validate_loop, hp, hs, hpp, hv', hrun]
    · -- a new predecessor: take its lock
      obtain ⟨nc, hnc, _⟩ := hrel.get hnp
      have hfree : nc.lock = false := by
        have hiff := hlocks p nc hnc
        have hnot : ¬ (S0 p ∨ ∃ j, j < i ∧ preds[j]? = some p) := by
          rintro (h1 | ⟨j, hj, hja⟩)
          · exact hS0 i p hiL hp h1
          · have := hcontig j (i - 1) i (by omega) (by omega) hiL (by rw [hja, hp])
            apply hpp
            rw [hprev, if_neg (by omega), this, hp]
        cases hlk : nc.lock with
        | false => rfl
        | true => exact absurd (hiff.mp hlk) hnot
      have hrel' : HRel (fun _ => same_but_lock) h (hc.set p { nc with lock := true }) :=
        hrel.lock_trans (HRel.set_lock hnc true)
      have hv' : valid_at (hc.set p { nc with lock := true }) p s i = some true := by
        obtain ⟨p', s', hp', hs', _, hv'⟩ := hvalid _ hrel' i hiL
        rw [hp] at hp'; rw [hs] at hs'
        obtain rfl : p = p' := by simpa using hp'
        obtain rfl : s = s' := by simpa using hs'
        exact hv'
      have hlocks' : LocksAre (fun a => S0 a ∨ ∃ j, j < i + 1 ∧ preds[j]? = some a)
          (hc.set p { nc with lock := true }) := by
        intro a na hna
        by_cases hap : a = p
        · subst hap
          rw [set_get_self hnc] at hna
          obtain rfl : _ = na := by simpa using hna
          simp only [true_iff]
          exact Or.inr ⟨i, by omega, hp⟩
        · rw [set_get_ne hap] at hna
          rw [hlocks a na hna]
          constructor
          · rintro (h1 | ⟨j, hj, hja⟩)
            · exact Or.inl h1
            · exact Or.inr ⟨j, by omega, hja⟩
          · rintro (h1 | ⟨j, hj, hja⟩)
            · exact Or.inl h1
            · by_cases hji : j = i
              · subst hji
                rw [hp] at hja
                exact absurd (by simpa using hja.symm) hap
              · exact Or.inr ⟨j, by omega, hja⟩
      have hhl' : HighestLocked preds (i + 1) (i : Int) :=
        Or.inr ⟨i, rfl, by omega, fun j hmj hj => by
          obtain rfl : j = i := by omega
          rfl⟩
      obtain ⟨hl1, h1, hrun, hres⟩ := ih (i + 1) (some p) (i : Int) _ (by omega)
        (by simp [hp]) hrel' hlocks' hhl'
      refine ⟨hl1, h1, ?_, hres⟩
      simp [validate_loop, hp, hs, hpp, LOCK_eq hnc hfree, hv', hrun]

/-! ## Releasing the predecessors -/

theorem unlock_levels_loop_ok (preds : List Nat) (L : Nat) (h : sl_heap) (S0 : Nat → Prop)
    (hcontig : Contig preds L)
    (hS0 : ∀ i p, i < L → preds[i]? = some p → ¬ S0 p)
    (hnodes : ∀ i, i < L → ∃ p n, preds[i]? = some p ∧ h[p]? = some n)
    (m : Nat) (hm : m < L) (hall : ∀ j, m ≤ j → j < L → preds[j]? = preds[m]?) :
    ∀ n i old hc, i + n = m + 1 →
      old = (if i = 0 then none else preds[i - 1]?) →
      HRel (fun _ => same_but_lock) h hc →
      LocksAre (fun a => S0 a ∨ ∃ j, i ≤ j ∧ j < L ∧ preds[j]? = some a ∧ old ≠ some a) hc →
      ∃ h1, unlock_levels_loop preds n i old hc = some h1 ∧
        HRel (fun _ => same_but_lock) h h1 ∧ LocksAre S0 h1 := by
  intro n
  induction n with
  | zero =>
    intro i old hc hin hold hrel hlocks
    obtain rfl : i = m + 1 := by omega
    refine ⟨hc, rfl, hrel, ?_⟩
    intro a na hna
    rw [hlocks a na hna]
    constructor
    · rintro (h1 | ⟨j, hj, hjL, hja, hne⟩)
      · exact h1
      · exfalso
        apply hne
        rw [hold, if_neg (by omega)]
        simp only [Nat.add_sub_cancel]
        rw [← hja]
        exact (hall j (by omega) hjL).symm
    · exact fun h1 => Or.inl h1
  | succ n ih =>
    intro i old hc hin hold hrel hlocks
    have hiL : i < L := by omega
    obtain ⟨p, np, hp, hnp⟩ := hnodes i hiL
    obtain ⟨nc, hnc, _⟩ := hrel.get hnp
    by_cases hpp : old = some p
    · -- same node as the one released last
      have hi0 : i ≠ 0 := by
        intro h0
        rw [h0] at hold
        simp at hold
        rw [hold] at hpp
        exact absurd hpp (by simp)
      have hlocks' : LocksAre (fun a => S0 a ∨
          ∃ j, i + 1 ≤ j ∧ j < L ∧ preds[j]? = some a ∧ some p ≠ some a) hc := by
        intro a na hna
        rw [hlocks a na hna, hpp]
        constructor
        · rintro (h1 | ⟨j, hj, hjL, hja, hne⟩)
          · exact Or.inl h1
          · by_cases hji : j = i
            · subst hji
              rw [hp] at hja
              exact absurd hja hne
            · exact Or.inr ⟨j, by omega, hjL, hja, hne⟩
        · rintro (h1 | ⟨j, hj, hjL, hja, hne⟩)
          · exact Or.inl h1
          · exact Or.inr ⟨j, by omega, hjL, hja, hne⟩
      obtain ⟨h1, hrun, hres⟩ := ih (i + 1) (some p) hc (by omega) (by simp [hp]) hrel hlocks'
      refine ⟨h1, ?_, hres⟩
      simp [unlock_levels_loop, hp, hpp, hrun]
    · -- a node not released yet
      have hheld : nc.lock = true := by
        rw [hlocks p nc hnc]
        exact Or.inr ⟨i, le_refl _, hiL, hp, hpp⟩
      have hrel' : HRel (fun _ => same_but_lock) h (hc.set p { nc with lock := false }) :=
        hrel.lock_trans (HRel.set_lock hnc false)
      have hlocks' : LocksAre (fun a => S0 a ∨
          ∃ j, i + 1 ≤ j ∧ j < L ∧ preds[j]? = some a ∧ some p ≠ some a)
          (hc.set p { nc with lock := false }) := by
        intro a na hna
        by_cases hap : a = p
        · subst hap
          rw [set_get_self hnc] at hna
          obtain rfl : _ = na := by simpa using hna
          simp only [false_iff, Bool.false_eq_true]
          rintro (h1 | ⟨j, _, _, _, hne⟩)
          · exact hS0 i a hiL hp h1
          · exact hne rfl
        · rw [set_get_ne hap] at hna
          rw [hlocks a na hna]
          constructor
          · rintro (h1 | ⟨j, hj, hjL, hja, hne⟩)
            · exact Or.inl h1
            · by_cases hji : j = i
              · subst hji
                rw [hp] at hja
                exact absurd (by simpa using hja.symm) hap
              · exact Or.inr ⟨j, by omega, hjL, hja, fun hh => hap (by simpa using hh.symm)⟩
          · rintro (h1 | ⟨j, hj, hjL, hja, hne⟩)
            · exact Or.inl h1
            · refine Or.inr ⟨j, by omega, hjL, hja, ?_⟩
              intro hold'
              rw [hold] at hold'
              by_cases hi0 : i = 0
              · simp [hi0] at hold'
              · rw [if_neg hi0] at hold'
                have := hcontig (i - 1) i j (by omega) (by omega) hjL (by rw [hold', hja])
                rw [hp, hja] at this
                exact hap (by simpa using this.symm)
      obtain ⟨h1, hrun, hres⟩ := ih (i + 1) (some p) _ (by omega) (by simp [hp]) hrel' hlocks'
      refine ⟨h1, ?_, hres⟩
      simp [unlock_levels_loop, hp, hpp, UNLOCK_eq hnc hheld, hrun]

theorem unlock_levels_ok (preds : List Nat) (L : Nat) (h hc : sl_heap) (S0 : Nat → Prop)
    (hl : Int) (hcontig : Contig preds L)
    (hS0 : ∀ i p, i < L → preds[i]? = some p → ¬ S0 p)
    (hnodes : ∀ i, i < L → ∃ p n, preds[i]? = some p ∧ h[p]? = some n)
    (hhl : HighestLocked preds L hl)
    (hrel : HRel (fun _ => same_but_lock) h hc)
    (hlocks : LocksAre (fun a => S0 a ∨ ∃ j, j < L ∧ preds[j]? = some a) hc) :
    ∃ h1, unlock_levels hc preds hl = some h1 ∧
      HRel (fun _ => same_but_lock) h h1 ∧ LocksAre S0 h1 := by
  rcases hhl with ⟨hL0, hl0⟩ | ⟨m, hm, hmL, hall⟩
  · subst hL0 hl0
    refine ⟨hc, by simp [unlock_levels, unlock_levels_loop], hrel, ?_⟩
    intro a na hna
    rw [hlocks a na hna]
    constructor
    · rintro (h1 | ⟨j, hj, _⟩)
      · exact h1
      · omega
    · exact fun h1 => Or.inl h1
  · subst hm
    have hcount : ((m : Int) + 1).toNat = m + 1 := by omega
    unfold unlock_levels
    rw [hcount]
    refine unlock_levels_loop_ok preds L h S0 hcontig hS0 hnodes m hmL hall (m + 1) 0 none hc
      (by omega) (by simp) hrel ?_
    intro a na hna
    rw [hlocks a na hna]
    constructor
    · rintro (h1 | ⟨j, hj, hja⟩)
      · exact Or.inl h1
      · exact Or.inr ⟨j, Nat.zero_le _, hj, hja, by simp⟩
    · rintro (h1 | ⟨j, _, hj, hja, _⟩)
      · exact Or.inl h1
      · exact Or.inr ⟨j, hj, hja⟩

/-! ## Effect of a link store -/

theorem next_at_set_next {h : sl_heap} {a j : Nat} {na : sl_node} (hna : h[a]? = some na)
    (hj : j < na.next.length) (v : Option Nat) (x i : Nat) :
    next_at (h.set a { na with next := na.next.set j v }) x i =
      if x = a ∧ i = j then some v else next_at h x i := by
  unfold next_at
  by_cases hx : x = a
  · subst hx
    rw [set_get_self hna, hna]
    by_cases hi : i = j
    · subst hi
      simp [List.getElem?_set_self hj]
    · simp [hi, List.getElem?_set_ne (Ne.symm hi)]
  · rw [set_get_ne hx]
    simp [hx]

theorem same_but_next_refl (n : sl_node) : same_but_next n n :=
  ⟨rfl, rfl, rfl, rfl, rfl, rfl, rfl⟩

theorem same_but_next_trans {n n1 n2 : sl_node} (h1 : same_but_next n n1)
    (h2 : same_but_next n1 n2) : same_but_next n n2 := by
  obtain ⟨a1, a2, a3, a4, a5, a6, a7⟩ := h1
  obtain ⟨b1, b2, b3, b4, b5, b6, b7⟩ := h2
  exact ⟨b1.trans a1, b2.trans a2, b3.trans a3, b4.trans a4, b5.trans a5, b6.trans a6,
    b7.trans a7⟩

theorem HRel.next_trans {h h1 h2 : sl_heap} (h01 : HRel (fun _ => same_but_next) h h1)
    (h12 : HRel (fun _ => same_but_next) h1 h2) : HRel (fun _ => same_but_next) h h2 :=
  HRel.trans (P := fun _ => same_but_next) (Q := fun _ => same_but_next)
    (R := fun _ => same_but_next) (fun _ _ _ _ a b => same_but_next_trans a b) h01 h12

theorem HRel.set_next {h : sl_heap} {a : Nat} {n : sl_node} (hn : h[a]? = some n)
    (j : Nat) (v : Option Nat) :
    HRel (fun _ => same_but_next) h (h.set a { n with next := n.next.set j v }) :=
  HRel.set hn ⟨rfl, rfl, rfl, by simp, rfl, rfl, rfl⟩ (fun _ m _ => same_but_next_refl m)

theorem store_next_spec {h : sl_heap} {a j : Nat} {na : sl_node} (hna : h[a]? = some na)
    (hj : j < na.next.length) (v : Option Nat) :
    ∃ h1, store_next h a j v = some h1 ∧ HRel (fun _ => same_but_next) h h1 ∧
      (∀ x i, next_at h1 x i = if x = a ∧ i = j then some v else next_at h x i) ∧
      (∀ b, b ≠ a → h1[b]? = h[b]?) :=
  ⟨_, store_next_eq hna hj v, HRel.set_next hna j v, next_at_set_next hna hj v,
    fun _ hb => set_get_ne hb _⟩

/-! ## Chains -/

theorem chain'_congr_mem {R R2 : Nat → Nat → Prop} {l : List Nat} (hc : List.Chain' R l)
    (hR : ∀ x ∈ l, ∀ y, R x y → R2 x y) : List.Chain' R2 l := by
  induction l with
  | nil => exact List.chain'_nil
  | cons a l ih =>
    rw [List.chain'_cons'] at hc ⊢
    refine ⟨fun y hy => hR a (List.mem_cons_self _ _) y (hc.1 y hy), ?_⟩
    exact ih hc.2 (fun x hx => hR x (List.mem_cons_of_mem _ hx))

theorem chain'_congr_left {R R2 : Nat → Nat → Prop} {A : List Nat} {p : Nat}
    (hc : List.Chain' R (A ++ [p])) (hR : ∀ x ∈ A, ∀ y, R x y → R2 x y) :
    List.Chain' R2 (A ++ [p]) := by
  induction A with
  | nil => simp
  | cons a A ih =>
    rw [List.cons_append, List.chain'_cons'] at hc ⊢
    refine ⟨fun y hy => hR a (List.mem_cons_self _ _) y (hc.1 y hy), ?_⟩
    exact ih hc.2 (fun x hx => hR x (List.mem_cons_of_mem _ hx))

/-- Linking `a` between `p` and `s`. -/
theorem chain'_splice {R R2 : Nat → Nat → Prop} {A B : List Nat} {p a s : Nat}
    (hc : List.Chain' R (A ++ [p] ++ s :: B))
    (hA : ∀ x ∈ A, ∀ y, R x y → R2 x y) (hB : ∀ x ∈ s :: B, ∀ y, R x y → R2 x y)
    (hpa : R2 p a) (has : R2 a s) : List.Chain' R2 (A ++ [p] ++ a :: s :: B) := by
  rw [List.chain'_append] at hc ⊢
  refine ⟨chain'_congr_left hc.1 hA, ?_, ?_⟩
  · rw [List.chain'_cons]
    exact ⟨has, chain'_congr_mem hc.2.1 hB⟩
  · intro x hx y hy
    simp at hx hy
    subst hx hy
    exact hpa

/-- Unlinking `a` from between `p` and `s`. -/
theorem chain'_unsplice {R R2 : Nat → Nat → Prop} {A B : List Nat} {p a s : Nat}
    (hc : List.Chain' R (A ++ [p] ++ a :: s :: B))
    (hA : ∀ x ∈ A, ∀ y, R x y → R2 x y) (hB : ∀ x ∈ s :: B, ∀ y, R x y → R2 x y)
    (hps : R2 p s) : List.Chain' R2 (A ++ [p] ++ s :: B) := by
  rw [List.chain'_append] at hc ⊢
  refine ⟨chain'_congr_left hc.1 hA, ?_, ?_⟩
  · exact chain'_congr_mem (List.chain'_cons.mp hc.2.1).2 hB
  · intro x hx y hy
    simp at hx hy
    subst hx hy
    exact hps

/-! ## Changing the number of linked levels of one entry -/

theorem nodup_split {head : Nat} {lo hi : List Ent} {e : Ent}
    (hnd : (head :: (lo ++ e :: hi).map Ent.addr).Nodup) :
    e.addr ∉ head :: lo.map Ent.addr ∧ e.addr ∉ hi.map Ent.addr ∧
      (∀ x ∈ head :: lo.map Ent.addr, x ∉ hi.map Ent.addr) ∧
      (head :: lo.map Ent.addr).Nodup := by
  rw [List.map_append, List.map_cons, ← List.cons_append] at hnd
  have h1 := List.nodup_append.mp hnd
  have h2 := List.nodup_cons.mp h1.2.1
  refine ⟨?_, h2.1, ?_, h1.1⟩
  · intro hmem
    exact h1.2.2 hmem (List.mem_cons_self _ _)
  · intro x hx hxhi
    exact h1.2.2 hx (List.mem_cons_of_mem _ hxhi)

theorem tail_of_split {lm head : Nat} {h : sl_heap} {lo hi : List Ent} {e : Ent}
    (hs : Shape lm head h (lo ++ e :: hi)) (hhi : ∃ hi0 tl, hi = hi0 ++ [tl]) :
    ∃ hi0 tl, hi = hi0 ++ [tl] ∧ tl.key = VAL_MAX ∧ tl.top = lm ∧ tl.addr = 0 := by
  obtain ⟨hi0, tl, rfl⟩ := hhi
  obtain ⟨G0, t, hG, h1, h2, h3⟩ := hs.tail
  have : (lo ++ e :: hi0) ++ [tl] = G0 ++ [t] := by simpa using hG
  obtain ⟨_, h5⟩ := List.append_inj' this rfl
  obtain rfl : tl = t := by simpa using h5
  exact ⟨hi0, tl, rfl, h1, h2, h3⟩

theorem lvl_mid (i : Nat) (lo hi : List Ent) (e : Ent) :
    lvl i (lo ++ e :: hi) = lvl i lo ++ (if i < e.top then e.addr :: lvl i hi else lvl i hi) := by
  rw [lvl_append, lvl_cons]

theorem lvl_sub_addr (i : Nat) (G : List Ent) : ∀ x ∈ lvl i G, x ∈ G.map Ent.addr := by
  intro x hx
  obtain ⟨e, he, _, hea⟩ := mem_lvl.mp hx
  exact List.mem_map.mpr ⟨e, he, hea⟩

theorem Shape.retop {lm head : Nat} {h h2 : sl_heap} {lo hi : List Ent} {a : Nat} {k : Int}
    {v t t1 j : Nat}
    (hs : Shape lm head h (lo ++ ⟨a, k, v, t⟩ :: hi))
    (hhi : ∃ hi0 tl, hi = hi0 ++ [tl])
    (hr : HRel (fun _ => same_but_next) h h2)
    (ht1 : t1 ≤ lm) (hlen : ∀ n, h[a]? = some n → t1 ≤ n.next.length)
    (htt : ∀ i, i ≠ j → (i < t ↔ i < t1))
    (hN1 : ∀ x i, (i ≠ j ∨ (x ≠ a ∧ x ≠ lastD (lvl j lo) head)) →
      next_at h2 x i = next_at h x i)
    (hj : j < lm → List.Chain' (fun x y => next_at h2 x j = some (some y))
      (head :: lvl j (lo ++ ⟨a, k, v, t1⟩ :: hi))) :
    Shape lm head h2 (lo ++ ⟨a, k, v, t1⟩ :: hi) := by
  obtain ⟨hi0, tl, hhi', htk, htt', hta⟩ := tail_of_split hs hhi
  obtain ⟨hn1, hn2, hn3, hn4⟩ := nodup_split hs.nodup
  have haddr : (lo ++ (⟨a, k, v, t1⟩ : Ent) :: hi).map Ent.addr =
      (lo ++ (⟨a, k, v, t⟩ : Ent) :: hi).map Ent.addr := by simp
  refine ⟨?_, ?_, ?_, ?_, ?_, ?_, ?_⟩
  · obtain ⟨n, hn, h1', h2'⟩ := hs.hd
    obtain ⟨n1, hn1', hst⟩ := hr.get hn
    exact ⟨n1, hn1', by rw [hst.2.2.1, h1'], by rw [hst.2.2.2.1, h2']⟩
  · intro e he
    rcases List.mem_append.mp he with hlo | hmid
    · obtain ⟨n, hn, hk, hv, ht, hl⟩ := hs.ents e (List.mem_append_left _ hlo)
      obtain ⟨n1, hn1', hst⟩ := hr.get hn
      exact ⟨n1, hn1', by rw [hst.1, hk], by rw [hst.2.1, hv], by rw [hst.2.2.2.1]; exact ht, hl⟩
    · rcases List.mem_cons.mp hmid with rfl | hhi2
      · obtain ⟨n, hn, hk, hv, _, _⟩ := hs.ents ⟨a, k, v, t⟩ (by simp)
        obtain ⟨n1, hn1', hst⟩ := hr.get hn
        exact ⟨n1, hn1', by rw [hst.1, hk], by rw [hst.2.1, hv],
          by rw [hst.2.2.2.1]; exact hlen n hn, ht1⟩
      · obtain ⟨n, hn, hk, hv, ht, hl⟩ := hs.ents e (by simp [hhi2])
        obtain ⟨n1, hn1', hst⟩ := hr.get hn
        exact ⟨n1, hn1', by rw [hst.1, hk], by rw [hst.2.1, hv],
          by rw [hst.2.2.2.1]; exact ht, hl⟩
  · rw [haddr]; exact hs.nodup
  · have := hs.sorted
    rw [List.pairwise_append, List.pairwise_cons] at this ⊢
    exact ⟨this.1, ⟨fun b hb => this.2.1.1 b hb, this.2.1.2⟩, fun x hx y hy => by
      rcases List.mem_cons.mp hy with rfl | hy'
      · exact this.2.2 x hx ⟨a, k, v, t⟩ (List.mem_cons_self _ _)
      · exact this.2.2 x hx y (List.mem_cons_of_mem _ hy')⟩
  · exact ⟨lo ++ ⟨a, k, v, t1⟩ :: hi0, tl, by simp [hhi'], htk, htt', hta⟩
  · intro i hilt
    have h0hi : (0 : Nat) ∈ hi.map Ent.addr := by
      rw [hhi']; simp [hta]
    have h0a : (0 : Nat) ≠ a := fun hh => hn2 (hh ▸ h0hi)
    have h0p : (0 : Nat) ≠ lastD (lvl j lo) head := by
      intro hh
      exact hn3 _ (lastD_lvl_mem head j lo) (hh ▸ h0hi)
    rw [hN1 0 i (Or.inr ⟨h0a, h0p⟩)]
    exact hs.tail_next i hilt
  · intro i hilt
    by_cases hij : i = j
    · subst hij
      exact hj hilt
    · have hl : lvl i (lo ++ (⟨a, k, v, t1⟩ : Ent) :: hi) = lvl i (lo ++ (⟨a, k, v, t⟩ : Ent) :: hi) := by
        rw [lvl_mid, lvl_mid]
        by_cases hit : i < t
        · simp [hit, (htt i hij).mp hit]
        · have hit1 : ¬ i < t1 := fun hh => hit ((htt i hij).mpr hh)
          simp [hit, hit1]
      rw [hl]
      refine (hs.links i hilt).imp ?_
      intro x y hxy
      rw [hN1 x i (Or.inl hij)]
      exact hxy

theorem lvl_of_tail {hi hi0 : List Ent} {tl : Ent} {j : Nat} (hhi : hi = hi0 ++ [tl])
    (hj : j < tl.top) : ∃ rest, lvl j hi = firstD (lvl j hi) 0 :: rest := by
  have hne : lvl j hi ≠ [] := by
    rw [hhi, lvl_append, lvl_cons]
    simp [hj]
  cases hl : lvl j hi with
  | nil => exact absurd hl hne
  | cons c rest => exact ⟨rest, by simp⟩

/-- Facts about the predecessor `p` of level `j` in a list with a middle entry
at address `a`. -/
theorem pred_facts {lm head : Nat} {h : sl_heap} {lo hi : List Ent} {a : Nat} {k : Int}
    {v t j : Nat} (hs : Shape lm head h (lo ++ ⟨a, k, v, t⟩ :: hi)) (hj : j < lm) :
    lastD (lvl j lo) head ≠ a ∧
      (∃ np, h[lastD (lvl j lo) head]? = some np ∧ j < np.next.length) ∧
      ∃ Z, head :: lvl j lo = Z ++ [lastD (lvl j lo) head] ∧
        (∀ x ∈ Z, x ≠ a ∧ x ≠ lastD (lvl j lo) head) ∧
        (∀ x ∈ lvl j hi, x ≠ a ∧ x ≠ lastD (lvl j lo) head) := by
  obtain ⟨hn1, hn2, hn3, hn4⟩ := nodup_split hs.nodup
  have hpmem := lastD_lvl_mem head j lo
  refine ⟨fun hh => hn1 (hh ▸ hpmem), ?_, ?_⟩
  · rcases List.mem_cons.mp (lastD_mem (lvl j lo) head) with h1 | h1
    · obtain ⟨n, hn, _, hlen⟩ := hs.hd
      rw [h1]
      exact ⟨n, hn, by omega⟩
    · obtain ⟨e, he, hlt, hea⟩ := mem_lvl.mp h1
      obtain ⟨n, hn, _, _, ht, _⟩ := hs.ents e (List.mem_append_left _ he)
      rw [← hea]
      exact ⟨n, hn, by omega⟩
  · obtain ⟨Z, hZ⟩ := cons_eq_append_lastD (lvl j lo) head
    refine ⟨Z, hZ, ?_, ?_⟩
    · intro x hx
      have hxmem : x ∈ head :: lo.map Ent.addr := by
        have : x ∈ head :: lvl j lo := by rw [hZ]; simp [hx]
        rcases List.mem_cons.mp this with rfl | h1
        · exact List.mem_cons_self _ _
        · exact List.mem_cons_of_mem _ (lvl_sub_addr j lo x h1)
      refine ⟨fun hh => hn1 (hh ▸ hxmem), ?_⟩
      have hnd : (head :: lvl j lo).Nodup := by
        refine List.Nodup.sublist ?_ hn4
        unfold lvl
        exact List.Sublist.cons₂ _ ((List.filter_sublist _).map _)
      rw [hZ] at hnd
      intro hh
      have := List.disjoint_of_nodup_append hnd hx
      exact this (by simp [hh])
    · intro x hx
      have hxhi := lvl_sub_addr j hi x hx
      exact ⟨fun hh => hn2 (hh ▸ hxhi), fun hh => hn3 _ hpmem (hh ▸ hxhi)⟩

/-- One iteration of the splice loop of `optimistic_insert`. -/
theorem splice_step {lm head : Nat} {h : sl_heap} {lo hi : List Ent} {a : Nat} {k : Int}
    {v j : Nat} (hs : Shape lm head h (lo ++ ⟨a, k, v, j⟩ :: hi))
    (hhi : ∃ hi0 tl, hi = hi0 ++ [tl]) (hj : j < lm)
    (hlen : ∀ n, h[a]? = some n → j < n.next.length) :
    ∃ h1 h2, store_next h a j (some (firstD (lvl j hi) 0)) = some h1 ∧
      store_next h1 (lastD (lvl j lo) head) j (some a) = some h2 ∧
      HRel (fun _ => same_but_next) h h2 ∧
      Shape lm head h2 (lo ++ ⟨a, k, v, j + 1⟩ :: hi) := by
  obtain ⟨hi0, tl, hhi', _, htt', _⟩ := tail_of_split hs hhi
  obtain ⟨rest, hrest⟩ := lvl_of_tail (j := j) hhi' (by omega)
  obtain ⟨hpa, ⟨np, hnp, hnplen⟩, Z, hZ, hZne, hhine⟩ := pred_facts hs hj
  obtain ⟨na, hna, _⟩ := hs.ents ⟨a, k, v, j⟩ (by simp)
  simp only at hna
  have hjlen := hlen na hna
  obtain ⟨h1, hst1, hr1, hN1, hfr1⟩ := store_next_spec hna hjlen (some (firstD (lvl j hi) 0))
  have hnp1 : h1[lastD (lvl j lo) head]? = some np := by rw [hfr1 _ hpa, hnp]
  obtain ⟨h2, hst2, hr2, hN2, _⟩ := store_next_spec hnp1 hnplen (some a)
  have hN : ∀ x i, next_at h2 x i =
      if x = lastD (lvl j lo) head ∧ i = j then some (some a)
      else if x = a ∧ i = j then some (some (firstD (lvl j hi) 0)) else next_at h x i := by
    intro x i
    rw [hN2, hN1]
  refine ⟨h1, h2, hst1, hst2, hr1.next_trans hr2, ?_⟩
  refine Shape.retop (j := j) hs hhi (hr1.next_trans hr2) (by omega)
    (fun n hn => by have := hlen n hn; omega) (fun i hij => by omega) ?_ ?_
  · intro x i hcond
    rw [hN]
    rcases hcond with hij | ⟨hxa, hxp⟩
    · simp [hij]
    · simp [hxa, hxp]
  · intro _
    have hold := hs.links j hj
    rw [lvl_mid, if_neg (by simp), ← List.cons_append, hZ, hrest] at hold
    rw [lvl_mid, if_pos (by simp), ← List.cons_append, hZ, hrest]
    refine chain'_splice hold ?_ ?_ ?_ ?_
    · intro x hx y hxy
      rw [hN]
      obtain ⟨h1, h2⟩ := hZne x hx
      simpa [h1, h2] using hxy
    · intro x hx y hxy
      rw [hN]
      obtain ⟨h1, h2⟩ := hhine x (by rw [hrest]; exact hx)
      simpa [h1, h2] using hxy
    · rw [hN]; simp
    · rw [hN]; simp [Ne.symm hpa]

/-- One iteration of the unlink loop of `optimistic_delete`. -/
theorem unlink_step {lm head : Nat} {h : sl_heap} {lo hi : List Ent} {a : Nat} {k : Int}
    {v j : Nat} (hs : Shape lm head h (lo ++ ⟨a, k, v, j + 1⟩ :: hi))
    (hhi : ∃ hi0 tl, hi = hi0 ++ [tl]) :
    ∃ na h2, h[a]? = some na ∧ na.next[j]? = some (some (firstD (lvl j hi) 0)) ∧
      store_next h (lastD (lvl j lo) head) j (some (firstD (lvl j hi) 0)) = some h2 ∧
      HRel (fun _ => same_but_next) h h2 ∧
      Shape lm head h2 (lo ++ ⟨a, k, v, j⟩ :: hi) := by
  obtain ⟨na, hna, _, _, hnalen, hjlm⟩ := hs.ents ⟨a, k, v, j + 1⟩ (by simp)
  simp only at hna hnalen hjlm
  have hj : j < lm := by omega
  obtain ⟨hi0, tl, hhi', _, htt', _⟩ := tail_of_split hs hhi
  obtain ⟨rest, hrest⟩ := lvl_of_tail (j := j) hhi' (by omega)
  obtain ⟨hpa, ⟨np, hnp, hnplen⟩, Z, hZ, hZne, hhine⟩ := pred_facts hs hj
  have hold := hs.links j hj
  rw [lvl_mid, if_pos (by simp), ← List.cons_append, hZ, hrest] at hold
  have hnxa : next_at h a j = some (some (firstD (lvl j hi) 0)) := by
    have := (List.chain'_append.mp hold).2.1
    exact (List.chain'_cons.mp this).1
  rw [next_at_eq hna] at hnxa
  obtain ⟨h2, hst2, hr2, hN, _⟩ := store_next_spec hnp hnplen (some (firstD (lvl j hi) 0))
  refine ⟨na, h2, hna, hnxa, hst2, hr2, ?_⟩
  refine Shape.retop (j := j) hs hhi hr2 (by omega)
    (fun n hn => by
      rw [hna] at hn
      obtain rfl : na = n := by simpa using hn
      omega) (fun i hij => by omega) ?_ ?_
  · intro x i hcond
    rw [hN]
    rcases hcond with hij | ⟨_, hxp⟩
    · simp [hij]
    · simp [hxp]
  · intro _
    rw [lvl_mid, if_neg (by simp), ← List.cons_append, hZ, hrest]
    refine chain'_unsplice hold ?_ ?_ ?_
    · intro x hx y hxy
      rw [hN]
      obtain ⟨_, h2⟩ := hZne x hx
      simpa [h2] using hxy
    · intro x hx y hxy
      rw [hN]
      obtain ⟨_, h2⟩ := hhine x (by rw [hrest]; exact hx)
      simpa [h2] using hxy
    · rw [hN]; simp

/-! ## The splice loop and the unlink loop -/

theorem insert_splice_ok {lm head : Nat} {lo hi : List Ent} {a : Nat} {k : Int} {v L : Nat}
    (hhi : ∃ hi0 tl, hi = hi0 ++ [tl]) (hL : L ≤ lm) :
    ∀ n i (h : sl_heap), i + n ≤ L →
      Shape lm head h (lo ++ ⟨a, k, v, i⟩ :: hi) →
      (∀ m, h[a]? = some m → L ≤ m.next.length) →
      ∃ h1, insert_splice a ((List.range lm).map (fun i => lastD (lvl i lo) head))
          ((List.range lm).map (fun i => firstD (lvl i hi) 0)) n i h = some h1 ∧
        HRel (fun _ => same_but_next) h h1 ∧
        Shape lm head h1 (lo ++ ⟨a, k, v, i + n⟩ :: hi) := by
  intro n
  induction n with
  | zero =>
    intro i h _ hs _
    exact ⟨h, rfl, HRel.refl (fun _ m => same_but_next_refl m) h, hs⟩
  | succ n ih =>
    intro i h hin hs hlen
    have hi_lt : i < lm := by omega
    obtain ⟨h1, h2, hst1, hst2, hr, hs2⟩ := splice_step hs hhi hi_lt
      (fun m hm => by have := hlen m hm; omega)
    have hlen2 : ∀ m, h2[a]? = some m → L ≤ m.next.length := by
      intro m hm
      obtain ⟨m0, hm0, hrel⟩ := hr.get_back hm
      rw [hrel.2.2.2.1]
      exact hlen m0 hm0
    obtain ⟨h3, hrun, hr3, hs3⟩ := ih (i + 1) h2 (by omega) hs2 hlen2
    have heq : i + 1 + n = i + (n + 1) := by omega
    rw [heq] at hs3
    refine ⟨h3, ?_, hr.next_trans hr3, hs3⟩
    simp [insert_splice, getElem?_range_map _ hi_lt, hst1, hst2, hrun]

theorem delete_unlink_ok {lm head : Nat} {lo hi : List Ent} {a : Nat} {k : Int} {v : Nat}
    (hhi : ∃ hi0 tl, hi = hi0 ++ [tl]) :
    ∀ n u (h : sl_heap), n ≤ u →
      Shape lm head h (lo ++ ⟨a, k, v, u⟩ :: hi) →
      ∃ h1, delete_unlink a ((List.range lm).map (fun i => lastD (lvl i lo) head)) n u h =
          some h1 ∧
        HRel (fun _ => same_but_next) h h1 ∧
        Shape lm head h1 (lo ++ ⟨a, k, v, u - n⟩ :: hi) := by
  intro n
  induction n with
  | zero =>
    intro u h _ hs
    exact ⟨h, by cases u <;> rfl, HRel.refl (fun _ m => same_but_next_refl m) h, hs⟩
  | succ n ih =>
    intro u h hnu hs
    obtain ⟨j, rfl⟩ : ∃ j, u = j + 1 := ⟨u - 1, by omega⟩
    have hj_lt : j < lm := by
      obtain ⟨_, _, _, _, _, hle⟩ := hs.ents ⟨a, k, v, j + 1⟩ (by simp)
      simp only at hle
      omega
    obtain ⟨na, h2, hna, hnx, hst, hr, hs2⟩ := unlink_step hs hhi
    obtain ⟨h3, hrun, hr3, hs3⟩ := ih j h2 (by omega) hs2
    have heq : j - n = j + 1 - (n + 1) := by omega
    rw [heq] at hs3
    refine ⟨h3, ?_, hr.next_trans hr3, hs3⟩
    simp [delete_unlink, getElem?_range_map _ hj_lt, hna, hnx, hst, hrun]

/-! ## Allocation of the new node -/

theorem get_append_old {h : sl_heap} {b : Nat} {n : sl_node} (hn : h[b]? = some n)
    (l : sl_heap) : (h ++ l)[b]? = some n := by
  rw [List.getElem?_append_left (List.getElem?_eq_some.mp hn).1, hn]

theorem next_at_append_old {h : sl_heap} {x i : Nat} {v : Option Nat}
    (hv : next_at h x i = some v) (l : sl_heap) : next_at (h ++ l) x i = some v := by
  obtain ⟨n, hn, hnx⟩ := next_at_some hv
  rw [next_at_eq (get_append_old hn l), hnx]

theorem Shape.addr_lt {lm head : Nat} {h : sl_heap} {G : List Ent} (hs : Shape lm head h G) :
    ∀ x ∈ head :: G.map Ent.addr, x < h.length := by
  intro x hx
  rcases List.mem_cons.mp hx with rfl | hx
  · obtain ⟨n, hn, _⟩ := hs.hd
    exact (List.getElem?_eq_some.mp hn).1
  · obtain ⟨e, he, rfl⟩ := List.mem_map.mp hx
    obtain ⟨n, hn, _⟩ := hs.ents e he
    exact (List.getElem?_eq_some.mp hn).1

theorem Shape.alloc {lm head : Nat} {h : sl_heap} {lo hi : List Ent} (nd : sl_node)
    (hs : Shape lm head h (lo ++ hi)) (hhi : ∃ hi0 tl, hi = hi0 ++ [tl])
    (hbelow : ∀ e ∈ lo, e.key < nd.key) (habove : ∀ e ∈ hi, nd.key < e.key) :
    Shape lm head (h ++ [nd]) (lo ++ ⟨h.length, nd.key, nd.val, 0⟩ :: hi) := by
  obtain ⟨hi0, tl, rfl⟩ := hhi
  have hlt := hs.addr_lt
  refine ⟨?_, ?_, ?_, ?_, ?_, ?_, ?_⟩
  · obtain ⟨n, hn, h1, h2⟩ := hs.hd
    exact ⟨n, get_append_old hn _, h1, h2⟩
  · intro e he
    rcases List.mem_append.mp he with hlo | hmid
    · obtain ⟨n, hn, hrest⟩ := hs.ents e (List.mem_append_left _ hlo)
      exact ⟨n, get_append_old hn _, hrest⟩
    · rcases List.mem_cons.mp hmid with rfl | hhi2
      · exact ⟨nd, List.getElem?_concat_length _ _, rfl, rfl, Nat.zero_le _, Nat.zero_le _⟩
      · obtain ⟨n, hn, hrest⟩ := hs.ents e (List.mem_append_right _ hhi2)
        exact ⟨n, get_append_old hn _, hrest⟩
  · have hnd := hs.nodup
    rw [List.map_append] at hnd
    rw [List.map_append, List.map_cons, ← List.cons_append, List.nodup_middle,
      List.nodup_cons]
    refine ⟨?_, by simpa using hnd⟩
    intro hmem
    have : h.length ∈ head :: (lo ++ (hi0 ++ [tl])).map Ent.addr := by
      simpa [List.map_append] using hmem
    exact absurd (hlt _ this) (Nat.lt_irrefl _)
  · have := hs.sorted
    rw [List.pairwise_append] at this ⊢
    refine ⟨this.1, List.pairwise_cons.mpr ⟨fun b hb => habove b hb, this.2.1⟩, ?_⟩
    intro x hx y hy
    rcases List.mem_cons.mp hy with rfl | hy'
    · exact hbelow x hx
    · exact this.2.2 x hx y hy'
  · obtain ⟨G0, t, hG, h1, h2, h3⟩ := hs.tail
    have : (lo ++ hi0) ++ [tl] = G0 ++ [t] := by simpa using hG
    obtain ⟨_, h5⟩ := List.append_inj' this rfl
    obtain rfl : tl = t := by simpa using h5
    exact ⟨lo ++ ⟨h.length, nd.key, nd.val, 0⟩ :: hi0, tl, by simp, h1, h2, h3⟩
  · intro i hilt
    exact next_at_append_old (hs.tail_next i hilt) _
  · intro i hilt
    have hl : lvl i (lo ++ (⟨h.length, nd.key, nd.val, 0⟩ : Ent) :: (hi0 ++ [tl])) =
        lvl i (lo ++ (hi0 ++ [tl])) := by
      rw [lvl_append, lvl_cons, if_neg (by simp), ← lvl_append]
    rw [hl]
    exact (hs.links i hilt).imp (fun _ _ hab => next_at_append_old hab _)

/-! ## Validation succeeds on a quiescent list -/

theorem Around.pred_node {lm head : Nat} {h : sl_heap} {k : Int} {lo hi : List Ent}
    (_ha : Around lm head h k lo hi) (hl : Live h (lo ++ hi))
    (hh : ∃ n, h[head]? = some n ∧ n.marked = false ∧ n.fullylinked = true) (i : Nat) :
    ∃ n, h[lastD (lvl i lo) head]? = some n ∧ n.marked = false := by
  rcases List.mem_cons.mp (lastD_mem (lvl i lo) head) with h1 | h1
  · obtain ⟨n, hn, hm, _⟩ := hh
    rw [h1]
    exact ⟨n, hn, hm⟩
  · obtain ⟨e, he, _, hea⟩ := mem_lvl.mp h1
    obtain ⟨n, hn, _, _, _, hm, _⟩ := hl e (List.mem_append_left _ he)
    rw [← hea]
    exact ⟨n, hn, hm⟩

theorem Around.succ_node {lm head : Nat} {h : sl_heap} {k : Int} {lo hi : List Ent}
    (ha : Around lm head h k lo hi) (hl : Live h (lo ++ hi)) {i : Nat} (hi_lt : i < lm) :
    ∃ e n, e ∈ hi ∧ i < e.top ∧ e.addr = firstD (lvl i hi) 0 ∧
      h[firstD (lvl i hi) 0]? = some n ∧ n.marked = false ∧ n.fullylinked = true ∧
      n.key = e.key ∧ n.val = e.val ∧ n.toplevel = e.top := by
  obtain ⟨rest, hrest⟩ := ha.hi_lvl hi_lt
  have hmem : firstD (lvl i hi) 0 ∈ lvl i hi := by
    rw [hrest]; exact List.mem_cons_self _ _
  obtain ⟨e, he, hlt, hea⟩ := mem_lvl.mp hmem
  obtain ⟨n, hn, ht, _, _, hm, hf⟩ := hl e (List.mem_append_right _ he)
  obtain ⟨n', hn', hk, hv, _⟩ := ha.shape.ents e (List.mem_append_right _ he)
  rw [hn] at hn'
  obtain rfl : n = n' := by simpa using hn'
  rw [hea] at hn
  exact ⟨e, n, he, hlt, hea, hn, hm, hf, hk, hv, ht⟩

theorem Around.insert_valid_ok {lm head : Nat} {h h1 : sl_heap} {k : Int} {lo hi : List Ent}
    (ha : Around lm head h k lo hi) (hl : Live h (lo ++ hi))
    (hh : ∃ n, h[head]? = some n ∧ n.marked = false ∧ n.fullylinked = true)
    (hr : HRel (fun _ => same_but_lock) h h1) {i : Nat} (hi_lt : i < lm) :
    insert_valid h1 (lastD (lvl i lo) head) (firstD (lvl i hi) 0) i = some true := by
  obtain ⟨np, hnp, hpm⟩ := ha.pred_node hl hh i
  obtain ⟨_, ns, _, _, _, hns, hsm, _⟩ := ha.succ_node hl hi_lt
  obtain ⟨np1, hnp1, hrp⟩ := hr.get hnp
  obtain ⟨ns1, hns1, hrs⟩ := hr.get hns
  have hadj := ha.adjacent hi_lt
  rw [next_at_eq hnp] at hadj
  have hpm1 : np1.marked = false := by rw [hrp.2.1, hpm]
  have hsm1 : ns1.marked = false := by rw [hrs.2.1, hsm]
  have hnx1 : np1.next[i]? = some (some (firstD (lvl i hi) 0)) := by rw [hrp.1.2.2.2, hadj]
  simp [insert_valid, hnp1, hns1, hpm1, hsm1, hnx1]

theorem Around.delete_valid_ok {lm head : Nat} {h h1 : sl_heap} {k : Int} {lo hi : List Ent}
    {i : Nat} (ha : Around lm head h k lo hi)
    (hpm : ∃ n, h[lastD (lvl i lo) head]? = some n ∧ n.marked = false)
    (hr : HRel (fun _ => same_but_lock) h h1) (hi_lt : i < lm) :
    delete_valid h1 (lastD (lvl i lo) head) (firstD (lvl i hi) 0) i = some true := by
  obtain ⟨np, hnp, hpm⟩ := hpm
  obtain ⟨np1, hnp1, hrp⟩ := hr.get hnp
  have hadj := ha.adjacent hi_lt
  rw [next_at_eq hnp] at hadj
  have hpm1 : np1.marked = false := by rw [hrp.2.1, hpm]
  have hnx1 : np1.next[i]? = some (some (firstD (lvl i hi) 0)) := by rw [hrp.1.2.2.2, hadj]
  simp [delete_valid, hnp1, hpm1, hnx1]

/-! ## The search from the head -/

theorem Around.search_spec {lm head : Nat} {h : sl_heap} {k : Int} {lo hi : List Ent}
    (ha : Around lm head h k lo hi) {fuel : Nat} (hfuel : lo.length < fuel) :
    optimistic_search fuel h ⟨head⟩ k =
      some (found_spec k hi lm, (List.range lm).map (fun i => lastD (lvl i lo) head),
        (List.range lm).map (fun i => firstD (lvl i hi) 0)) := by
  obtain ⟨n, hn, htop, _⟩ := ha.shape.hd
  have hnil : lvl lm lo = [] :=
    lvl_eq_nil_of_le (fun e he => (ha.shape.ents e (List.mem_append_left _ he)).choose_spec.2.2.2.2)
  have := ha.search_levels_spec hfuel lm (le_refl _) (-1)
  rw [hnil] at this
  simp only [lastD_nil, if_true] at this
  simp only [optimistic_search, hn, htop]
  exact this

theorem found_spec_absent {k : Int} {hi : List Ent} (habs : ∀ e ∈ hi, k < e.key) (n : Nat) :
    found_spec k hi n = -1 := by
  cases hi with
  | nil => rfl
  | cons e hi =>
    have := habs e (List.mem_cons_self _ _)
    have hne : ¬ e.key = k := by omega
    simp [found_spec, hne]

/-! ## Insertion of an absent key: the stores -/

theorem insert_data_phase {lm head : Nat} {h1 : sl_heap} {lo hi : List Ent} {k : Int}
    {v L : Nat} (hs1 : Shape lm head h1 (lo ++ hi)) (hhi : ∃ hi0 tl, hi = hi0 ++ [tl])
    (hbelow : ∀ e ∈ lo, e.key < k) (habove : ∀ e ∈ hi, k < e.key) (hL : L ≤ lm) :
    ∃ h3 h4, insert_splice h1.length ((List.range lm).map (fun i => lastD (lvl i lo) head))
        ((List.range lm).map (fun i => firstD (lvl i hi) 0)) L 0
        (h1 ++ [sl_new_simple_node k v L]) = some h3 ∧
      set_fullylinked h3 h1.length = some h4 ∧
      Shape lm head h4 (lo ++ ⟨h1.length, k, v, L⟩ :: hi) ∧
      h4.length = h1.length + 1 ∧
      (∀ (b : Nat) (n : sl_node), h1[b]? = some n → ∃ n4, h4[b]? = some n4 ∧ same_but_next n n4) ∧
      (∃ n4, h4[h1.length]? = some n4 ∧ n4.toplevel = L ∧ n4.next.length = L ∧
        n4.marked = false ∧ n4.fullylinked = true ∧ n4.lock = false) := by
  have hnew : (h1 ++ [sl_new_simple_node k v L])[h1.length]? = some (sl_new_simple_node k v L) :=
    List.getElem?_concat_length _ _
  have hs2 := Shape.alloc (sl_new_simple_node k v L) hs1 hhi hbelow habove
  obtain ⟨h3, hspl, hr3, hs3⟩ := insert_splice_ok (a := h1.length) (k := k) (v := v) hhi hL L 0
    (h1 ++ [sl_new_simple_node k v L]) (by omega) hs2
    (fun m hm => by
      rw [hnew] at hm
      obtain rfl : _ = m := by simpa using hm
      simp [sl_new_simple_node])
  obtain ⟨n3, hn3, hrel3⟩ := hr3.get hnew
  have hr4 : HRel (fun _ => same_struct) h3 (h3.set h1.length { n3 with fullylinked := true }) :=
    HRel.set hn3 ⟨rfl, rfl, rfl, rfl⟩ (fun _ _ _ => ⟨rfl, rfl, rfl, rfl⟩)
  refine ⟨h3, _, hspl, set_fullylinked_eq hn3, ?_, ?_, ?_, ?_⟩
  · simp only [Nat.zero_add] at hs3
    exact hs3.of_struct hr4
  · rw [List.length_set, hr3.1]; simp
  · intro b n hn
    have hb : b ≠ h1.length := by
      have := (List.getElem?_eq_some.mp hn).1
      omega
    obtain ⟨n3', hn3', hrel⟩ := hr3.get (get_append_old hn [sl_new_simple_node k v L])
    exact ⟨n3', by rw [set_get_ne hb]; exact hn3', hrel⟩
  · refine ⟨_, set_get_self hn3 _, ?_, ?_, ?_, rfl, ?_⟩
    · simp only; rw [hrel3.2.2.1]; rfl
    · simp only; rw [hrel3.2.2.2.1]; simp [sl_new_simple_node]
    · simp only; rw [hrel3.2.2.2.2.1]; rfl
    · simp only; rw [hrel3.2.2.2.2.2.2]; rfl

theorem LocksAre.congr {S T : Nat → Prop} {h : sl_heap} (hST : ∀ a, S a ↔ T a)
    (hl : LocksAre S h) : LocksAre T h :=
  fun a n hn => (hl a n hn).trans (hST a)

theorem Around.last_split {lm head : Nat} {h : sl_heap} {k : Int} {lo hi : List Ent}
    (ha : Around lm head h k lo hi) : ∃ hi0 tl, hi = hi0 ++ [tl] := by
  obtain ⟨hi0, t, h1, _⟩ := ha.last
  exact ⟨hi0, t, h1⟩

theorem Around.pred_lt {lm head : Nat} {h : sl_heap} {k : Int} {lo hi : List Ent}
    (ha : Around lm head h k lo hi) (i : Nat) : lastD (lvl i lo) head < h.length := by
  apply ha.shape.addr_lt
  rcases List.mem_cons.mp (lastD_lvl_mem head i lo) with h1 | h1
  · rw [h1]; exact List.mem_cons_self _ _
  · exact List.mem_cons_of_mem _ (by rw [List.map_append]; exact List.mem_append_left _ h1)

/-- Inserting a key that is absent links a new visible node and returns `1`. -/
theorem Inv.insert_absent {lm head : Nat} {h : sl_heap} {k : Int} {lo hi : List Ent}
    (hinv : Inv lm head h (lo ++ hi)) (ha : Around lm head h k lo hi)
    (habs : ∀ e ∈ hi, k < e.key) (v : Nat) {L : Nat} (hL1 : 1 ≤ L) (hLm : L ≤ lm)
    {fuel : Nat} (hfuel : lo.length < fuel) :
    ∃ h5, optimistic_insert fuel h ⟨head⟩ k v L = some (1, h5) ∧
      Inv lm head h5 (lo ++ ⟨h.length, k, v, L⟩ :: hi) ∧ h5.length = h.length + 1 := by
  obtain ⟨f, rfl⟩ : ∃ f, fuel = f + 1 := ⟨fuel - 1, by omega⟩
  have hsearch := ha.search_spec hfuel
  rw [found_spec_absent habs] at hsearch
  have hPget : ∀ i, i < L → ((List.range lm).map (fun i => lastD (lvl i lo) head))[i]? =
      some (lastD (lvl i lo) head) := fun i hi => getElem?_range_map _ (by omega)
  have hSget : ∀ i, i < L → ((List.range lm).map (fun i => firstD (lvl i hi) 0))[i]? =
      some (firstD (lvl i hi) 0) := fun i hi => getElem?_range_map _ (by omega)
  have hpnode : ∀ i, ∃ n, h[lastD (lvl i lo) head]? = some n := fun i =>
    have hlt := ha.pred_lt i
    ⟨h[lastD (lvl i lo) head], List.getElem?_eq_getElem hlt⟩
  -- locking and validation
  obtain ⟨hl, h1, hval, hr1, hlocks1, hhl⟩ :=
    validate_loop_ok insert_valid _ _ L h (fun _ => False) (ha.contig hLm)
      (fun _ _ _ _ hF => hF)
      (fun hx hrx i hi => ⟨_, _, hPget i hi, hSget i hi, hpnode i,
        ha.insert_valid_ok hinv.live hinv.head_flags hrx (by omega)⟩)
      L 0 none (-1) h (by omega) (by simp) (HRel.refl (fun _ m => same_but_lock_refl m) h)
      (hinv.free.congr (fun a => by simp)) (Or.inl ⟨rfl, rfl⟩)
  -- allocation, splice, publication
  have hs1 : Shape lm head h1 (lo ++ hi) :=
    hinv.shape.of_struct (hr1.mono (fun _ _ _ hh => hh.1))
  obtain ⟨h3, h4, hspl, hfl, hs4, hlen4, hold4, n4, hn4, hn4t, hn4l, hn4m, hn4f, hn4k⟩ :=
    insert_data_phase (k := k) (v := v) hs1 ha.last_split ha.below habs hLm
  have hlen1 : h1.length = h.length := hr1.1
  -- release
  have hlocks4 : LocksAre (fun a => False ∨ ∃ j, j < L ∧
      ((List.range lm).map (fun i => lastD (lvl i lo) head))[j]? = some a) h4 := by
    intro b nb hnb
    by_cases hb : b = h1.length
    · subst hb
      rw [hn4] at hnb
      obtain rfl : n4 = nb := by simpa using hnb
      rw [hn4k]
      simp only [Bool.false_eq_true, false_or, false_iff, not_exists, not_and]
      intro j hj hja
      rw [hPget j hj] at hja
      have := ha.pred_lt j
      have : lastD (lvl j lo) head = h1.length := by simpa using hja
      omega
    · have hblt : b < h1.length := by
        have := (List.getElem?_eq_some.mp hnb).1
        omega
      obtain ⟨nb4, hnb4, hrel⟩ := hold4 b _ (List.getElem?_eq_getElem hblt)
      rw [hnb] at hnb4
      obtain rfl : nb = nb4 := by simpa using hnb4
      rw [hrel.2.2.2.2.2.2]
      exact hlocks1 b _ (List.getElem?_eq_getElem hblt)
  obtain ⟨h5, hunl, hr5, hlocks5⟩ :=
    unlock_levels_ok _ L h4 h4 (fun _ => False) hl (ha.contig hLm) (fun _ _ _ _ hF => hF)
      (fun i hi => by
        obtain ⟨n, hn⟩ := hpnode i
        obtain ⟨n1, hn1, _⟩ := hr1.get hn
        obtain ⟨n4', hn4', _⟩ := hold4 _ _ hn1
        exact ⟨_, n4', hPget i hi, hn4'⟩)
      hhl (HRel.refl (fun _ m => same_but_lock_refl m) h4) hlocks4
  have hold : ∀ (b : Nat) (n : sl_node), h[b]? = some n → ∃ n5, h5[b]? = some n5 ∧
      n5.toplevel = n.toplevel ∧ n5.next.length = n.next.length ∧
      n5.marked = n.marked ∧ n5.fullylinked = n.fullylinked := by
    intro b n hn
    obtain ⟨n1, hn1, ⟨⟨_, _, a3, a4⟩, a5, a6⟩⟩ := hr1.get hn
    obtain ⟨n4', hn4', ⟨_, _, b3, b4, b5, b6, _⟩⟩ := hold4 _ _ hn1
    obtain ⟨n5, hn5, ⟨⟨_, _, c3, c4⟩, c5, c6⟩⟩ := hr5.get hn4'
    exact ⟨n5, hn5, by rw [c3, b3, a3], by rw [c4, b4, a4], by rw [c5, b5, a5],
      by rw [c6, b6, a6]⟩
  refine ⟨h5, ?_, ⟨?_, ?_, ?_, ?_⟩, ?_⟩
  · simp [optimistic_insert, optimistic_insert_loop, hsearch, hval, hspl, hfl, hunl]
  · rw [← hlen1]
    exact hs4.of_struct (hr5.mono (fun _ _ _ hh => hh.1))
  · intro e he
    have hcase : e ∈ lo ++ hi ∨ e = ⟨h.length, k, v, L⟩ := by
      rcases List.mem_append.mp he with h1' | h1'
      · exact Or.inl (List.mem_append_left _ h1')
      · rcases List.mem_cons.mp h1' with h2' | h2'
        · exact Or.inr h2'
        · exact Or.inl (List.mem_append_right _ h2')
    rcases hcase with hold' | rfl
    · obtain ⟨n, hn, ht, hlen, htop, hm, hf⟩ := hinv.live e hold'
      obtain ⟨n5, hn5, c1, c2, c3, c4⟩ := hold _ _ hn
      exact ⟨n5, hn5, by rw [c1, ht], by rw [c2, hlen], htop, by rw [c3, hm], by rw [c4, hf]⟩
    · rw [hlen1] at hn4
      obtain ⟨n5, hn5, ⟨⟨_, _, c3, c4⟩, c5, c6⟩⟩ := hr5.get hn4
      exact ⟨n5, hn5, by rw [c3, hn4t], by rw [c4, hn4l], fun _ => hL1, by rw [c5, hn4m],
        by rw [c6, hn4f]⟩
  · obtain ⟨n, hn, hm, hf⟩ := hinv.head_flags
    obtain ⟨n5, hn5, _, _, c3, c4⟩ := hold _ _ hn
    exact ⟨n5, hn5, by rw [c3, hm], by rw [c4, hf]⟩
  · exact hlocks5
  · rw [hr5.1, hlen4, hlen1]

/-! ## Deletion of a present key -/

theorem Around.transfer {lm head : Nat} {h h1 : sl_heap} {k : Int} {lo hi : List Ent}
    (ha : Around lm head h k lo hi) (hr : HRel (fun _ => same_struct) h h1) :
    Around lm head h1 k lo hi :=
  ⟨ha.shape.of_struct hr, ha.below, ha.above, ha.last⟩

/-- An entry that is linked at no level can be dropped from the description. -/
theorem Shape.drop {lm head : Nat} {h : sl_heap} {lo hi : List Ent} {a : Nat} {k : Int}
    {v : Nat} (hs : Shape lm head h (lo ++ ⟨a, k, v, 0⟩ :: hi))
    (hhi : ∃ hi0 tl, hi = hi0 ++ [tl]) : Shape lm head h (lo ++ hi) := by
  obtain ⟨hi0, tl, hhi', htk, htt', hta⟩ := tail_of_split hs hhi
  have hsub : List.Sublist (lo ++ hi) (lo ++ (⟨a, k, v, 0⟩ : Ent) :: hi) :=
    List.Sublist.append (List.Sublist.refl lo) (List.sublist_cons_self _ _)
  refine ⟨hs.hd, fun e he => hs.ents e (hsub.subset he), ?_, hs.sorted.sublist hsub, ?_,
    hs.tail_next, ?_⟩
  · exact List.Nodup.sublist (List.Sublist.cons₂ _ (hsub.map _)) hs.nodup
  · exact ⟨lo ++ hi0, tl, by simp [hhi'], htk, htt', hta⟩
  · intro i hilt
    have := hs.links i hilt
    rw [lvl_mid, if_neg (by simp), ← lvl_append] at this
    exact this

theorem LOCK_spec {h : sl_heap} {a : Nat} {n : sl_node} (hn : h[a]? = some n)
    (hfree : n.lock = false) :
    ∃ hA nA, LOCK h a = some hA ∧ hA[a]? = some nA ∧ same_but_lock n nA ∧ nA.lock = true ∧
      HRel (fun _ => same_but_lock) h hA ∧ ∀ (b : Nat), b ≠ a → hA[b]? = h[b]? :=
  ⟨_, _, LOCK_eq hn hfree, set_get_self hn _, ⟨⟨rfl, rfl, rfl, rfl⟩, rfl, rfl⟩, rfl,
    HRel.set_lock hn true, fun _ hb => set_get_ne hb _⟩

theorem UNLOCK_spec {h : sl_heap} {a : Nat} {n : sl_node} (hn : h[a]? = some n)
    (hheld : n.lock = true) :
    ∃ hA nA, UNLOCK h a = some hA ∧ hA[a]? = some nA ∧ same_but_lock n nA ∧ nA.lock = false ∧
      HRel (fun _ => same_but_lock) h hA ∧ ∀ (b : Nat), b ≠ a → hA[b]? = h[b]? :=
  ⟨_, _, UNLOCK_eq hn hheld, set_get_self hn _, ⟨⟨rfl, rfl, rfl, rfl⟩, rfl, rfl⟩, rfl,
    HRel.set_lock hn false, fun _ hb => set_get_ne hb _⟩

theorem set_marked_spec {h : sl_heap} {a : Nat} {n : sl_node} (hn : h[a]? = some n) :
    ∃ hB nB, set_marked h a = some hB ∧ hB[a]? = some nB ∧ nB.lock = n.lock ∧
      HRel (fun _ => same_struct) h hB ∧ ∀ (b : Nat), b ≠ a → hB[b]? = h[b]? :=
  ⟨_, _, set_marked_eq hn, set_get_self hn _, rfl,
    HRel.set hn ⟨rfl, rfl, rfl, rfl⟩ (fun _ _ _ => ⟨rfl, rfl, rfl, rfl⟩),
    fun _ hb => set_get_ne hb _⟩

theorem same_struct_trans {n n1 n2 : sl_node} (x : same_struct n n1) (y : same_struct n1 n2) :
    same_struct n n2 :=
  ⟨y.1.trans x.1, y.2.1.trans x.2.1, y.2.2.1.trans x.2.2.1, y.2.2.2.trans x.2.2.2⟩

theorem HRel.struct_trans {h h1 h2 : sl_heap} (h01 : HRel (fun _ => same_struct) h h1)
    (h12 : HRel (fun _ => same_struct) h1 h2) : HRel (fun _ => same_struct) h h2 :=
  HRel.trans (P := fun _ => same_struct) (Q := fun _ => same_struct)
    (R := fun _ => same_struct) (fun _ _ _ _ a b => same_struct_trans a b) h01 h12

theorem found_spec_present {k : Int} {e : Ent} {hi : List Ent} {lm : Nat} (hk : e.key = k)
    (htop : e.top ≤ lm) : found_spec k (e :: hi) lm = (e.top : Int) - 1 := by
  have hmin : min e.top lm = e.top := by omega
  simp [found_spec, hk, hmin]

theorem lvl_first_self {i : Nat} {e0 : Ent} {hi : List Ent} (hlt : i < e0.top) :
    firstD (lvl i (e0 :: hi)) 0 = e0.addr := by
  simp [lvl_cons, hlt]

/-- Deleting a key that is present marks and unlinks its node and returns `1`. -/
theorem Inv.delete_present {lm head : Nat} {h : sl_heap} {k : Int} {lo hi : List Ent}
    {a v L : Nat} (hinv : Inv lm head h (lo ++ ⟨a, k, v, L⟩ :: hi))
    (ha : Around lm head h k lo (⟨a, k, v, L⟩ :: hi))
    (hhi : ∃ hi0 tl, hi = hi0 ++ [tl]) (hk : k < VAL_MAX)
    {fuel : Nat} (hfuel : lo.length < fuel) :
    ∃ h6, optimistic_delete fuel h ⟨head⟩ k = some (1, h6) ∧
      Inv lm head h6 (lo ++ hi) ∧ h6.length = h.length := by
  obtain ⟨f, rfl⟩ : ∃ f, fuel = f + 1 := ⟨fuel - 1, by omega⟩
  have hsearch := ha.search_spec hfuel
  obtain ⟨n0, hn0, hn0t, hn0l, hL1', hn0m, hn0f⟩ := hinv.live ⟨a, k, v, L⟩ (by simp)
  simp only at hn0 hn0t hn0l hL1'
  have hL1 : 1 ≤ L := hL1' hk
  obtain ⟨_, _, _, _, _, hLm⟩ := hinv.shape.ents ⟨a, k, v, L⟩ (by simp)
  simp only at hLm
  rw [found_spec_present (e := ⟨a, k, v, L⟩) rfl hLm] at hsearch
  simp only at hsearch
  have hfound_ne : ¬ ((L : Int) - 1 = -1) := by omega
  have htoNat : ((L : Int) - 1).toNat = L - 1 := by omega
  have hPget : ∀ i, i < L → ((List.range lm).map (fun i => lastD (lvl i lo) head))[i]? =
      some (lastD (lvl i lo) head) := fun i hi => getElem?_range_map _ (by omega)
  have hSget : ∀ i, i < L →
      ((List.range lm).map (fun i => firstD (lvl i ((⟨a, k, v, L⟩ : Ent) :: hi)) 0))[i]? =
      some (firstD (lvl i ((⟨a, k, v, L⟩ : Ent) :: hi)) 0) :=
    fun i hi => getElem?_range_map _ (by omega)
  have hSa : ((List.range lm).map
      (fun i => firstD (lvl i ((⟨a, k, v, L⟩ : Ent) :: hi)) 0))[L - 1]? = some a := by
    rw [hSget (L - 1) (by omega), lvl_first_self (by simp; omega)]
  have hpa : ∀ j, j < lm → lastD (lvl j lo) head ≠ a := fun j hj => (pred_facts hinv.shape hj).1
  have hn0lock : n0.lock = false := by
    cases hlk : n0.lock with
    | false => rfl
    | true => exact ((hinv.free a n0 hn0).mp hlk).elim
  -- lock and mark the victim
  obtain ⟨hA, nA, hlockA, hnA, hrelA, hnAl, hrA, holdA⟩ := LOCK_spec hn0 hn0lock
  have hnAm : nA.marked = false := by rw [hrelA.2.1, hn0m]
  have hnAt : nA.toplevel = L := by rw [hrelA.1.2.2.1, hn0t]
  obtain ⟨hB, nB, hmarkB, hnB, hnBl, hrB, holdB'⟩ := set_marked_spec hnA
  have hrhB : HRel (fun _ => same_struct) h hB :=
    (hrA.mono (fun _ _ _ hh => hh.1)).struct_trans hrB
  have holdB : ∀ (b : Nat), b ≠ a → hB[b]? = h[b]? := by
    intro b hb
    rw [holdB' b hb, holdA b hb]
  have haB : Around lm head hB k lo (⟨a, k, v, L⟩ :: hi) := ha.transfer hrhB
  have hpnodeB : ∀ i, i < lm → ∃ n, hB[lastD (lvl i lo) head]? = some n ∧ n.marked = false := by
    intro i hi
    obtain ⟨n, hn, hm⟩ := ha.pred_node hinv.live hinv.head_flags i
    exact ⟨n, by rw [holdB _ (hpa i hi)]; exact hn, hm⟩
  have hlocksB : LocksAre (fun b => b = a ∨ ∃ j, j < 0 ∧
      ((List.range lm).map (fun i => lastD (lvl i lo) head))[j]? = some b) hB := by
    intro b nb hnb
    by_cases hb : b = a
    · subst hb
      rw [hnB] at hnb
      obtain rfl : _ = nb := by simpa using hnb
      simp [hnBl, hnAl]
    · rw [holdB b hb] at hnb
      have := hinv.free b nb hnb
      simp [hb, this]
  obtain ⟨hl, h3, hval, hr3, hlocks3, hhl⟩ :=
    validate_loop_ok delete_valid _ _ L hB (fun b => b = a) (ha.contig hLm)
      (fun i p hi hp hpa' => by
        rw [hPget i hi] at hp
        exact hpa i (by omega) ((by simpa using hp : lastD (lvl i lo) head = p).trans hpa'))
      (fun hx hrx i hi => ⟨_, _, hPget i hi, hSget i hi,
        (hpnodeB i (by omega)).imp (fun _ hh => hh.1),
        haB.delete_valid_ok (hpnodeB i (by omega)) hrx (by omega)⟩)
      L 0 none (-1) hB (by omega) (by simp) (HRel.refl (fun _ m => same_but_lock_refl m) hB)
      hlocksB (Or.inl ⟨rfl, rfl⟩)
  -- unlink
  have hs3 : Shape lm head h3 (lo ++ ⟨a, k, v, L⟩ :: hi) :=
    haB.shape.of_struct (hr3.mono (fun _ _ _ hh => hh.1))
  obtain ⟨h4, hunl, hr4, hs4⟩ := delete_unlink_ok hhi L L h3 (le_refl _) hs3
  rw [Nat.sub_self] at hs4
  -- release the victim
  obtain ⟨n3a, hn3a, hrel3a⟩ := hr3.get hnB
  obtain ⟨n4a, hn4a, hrel4a⟩ := hr4.get hn3a
  have hheld : n4a.lock = true := by
    rw [hrel4a.2.2.2.2.2.2]
    exact (hlocks3 a n3a hn3a).mpr (Or.inl rfl)
  obtain ⟨h5, n5, hunlock, hn5, _, hn5l, hr5, hold5⟩ := UNLOCK_spec hn4a hheld
  -- release the predecessors
  have hlocks5 : LocksAre (fun b => False ∨ ∃ j, j < L ∧
      ((List.range lm).map (fun i => lastD (lvl i lo) head))[j]? = some b) h5 := by
    intro b nb hnb
    by_cases hb : b = a
    · subst hb
      rw [hn5] at hnb
      obtain rfl : _ = nb := by simpa using hnb
      rw [hn5l]
      simp only [Bool.false_eq_true, false_or, false_iff, not_exists, not_and]
      intro j hj hja
      rw [hPget j hj] at hja
      exact hpa j (by omega) (by simpa using hja)
    · rw [hold5 b hb] at hnb
      obtain ⟨nb3, hnb3, hrel⟩ := hr4.get_back hnb
      rw [hrel.2.2.2.2.2.2, hlocks3 b nb3 hnb3]
      simp [hb]
  obtain ⟨h6, hunl6, hr6, hlocks6⟩ :=
    unlock_levels_ok _ L h5 h5 (fun _ => False) hl (ha.contig hLm) (fun _ _ _ _ hF => hF)
      (fun i hi => by
        obtain ⟨n, hn, _⟩ := hpnodeB i (by omega)
        obtain ⟨n3, hn3, _⟩ := hr3.get hn
        obtain ⟨n4, hn4, _⟩ := hr4.get hn3
        exact ⟨_, n4, hPget i hi, by rw [hold5 _ (hpa i (by omega))]; exact hn4⟩)
      hhl (HRel.refl (fun _ m => same_but_lock_refl m) h5) hlocks5
  have hold : ∀ (b : Nat) (n : sl_node), b ≠ a → h[b]? = some n → ∃ n6, h6[b]? = some n6 ∧
      n6.toplevel = n.toplevel ∧ n6.next.length = n.next.length ∧
      n6.marked = n.marked ∧ n6.fullylinked = n.fullylinked := by
    intro b n hb hn
    rw [← holdB b hb] at hn
    obtain ⟨n3, hn3, ⟨⟨_, _, a3, a4⟩, a5, a6⟩⟩ := hr3.get hn
    obtain ⟨n4, hn4, ⟨_, _, b3, b4, b5, b6, _⟩⟩ := hr4.get hn3
    rw [← hold5 b hb] at hn4
    obtain ⟨n6, hn6, ⟨⟨_, _, c3, c4⟩, c5, c6⟩⟩ := hr6.get hn4
    exact ⟨n6, hn6, by rw [c3, b3, a3], by rw [c4, b4, a4], by rw [c5, b5, a5],
      by rw [c6, b6, a6]⟩
  obtain ⟨hna1, hna2, _, _⟩ := nodup_split hinv.shape.nodup
  simp only at hna1 hna2
  refine ⟨h6, ?_, ⟨?_, ?_, ?_, ?_⟩, ?_⟩
  · simp [optimistic_delete, optimistic_delete_loop, delete_mark, hsearch, delete_cond, hfound_ne, htoNat,
      hSa, hn0, ok_to_delete, hn0f, hn0t, hn0m, hlockA, hnA, hnAm, hnAt, hmarkB, hval, hunl,
      hunlock, hunl6]
  · have hs5 : Shape lm head h5 (lo ++ ⟨a, k, v, 0⟩ :: hi) :=
      hs4.of_struct (hr5.mono (fun _ _ _ hh => hh.1))
    exact (hs5.of_struct (hr6.mono (fun _ _ _ hh => hh.1))).drop hhi
  · intro e he
    have hmem : e ∈ lo ++ (⟨a, k, v, L⟩ : Ent) :: hi := by
      rcases List.mem_append.mp he with h1' | h1'
      · exact List.mem_append_left _ h1'
      · exact List.mem_append_right _ (List.mem_cons_of_mem _ h1')
    have hea : e.addr ≠ a := by
      intro hh
      rcases List.mem_append.mp he with h1' | h1'
      · exact hna1 (List.mem_cons_of_mem _ (List.mem_map.mpr ⟨e, h1', hh⟩))
      · exact hna2 (List.mem_map.mpr ⟨e, h1', hh⟩)
    obtain ⟨n, hn, ht, hlen, htop, hm, hf⟩ := hinv.live e hmem
    obtain ⟨n6, hn6, c1, c2, c3, c4⟩ := hold _ _ hea hn
    exact ⟨n6, hn6, by rw [c1, ht], by rw [c2, hlen], htop, by rw [c3, hm], by rw [c4, hf]⟩
  · obtain ⟨n, hn, hm, hf⟩ := hinv.head_flags
    have hha : head ≠ a := fun hh => hna1 (hh ▸ List.mem_cons_self _ _)
    obtain ⟨n6, hn6, _, _, c3, c4⟩ := hold _ _ hha hn
    exact ⟨n6, hn6, by rw [c3, hm], by rw [c4, hf]⟩
  · exact hlocks6
  · rw [hr6.1, hr5.1, hr4.1, hr3.1, hrhB.1]

/-! ## The fresh map -/

theorem Inv.fresh (lm : Nat) :
    Inv lm (sl_set_new lm).1.head (sl_set_new lm).2 [⟨0, VAL_MAX, 0, lm⟩] := by
  refine ⟨⟨?_, ?_, ?_, ?_, ?_, ?_, ?_⟩, ?_, ?_, ?_⟩
  · exact ⟨_, rfl, rfl, by simp [sl_set_new]⟩
  · intro e he
    obtain rfl : e = ⟨0, VAL_MAX, 0, lm⟩ := by simpa using he
    exact ⟨_, rfl, rfl, rfl, by simp [sl_set_new], le_refl _⟩
  · simp [sl_set_new]
  · simp
  · exact ⟨[], ⟨0, VAL_MAX, 0, lm⟩, rfl, rfl, rfl, rfl⟩
  · intro i hi
    simp [next_at, sl_set_new, hi]
  · intro i hi
    simp [lvl, hi, next_at, sl_set_new]
  · intro e he
    obtain rfl : e = ⟨0, VAL_MAX, 0, lm⟩ := by simpa using he
    exact ⟨_, rfl, rfl, by simp [sl_set_new], by simp, rfl, rfl⟩
  · exact ⟨_, rfl, rfl, rfl⟩
  · intro a n hn
    simp only [iff_false, Bool.not_eq_true]
    match a, hn with
    | 0, hn =>
      obtain rfl : _ = n := by simpa [sl_set_new] using hn
      rfl
    | 1, hn =>
      obtain rfl : _ = n := by simpa [sl_set_new] using hn
      rfl
    | a + 2, hn => simp [sl_set_new] at hn

/-! ## Splitting the entries around a key -/

theorem sorted_split (k : Int) :
    ∀ G : List Ent, G.Pairwise (fun a b => a.key < b.key) →
      ∃ lo hi, G = lo ++ hi ∧ (∀ e ∈ lo, e.key < k) ∧ (∀ e ∈ hi, k ≤ e.key) := by
  intro G
  induction G with
  | nil => intro _; exact ⟨[], [], rfl, by simp, by simp⟩
  | cons e G ih =>
    intro hs
    rw [List.pairwise_cons] at hs
    by_cases hk : e.key < k
    · obtain ⟨lo, hi, hG, hlo, hhi⟩ := ih hs.2
      refine ⟨e :: lo, hi, by rw [hG]; rfl, ?_, hhi⟩
      intro x hx
      rcases List.mem_cons.mp hx with rfl | hx'
      · exact hk
      · exact hlo x hx'
    · refine ⟨[], e :: G, rfl, by simp, ?_⟩
      intro x hx
      rcases List.mem_cons.mp hx with rfl | hx'
      · omega
      · have := hs.1 x hx'
        omega

theorem Shape.around {lm head : Nat} {h : sl_heap} {G : List Ent} (hs : Shape lm head h G)
    {k : Int} (hk : k ≤ VAL_MAX) : ∃ lo hi, G = lo ++ hi ∧ Around lm head h k lo hi := by
  obtain ⟨lo, hi, hG, hlo, hhi⟩ := sorted_split k G hs.sorted
  obtain ⟨G0, t, hGt, htk, htt, _⟩ := hs.tail
  refine ⟨lo, hi, hG, ⟨hG ▸ hs, hlo, hhi, ?_⟩⟩
  have hne : hi ≠ [] := by
    intro hnil
    rw [hnil, List.append_nil] at hG
    have : t ∈ lo := by rw [← hG, hGt]; simp
    have := hlo t this
    omega
  have hlast : hi.getLast hne = t := by
    have h1 : (lo ++ hi).getLast (by simp [hne]) = hi.getLast hne := List.getLast_append_right hne
    have h2 : (G0 ++ [t]).getLast (by simp) = t := by simp
    have h3 : lo ++ hi = G0 ++ [t] := by rw [← hG, hGt]
    rw [← h1]
    simp only [h3]
    exact h2
  exact ⟨hi.dropLast, t, by rw [← hlast, List.dropLast_append_getLast], htt⟩

/-- Under the invariant a client key is either absent or carried by exactly one
entry, which is not the tail. -/
theorem Shape.key_cases {lm head : Nat} {h : sl_heap} {G : List Ent} (hs : Shape lm head h G)
    {k : Int} (hk : k < VAL_MAX) :
    (∃ lo hi, G = lo ++ hi ∧ Around lm head h k lo hi ∧ ∀ e ∈ hi, k < e.key) ∨
    (∃ lo hi a v L, G = lo ++ ⟨a, k, v, L⟩ :: hi ∧ Around lm head h k lo (⟨a, k, v, L⟩ :: hi) ∧
      ∃ hi0 tl, hi = hi0 ++ [tl]) := by
  obtain ⟨lo, hi, hG, ha⟩ := hs.around (le_of_lt hk)
  obtain ⟨hi0, tl, hhi, _⟩ := ha.last
  cases hi with
  | nil => simp at hhi
  | cons e0 hi' =>
    have hsorted := hs.sorted
    rw [hG, List.pairwise_append, List.pairwise_cons] at hsorted
    by_cases hek : e0.key = k
    · right
      obtain ⟨a, k0, v, L⟩ := e0
      simp only at hek
      subst hek
      refine ⟨lo, hi', a, v, L, hG, ha, ?_⟩
      cases hi0 with
      | nil =>
        exfalso
        simp only [List.nil_append, List.cons.injEq] at hhi
        obtain ⟨G0, t, hGt, htk, _⟩ := hs.tail
        rw [hG, hhi.2, hhi.1] at hGt
        have h3 : (lo ++ [tl]) = G0 ++ [t] := hGt
        obtain ⟨_, h5⟩ := List.append_inj' h3 rfl
        obtain rfl : tl = t := by simpa using h5
        rw [← hhi.1] at htk
        simp only at htk
        omega
      | cons x hi0' =>
        simp only [List.cons_append, List.cons.injEq] at hhi
        exact ⟨hi0', tl, hhi.2⟩
    · left
      refine ⟨lo, e0 :: hi', hG, ha, ?_⟩
      intro e he
      have hge := ha.above e0 (List.mem_cons_self _ _)
      rcases List.mem_cons.mp he with rfl | he'
      · omega
      · have := hsorted.2.1.1 e he'
        omega

/-! ## Lookups on a well-formed list -/

theorem Around.find_absent {lm head : Nat} {h : sl_heap} {k : Int} {lo hi : List Ent}
    (ha : Around lm head h k lo hi) (habs : ∀ e ∈ hi, k < e.key) {fuel : Nat}
    (hfuel : lo.length < fuel) :
    optimistic_find fuel h ⟨head⟩ k = some 0 ∧ optimistic_get fuel h ⟨head⟩ k = some 0 := by
  have hsearch := ha.search_spec hfuel
  rw [found_spec_absent habs] at hsearch
  simp [optimistic_find, optimistic_get, hsearch]

theorem Inv.find_present {lm head : Nat} {h : sl_heap} {k : Int} {lo hi : List Ent}
    {a v L : Nat} (hinv : Inv lm head h (lo ++ ⟨a, k, v, L⟩ :: hi))
    (ha : Around lm head h k lo (⟨a, k, v, L⟩ :: hi)) (hk : k < VAL_MAX) {fuel : Nat}
    (hfuel : lo.length < fuel) :
    optimistic_find fuel h ⟨head⟩ k = some 1 ∧ optimistic_get fuel h ⟨head⟩ k = some v := by
  have hsearch := ha.search_spec hfuel
  obtain ⟨n0, hn0, _, _, hL1', hn0m, hn0f⟩ := hinv.live ⟨a, k, v, L⟩ (by simp)
  obtain ⟨n0', hn0', _, hval, _, hLm⟩ := hinv.shape.ents ⟨a, k, v, L⟩ (by simp)
  simp only at hn0 hn0' hLm hL1' hval
  rw [hn0] at hn0'
  obtain rfl : n0 = n0' := by simpa using hn0'
  have hL1 : 1 ≤ L := hL1' hk
  rw [found_spec_present (e := ⟨a, k, v, L⟩) rfl hLm] at hsearch
  simp only at hsearch
  have hfound_ne : ¬ ((L : Int) - 1 = -1) := by omega
  have htoNat : ((L : Int) - 1).toNat = L - 1 := by omega
  have hSa : ((List.range lm).map
      (fun i => firstD (lvl i ((⟨a, k, v, L⟩ : Ent) :: hi)) 0))[L - 1]? = some a := by
    rw [getElem?_range_map _ (by omega), lvl_first_self (by simp; omega)]
  simp [optimistic_find, optimistic_get, hsearch, hfound_ne, htoNat, hSa, hn0, hn0m, hn0f, hval]

/-! ## Operations that leave the map unchanged -/

theorem search_zero_fuel {h : sl_heap} {m : sl_map} {k : Int} {f : Int} {ps ss : List Nat}
    (hs : optimistic_search 0 h m k = some (f, ps, ss)) : f = -1 := by
  unfold optimistic_search at hs
  cases hhd : h[m.head]? with
  | none => simp [hhd] at hs
  | some hd =>
    rw [hhd] at hs
    simp only at hs
    cases htl : hd.toplevel with
    | zero =>
      rw [htl] at hs
      simp [search_levels] at hs
      exact hs.1.symm
    | succ n =>
      rw [htl] at hs
      unfold search_levels at hs
      rw [hhd] at hs
      simp only at hs
      cases hnx : hd.next[n]? with
      | none => simp [hnx] at hs
      | some c => simp [hnx, search_scan] at hs

/-- What `optimistic_find` returning `1` says about the search. -/
theorem find_one_iff {fuel : Nat} {h : sl_heap} {m : sl_map} {k : Int}
    (hf : optimistic_find fuel h m k = some 1) :
    ∃ found ps ss a n, optimistic_search fuel h m k = some (found, ps, ss) ∧ found ≠ -1 ∧
      ss[found.toNat]? = some a ∧ h[a]? = some n ∧ n.fullylinked = true ∧ n.marked = false := by
  unfold optimistic_find at hf
  cases hs : optimistic_search fuel h m k with
  | none => simp [hs] at hf
  | some r =>
    obtain ⟨found, ps, ss⟩ := r
    rw [hs] at hf
    simp only at hf
    by_cases hfound : found = -1
    · simp [hfound] at hf
    · rw [if_pos hfound] at hf
      cases hss : ss[found.toNat]? with
      | none => simp [hss] at hf
      | some a =>
        rw [hss] at hf
        simp only at hf
        cases hn : h[a]? with
        | none => simp [hn] at hf
        | some n =>
          rw [hn] at hf
          simp only [Option.some.injEq] at hf
          cases hfl : n.fullylinked <;> cases hmk : n.marked <;> simp [hfl, hmk] at hf
          exact ⟨found, ps, ss, a, n, rfl, hfound, hss, hn, hfl, hmk⟩

/-- Inserting a key that `optimistic_find` sees returns `0` and leaves every
node as it is. -/
theorem insert_of_find_one {fuel : Nat} {h : sl_heap} {m : sl_map} {k : Int}
    (hf : optimistic_find fuel h m k = some 1) (y L : Nat) :
    optimistic_insert fuel h m k y L = some (0, h) := by
  obtain ⟨found, ps, ss, a, n, hs, hfound, hss, hn, hfl, hmk⟩ := find_one_iff hf
  cases fuel with
  | zero => exact absurd (search_zero_fuel hs) hfound
  | succ f =>
    simp [optimistic_insert, optimistic_insert_loop, hs, hfound, hss, hn, hfl, hmk]

/-- Deleting a key that `optimistic_find` does not see returns `0` and leaves
every node as it is. -/
theorem delete_of_find_zero {fuel : Nat} {h : sl_heap} {m : sl_map} {k : Int}
    (hf : optimistic_find fuel h m k = some 0) (hfuel : 0 < fuel) :
    optimistic_delete fuel h m k = some (0, h) := by
  obtain ⟨f, rfl⟩ : ∃ f, fuel = f + 1 := ⟨fuel - 1, by omega⟩
  unfold optimistic_find at hf
  cases hs : optimistic_search (f + 1) h m k with
  | none => simp [hs] at hf
  | some r =>
    obtain ⟨found, ps, ss⟩ := r
    rw [hs] at hf
    simp only at hf
    by_cases hfound : found = -1
    · simp [optimistic_delete, optimistic_delete_loop, hs, delete_cond, hfound]
    · rw [if_pos hfound] at hf
      cases hss : ss[found.toNat]? with
      | none => simp [hss] at hf
      | some a =>
        rw [hss] at hf
        simp only at hf
        cases hn : h[a]? with
        | none => simp [hn] at hf
        | some n =>
          rw [hn] at hf
          simp only [Option.some.injEq] at hf
          have hok : ok_to_delete n found = false := by
            cases hfl : n.fullylinked <;> cases hmk : n.marked <;>
              simp [hfl, hmk, ok_to_delete] at hf ⊢
          simp [optimistic_delete, optimistic_delete_loop, hs, delete_cond, hfound, hss, hn, hok]

/-! ## More fuel does not change a result -/

theorem search_scan_mono (h : sl_heap) (k : Int) (i : Nat) :
    ∀ (f : Nat) (p : Nat) (c : Option Nat) (r : Nat × Nat),
      search_scan h k i f p c = some r → ∀ g, f ≤ g → search_scan h k i g p c = some r := by
  intro f
  induction f with
  | zero => intro p c r hr; simp [search_scan] at hr
  | succ f ih =>
    intro p c r hr g hg
    obtain ⟨g, rfl⟩ : ∃ g', g = g' + 1 := ⟨g - 1, by omega⟩
    cases c with
    | none => simp [search_scan] at hr
    | some c =>
      unfold search_scan at hr ⊢
      cases hn : h[c]? with
      | none => simp [hn] at hr
      | some n =>
        rw [hn] at hr
        simp only at hr ⊢
        by_cases hk : k > n.key
        · rw [if_pos hk] at hr ⊢
          cases hnx : n.next[i]? with
          | none => simp [hnx] at hr
          | some nx =>
            rw [hnx] at hr
            simp only at hr ⊢
            exact ih c nx r hr g (by omega)
        · rw [if_neg hk] at hr ⊢
          exact hr

theorem search_levels_mono (h : sl_heap) (k : Int) {f g : Nat} (hfg : f ≤ g) :
    ∀ (n : Nat) (p : Nat) (found : Int) (r : Int × List Nat × List Nat),
      search_levels h k f n p found = some r → search_levels h k g n p found = some r := by
  intro n
  induction n with
  | zero => intro p found r hr; simpa [search_levels] using hr
  | succ n ih =>
    intro p found r hr
    unfold search_levels at hr ⊢
    cases hp : h[p]? with
    | none => simp [hp] at hr
    | some pn =>
      rw [hp] at hr
      simp only at hr ⊢
      cases hnx : pn.next[n]? with
      | none => simp [hnx] at hr
      | some c0 =>
        rw [hnx] at hr
        simp only at hr ⊢
        cases hsc : search_scan h k n f p c0 with
        | none => simp [hsc] at hr
        | some pc =>
          obtain ⟨p1, c1⟩ := pc
          rw [hsc] at hr
          rw [search_scan_mono h k n f p c0 _ hsc g hfg]
          simp only at hr ⊢
          cases hc : h[c1]? with
          | none => simp [hc] at hr
          | some cn =>
            rw [hc] at hr
            simp only at hr ⊢
            cases hrec : search_levels h k f n p1
                (if found = -1 ∧ k = cn.key then (n : Int) else found) with
            | none => simp [hrec] at hr
            | some r1 =>
              rw [hrec] at hr
              rw [ih _ _ _ hrec]
              exact hr

theorem optimistic_search_mono {h : sl_heap} {m : sl_map} {k : Int} {f g : Nat} (hfg : f ≤ g)
    {r : Int × List Nat × List Nat} (hr : optimistic_search f h m k = some r) :
    optimistic_search g h m k = some r := by
  unfold optimistic_search at hr ⊢
  cases hhd : h[m.head]? with
  | none => simp [hhd] at hr
  | some hd =>
    rw [hhd] at hr
    exact search_levels_mono h k hfg _ _ _ _ hr

theorem optimistic_find_mono {h : sl_heap} {m : sl_map} {k : Int} {f g : Nat} (hfg : f ≤ g)
    {r : Int} (hr : optimistic_find f h m k = some r) : optimistic_find g h m k = some r := by
  unfold optimistic_find at hr ⊢
  cases hs : optimistic_search f h m k with
  | none => simp [hs] at hr
  | some x =>
    rw [hs] at hr
    rw [optimistic_search_mono hfg hs]
    exact hr

theorem optimistic_get_mono {h : sl_heap} {m : sl_map} {k : Int} {f g : Nat} (hfg : f ≤ g)
    {r : Nat} (hr : optimistic_get f h m k = some r) : optimistic_get g h m k = some r := by
  unfold optimistic_get at hr ⊢
  cases hs : optimistic_search f h m k with
  | none => simp [hs] at hr
  | some x =>
    rw [hs] at hr
    rw [optimistic_search_mono hfg hs]
    exact hr

theorem optimistic_insert_loop_mono (m : sl_map) (k : Int) (v L : Nat) :
    ∀ (f : Nat) (b : Nat) (h : sl_heap) (r : Int × sl_heap),
      optimistic_insert_loop m k v L f b h = some r →
      ∀ g, f ≤ g → optimistic_insert_loop m k v L g b h = some r := by
  intro f
  induction f with
  | zero => intro b h r hr; simp [optimistic_insert_loop] at hr
  | succ f ih =>
    intro b h r hr g hg
    obtain ⟨g, rfl⟩ : ∃ g', g = g' + 1 := ⟨g - 1, by omega⟩
    unfold optimistic_insert_loop at hr ⊢
    cases hs : optimistic_search (f + 1) h m k with
    | none => simp [hs] at hr
    | some x =>
      obtain ⟨found, ps, ss⟩ := x
      rw [hs] at hr
      rw [optimistic_search_mono (by omega : f + 1 ≤ g + 1) hs]
      simp only at hr ⊢
      by_cases hfound : found = -1
      · rw [if_neg (by simp [hfound])] at hr ⊢
        cases hv : validate_loop insert_valid ps ss L 0 none (-1) h with
        | none => simp [hv] at hr
        | some x =>
          obtain ⟨valid, hl, h1⟩ := x
          rw [hv] at hr
          cases valid with
          | false =>
            simp only at hr ⊢
            cases hu : unlock_levels h1 ps hl with
            | none => simp [hu] at hr
            | some h2 =>
              rw [hu] at hr
              simp only at hr ⊢
              exact ih _ _ _ hr g (by omega)
          | true => exact hr
      · rw [if_pos hfound] at hr ⊢
        cases hss : ss[found.toNat]? with
        | none => simp [hss] at hr
        | some nf =>
          rw [hss] at hr
          simp only at hr ⊢
          cases hn : h[nf]? with
          | none => simp [hn] at hr
          | some node_found =>
            rw [hn] at hr
            simp only at hr ⊢
            by_cases hmk : (!node_found.marked) = true
            · rw [if_pos hmk] at hr ⊢
              exact hr
            · rw [if_neg hmk] at hr ⊢
              exact ih _ _ _ hr g (by omega)

theorem optimistic_insert_mono {h : sl_heap} {m : sl_map} {k : Int} {v L : Nat} {f g : Nat}
    (hfg : f ≤ g) {r : Int × sl_heap} (hr : optimistic_insert f h m k v L = some r) :
    optimistic_insert g h m k v L = some r :=
  optimistic_insert_loop_mono m k v L f 1 h r hr g hfg

theorem optimistic_delete_loop_mono (m : sl_map) (k : Int) :
    ∀ (f : Nat) (nd : Option Nat) (im : Bool) (tl : Int) (b : Nat) (h : sl_heap)
      (r : Int × sl_heap),
      optimistic_delete_loop m k f nd im tl b h = some r →
      ∀ g, f ≤ g → optimistic_delete_loop m k g nd im tl b h = some r := by
  intro f
  induction f with
  | zero => intro nd im tl b h r hr; simp [optimistic_delete_loop] at hr
  | succ f ih =>
    intro nd im tl b h r hr g hg
    obtain ⟨g, rfl⟩ : ∃ g', g = g' + 1 := ⟨g - 1, by omega⟩
    unfold optimistic_delete_loop at hr ⊢
    cases hs : optimistic_search (f + 1) h m k with
    | none => simp [hs] at hr
    | some x =>
      obtain ⟨found, ps, ss⟩ := x
      rw [hs] at hr
      rw [optimistic_search_mono (by omega : f + 1 ≤ g + 1) hs]
      simp only at hr ⊢
      cases hc : delete_cond h im found ss with
      | none => simp [hc] at hr
      | some c =>
        rw [hc] at hr
        cases c with
        | false => exact hr
        | true =>
          simp only at hr ⊢
          generalize delete_mark h nd im tl found ss = ph at hr ⊢
          cases ph with
          | none => simp at hr
          | some s =>
            cases s with
            | inl h2 => exact hr
            | inr t =>
              obtain ⟨nd1, tl1, h2⟩ := t
              cases nd1 with
              | none => simp at hr
              | some nd1 =>
                simp only at hr ⊢
                cases hv : validate_loop delete_valid ps ss tl1.toNat 0 none (-1) h2 with
                | none => simp [hv] at hr
                | some x =>
                  obtain ⟨valid, hl, h3⟩ := x
                  rw [hv] at hr
                  cases valid with
                  | false =>
                    simp only at hr ⊢
                    cases hu : unlock_levels h3 ps hl with
                    | none => simp [hu] at hr
                    | some h4 =>
                      rw [hu] at hr
                      simp only at hr ⊢
                      exact ih _ _ _ _ _ _ hr g (by omega)
                  | true => exact hr

theorem optimistic_delete_mono {h : sl_heap} {m : sl_map} {k : Int} {f g : Nat}
    (hfg : f ≤ g) {r : Int × sl_heap} (hr : optimistic_delete f h m k = some r) :
    optimistic_delete g h m k = some r :=
  optimistic_delete_loop_mono m k f none false (-1) 1 h r hr g hfg

/-! ## The invariant holds in every reachable state -/

theorem nodup_length_le {l : List Nat} {n : Nat} (hnd : l.Nodup) (hlt : ∀ x ∈ l, x < n) :
    l.length ≤ n := by
  have h1 : l.toFinset ⊆ Finset.range n := by
    intro x hx
    rw [List.mem_toFinset] at hx
    exact Finset.mem_range.mpr (hlt x hx)
  have h2 := Finset.card_le_card h1
  rw [List.toFinset_card_of_nodup hnd, Finset.card_range] at h2
  exact h2

theorem Shape.length_lt {lm head : Nat} {h : sl_heap} {G : List Ent} (hs : Shape lm head h G) :
    G.length < h.length := by
  have := nodup_length_le hs.nodup hs.addr_lt
  simp only [List.length_cons, List.length_map] at this
  omega

theorem Around.fuel_ok {lm head : Nat} {h : sl_heap} {k : Int} {lo hi : List Ent}
    (ha : Around lm head h k lo hi) {fuel : Nat} (hfuel : h.length ≤ fuel) :
    lo.length < fuel := by
  have := ha.shape.length_lt
  simp only [List.length_append] at this
  omega

theorem model_append (log : List (sl_call × Int)) (ev : sl_call × Int) :
    model (log ++ [ev]) = model_step (model log) ev := by
  simp [model, List.foldl_append]

theorem model_step_insert_one (M : Int → Option Nat) (k : Int) (v L : Nat) :
    model_step M (sl_call.insert k v L, 1) = fun x => if x = k then some v else M x := by
  simp [model_step]

theorem model_step_delete_one (M : Int → Option Nat) (k : Int) :
    model_step M (sl_call.delete k, 1) = fun x => if x = k then none else M x := by
  simp [model_step]

theorem model_step_zero (M : Int → Option Nat) (c : sl_call) : model_step M (c, 0) = M := by
  simp [model_step]

theorem Inv.insert_step {lm head : Nat} {h : sl_heap} {G : List Ent}
    (hinv : Inv lm head h G) {k : Int} (hk : k < VAL_MAX) {v L : Nat} (hL1 : 1 ≤ L)
    (hLm : L ≤ lm) {fuel : Nat} {r : Int} {h1 : sl_heap}
    (hrun : optimistic_insert fuel h ⟨head⟩ k v L = some (r, h1)) :
    (r = 0 ∧ h1 = h ∧ ∃ e ∈ G, e.key = k) ∨
    (r = 1 ∧ (∀ e ∈ G, e.key ≠ k) ∧ h1.length = h.length + 1 ∧
      ∃ lo hi, G = lo ++ hi ∧ (∀ e ∈ lo, e.key < k) ∧ (∀ e ∈ hi, k < e.key) ∧
        Inv lm head h1 (lo ++ ⟨h.length, k, v, L⟩ :: hi)) := by
  have hrun' := optimistic_insert_mono (Nat.le_max_left fuel h.length) hrun
  rcases hinv.shape.key_cases hk with ⟨lo, hi, rfl, ha, habs⟩ | ⟨lo, hi, a, v0, L0, rfl, ha, hhi⟩
  · obtain ⟨h5, hins, hinv5, hlen⟩ := hinv.insert_absent ha habs v hL1 hLm
      (ha.fuel_ok (Nat.le_max_right fuel h.length))
    rw [hins] at hrun'
    simp only [Option.some.injEq, Prod.mk.injEq] at hrun'
    obtain ⟨rfl, rfl⟩ := hrun'
    right
    refine ⟨rfl, ?_, hlen, lo, hi, rfl, ha.below, habs, hinv5⟩
    intro e he
    rcases List.mem_append.mp he with h1' | h1'
    · have := ha.below e h1'; omega
    · have := habs e h1'; omega
  · have hfind := (hinv.find_present ha hk (ha.fuel_ok (Nat.le_max_right fuel h.length))).1
    rw [insert_of_find_one hfind v L] at hrun'
    simp only [Option.some.injEq, Prod.mk.injEq] at hrun'
    obtain ⟨rfl, rfl⟩ := hrun'
    left
    exact ⟨rfl, rfl, ⟨a, k, v0, L0⟩, by simp, rfl⟩

theorem Inv.delete_step {lm head : Nat} {h : sl_heap} {G : List Ent}
    (hinv : Inv lm head h G) {k : Int} (hk : k < VAL_MAX) {fuel : Nat} {r : Int}
    {h1 : sl_heap} (hrun : optimistic_delete fuel h ⟨head⟩ k = some (r, h1)) :
    (r = 0 ∧ h1 = h ∧ ∀ e ∈ G, e.key ≠ k) ∨
    (r = 1 ∧ h1.length = h.length ∧
      ∃ lo hi a v L, G = lo ++ ⟨a, k, v, L⟩ :: hi ∧ (∀ e ∈ lo, e.key < k) ∧
        (∀ e ∈ hi, k < e.key) ∧ Inv lm head h1 (lo ++ hi)) := by
  have hrun' := optimistic_delete_mono (Nat.le_max_right h.length fuel) hrun
  have hlen0 : 0 < h.length := Nat.lt_of_le_of_lt (Nat.zero_le _) hinv.shape.length_lt
  rcases hinv.shape.key_cases hk with ⟨lo, hi, rfl, ha, habs⟩ | ⟨lo, hi, a, v0, L0, rfl, ha, hhi⟩
  · have hfind := (ha.find_absent habs (ha.fuel_ok (Nat.le_max_left h.length fuel))).1
    rw [delete_of_find_zero hfind (Nat.lt_of_lt_of_le hlen0 (Nat.le_max_left _ _))] at hrun'
    simp only [Option.some.injEq, Prod.mk.injEq] at hrun'
    obtain ⟨rfl, rfl⟩ := hrun'
    left
    refine ⟨rfl, rfl, ?_⟩
    intro e he
    rcases List.mem_append.mp he with h1' | h1'
    · have := ha.below e h1'; omega
    · have := habs e h1'; omega
  · obtain ⟨h6, hdel, hinv6, hlen⟩ := hinv.delete_present ha hhi hk
      (ha.fuel_ok (Nat.le_max_left h.length fuel))
    rw [hdel] at hrun'
    simp only [Option.some.injEq, Prod.mk.injEq] at hrun'
    obtain ⟨rfl, rfl⟩ := hrun'
    right
    have hsorted := hinv.shape.sorted
    rw [List.pairwise_append, List.pairwise_cons] at hsorted
    exact ⟨rfl, hlen, lo, hi, a, v0, L0, rfl, ha.below, fun e he => hsorted.2.1.1 e he, hinv6⟩

theorem Agrees.initial (lm : Nat) : Agrees [] [⟨0, VAL_MAX, 0, lm⟩] := by
  intro k v hk
  simp only [model, List.foldl_nil, List.mem_singleton, exists_eq_left]
  constructor
  · intro hh; exact absurd hh (by simp)
  · rintro ⟨hkey, _⟩
    have hkey' : VAL_MAX = k := hkey
    omega

/-- Every reachable heap satisfies the invariant for a list of entries that
agrees with the sequential model of the log. -/
theorem Reachable.inv {lm : Nat} {log : List (sl_call × Int)} {h : sl_heap}
    (hr : Reachable lm log h) : ∃ G, Inv lm 1 h G ∧ Agrees log G := by
  induction hr with
  | fresh => exact ⟨_, Inv.fresh lm, Agrees.initial lm⟩
  | @insert log h fuel key val toplevel r h1 _ hk hL1 hLm hrun ih =>
    obtain ⟨G, hinv, hag⟩ := ih
    rcases hinv.insert_step hk hL1 hLm hrun with ⟨rfl, rfl, _⟩ |
      ⟨rfl, hnone, _, lo, hi, rfl, hlo, hhi, hinv1⟩
    · refine ⟨G, hinv, ?_⟩
      intro k v hkv
      rw [model_append, model_step_zero]
      exact hag k v hkv
    · refine ⟨_, hinv1, ?_⟩
      intro k v hkv
      rw [model_append, model_step_insert_one]
      simp only
      by_cases hkk : k = key
      · subst hkk
        simp only [if_true, Option.some.injEq]
        constructor
        · rintro rfl
          exact ⟨⟨h.length, k, val, toplevel⟩, by simp, rfl, rfl⟩
        · rintro ⟨e, he, hek, hev⟩
          rcases List.mem_append.mp he with h1' | h1'
          · exact absurd hek (hnone e (List.mem_append_left _ h1'))
          · rcases List.mem_cons.mp h1' with rfl | h2'
            · exact hev
            · exact absurd hek (hnone e (List.mem_append_right _ h2'))
      · simp only [if_neg hkk]
        rw [hag k v hkv]
        constructor
        · rintro ⟨e, he, hek, hev⟩
          refine ⟨e, ?_, hek, hev⟩
          rcases List.mem_append.mp he with h1' | h1'
          · exact List.mem_append_left _ h1'
          · exact List.mem_append_right _ (List.mem_cons_of_mem _ h1')
        · rintro ⟨e, he, hek, hev⟩
          refine ⟨e, ?_, hek, hev⟩
          rcases List.mem_append.mp he with h1' | h1'
          · exact List.mem_append_left _ h1'
          · rcases List.mem_cons.mp h1' with rfl | h2'
            · exact absurd hek.symm hkk
            · exact List.mem_append_right _ h2'
  | @delete log h fuel key r h1 _ hk hrun ih =>
    obtain ⟨G, hinv, hag⟩ := ih
    rcases hinv.delete_step hk hrun with ⟨rfl, rfl, _⟩ |
      ⟨rfl, _, lo, hi, a, v0, L0, rfl, hlo, hhi, hinv1⟩
    · refine ⟨G, hinv, ?_⟩
      intro k v hkv
      rw [model_append, model_step_zero]
      exact hag k v hkv
    · refine ⟨_, hinv1, ?_⟩
      intro k v hkv
      rw [model_append, model_step_delete_one]
      simp only
      by_cases hkk : k = key
      · subst hkk
        simp only [if_true]
        constructor
        · intro hh; exact absurd hh (by simp)
        · rintro ⟨e, he, hek, _⟩
          rcases List.mem_append.mp he with h1' | h1'
          · have := hlo e h1'; omega
          · have := hhi e h1'; omega
      · simp only [if_neg hkk]
        rw [hag k v hkv]
        constructor
        · rintro ⟨e, he, hek, hev⟩
          refine ⟨e, ?_, hek, hev⟩
          rcases List.mem_append.mp he with h1' | h1'
          · exact List.mem_append_left _ h1'
          · rcases List.mem_cons.mp h1' with rfl | h2'
            · exact absurd hek.symm hkk
            · exact List.mem_append_right _ h2'
        · rintro ⟨e, he, hek, hev⟩
          refine ⟨e, ?_, hek, hev⟩
          rcases List.mem_append.mp he with h1' | h1'
          · exact List.mem_append_left _ h1'
          · exact List.mem_append_right _ (List.mem_cons_of_mem _ h1')

/-! ## The chains of a well-formed list -/

theorem level_chain_of_chain (h : sl_heap) (i : Nat) :
    ∀ (l : List Nat) (a fuel : Nat),
      List.Chain' (fun a b => next_at h a i = some (some b)) (a :: l) →
      next_at h (lastD l a) i = some none → l.length + 2 ≤ fuel →
      level_chain h i fuel (some a) = some (a :: l) := by
  intro l
  induction l with
  | nil =>
    intro a fuel _ hlast hf
    obtain ⟨f, rfl⟩ : ∃ f, fuel = f + 2 := ⟨fuel - 2, by simp at hf; omega⟩
    obtain ⟨n, hn, hnx⟩ := next_at_some hlast
    simp only [lastD_nil] at hn hnx
    simp [level_chain, hn, hnx]
  | cons b l ih =>
    intro a fuel hch hlast hf
    obtain ⟨f, rfl⟩ : ∃ f, fuel = f + 1 := ⟨fuel - 1, by omega⟩
    rw [List.chain'_cons] at hch
    obtain ⟨n, hn, hnx⟩ := next_at_some hch.1
    have hrec := ih b f hch.2 hlast (by simp at hf ⊢; omega)
    simp [level_chain, hn, hnx, hrec]

theorem Shape.lvl_tail {lm head : Nat} {h : sl_heap} {G : List Ent} (hs : Shape lm head h G)
    {i : Nat} (hi : i < lm) : ∃ c, lvl i G = c ++ [0] := by
  obtain ⟨G0, t, rfl, _, htt, hta⟩ := hs.tail
  exact ⟨lvl i G0, by rw [lvl_concat, if_pos (by omega), hta]⟩

theorem Shape.chain_eq {lm head : Nat} {h : sl_heap} {G : List Ent} (hs : Shape lm head h G)
    {i : Nat} (hi : i < lm) {fuel : Nat} (hfuel : h.length + 1 ≤ fuel) :
    level_chain h i fuel (some head) = some (head :: lvl i G) := by
  obtain ⟨c, hc⟩ := hs.lvl_tail hi
  refine level_chain_of_chain h i _ head fuel (hs.links i hi) ?_ ?_
  · rw [hc, lastD_append]
    exact hs.tail_next i hi
  · have h1 := hs.length_lt
    have h2 : (lvl i G).length ≤ G.length := by
      unfold lvl
      rw [List.length_map]
      exact List.length_filter_le _ _
    omega

theorem lvl_sublist_succ (i : Nat) (G : List Ent) : List.Sublist (lvl (i + 1) G) (lvl i G) := by
  unfold lvl
  apply List.Sublist.map
  induction G with
  | nil => exact List.Sublist.refl _
  | cons e G ih =>
    by_cases h1 : i + 1 < e.top
    · have h0 : i < e.top := by omega
      simp only [List.filter_cons, h1, h0, decide_True, if_true]
      exact List.Sublist.cons₂ _ ih
    · by_cases h0 : i < e.top
      · simp only [List.filter_cons, h1, h0, decide_True, decide_False, if_true]
        exact List.Sublist.cons _ ih
      · simp only [List.filter_cons, h1, h0, decide_False]
        exact ih

theorem Shape.towers {lm head : Nat} {h : sl_heap} {G : List Ent}
    (hs : Shape lm head h G) : tower_subset lm head h := by
  intro i hi
  exact ⟨_, _, hs.chain_eq (by omega) (le_refl _), hs.chain_eq hi (le_refl _),
    List.Sublist.cons₂ _ (lvl_sublist_succ i G)⟩

theorem Shape.key_lt_of {lm head : Nat} {h : sl_heap} {G : List Ent} (hs : Shape lm head h G)
    {e1 e2 : Ent} (h1 : e1 ∈ G) (h2 : e2 ∈ G) (hlt : e1.key < e2.key) :
    key_lt h e1.addr e2.addr := by
  obtain ⟨n1, hn1, hk1, _⟩ := hs.ents e1 h1
  obtain ⟨n2, hn2, hk2, _⟩ := hs.ents e2 h2
  simp [key_lt, key_at, hn1, hn2, hk1, hk2, hlt]

theorem Shape.levels_sorted {lm head : Nat} {h : sl_heap} {G : List Ent}
    (hs : Shape lm head h G) : sorted_levels lm head h := by
  intro i hi
  refine ⟨lvl i G, hs.chain_eq hi (le_refl _), ?_, ?_⟩
  · unfold lvl
    rw [List.pairwise_map]
    have hp : (G.filter (fun e => decide (i < e.top))).Pairwise
        (fun a b => a ∈ G ∧ b ∈ G ∧ a.key < b.key) := by
      apply List.Pairwise.filter
      have := hs.sorted
      rw [List.pairwise_iff_forall_sublist] at this ⊢
      intro a b hab
      exact ⟨hab.subset (by simp), hab.subset (by simp), this hab⟩
    exact hp.imp (fun ⟨ha, hb, hlt⟩ => hs.key_lt_of ha hb hlt)
  · obtain ⟨c, hc⟩ := hs.lvl_tail hi
    rw [hc]
    simp

/-! ## Results of the operations in terms of the sequential model -/

theorem Agrees.none_of_absent {log : List (sl_call × Int)} {G : List Ent} (hag : Agrees log G)
    {k : Int} (hk : k < VAL_MAX) (habs : ∀ e ∈ G, e.key ≠ k) : model log k = none := by
  cases hm : model log k with
  | none => rfl
  | some v =>
    obtain ⟨e, he, hek, _⟩ := (hag k v hk).mp hm
    exact absurd hek (habs e he)

theorem absent_of_split {lo hi : List Ent} {k : Int} (hlo : ∀ e ∈ lo, e.key < k)
    (hhi : ∀ e ∈ hi, k < e.key) : ∀ e ∈ lo ++ hi, e.key ≠ k := by
  intro e he
  rcases List.mem_append.mp he with h1 | h1
  · have := hlo e h1; omega
  · have := hhi e h1; omega

/-- Lookups on a reachable heap return what the sequential model holds. -/
theorem Reachable.lookup {lm : Nat} {log : List (sl_call × Int)} {h : sl_heap}
    (hr : Reachable lm log h) {k : Int} (hk : k < VAL_MAX) {fuel : Nat}
    (hfuel : h.length ≤ fuel) :
    optimistic_find fuel h (sl_set_new lm).1 k = some (if (model log k).isSome then 1 else 0) ∧
      optimistic_get fuel h (sl_set_new lm).1 k = some ((model log k).getD 0) := by
  obtain ⟨G, hinv, hag⟩ := hr.inv
  rcases hinv.shape.key_cases hk with ⟨lo, hi, rfl, ha, habs⟩ | ⟨lo, hi, a, v0, L0, rfl, ha, hhi⟩
  · have hm := hag.none_of_absent hk (absent_of_split ha.below habs)
    rw [hm]
    exact ha.find_absent habs (ha.fuel_ok hfuel)
  · have hm : model log k = some v0 := (hag k v0 hk).mpr ⟨⟨a, k, v0, L0⟩, by simp, rfl, rfl⟩
    rw [hm]
    exact hinv.find_present ha hk (ha.fuel_ok hfuel)

/-- On a reachable heap `optimistic_insert` returns, with `0` when the model
holds the key and the heap unchanged, and with `1` otherwise. -/
theorem Reachable.insert_result {lm : Nat} {log : List (sl_call × Int)} {h : sl_heap}
    (hr : Reachable lm log h) {k : Int} (hk : k < VAL_MAX) (v : Nat) {L : Nat} (hL1 : 1 ≤ L)
    (hLm : L ≤ lm) {fuel : Nat} (hfuel : h.length ≤ fuel) :
    ∃ h1, optimistic_insert fuel h (sl_set_new lm).1 k v L =
        some (if (model log k).isSome then 0 else 1, h1) ∧
      Reachable lm (log ++ [(sl_call.insert k v L, if (model log k).isSome then 0 else 1)]) h1 ∧
      ((model log k).isSome → h1 = h) ∧ (model log k = none → h1.length = h.length + 1) := by
  obtain ⟨G, hinv, hag⟩ := hr.inv
  rcases hinv.shape.key_cases hk with ⟨lo, hi, rfl, ha, habs⟩ | ⟨lo, hi, a, v0, L0, rfl, ha, hhi⟩
  · have hm := hag.none_of_absent hk (absent_of_split ha.below habs)
    obtain ⟨h5, hins, _, hlen⟩ := hinv.insert_absent ha habs v hL1 hLm (ha.fuel_ok hfuel)
    rw [hm]
    exact ⟨h5, hins, Reachable.insert fuel k v L 1 h5 hr hk hL1 hLm hins,
      fun hh => absurd hh (by simp), fun _ => hlen⟩
  · have hm : model log k = some v0 := (hag k v0 hk).mpr ⟨⟨a, k, v0, L0⟩, by simp, rfl, rfl⟩
    have hfind := (hinv.find_present ha hk (ha.fuel_ok hfuel)).1
    have hins := insert_of_find_one hfind v L
    rw [hm]
    exact ⟨h, hins, Reachable.insert fuel k v L 0 h hr hk hL1 hLm hins, fun _ => rfl,
      fun hh => absurd hh (by simp)⟩

/-- On a reachable heap `optimistic_delete` returns, with `1` when the model
holds the key, and with `0` and the heap unchanged otherwise. -/
theorem Reachable.delete_result {lm : Nat} {log : List (sl_call × Int)} {h : sl_heap}
    (hr : Reachable lm log h) {k : Int} (hk : k < VAL_MAX) {fuel : Nat}
    (hfuel : h.length ≤ fuel) :
    ∃ h1, optimistic_delete fuel h (sl_set_new lm).1 k =
        some (if (model log k).isSome then 1 else 0, h1) ∧
      Reachable lm (log ++ [(sl_call.delete k, if (model log k).isSome then 1 else 0)]) h1 ∧
      (model log k = none → h1 = h) ∧ h1.length = h.length := by
  obtain ⟨G, hinv, hag⟩ := hr.inv
  have hlen0 : 0 < h.length := Nat.lt_of_le_of_lt (Nat.zero_le _) hinv.shape.length_lt
  rcases hinv.shape.key_cases hk with ⟨lo, hi, rfl, ha, habs⟩ | ⟨lo, hi, a, v0, L0, rfl, ha, hhi⟩
  · have hm := hag.none_of_absent hk (absent_of_split ha.below habs)
    have hfind := (ha.find_absent habs (ha.fuel_ok hfuel)).1
    have hdel := delete_of_find_zero hfind (by omega)
    rw [hm]
    exact ⟨h, hdel, Reachable.delete fuel k 0 h hr hk hdel, fun _ => rfl, rfl⟩
  · have hm : model log k = some v0 := (hag k v0 hk).mpr ⟨⟨a, k, v0, L0⟩, by simp, rfl, rfl⟩
    obtain ⟨h6, hdel, _, hlen⟩ := hinv.delete_present ha hhi hk (ha.fuel_ok hfuel)
    rw [hm]
    exact ⟨h6, hdel, Reachable.delete fuel k 1 h6 hr hk hdel, fun hh => absurd hh (by simp),
      hlen⟩

/-- On a reachable heap the level reported by the search is the top level of
the node that carries the key, and that node passes `ok_to_delete`. -/
theorem Reachable.search_level {lm : Nat} {log : List (sl_call × Int)} {h : sl_heap}
    (hr : Reachable lm log h) {k : Int} (hk : k < VAL_MAX) {fuel : Nat}
    (hfuel : h.length ≤ fuel) :
    ∃ found ps ss, optimistic_search fuel h (sl_set_new lm).1 k = some (found, ps, ss) ∧
      (found = -1 ∨ ∃ a n, ss[found.toNat]? = some a ∧ h[a]? = some n ∧ n.key = k ∧
        (n.toplevel : Int) - 1 = found ∧ ok_to_delete n found = true) := by
  obtain ⟨G, hinv, hag⟩ := hr.inv
  rcases hinv.shape.key_cases hk with ⟨lo, hi, rfl, ha, habs⟩ | ⟨lo, hi, a, v0, L0, rfl, ha, hhi⟩
  · have hsearch := ha.search_spec (ha.fuel_ok hfuel)
    rw [found_spec_absent habs] at hsearch
    exact ⟨_, _, _, hsearch, Or.inl rfl⟩
  · have hsearch := ha.search_spec (ha.fuel_ok hfuel)
    obtain ⟨n0, hn0, hn0t, _, hL1', hn0m, hn0f⟩ := hinv.live ⟨a, k, v0, L0⟩ (by simp)
    obtain ⟨n0', hn0', hkey, _, _, hLm⟩ := hinv.shape.ents ⟨a, k, v0, L0⟩ (by simp)
    simp only at hn0 hn0' hLm hL1' hkey hn0t
    rw [hn0] at hn0'
    obtain rfl : n0 = n0' := by simpa using hn0'
    have hL1 : 1 ≤ L0 := hL1' hk
    rw [found_spec_present (e := ⟨a, k, v0, L0⟩) rfl hLm] at hsearch
    simp only at hsearch
    have htoNat : ((L0 : Int) - 1).toNat = L0 - 1 := by omega
    have hSa : ((List.range lm).map
        (fun i => firstD (lvl i ((⟨a, k, v0, L0⟩ : Ent) :: hi)) 0))[L0 - 1]? = some a := by
      rw [getElem?_range_map _ (by omega), lvl_first_self (by simp; omega)]
    refine ⟨_, _, _, hsearch, Or.inr ⟨a, n0, ?_, hn0, hkey, by rw [hn0t], ?_⟩⟩
    · rw [htoNat]; exact hSa
    · simp [ok_to_delete, hn0f, hn0m, hn0t]

/-! ## The sequential model -/

theorem model_step_other (M : Int → Option Nat) (c : sl_call) (r : Int) {k k1 : Int}
    (hc : (∃ v L, c = sl_call.insert k v L) ∨ c = sl_call.delete k) (hne : k1 ≠ k) :
    model_step M (c, r) k1 = M k1 := by
  unfold model_step
  by_cases hr : r = 1
  · rcases hc with ⟨v, L, rfl⟩ | rfl <;> simp [hr, hne]
  · simp [hr]

theorem foldl_model_none (k : Int) :
    ∀ (post : List (sl_call × Int)) (M : Int → Option Nat), M k = none →
      (∀ v L, (sl_call.insert k v L, (1 : Int)) ∉ post) →
      (post.foldl model_step M) k = none := by
  intro post
  induction post with
  | nil => intro M hM _; exact hM
  | cons ev post ih =>
    intro M hM hpost
    rw [List.foldl_cons]
    apply ih
    · obtain ⟨c, r⟩ := ev
      unfold model_step
      by_cases hr : r = 1
      · subst hr
        cases c with
        | insert key val tl =>
          have hne : k ≠ key := by
            rintro rfl
            exact hpost val tl (List.mem_cons_self _ _)
          simp [hne, hM]
        | delete key =>
          by_cases hk : k = key <;> simp [hk, hM]
      · simp [hr, hM]
    · intro v L hmem
      exact hpost v L (List.mem_cons_of_mem _ hmem)

/-- A key that was never inserted with success, or was deleted with success
and not inserted with success afterwards, is not in the sequential model. -/
theorem model_none_of_log {log : List (sl_call × Int)} {k : Int}
    (hlog : (∀ v L, (sl_call.insert k v L, (1 : Int)) ∉ log) ∨
      ∃ pre post, log = pre ++ (sl_call.delete k, (1 : Int)) :: post ∧
        ∀ v L, (sl_call.insert k v L, (1 : Int)) ∉ post) :
    model log k = none := by
  rcases hlog with hnever | ⟨pre, post, rfl, hpost⟩
  · exact foldl_model_none k log _ rfl hnever
  · unfold model
    rw [List.foldl_append, List.foldl_cons]
    apply foldl_model_none k post _ _ hpost
    rw [model_step_delete_one]
    simp

/-! ## What the search reports on an arbitrary heap -/

theorem search_levels_post (h : sl_heap) (k : Int) (fuel : Nat) :
    ∀ (n : Nat) (p : Nat) (found f : Int) (ps ss : List Nat),
      search_levels h k fuel n p found = some (f, ps, ss) →
      ss.length = n ∧
      (f = found ∨ (found = -1 ∧ ∃ i : Nat, i < n ∧ f = (i : Int) ∧
        ∃ a c, ss[i]? = some a ∧ h[a]? = some c ∧ c.key = k)) := by
  intro n
  induction n with
  | zero =>
    intro p found f ps ss hr
    simp only [search_levels, Option.some.injEq, Prod.mk.injEq] at hr
    obtain ⟨rfl, _, rfl⟩ := hr
    exact ⟨rfl, Or.inl rfl⟩
  | succ n ih =>
    intro p found f ps ss hr
    unfold search_levels at hr
    cases hp : h[p]? with
    | none => simp [hp] at hr
    | some pn =>
      rw [hp] at hr
      simp only at hr
      cases hnx : pn.next[n]? with
      | none => simp [hnx] at hr
      | some c0 =>
        rw [hnx] at hr
        simp only at hr
        cases hsc : search_scan h k n fuel p c0 with
        | none => simp [hsc] at hr
        | some pc =>
          obtain ⟨p1, c1⟩ := pc
          rw [hsc] at hr
          simp only at hr
          cases hc : h[c1]? with
          | none => simp [hc] at hr
          | some cn =>
            rw [hc] at hr
            simp only at hr
            cases hrec : search_levels h k fuel n p1
                (if found = -1 ∧ k = cn.key then (n : Int) else found) with
            | none => simp [hrec] at hr
            | some r1 =>
              obtain ⟨f1, ps1, ss1⟩ := r1
              rw [hrec] at hr
              simp only [Option.some.injEq, Prod.mk.injEq] at hr
              obtain ⟨rfl, _, rfl⟩ := hr
              obtain ⟨hlen, hf⟩ := ih _ _ _ _ _ hrec
              refine ⟨by simp [hlen], ?_⟩
              have hlast : (ss1 ++ [c1])[n]? = some c1 := by
                rw [← hlen]; exact List.getElem?_concat_length _ _
              by_cases hcond : found = -1 ∧ k = cn.key
              · rw [if_pos hcond] at hf
                rcases hf with hf | ⟨hf, _⟩
                · exact Or.inr ⟨hcond.1, n, by omega, hf, c1, cn, hlast, hc, hcond.2.symm⟩
                · omega
              · rw [if_neg hcond] at hf
                rcases hf with hf | ⟨hf, i, hi, hfi, a, c, hss, hac⟩
                · exact Or.inl hf
                · refine Or.inr ⟨hf, i, by omega, hfi, a, c, ?_, hac⟩
                  rw [List.getElem?_append_left (by omega)]
                  exact hss

theorem optimistic_search_post {fuel : Nat} {h : sl_heap} {m : sl_map} {k : Int} {f : Int}
    {ps ss : List Nat} (hs : optimistic_search fuel h m k = some (f, ps, ss)) :
    f = -1 ∨ (0 ≤ f ∧ ∃ a c, ss[f.toNat]? = some a ∧ h[a]? = some c ∧ c.key = k) := by
  unfold optimistic_search at hs
  cases hhd : h[m.head]? with
  | none => simp [hhd] at hs
  | some hd =>
    rw [hhd] at hs
    obtain ⟨_, hf⟩ := search_levels_post h k fuel _ _ _ _ _ _ hs
    rcases hf with hf | ⟨_, i, _, rfl, hrest⟩
    · exact Or.inl hf
    · exact Or.inr ⟨by omega, by simpa using hrest⟩

/-! ## Statements about the map interface -/

theorem one_key_heap_reachable : Reachable 2 [(sl_call.insert 5 7 2, 1)] one_key_heap :=
  Reachable.insert 3 5 7 2 1 one_key_heap Reachable.fresh (by decide) (by decide) (by decide)
    (by decide)

/-- C1. Single-threaded, on every heap reachable from a fresh map, for every
key strictly below the tail key and every tower height in `[1, levelmax]`:
`optimistic_insert` returns, it returns `1` if and only if `optimistic_find`
returned `0` before the call, and after a return of `1` `optimistic_find`
returns `1` and `optimistic_get` returns the inserted value. -/
theorem insert_returns_one_iff_absent (lm : Nat) (log : List (sl_call × Int)) (h : sl_heap)
    (hr : Reachable lm log h) (k : Int) (hk : k < VAL_MAX) (v L : Nat) (hL1 : 1 ≤ L)
    (hLm : L ≤ lm) (fuel : Nat) (hfuel : h.length ≤ fuel) :
    ∃ r h1 f0, optimistic_insert fuel h (sl_set_new lm).1 k v L = some (r, h1) ∧
      optimistic_find fuel h (sl_set_new lm).1 k = some f0 ∧
      (r = 1 ↔ f0 = 0) ∧
      (r = 1 → ∀ fuel1, h1.length ≤ fuel1 →
        optimistic_find fuel1 h1 (sl_set_new lm).1 k = some 1 ∧
        optimistic_get fuel1 h1 (sl_set_new lm).1 k = some v) := by
  obtain ⟨h1, hins, hr1, _, _⟩ := hr.insert_result hk v hL1 hLm hfuel
  have hfind := (hr.lookup hk hfuel).1
  refine ⟨_, h1, _, hins, hfind, ?_, ?_⟩
  · cases hm : model log k <;> simp
  · intro hret fuel1 hfuel1
    cases hm : model log k with
    | some x => simp [hm] at hret
    | none =>
      have := hr1.lookup hk hfuel1
      simpa [hm, model_append, model_step_insert_one] using this

theorem insert_returns_one_iff_absent_witness :
    Reachable 2 [] (sl_set_new 2).2 ∧ (5 : Int) < VAL_MAX ∧ 1 ≤ 2 ∧ (sl_set_new 2).2.length ≤ 2 ∧
      ∃ r h1 f0, optimistic_insert 2 (sl_set_new 2).2 (sl_set_new 2).1 5 7 2 = some (r, h1) ∧
        optimistic_find 2 (sl_set_new 2).2 (sl_set_new 2).1 5 = some f0 ∧
        (r = 1 ↔ f0 = 0) ∧
        (r = 1 → ∀ fuel1, h1.length ≤ fuel1 →
          optimistic_find fuel1 h1 (sl_set_new 2).1 5 = some 1 ∧
          optimistic_get fuel1 h1 (sl_set_new 2).1 5 = some 7) :=
  ⟨Reachable.fresh, by decide, by decide, by decide,
    insert_returns_one_iff_absent 2 [] (sl_set_new 2).2 Reachable.fresh 5 (by decide) 7 2
      (by decide) (by decide) 2 (by decide)⟩

/-- C2. Single-threaded, on every heap reachable from a fresh map by calls with
keys strictly below the tail key, and for every such key: `optimistic_delete`
returns, it returns `1` if and only if `optimistic_find` returned `1` before
the call; the level reported by the search is the top level of the node found,
which passes `ok_to_delete`; and after a return of `1` `optimistic_find`
returns `0` and `optimistic_get` returns `NULL`. -/
theorem delete_returns_one_iff_present (lm : Nat) (log : List (sl_call × Int)) (h : sl_heap)
    (hr : Reachable lm log h) (k : Int) (hk : k < VAL_MAX) (fuel : Nat)
    (hfuel : h.length ≤ fuel) :
    ∃ r h1 f0, optimistic_delete fuel h (sl_set_new lm).1 k = some (r, h1) ∧
      optimistic_find fuel h (sl_set_new lm).1 k = some f0 ∧
      (r = 1 ↔ f0 = 1) ∧
      (∃ found ps ss, optimistic_search fuel h (sl_set_new lm).1 k = some (found, ps, ss) ∧
        (found = -1 ∨ ∃ a n, ss[found.toNat]? = some a ∧ h[a]? = some n ∧ n.key = k ∧
          (n.toplevel : Int) - 1 = found ∧ ok_to_delete n found = true)) ∧
      (r = 1 → ∀ fuel1, h1.length ≤ fuel1 →
        optimistic_find fuel1 h1 (sl_set_new lm).1 k = some 0 ∧
        optimistic_get fuel1 h1 (sl_set_new lm).1 k = some 0) := by
  obtain ⟨h1, hdel, hr1, _, _⟩ := hr.delete_result hk hfuel
  have hfind := (hr.lookup hk hfuel).1
  refine ⟨_, h1, _, hdel, hfind, ?_, hr.search_level hk hfuel, ?_⟩
  · cases hm : model log k <;> simp
  · intro hret fuel1 hfuel1
    cases hm : model log k with
    | none => simp [hm] at hret
    | some x =>
      have := hr1.lookup hk hfuel1
      simpa [hm, model_append, model_step_delete_one] using this

theorem delete_returns_one_iff_present_witness :
    Reachable 2 [(sl_call.insert 5 7 2, 1)] one_key_heap ∧ (5 : Int) < VAL_MAX ∧
      one_key_heap.length ≤ 3 ∧
      ∃ r h1 f0, optimistic_delete 3 one_key_heap (sl_set_new 2).1 5 = some (r, h1) ∧
        optimistic_find 3 one_key_heap (sl_set_new 2).1 5 = some f0 ∧
        (r = 1 ↔ f0 = 1) ∧
        (∃ found ps ss, optimistic_search 3 one_key_heap (sl_set_new 2).1 5 =
            some (found, ps, ss) ∧
          (found = -1 ∨ ∃ a n, ss[found.toNat]? = some a ∧ one_key_heap[a]? = some n ∧
            n.key = 5 ∧ (n.toplevel : Int) - 1 = found ∧ ok_to_delete n found = true)) ∧
        (r = 1 → ∀ fuel1, h1.length ≤ fuel1 →
          optimistic_find fuel1 h1 (sl_set_new 2).1 5 = some 0 ∧
          optimistic_get fuel1 h1 (sl_set_new 2).1 5 = some 0) :=
  ⟨one_key_heap_reachable, by decide, by decide,
    delete_returns_one_iff_present 2 _ one_key_heap one_key_heap_reachable 5 (by decide) 3
      (by decide)⟩

/-- C3. Single-threaded, on every heap (in particular every reachable one) in
which `optimistic_find` sees the key and `optimistic_get` returns `x`:
`optimistic_insert` of that key with any value and any tower height returns `0`
and the heap after the call is the heap before it, node for node and field for
field, with no node added, so that `optimistic_get` still returns `x`. -/
theorem insert_present_leaves_heap (fuel : Nat) (h : sl_heap) (m : sl_map) (k : Int) (x : Nat)
    (hf : optimistic_find fuel h m k = some 1) (hg : optimistic_get fuel h m k = some x)
    (y L : Nat) :
    ∃ h1, optimistic_insert fuel h m k y L = some (0, h1) ∧ h1 = h ∧
      optimistic_get fuel h1 m k = some x :=
  ⟨h, insert_of_find_one hf y L, rfl, hg⟩

theorem insert_present_leaves_heap_witness :
    optimistic_find 3 one_key_heap (sl_set_new 2).1 5 = some 1 ∧
      optimistic_get 3 one_key_heap (sl_set_new 2).1 5 = some 7 ∧
      ∃ h1, optimistic_insert 3 one_key_heap (sl_set_new 2).1 5 9 1 = some (0, h1) ∧
        h1 = one_key_heap ∧ optimistic_get 3 h1 (sl_set_new 2).1 5 = some 7 :=
  ⟨by decide, by decide,
    insert_present_leaves_heap 3 one_key_heap (sl_set_new 2).1 5 7 (by decide) (by decide) 9 1⟩

/-- C4. On every heap and for every key: when the search does not return,
neither lookup returns; when it returns `found = -1` both lookups return
`0` / `NULL`; otherwise `found ≥ 0`, `succs[found]` is a node with the searched
key, `optimistic_find` returns `1` exactly when that node is fully linked and
not marked, and `optimistic_get` returns its value under the same test and
`NULL` otherwise.  Hence a result of `optimistic_get` other than `NULL` implies
that `optimistic_find` returns `1`, and when `optimistic_find` returns `1`
`optimistic_get` returns the value stored in a node with the searched key. -/
theorem find_get_characterisation (fuel : Nat) (h : sl_heap) (m : sl_map) (k : Int) :
    (optimistic_search fuel h m k = none →
      optimistic_find fuel h m k = none ∧ optimistic_get fuel h m k = none) ∧
    (∀ found ps ss, optimistic_search fuel h m k = some (found, ps, ss) →
      (found = -1 ∧ optimistic_find fuel h m k = some 0 ∧ optimistic_get fuel h m k = some 0) ∨
      (0 ≤ found ∧ ∃ a n, ss[found.toNat]? = some a ∧ h[a]? = some n ∧ n.key = k ∧
        optimistic_find fuel h m k =
          some (if n.fullylinked = true ∧ n.marked = false then 1 else 0) ∧
        optimistic_get fuel h m k =
          some (if n.fullylinked = true ∧ n.marked = false then n.val else 0))) ∧
    (∀ x, optimistic_get fuel h m k = some x → x ≠ 0 → optimistic_find fuel h m k = some 1) ∧
    (optimistic_find fuel h m k = some 1 →
      ∃ (a : Nat) (n : sl_node), h[a]? = some n ∧ n.key = k ∧
        optimistic_get fuel h m k = some n.val) := by
  have key : ∀ found ps ss, optimistic_search fuel h m k = some (found, ps, ss) →
      (found = -1 ∧ optimistic_find fuel h m k = some 0 ∧ optimistic_get fuel h m k = some 0) ∨
      (0 ≤ found ∧ ∃ a n, ss[found.toNat]? = some a ∧ h[a]? = some n ∧ n.key = k ∧
        optimistic_find fuel h m k =
          some (if n.fullylinked = true ∧ n.marked = false then 1 else 0) ∧
        optimistic_get fuel h m k =
          some (if n.fullylinked = true ∧ n.marked = false then n.val else 0)) := by
    intro found ps ss hs
    rcases optimistic_search_post hs with hf | ⟨hf, a, n, hss, hn, hkey⟩
    · left
      subst hf
      simp [optimistic_find, optimistic_get, hs]
    · right
      have hne : found ≠ -1 := by omega
      refine ⟨hf, a, n, hss, hn, hkey, ?_, ?_⟩
      · cases hfl : n.fullylinked <;> cases hmk : n.marked <;>
          simp [optimistic_find, hs, hne, hss, hn, hfl, hmk]
      · cases hfl : n.fullylinked <;> cases hmk : n.marked <;>
          simp [optimistic_get, hs, hne, hss, hn, hfl, hmk]
  refine ⟨?_, key, ?_, ?_⟩
  · intro hs
    simp [optimistic_find, optimistic_get, hs]
  · intro x hx hx0
    cases hs : optimistic_search fuel h m k with
    | none => simp [optimistic_get, hs] at hx
    | some r =>
      obtain ⟨found, ps, ss⟩ := r
      rcases key found ps ss hs with ⟨_, _, hg⟩ | ⟨_, a, n, _, _, _, hf, hg⟩
      · rw [hg] at hx
        exact absurd (by simpa using hx.symm) hx0
      · rw [hg] at hx
        by_cases hvis : n.fullylinked = true ∧ n.marked = false
        · rw [hf, if_pos hvis]
        · rw [if_neg hvis] at hx
          exact absurd (by simpa using hx.symm) hx0
  · intro hfind
    cases hs : optimistic_search fuel h m k with
    | none => simp [optimistic_find, hs] at hfind
    | some r =>
      obtain ⟨found, ps, ss⟩ := r
      rcases key found ps ss hs with ⟨_, hf, _⟩ | ⟨_, a, n, _, hn, hkey, hf, hg⟩
      · rw [hf] at hfind
        exact absurd hfind (by simp)
      · rw [hf] at hfind
        by_cases hvis : n.fullylinked = true ∧ n.marked = false
        · exact ⟨a, n, hn, hkey, by rw [hg, if_pos hvis]⟩
        · rw [if_neg hvis] at hfind
          exact absurd hfind (by simp)

/-- C5. Single-threaded, on every reachable heap and for all distinct keys `k`
and `k1` strictly below the tail key: `optimistic_insert` of `k` and
`optimistic_delete` of `k` return, and whatever they return
`optimistic_find` and `optimistic_get` of `k1` give after the call the result
they gave before it. -/
theorem other_keys_unchanged (lm : Nat) (log : List (sl_call × Int)) (h : sl_heap)
    (hr : Reachable lm log h) (k k1 : Int) (hk : k < VAL_MAX) (hk1 : k1 < VAL_MAX)
    (hne : k1 ≠ k) (v L : Nat) (hL1 : 1 ≤ L) (hLm : L ≤ lm) (fuel : Nat)
    (hfuel : h.length ≤ fuel) :
    (∃ f0 g0, optimistic_find fuel h (sl_set_new lm).1 k1 = some f0 ∧
      optimistic_get fuel h (sl_set_new lm).1 k1 = some g0 ∧
      (∃ r h1, optimistic_insert fuel h (sl_set_new lm).1 k v L = some (r, h1) ∧
        ∀ fuel1, h1.length ≤ fuel1 →
          optimistic_find fuel1 h1 (sl_set_new lm).1 k1 = some f0 ∧
          optimistic_get fuel1 h1 (sl_set_new lm).1 k1 = some g0) ∧
      (∃ r h1, optimistic_delete fuel h (sl_set_new lm).1 k = some (r, h1) ∧
        ∀ fuel1, h1.length ≤ fuel1 →
          optimistic_find fuel1 h1 (sl_set_new lm).1 k1 = some f0 ∧
          optimistic_get fuel1 h1 (sl_set_new lm).1 k1 = some g0)) := by
  obtain ⟨h1, hins, hr1, _, _⟩ := hr.insert_result hk v hL1 hLm hfuel
  obtain ⟨h2, hdel, hr2, _, _⟩ := hr.delete_result hk hfuel
  obtain ⟨hf0, hg0⟩ := hr.lookup hk1 hfuel
  refine ⟨_, _, hf0, hg0, ⟨_, h1, hins, ?_⟩, ⟨_, h2, hdel, ?_⟩⟩
  · intro fuel1 hfuel1
    have := hr1.lookup hk1 hfuel1
    rw [model_append, model_step_other _ _ _ (Or.inl ⟨v, L, rfl⟩) hne] at this
    exact this
  · intro fuel1 hfuel1
    have := hr2.lookup hk1 hfuel1
    rw [model_append, model_step_other _ _ _ (Or.inr rfl) hne] at this
    exact this

theorem other_keys_unchanged_witness :
    Reachable 2 [(sl_call.insert 5 7 2, 1)] one_key_heap ∧ (3 : Int) < VAL_MAX ∧
      (5 : Int) < VAL_MAX ∧ (5 : Int) ≠ 3 ∧ 1 ≤ 1 ∧ 1 ≤ 2 ∧ one_key_heap.length ≤ 3 ∧
      ∃ f0 g0, optimistic_find 3 one_key_heap (sl_set_new 2).1 5 = some f0 ∧
        optimistic_get 3 one_key_heap (sl_set_new 2).1 5 = some g0 ∧
        (∃ r h1, optimistic_insert 3 one_key_heap (sl_set_new 2).1 3 4 1 = some (r, h1) ∧
          ∀ fuel1, h1.length ≤ fuel1 →
            optimistic_find fuel1 h1 (sl_set_new 2).1 5 = some f0 ∧
            optimistic_get fuel1 h1 (sl_set_new 2).1 5 = some g0) ∧
        (∃ r h1, optimistic_delete 3 one_key_heap (sl_set_new 2).1 3 = some (r, h1) ∧
          ∀ fuel1, h1.length ≤ fuel1 →
            optimistic_find fuel1 h1 (sl_set_new 2).1 5 = some f0 ∧
            optimistic_get fuel1 h1 (sl_set_new 2).1 5 = some g0) :=
  ⟨one_key_heap_reachable, by decide, by decide, by decide, by decide, by decide, by decide,
    other_keys_unchanged 2 _ one_key_heap one_key_heap_reachable 3 5 (by decide) (by decide)
      (by decide) 4 1 (by decide) (by decide) 3 (by decide)⟩

/-- C6, as stated, fails at the key `LONG_MAX`: on a fresh map of height `1`,
on which no key was ever inserted, `optimistic_find` of `LONG_MAX` returns `1`
because the search stops on the tail sentinel, whose key is `LONG_MAX`.  And
once `optimistic_delete` of `LONG_MAX` has returned `1` on that map, the head
points to `NULL` and `optimistic_find` of the key `3`, never inserted, does not
return at all. -/
theorem find_sees_tail_key_on_fresh_map :
    optimistic_find 2 (sl_set_new 1).2 (sl_set_new 1).1 LONG_MAX = some 1 ∧
      ∃ h1, optimistic_delete 2 (sl_set_new 1).2 (sl_set_new 1).1 LONG_MAX = some (1, h1) ∧
        ∀ fuel, optimistic_find fuel h1 (sl_set_new 1).1 3 = none := by
  refine ⟨by decide, _, rfl, ?_⟩
  intro fuel
  cases fuel with
  | zero => rfl
  | succ f => rfl

/-- C6, amended.  For every sequence of single-threaded calls of
`optimistic_insert` and `optimistic_delete` with keys strictly below the tail
key, starting from a fresh map, and for every key `k` strictly below the tail
key: `optimistic_find` returns `0` if `k` has not been inserted with success,
or has been deleted with success with no later successful insert. -/
theorem find_zero_unless_inserted (lm : Nat) (log : List (sl_call × Int)) (h : sl_heap)
    (hr : Reachable lm log h) (k : Int) (hk : k < VAL_MAX)
    (hlog : (∀ v L, (sl_call.insert k v L, (1 : Int)) ∉ log) ∨
      ∃ pre post, log = pre ++ (sl_call.delete k, (1 : Int)) :: post ∧
        ∀ v L, (sl_call.insert k v L, (1 : Int)) ∉ post)
    (fuel : Nat) (hfuel : h.length ≤ fuel) :
    optimistic_find fuel h (sl_set_new lm).1 k = some 0 := by
  have := (hr.lookup hk hfuel).1
  rw [model_none_of_log hlog] at this
  simpa using this

theorem find_zero_unless_inserted_witness :
    Reachable 2 [(sl_call.insert 5 7 2, 1)] one_key_heap ∧ (3 : Int) < VAL_MAX ∧
      ((∀ v L, (sl_call.insert 3 v L, (1 : Int)) ∉ [(sl_call.insert 5 7 2, (1 : Int))]) ∨
        ∃ pre post, [(sl_call.insert 5 7 2, (1 : Int))] =
            pre ++ (sl_call.delete 3, (1 : Int)) :: post ∧
          ∀ v L, (sl_call.insert 3 v L, (1 : Int)) ∉ post) ∧
      one_key_heap.length ≤ 3 ∧
      optimistic_find 3 one_key_heap (sl_set_new 2).1 3 = some 0 :=
  ⟨one_key_heap_reachable, by decide, Or.inl (by simp), by decide,
    find_zero_unless_inserted 2 _ one_key_heap one_key_heap_reachable 3 (by decide)
      (Or.inl (by simp)) 3 (by decide)⟩

/-- C7, as stated, fails at the key `LONG_MAX`: on a fresh map of height `1`
`optimistic_delete` of `LONG_MAX` returns `1`, after which the tail sentinel
(address `0`) is marked and the level-`0` chain from the head (address `1`) is
the head alone. -/
theorem delete_tail_key_unlinks_tail :
    ∃ h1, optimistic_delete 2 (sl_set_new 1).2 (sl_set_new 1).1 LONG_MAX = some (1, h1) ∧
      (∃ n, h1[0]? = some n ∧ n.marked = true) ∧
      level_chain h1 0 (h1.length + 1) (some 1) = some [1] :=
  ⟨_, rfl, ⟨_, rfl, rfl⟩, rfl⟩

/-- C7, amended.  In every state reachable from a fresh map by single-threaded
calls of `optimistic_insert` and `optimistic_delete` with keys strictly below
the tail key, neither sentinel is marked and the tail (address `0`, key
`LONG_MAX`) is on the chain from the head at every level below `levelmax`. -/
theorem sentinels_kept (lm : Nat) (log : List (sl_call × Int)) (h : sl_heap)
    (hr : Reachable lm log h) :
    (∃ n, h[0]? = some n ∧ n.key = VAL_MAX ∧ n.marked = false ∧ n.fullylinked = true) ∧
    (∃ n, h[(sl_set_new lm).1.head]? = some n ∧ n.marked = false ∧ n.fullylinked = true) ∧
    ∀ i, i < lm → ∃ c, level_chain h i (h.length + 1) (some (sl_set_new lm).1.head) = some c ∧
      0 ∈ c := by
  obtain ⟨G, hinv, _⟩ := hr.inv
  refine ⟨?_, hinv.head_flags, ?_⟩
  · obtain ⟨G0, t, rfl, htk, _, hta⟩ := hinv.shape.tail
    obtain ⟨n, hn, _, _, _, hm, hf⟩ := hinv.live t (by simp)
    obtain ⟨n1, hn1, hkey, _⟩ := hinv.shape.ents t (by simp)
    rw [hn] at hn1
    obtain rfl : n = n1 := by simpa using hn1
    rw [hta] at hn
    exact ⟨n, hn, by rw [hkey, htk], hm, hf⟩
  · intro i hi
    obtain ⟨c, hc⟩ := hinv.shape.lvl_tail hi
    exact ⟨_, hinv.shape.chain_eq hi (le_refl _), by rw [hc]; simp⟩

theorem sentinels_kept_witness :
    Reachable 2 [(sl_call.insert 5 7 2, 1)] one_key_heap ∧
      (∃ n, one_key_heap[0]? = some n ∧ n.key = VAL_MAX ∧ n.marked = false ∧
        n.fullylinked = true) ∧
      (∃ n, one_key_heap[(sl_set_new 2).1.head]? = some n ∧ n.marked = false ∧
        n.fullylinked = true) ∧
      ∀ i, i < 2 → ∃ c, level_chain one_key_heap i (one_key_heap.length + 1)
        (some (sl_set_new 2).1.head) = some c ∧ 0 ∈ c :=
  ⟨one_key_heap_reachable, sentinels_kept 2 _ one_key_heap one_key_heap_reachable⟩

/-- One call on a well-formed list: the levels are sorted before it, the call
returns, and the levels are sorted and the list is well formed after it. -/
theorem Inv.sorted_step {lm head : Nat} {h : sl_heap} {G : List Ent} (hinv : Inv lm head h G)
    {k : Int} (hk : k < VAL_MAX) (v : Nat) {L : Nat} (hL1 : 1 ≤ L) (hLm : L ≤ lm) {fuel : Nat}
    (hfuel : h.length ≤ fuel) :
    sorted_levels lm head h ∧
    (∃ r h1, optimistic_insert fuel h ⟨head⟩ k v L = some (r, h1) ∧
      sorted_levels lm head h1 ∧ ∃ G1, Inv lm head h1 G1) ∧
    (∃ r h1, optimistic_delete fuel h ⟨head⟩ k = some (r, h1) ∧
      sorted_levels lm head h1 ∧ ∃ G1, Inv lm head h1 G1) := by
  refine ⟨hinv.shape.levels_sorted, ?_, ?_⟩
  · rcases hinv.shape.key_cases hk with ⟨lo, hi, rfl, ha, habs⟩ | ⟨lo, hi, a, v0, L0, rfl, ha, hhi⟩
    · obtain ⟨h5, hins, hinv5, _⟩ := hinv.insert_absent ha habs v hL1 hLm (ha.fuel_ok hfuel)
      exact ⟨1, h5, hins, hinv5.shape.levels_sorted, _, hinv5⟩
    · have hfind := (hinv.find_present ha hk (ha.fuel_ok hfuel)).1
      exact ⟨0, h, insert_of_find_one hfind v L, hinv.shape.levels_sorted, _, hinv⟩
  · rcases hinv.shape.key_cases hk with ⟨lo, hi, rfl, ha, habs⟩ | ⟨lo, hi, a, v0, L0, rfl, ha, hhi⟩
    · have hfind := (ha.find_absent habs (ha.fuel_ok hfuel)).1
      have hfuel0 : 0 < fuel := by have := ha.fuel_ok hfuel; omega
      exact ⟨0, h, delete_of_find_zero hfind hfuel0, hinv.shape.levels_sorted, _, hinv⟩
    · obtain ⟨h6, hdel, hinv6, _⟩ := hinv.delete_present ha hhi hk (ha.fuel_ok hfuel)
      exact ⟨1, h6, hdel, hinv6.shape.levels_sorted, _, hinv6⟩

/-- C8. Sorted levels is an invariant of single-threaded insert and delete.  On
every heap reachable from a fresh map the levels are sorted - at every level
below `levelmax` the keys after the head up to and including the tail are
strictly increasing, so that no level holds a key twice - and they are sorted
again after `optimistic_insert` (any tower height in `[1, levelmax]`) and after
`optimistic_delete` of a key strictly below the tail key, both of which
return.  The same holds as a step from every well-formed heap, reachable from
a fresh map or not: for every map `m` and every heap `h0` described by a ghost
list (sorted and nested levels, visible nodes, no lock held), the levels of
`h0` are sorted, both calls return, and after each of them the levels are
sorted and the heap is well formed again. -/
theorem sorted_levels_preserved (lm : Nat) (log : List (sl_call × Int)) (h : sl_heap)
    (hr : Reachable lm log h) (k : Int) (hk : k < VAL_MAX) (v L : Nat) (hL1 : 1 ≤ L)
    (hLm : L ≤ lm) (fuel : Nat) (hfuel : h.length ≤ fuel) :
    sorted_levels lm (sl_set_new lm).1.head h ∧
    (∃ r h1, optimistic_insert fuel h (sl_set_new lm).1 k v L = some (r, h1) ∧
      sorted_levels lm (sl_set_new lm).1.head h1) ∧
    (∃ r h1, optimistic_delete fuel h (sl_set_new lm).1 k = some (r, h1) ∧
      sorted_levels lm (sl_set_new lm).1.head h1) ∧
    (∀ (m : sl_map) (h0 : sl_heap) (g : Nat), (∃ G, Inv lm m.head h0 G) → h0.length ≤ g →
      sorted_levels lm m.head h0 ∧
      (∃ r h1, optimistic_insert g h0 m k v L = some (r, h1) ∧
        sorted_levels lm m.head h1 ∧ ∃ G1, Inv lm m.head h1 G1) ∧
      (∃ r h1, optimistic_delete g h0 m k = some (r, h1) ∧
        sorted_levels lm m.head h1 ∧ ∃ G1, Inv lm m.head h1 G1)) := by
  obtain ⟨G, hinv, _⟩ := hr.inv
  obtain ⟨hs, ⟨r1, h1, hins, hs1, _⟩, ⟨r2, h2, hdel, hs2, _⟩⟩ :=
    hinv.sorted_step hk v hL1 hLm hfuel
  refine ⟨hs, ⟨r1, h1, hins, hs1⟩, ⟨r2, h2, hdel, hs2⟩, ?_⟩
  intro m h0 g hwf hg
  obtain ⟨G0, hinv0⟩ := hwf
  exact hinv0.sorted_step hk v hL1 hLm hg

theorem sorted_levels_preserved_witness :
    Reachable 2 [(sl_call.insert 5 7 2, 1)] one_key_heap ∧
    (5 : Int) < VAL_MAX ∧
    1 ≤ 1 ∧
    1 ≤ 2 ∧
    one_key_heap.length ≤ 3 ∧
    (sorted_levels 2 (sl_set_new 2).1.head one_key_heap ∧
      (∃ r h1, optimistic_insert 3 one_key_heap (sl_set_new 2).1 5 4 1 = some (r, h1) ∧
        sorted_levels 2 (sl_set_new 2).1.head h1) ∧
      (∃ r h1, optimistic_delete 3 one_key_heap (sl_set_new 2).1 5 = some (r, h1) ∧
        sorted_levels 2 (sl_set_new 2).1.head h1) ∧
      (∀ (m : sl_map) (h0 : sl_heap) (g : Nat), (∃ G, Inv 2 m.head h0 G) → h0.length ≤ g →
        sorted_levels 2 m.head h0 ∧
        (∃ r h1, optimistic_insert g h0 m 5 4 1 = some (r, h1) ∧
          sorted_levels 2 m.head h1 ∧ ∃ G1, Inv 2 m.head h1 G1) ∧
        (∃ r h1, optimistic_delete g h0 m 5 = some (r, h1) ∧
          sorted_levels 2 m.head h1 ∧ ∃ G1, Inv 2 m.head h1 G1))) :=
  ⟨one_key_heap_reachable, by decide, by decide, by decide, by decide,
    sorted_levels_preserved 2 _ one_key_heap one_key_heap_reachable 5 (by decide) 4 1
      (by decide) (by decide) 3 (by decide)⟩

/-! ## Intermediate states of the splice loop and of the unlink loop -/

/-- The first store of an iteration of the splice loop, `new_node->next[j] = v`,
leaves every chain as it is. -/
theorem splice_half_step {lm head : Nat} {h : sl_heap} {lo hi : List Ent} {a : Nat} {k : Int}
    {v j : Nat} (hs : Shape lm head h (lo ++ ⟨a, k, v, j⟩ :: hi))
    (hhi : ∃ hi0 tl, hi = hi0 ++ [tl]) (hj : j < lm)
    (hlen : ∀ n, h[a]? = some n → j < n.next.length) (s : Option Nat) :
    ∃ h1, store_next h a j s = some h1 ∧ Shape lm head h1 (lo ++ ⟨a, k, v, j⟩ :: hi) := by
  obtain ⟨hpa, _, Z, hZ, hZne, hhine⟩ := pred_facts hs hj
  obtain ⟨na, hna, _⟩ := hs.ents ⟨a, k, v, j⟩ (by simp)
  simp only at hna
  obtain ⟨h1, hst1, hr1, hN1, _⟩ := store_next_spec hna (hlen na hna) s
  refine ⟨h1, hst1, ?_⟩
  refine Shape.retop (j := j) hs hhi hr1 (by omega)
    (fun n hn => by have := hlen n hn; omega) (fun i _ => Iff.rfl) ?_ ?_
  · intro x i hcond
    rw [hN1]
    rcases hcond with hij | ⟨hxa, _⟩
    · simp [hij]
    · simp [hxa]
  · intro _
    refine chain'_congr_mem (hs.links j hj) ?_
    intro x hx y hxy
    rw [hN1]
    have hxa : x ≠ a := by
      rw [lvl_mid, if_neg (by simp), ← List.cons_append, hZ] at hx
      rcases List.mem_append.mp hx with h1' | h1'
      · rcases List.mem_append.mp h1' with h2' | h2'
        · exact (hZne x h2').1
        · obtain rfl : x = lastD (lvl j lo) head := by simpa using h2'
          exact hpa
      · exact (hhine x h1').1
    simpa [hxa] using hxy

theorem insert_splice_add (a : Nat) (P S : List Nat) :
    ∀ (j n i : Nat) (h : sl_heap),
      insert_splice a P S (j + n) i h =
        (insert_splice a P S j i h).bind (insert_splice a P S n (i + j)) := by
  intro j
  induction j with
  | zero => intro n i h; simp [insert_splice]
  | succ j ih =>
    intro n i h
    have hjn : j + 1 + n = (j + n) + 1 := by omega
    have hij : i + 1 + j = i + (j + 1) := by omega
    rw [hjn]
    cases hp : P[i]? with
    | none => simp [insert_splice, hp]
    | some p =>
      cases hs : S[i]? with
      | none => simp [insert_splice, hp, hs]
      | some s =>
        cases h1 : store_next h a i (some s) with
        | none => simp [insert_splice, hp, hs, h1]
        | some h1' =>
          cases h2 : store_next h1' p i (some a) with
          | none => simp [insert_splice, hp, hs, h1, h2]
          | some h2' =>
            have e1 : insert_splice a P S (j + n + 1) i h =
                insert_splice a P S (j + n) (i + 1) h2' := by
              simp [insert_splice, hp, hs, h1, h2]
            have e2 : insert_splice a P S (j + 1) i h = insert_splice a P S j (i + 1) h2' := by
              simp [insert_splice, hp, hs, h1, h2]
            rw [e1, e2, ih n (i + 1) h2', hij]

theorem delete_unlink_zero (nd : Nat) (P : List Nat) (u : Nat) (h : sl_heap) :
    delete_unlink nd P 0 u h = some h := by
  cases u <;> rfl

theorem delete_unlink_bottom (nd : Nat) (P : List Nat) (m : Nat) (h : sl_heap) :
    delete_unlink nd P m 0 h = some h := by
  cases m <;> rfl

theorem delete_unlink_add (nd : Nat) (P : List Nat) :
    ∀ (j n u : Nat) (h : sl_heap),
      delete_unlink nd P (j + n) u h =
        (delete_unlink nd P j u h).bind (delete_unlink nd P n (u - j)) := by
  intro j
  induction j with
  | zero =>
    intro n u h
    simp [delete_unlink_zero]
  | succ j ih =>
    intro n u h
    have hjn : j + 1 + n = (j + n) + 1 := by omega
    rw [hjn]
    cases u with
    | zero => simp [delete_unlink_bottom]
    | succ u =>
      have huj : u + 1 - (j + 1) = u - j := by omega
      cases hp : P[u]? with
      | none => simp [delete_unlink, hp]
      | some p =>
        cases hn : h[nd]? with
        | none => simp [delete_unlink, hp, hn]
        | some ndn =>
          cases hv : ndn.next[u]? with
          | none => simp [delete_unlink, hp, hn, hv]
          | some v =>
            cases h1 : store_next h p u v with
            | none => simp [delete_unlink, hp, hn, hv, h1]
            | some h1' =>
              have e1 : delete_unlink nd P (j + n + 1) (u + 1) h =
                  delete_unlink nd P (j + n) u h1' := by
                simp [delete_unlink, hp, hn, hv, h1]
              have e2 : delete_unlink nd P (j + 1) (u + 1) h = delete_unlink nd P j u h1' := by
                simp [delete_unlink, hp, hn, hv, h1]
              rw [e1, e2, ih n u h1', huj]

theorem Inv.towers_full {lm head : Nat} {h : sl_heap} {G : List Ent} (hinv : Inv lm head h G) :
    full_towers head h := by
  intro c0 hc0
  by_cases hlm : 0 < lm
  · rw [hinv.shape.chain_eq hlm (le_refl _)] at hc0
    obtain rfl : head :: lvl 0 G = c0 := by simpa using hc0
    intro a ha
    rcases List.mem_cons.mp ha with rfl | ha'
    · obtain ⟨n, hn, htop, _⟩ := hinv.shape.hd
      refine ⟨n, hn, fun i hi => ?_⟩
      exact ⟨_, hinv.shape.chain_eq (by omega) (le_refl _), List.mem_cons_self _ _⟩
    · obtain ⟨e, he, _, rfl⟩ := mem_lvl.mp ha'
      obtain ⟨n, hn, htop, _⟩ := hinv.live e he
      obtain ⟨_, _, _, _, _, hle⟩ := hinv.shape.ents e he
      refine ⟨n, hn, fun i hi => ?_⟩
      exact ⟨_, hinv.shape.chain_eq (by omega) (le_refl _),
        List.mem_cons_of_mem _ (mem_lvl.mpr ⟨e, he, by omega, rfl⟩)⟩
  · exfalso
    obtain ⟨n, hn, _, hlen⟩ := hinv.shape.hd
    have hnx : n.next[0]? = none := by
      rw [List.getElem?_eq_none_iff]; omega
    simp [level_chain, hn, hnx] at hc0

theorem Inv.insert_validate {lm head : Nat} {h : sl_heap} {k : Int} {lo hi : List Ent}
    (hinv : Inv lm head h (lo ++ hi)) (ha : Around lm head h k lo hi) {L : Nat}
    (hLm : L ≤ lm) :
    ∃ hl h1, validate_loop insert_valid ((List.range lm).map (fun i => lastD (lvl i lo) head))
        ((List.range lm).map (fun i => firstD (lvl i hi) 0)) L 0 none (-1) h =
        some (true, hl, h1) ∧
      HRel (fun _ => same_but_lock) h h1 := by
  have hPget : ∀ i, i < L → ((List.range lm).map (fun i => lastD (lvl i lo) head))[i]? =
      some (lastD (lvl i lo) head) := fun i hi => getElem?_range_map _ (by omega)
  have hSget : ∀ i, i < L → ((List.range lm).map (fun i => firstD (lvl i hi) 0))[i]? =
      some (firstD (lvl i hi) 0) := fun i hi => getElem?_range_map _ (by omega)
  have hpnode : ∀ i, ∃ n, h[lastD (lvl i lo) head]? = some n := fun i =>
    have hlt := ha.pred_lt i
    ⟨h[lastD (lvl i lo) head], List.getElem?_eq_getElem hlt⟩
  obtain ⟨hl, h1, hval, hr1, _, _⟩ :=
    validate_loop_ok insert_valid _ _ L h (fun _ => False) (ha.contig hLm)
      (fun _ _ _ _ hF => hF)
      (fun hx hrx i hi => ⟨_, _, hPget i hi, hSget i hi, hpnode i,
        ha.insert_valid_ok hinv.live hinv.head_flags hrx (by omega)⟩)
      L 0 none (-1) h (by omega) (by simp) (HRel.refl (fun _ m => same_but_lock_refl m) h)
      (hinv.free.congr (fun a => by simp)) (Or.inl ⟨rfl, rfl⟩)
  exact ⟨hl, h1, hval, hr1⟩

theorem Inv.find_top {lm head : Nat} {h : sl_heap} {k : Int} {lo hi : List Ent}
    {a v L : Nat} (hinv : Inv lm head h (lo ++ ⟨a, k, v, L⟩ :: hi))
    (ha : Around lm head h k lo (⟨a, k, v, L⟩ :: hi)) (hL1 : 1 ≤ L) {fuel : Nat}
    (hfuel : lo.length < fuel) :
    optimistic_find fuel h ⟨head⟩ k = some 1 := by
  have hsearch := ha.search_spec hfuel
  obtain ⟨n0, hn0, _, _, _, hn0m, hn0f⟩ := hinv.live ⟨a, k, v, L⟩ (by simp)
  obtain ⟨_, _, _, _, _, hLm⟩ := hinv.shape.ents ⟨a, k, v, L⟩ (by simp)
  simp only at hn0 hLm
  rw [found_spec_present (e := ⟨a, k, v, L⟩) rfl hLm] at hsearch
  simp only at hsearch
  have hfound_ne : ¬ ((L : Int) - 1 = -1) := by omega
  have htoNat : ((L : Int) - 1).toNat = L - 1 := by omega
  have hSa : ((List.range lm).map
      (fun i => firstD (lvl i ((⟨a, k, v, L⟩ : Ent) :: hi)) 0))[L - 1]? = some a := by
    rw [getElem?_range_map _ (by omega), lvl_first_self (by simp; omega)]
  simp [optimistic_find, hsearch, hfound_ne, htoNat, hSa, hn0, hn0m, hn0f]

/-- The run of `optimistic_delete` on a visible node up to the unlink loop, and
from any result of that loop to the return. -/
theorem Inv.delete_run {lm head : Nat} {h : sl_heap} {k : Int} {lo hi : List Ent}
    {a v L : Nat} (hinv : Inv lm head h (lo ++ ⟨a, k, v, L⟩ :: hi))
    (ha : Around lm head h k lo (⟨a, k, v, L⟩ :: hi)) (hL1 : 1 ≤ L)
    {fuel : Nat} (hfuel : lo.length < fuel) :
    ∃ hB hl h3,
      delete_mark h none false (-1) ((L : Int) - 1)
        ((List.range lm).map (fun i => firstD (lvl i ((⟨a, k, v, L⟩ : Ent) :: hi)) 0)) =
        some (Sum.inr (some a, (L : Int), hB)) ∧
      validate_loop delete_valid ((List.range lm).map (fun i => lastD (lvl i lo) head))
        ((List.range lm).map (fun i => firstD (lvl i ((⟨a, k, v, L⟩ : Ent) :: hi)) 0))
        L 0 none (-1) hB = some (true, hl, h3) ∧
      HRel (fun _ => same_struct) h h3 ∧
      ∀ h4, delete_unlink a ((List.range lm).map (fun i => lastD (lvl i lo) head)) L L h3 =
          some h4 → HRel (fun _ => same_but_next) h3 h4 →
        ∃ h6, optimistic_delete fuel h ⟨head⟩ k = some (1, h6) ∧
          HRel (fun _ => same_struct) h4 h6 ∧ LocksAre (fun _ => False) h6 := by
  obtain ⟨f, rfl⟩ : ∃ f, fuel = f + 1 := ⟨fuel - 1, by omega⟩
  have hsearch := ha.search_spec hfuel
  obtain ⟨n0, hn0, hn0t, hn0l, _, hn0m, hn0f⟩ := hinv.live ⟨a, k, v, L⟩ (by simp)
  simp only at hn0 hn0t hn0l
  obtain ⟨_, _, _, _, _, hLm⟩ := hinv.shape.ents ⟨a, k, v, L⟩ (by simp)
  simp only at hLm
  rw [found_spec_present (e := ⟨a, k, v, L⟩) rfl hLm] at hsearch
  simp only at hsearch
  have hfound_ne : ¬ ((L : Int) - 1 = -1) := by omega
  have htoNat : ((L : Int) - 1).toNat = L - 1 := by omega
  have hPget : ∀ i, i < L → ((List.range lm).map (fun i => lastD (lvl i lo) head))[i]? =
      some (lastD (lvl i lo) head) := fun i hi => getElem?_range_map _ (by omega)
  have hSget : ∀ i, i < L →
      ((List.range lm).map (fun i => firstD (lvl i ((⟨a, k, v, L⟩ : Ent) :: hi)) 0))[i]? =
      some (firstD (lvl i ((⟨a, k, v, L⟩ : Ent) :: hi)) 0) :=
    fun i hi => getElem?_range_map _ (by omega)
  have hSa : ((List.range lm).map
      (fun i => firstD (lvl i ((⟨a, k, v, L⟩ : Ent) :: hi)) 0))[L - 1]? = some a := by
    rw [hSget (L - 1) (by omega), lvl_first_self (by simp; omega)]
  have hpa : ∀ j, j < lm → lastD (lvl j lo) head ≠ a := fun j hj => (pred_facts hinv.shape hj).1
  have hn0lock : n0.lock = false := by
    cases hlk : n0.lock with
    | false => rfl
    | true => exact ((hinv.free a n0 hn0).mp hlk).elim
  -- lock and mark the victim
  obtain ⟨hA, nA, hlockA, hnA, hrelA, hnAl, hrA, holdA⟩ := LOCK_spec hn0 hn0lock
  have hnAm : nA.marked = false := by rw [hrelA.2.1, hn0m]
  have hnAt : nA.toplevel = L := by rw [hrelA.1.2.2.1, hn0t]
  obtain ⟨hB, nB, hmarkB, hnB, hnBl, hrB, holdB'⟩ := set_marked_spec hnA
  have hrhB : HRel (fun _ => same_struct) h hB :=
    (hrA.mono (fun _ _ _ hh => hh.1)).struct_trans hrB
  have holdB : ∀ (b : Nat), b ≠ a → hB[b]? = h[b]? := by
    intro b hb
    rw [holdB' b hb, holdA b hb]
  have haB : Around lm head hB k lo (⟨a, k, v, L⟩ :: hi) := ha.transfer hrhB
  have hpnodeB : ∀ i, i < lm → ∃ n, hB[lastD (lvl i lo) head]? = some n ∧ n.marked = false := by
    intro i hi
    obtain ⟨n, hn, hm⟩ := ha.pred_node hinv.live hinv.head_flags i
    exact ⟨n, by rw [holdB _ (hpa i hi)]; exact hn, hm⟩
  have hlocksB : LocksAre (fun b => b = a ∨ ∃ j, j < 0 ∧
      ((List.range lm).map (fun i => lastD (lvl i lo) head))[j]? = some b) hB := by
    intro b nb hnb
    by_cases hb : b = a
    · subst hb
      rw [hnB] at hnb
      obtain rfl : _ = nb := by simpa using hnb
      simp [hnBl, hnAl]
    · rw [holdB b hb] at hnb
      have := hinv.free b nb hnb
      simp [hb, this]
  obtain ⟨hl, h3, hval, hr3, hlocks3, hhl⟩ :=
    validate_loop_ok delete_valid _ _ L hB (fun b => b = a) (ha.contig hLm)
      (fun i p hi hp hpa' => by
        rw [hPget i hi] at hp
        exact hpa i (by omega) ((by simpa using hp : lastD (lvl i lo) head = p).trans hpa'))
      (fun hx hrx i hi => ⟨_, _, hPget i hi, hSget i hi,
        (hpnodeB i (by omega)).imp (fun _ hh => hh.1),
        haB.delete_valid_ok (hpnodeB i (by omega)) hrx (by omega)⟩)
      L 0 none (-1) hB (by omega) (by simp) (HRel.refl (fun _ m => same_but_lock_refl m) hB)
      hlocksB (Or.inl ⟨rfl, rfl⟩)
  have hmark : delete_mark h none false (-1) ((L : Int) - 1)
      ((List.range lm).map (fun i => firstD (lvl i ((⟨a, k, v, L⟩ : Ent) :: hi)) 0)) =
      some (Sum.inr (some a, (L : Int), hB)) := by
    simp [delete_mark, htoNat, hSa, hlockA, hnA, hnAm, hnAt, hmarkB]
  refine ⟨hB, hl, h3, hmark, hval, hrhB.struct_trans (hr3.mono (fun _ _ _ hh => hh.1)), ?_⟩
  intro h4 hunl hr4
  -- release the victim
  obtain ⟨n3a, hn3a, hrel3a⟩ := hr3.get hnB
  obtain ⟨n4a, hn4a, hrel4a⟩ := hr4.get hn3a
  have hheld : n4a.lock = true := by
    rw [hrel4a.2.2.2.2.2.2]
    exact (hlocks3 a n3a hn3a).mpr (Or.inl rfl)
  obtain ⟨h5, n5, hunlock, hn5, _, hn5l, hr5, hold5⟩ := UNLOCK_spec hn4a hheld
  -- release the predecessors
  have hlocks5 : LocksAre (fun b => False ∨ ∃ j, j < L ∧
      ((List.range lm).map (fun i => lastD (lvl i lo) head))[j]? = some b) h5 := by
    intro b nb hnb
    by_cases hb : b = a
    · subst hb
      rw [hn5] at hnb
      obtain rfl : _ = nb := by simpa using hnb
      rw [hn5l]
      simp only [Bool.false_eq_true, false_or, false_iff, not_exists, not_and]
      intro j hj hja
      rw [hPget j hj] at hja
      exact hpa j (by omega) (by simpa using hja)
    · rw [hold5 b hb] at hnb
      obtain ⟨nb3, hnb3, hrel⟩ := hr4.get_back hnb
      rw [hrel.2.2.2.2.2.2, hlocks3 b nb3 hnb3]
      simp [hb]
  obtain ⟨h6, hunl6, hr6, hfree6⟩ :=
    unlock_levels_ok _ L h5 h5 (fun _ => False) hl (ha.contig hLm) (fun _ _ _ _ hF => hF)
      (fun i hi => by
        obtain ⟨n, hn, _⟩ := hpnodeB i (by omega)
        obtain ⟨n3, hn3, _⟩ := hr3.get hn
        obtain ⟨n4, hn4, _⟩ := hr4.get hn3
        exact ⟨_, n4, hPget i hi, by rw [hold5 _ (hpa i (by omega))]; exact hn4⟩)
      hhl (HRel.refl (fun _ m => same_but_lock_refl m) h5) hlocks5
  refine ⟨h6, ?_, (hr5.mono (fun _ _ _ hh => hh.1)).struct_trans
    (hr6.mono (fun _ _ _ hh => hh.1)), hfree6⟩
  simp [optimistic_delete, optimistic_delete_loop, hmark, hsearch, delete_cond, hfound_ne,
    htoNat, hSa, hn0, ok_to_delete, hn0f, hn0t, hn0m, hval, hunl, hunlock, hunl6]

theorem Inv.insert_stores {lm head : Nat} {h : sl_heap} {k : Int} {lo hi : List Ent}
    (hinv : Inv lm head h (lo ++ hi)) (ha : Around lm head h k lo hi)
    (habs : ∀ e ∈ hi, k < e.key) (v : Nat) {L : Nat} (hLm : L ≤ lm) :
    ∃ hl h1, validate_loop insert_valid ((List.range lm).map (fun i => lastD (lvl i lo) head))
        ((List.range lm).map (fun i => firstD (lvl i hi) 0)) L 0 none (-1) h =
        some (true, hl, h1) ∧
      ∀ j, j ≤ L → ∃ hj,
        insert_splice h1.length ((List.range lm).map (fun i => lastD (lvl i lo) head))
          ((List.range lm).map (fun i => firstD (lvl i hi) 0)) j 0
          (h1 ++ [sl_new_simple_node k v L]) = some hj ∧
        tower_subset lm head hj ∧
        insert_splice h1.length ((List.range lm).map (fun i => lastD (lvl i lo) head))
          ((List.range lm).map (fun i => firstD (lvl i hi) 0)) (L - j) j hj =
          insert_splice h1.length ((List.range lm).map (fun i => lastD (lvl i lo) head))
            ((List.range lm).map (fun i => firstD (lvl i hi) 0)) L 0
            (h1 ++ [sl_new_simple_node k v L]) ∧
        (j < L → ∃ s hj1,
          ((List.range lm).map (fun i => firstD (lvl i hi) 0))[j]? = some s ∧
          store_next hj h1.length j (some s) = some hj1 ∧ tower_subset lm head hj1) := by
  obtain ⟨hl, h1, hval, hr1⟩ := hinv.insert_validate ha hLm
  refine ⟨hl, h1, hval, ?_⟩
  intro j hj
  have hs1 : Shape lm head h1 (lo ++ hi) :=
    hinv.shape.of_struct (hr1.mono (fun _ _ _ hh => hh.1))
  have hnew : (h1 ++ [sl_new_simple_node k v L])[h1.length]? = some (sl_new_simple_node k v L) :=
    List.getElem?_concat_length _ _
  have hs2 := Shape.alloc (sl_new_simple_node k v L) hs1 ha.last_split ha.below habs
  obtain ⟨hj', hspl, hrj, hsj⟩ := insert_splice_ok (a := h1.length) (k := k) (v := v)
    ha.last_split hLm j 0 (h1 ++ [sl_new_simple_node k v L]) (by omega) hs2
    (fun m hm => by
      rw [hnew] at hm
      obtain rfl : _ = m := by simpa using hm
      simp [sl_new_simple_node])
  simp only [Nat.zero_add] at hsj
  refine ⟨hj', hspl, hsj.towers, ?_, ?_⟩
  · have hadd := insert_splice_add h1.length ((List.range lm).map (fun i => lastD (lvl i lo) head))
      ((List.range lm).map (fun i => firstD (lvl i hi) 0)) j (L - j) 0
      (h1 ++ [sl_new_simple_node k v L])
    rw [hspl] at hadd
    have hjL : j + (L - j) = L := by omega
    rw [hjL] at hadd
    simpa using hadd.symm
  · intro hjlt
    obtain ⟨hj1, hst, hsj1⟩ := splice_half_step hsj ha.last_split (by omega)
      (fun n hn => by
        obtain ⟨n0, hn0, hrel⟩ := hrj.get_back hn
        rw [hnew] at hn0
        obtain rfl : _ = n0 := by simpa using hn0
        rw [hrel.2.2.2.1]
        simpa [sl_new_simple_node] using hjlt)
      (some (firstD (lvl j hi) 0))
    exact ⟨_, hj1, getElem?_range_map _ (by omega), hst, hsj1.towers⟩

theorem Inv.delete_stores {lm head : Nat} {h : sl_heap} {k : Int} {lo hi : List Ent}
    {a v L : Nat} (hinv : Inv lm head h (lo ++ ⟨a, k, v, L⟩ :: hi))
    (ha : Around lm head h k lo (⟨a, k, v, L⟩ :: hi))
    (hhi : ∃ hi0 tl, hi = hi0 ++ [tl]) (hk : k < VAL_MAX) :
    ∃ hB hl h3,
      delete_mark h none false (-1) ((L : Int) - 1)
        ((List.range lm).map (fun i => firstD (lvl i ((⟨a, k, v, L⟩ : Ent) :: hi)) 0)) =
        some (Sum.inr (some a, (L : Int), hB)) ∧
      validate_loop delete_valid ((List.range lm).map (fun i => lastD (lvl i lo) head))
        ((List.range lm).map (fun i => firstD (lvl i ((⟨a, k, v, L⟩ : Ent) :: hi)) 0))
        L 0 none (-1) hB = some (true, hl, h3) ∧
      ∀ j, j ≤ L → ∃ hj,
        delete_unlink a ((List.range lm).map (fun i => lastD (lvl i lo) head)) j L h3 =
          some hj ∧
        tower_subset lm head hj ∧
        delete_unlink a ((List.range lm).map (fun i => lastD (lvl i lo) head)) (L - j) (L - j)
          hj =
          delete_unlink a ((List.range lm).map (fun i => lastD (lvl i lo) head)) L L h3 := by
  obtain ⟨_, _, _, _, hL01, _, _⟩ := hinv.live ⟨a, k, v, L⟩ (by simp)
  obtain ⟨hB, hl, h3, hmark, hval, hr3, _⟩ :=
    hinv.delete_run ha (hL01 hk) (Nat.lt_succ_self lo.length)
  have hs3 := hinv.shape.of_struct hr3
  refine ⟨hB, hl, h3, hmark, hval, ?_⟩
  intro j hj
  obtain ⟨hj', hrun, _, hsj⟩ := delete_unlink_ok (a := a) (k := k) (v := v) hhi j L h3 hj hs3
  refine ⟨hj', hrun, hsj.towers, ?_⟩
  have hadd := delete_unlink_add a ((List.range lm).map (fun i => lastD (lvl i lo) head))
    j (L - j) L h3
  rw [hrun] at hadd
  have hjL : j + (L - j) = L := by omega
  rw [hjL] at hadd
  simpa using hadd.symm

/-! ## Unlinking the tail sentinel -/

theorem Shape.tail_around {lm head : Nat} {h : sl_heap} {G : List Ent}
    (hs : Shape lm head h G) :
    ∃ lo v, G = lo ++ [⟨0, VAL_MAX, v, lm⟩] ∧
      Around lm head h VAL_MAX lo [⟨0, VAL_MAX, v, lm⟩] := by
  obtain ⟨G0, t, rfl, htk, htt, hta⟩ := hs.tail
  obtain ⟨ta, tk, tv, tt⟩ := t
  simp only at htk htt hta
  subst htk htt hta
  refine ⟨G0, tv, rfl, ⟨hs, ?_, ?_, ⟨[], _, rfl, rfl⟩⟩⟩
  · intro e he
    have hsorted := hs.sorted
    rw [List.pairwise_append] at hsorted
    exact hsorted.2.2 e he _ (List.mem_singleton_self _)
  · intro e he
    rw [List.mem_singleton] at he
    subst he
    exact le_refl _

theorem TailCut.start {lm head : Nat} {h : sl_heap} {lo : List Ent} {v : Nat}
    (ha : Around lm head h VAL_MAX lo [⟨0, VAL_MAX, v, lm⟩])
    (hlive : Live h (lo ++ [⟨0, VAL_MAX, v, lm⟩])) : TailCut lm head h lo lm := by
  have hs := ha.shape
  refine ⟨hs.hd, ?_, ?_, hs.tail_next, ?_, ?_⟩
  · intro e he
    obtain ⟨n, hn, _, _, hlen, hle⟩ := hs.ents e (List.mem_append_left _ he)
    obtain ⟨n1, hn1, htop, _⟩ := hlive e (List.mem_append_left _ he)
    rw [hn] at hn1
    obtain rfl : n = n1 := by simpa using hn1
    exact ⟨n, hn, htop, hlen, hle⟩
  · simpa using hs.nodup
  · intro i hi
    have := hs.links i hi
    rw [lvl_concat, if_pos (by simpa using hi), ← List.cons_append] at this
    exact this.left_of_append
  · intro i hi
    have := ha.adjacent hi
    rw [lvl_first_self (by simpa using hi)] at this
    rw [if_pos hi]
    exact this

theorem TailCut.keep {lm head : Nat} {h h1 : sl_heap} {lo : List Ent} {u : Nat}
    (hc : TailCut lm head h lo u) (hr : HRel (fun _ => same_struct) h h1) :
    TailCut lm head h1 lo u := by
  refine ⟨?_, ?_, hc.nodup, ?_, ?_, ?_⟩
  · obtain ⟨n, hn, h1', h2'⟩ := hc.hd
    obtain ⟨n1, hn1, hst⟩ := hr.get hn
    exact ⟨n1, hn1, by rw [hst.2.2.1, h1'], by rw [hst.2.2.2, h2']⟩
  · intro e he
    obtain ⟨n, hn, htop, hlen, hle⟩ := hc.ents e he
    obtain ⟨n1, hn1, hst⟩ := hr.get hn
    exact ⟨n1, hn1, by rw [hst.2.2.1, htop], by rw [hst.2.2.2]; exact hlen, hle⟩
  · intro i hi
    rw [next_at_of_struct hr]
    exact hc.tail_next i hi
  · intro i hi
    exact chain'_congr_mem (hc.links i hi) (fun x _ y hxy => by
      rw [next_at_of_struct hr]; exact hxy)
  · intro i hi
    rw [next_at_of_struct hr]
    exact hc.cut i hi

theorem TailCut.store {lm head : Nat} {h : sl_heap} {lo : List Ent} {u : Nat}
    (hc : TailCut lm head h lo (u + 1)) (hu : u < lm) :
    ∃ nd h1, h[0]? = some nd ∧ nd.next[u]? = some none ∧
      store_next h (lastD (lvl u lo) head) u none = some h1 ∧
      HRel (fun _ => same_but_next) h h1 ∧ TailCut lm head h1 lo u := by
  obtain ⟨nd, hnd, hnx⟩ := next_at_some (hc.tail_next u hu)
  obtain ⟨np, hnp, hnpx⟩ := next_at_some (hc.cut u hu)
  have hlen : u < np.next.length := (List.getElem?_eq_some.mp hnpx).1
  obtain ⟨h1, hst, hr, hN, _⟩ := store_next_spec hnp hlen none
  refine ⟨nd, h1, hnd, hnx, hst, hr, ⟨?_, ?_, hc.nodup, ?_, ?_, ?_⟩⟩
  · obtain ⟨n, hn, h1', h2'⟩ := hc.hd
    obtain ⟨n1, hn1, hst⟩ := hr.get hn
    exact ⟨n1, hn1, by rw [hst.2.2.1, h1'], by rw [hst.2.2.2.1, h2']⟩
  · intro e he
    obtain ⟨n, hn, htop, hlen, hle⟩ := hc.ents e he
    obtain ⟨n1, hn1, hst⟩ := hr.get hn
    exact ⟨n1, hn1, by rw [hst.2.2.1, htop], by rw [hst.2.2.2.1]; exact hlen, hle⟩
  · intro i hi
    rw [hN]
    split
    · rfl
    · exact hc.tail_next i hi
  · intro i hi
    by_cases hiu : i = u
    · subst hiu
      obtain ⟨Z, hZ⟩ := cons_eq_append_lastD (lvl i lo) head
      have hnd : (head :: lvl i lo).Nodup := by
        refine List.Nodup.sublist ?_ hc.nodup
        unfold lvl
        exact List.Sublist.cons₂ _
          (((List.filter_sublist _).map _).trans (List.sublist_append_left _ _))
      have hlinks := hc.links i hi
      rw [hZ] at hnd hlinks ⊢
      refine chain'_congr_left hlinks ?_
      intro x hx y hxy
      have hne : x ≠ lastD (lvl i lo) head := by
        intro hh
        have := (List.nodup_append.mp hnd).2.2
        exact this hx (by simp [hh])
      rw [hN]
      simpa [hne] using hxy
    · exact chain'_congr_mem (hc.links i hi) (fun x _ y hxy => by
        rw [hN]
        simpa [hiu] using hxy)
  · intro i hi
    rw [hN]
    by_cases hiu : i = u
    · subst hiu
      simp
    · have := hc.cut i hi
      by_cases h2 : i < u
      · rw [if_pos (by omega)] at this
        simpa [hiu, h2] using this
      · rw [if_neg (by omega)] at this
        simpa [hiu, h2] using this

theorem TailCut.unlink {lm head : Nat} {lo : List Ent} :
    ∀ n u (h : sl_heap), n ≤ u → u ≤ lm → TailCut lm head h lo u →
      ∃ h1, delete_unlink 0 ((List.range lm).map (fun i => lastD (lvl i lo) head)) n u h =
          some h1 ∧
        HRel (fun _ => same_but_next) h h1 ∧ TailCut lm head h1 lo (u - n) := by
  intro n
  induction n with
  | zero =>
    intro u h _ _ hc
    exact ⟨h, delete_unlink_zero _ _ _ _, HRel.refl (fun _ m => same_but_next_refl m) h, hc⟩
  | succ n ih =>
    intro u h hnu hulm hc
    obtain ⟨j, rfl⟩ : ∃ j, u = j + 1 := ⟨u - 1, by omega⟩
    have hj_lt : j < lm := by omega
    obtain ⟨nd, h2, hnd, hnx, hst, hr, hc2⟩ := hc.store hj_lt
    obtain ⟨h3, hrun, hr3, hc3⟩ := ih j h2 (by omega) (by omega) hc2
    have heq : j - n = j + 1 - (n + 1) := by omega
    rw [heq] at hc3
    refine ⟨h3, ?_, hr.next_trans hr3, hc3⟩
    simp [delete_unlink, getElem?_range_map _ hj_lt, hnd, hnx, hst, hrun]

theorem TailCut.chain {lm head : Nat} {h : sl_heap} {lo : List Ent} {u : Nat}
    (hc : TailCut lm head h lo u) {i : Nat} (hi : i < lm) {fuel : Nat}
    (hfuel : h.length + 1 ≤ fuel) :
    level_chain h i fuel (some head) =
      some (head :: (lvl i lo ++ if i < u then [0] else [])) := by
  have hlen : lo.length + 2 ≤ h.length := by
    have := nodup_length_le (n := h.length) hc.nodup (by
      intro x hx
      rcases List.mem_cons.mp hx with rfl | hx
      · obtain ⟨n, hn, _⟩ := hc.hd
        exact (List.getElem?_eq_some.mp hn).1
      · rcases List.mem_append.mp hx with hx | hx
        · obtain ⟨e, he, rfl⟩ := List.mem_map.mp hx
          obtain ⟨n, hn, _⟩ := hc.ents e he
          exact (List.getElem?_eq_some.mp hn).1
        · rw [List.mem_singleton] at hx
          subst hx
          obtain ⟨n, hn, _⟩ := next_at_some (hc.tail_next i hi)
          exact (List.getElem?_eq_some.mp hn).1)
    simpa using this
  have hlvl : (lvl i lo).length ≤ lo.length := by
    unfold lvl
    rw [List.length_map]
    exact List.length_filter_le _ _
  by_cases hiu : i < u
  · rw [if_pos hiu]
    refine level_chain_of_chain h i _ head fuel ?_ ?_ ?_
    · rw [← List.cons_append]
      refine List.Chain'.append (hc.links i hi) (List.chain'_singleton _) ?_
      intro x hx y hy
      obtain ⟨Z, hZ⟩ := cons_eq_append_lastD (lvl i lo) head
      rw [hZ] at hx
      simp at hx hy
      subst hx hy
      have := hc.cut i hi
      rwa [if_pos hiu] at this
    · rw [lastD_append]
      exact hc.tail_next i hi
    · simp only [List.length_append, List.length_singleton]
      omega
  · rw [if_neg hiu, List.append_nil]
    refine level_chain_of_chain h i _ head fuel (hc.links i hi) ?_ (by omega)
    have := hc.cut i hi
    rwa [if_neg hiu] at this

theorem TailCut.subset {lm head : Nat} {h : sl_heap} {lo : List Ent} {u : Nat}
    (hc : TailCut lm head h lo u) : tower_subset lm head h := by
  intro i hi
  refine ⟨_, _, hc.chain (by omega) (le_refl _), hc.chain hi (le_refl _), ?_⟩
  refine List.Sublist.cons₂ _ (List.Sublist.append (lvl_sublist_succ i lo) ?_)
  by_cases h1 : i + 1 < u
  · rw [if_pos h1, if_pos (by omega)]
  · rw [if_neg h1]
    exact List.nil_sublist _

theorem TailCut.full {lm head : Nat} {h : sl_heap} {lo : List Ent}
    (hc : TailCut lm head h lo 0) : full_towers head h := by
  intro c0 hc0
  by_cases hlm : 0 < lm
  · rw [hc.chain hlm (le_refl _)] at hc0
    obtain rfl : head :: lvl 0 lo = c0 := by simpa using hc0
    intro a ha
    rcases List.mem_cons.mp ha with rfl | ha2
    · obtain ⟨n, hn, htop, _⟩ := hc.hd
      refine ⟨n, hn, fun i hi => ?_⟩
      exact ⟨_, hc.chain (by omega) (le_refl _), List.mem_cons_self _ _⟩
    · obtain ⟨e, he, _, rfl⟩ := mem_lvl.mp ha2
      obtain ⟨n, hn, htop, _, hle⟩ := hc.ents e he
      refine ⟨n, hn, fun i hi => ?_⟩
      exact ⟨_, hc.chain (by omega) (le_refl _), List.mem_cons_of_mem _
        (List.mem_append_left _ (mem_lvl.mpr ⟨e, he, by omega, rfl⟩))⟩
  · exfalso
    obtain ⟨n, hn, _, hlen⟩ := hc.hd
    have hnx : n.next[0]? = none := by
      rw [List.getElem?_eq_none_iff]; omega
    simp [level_chain, hn, hnx] at hc0

/-! ## Tower subset at every store -/

theorem Inv.stores_tower {lm head : Nat} {h : sl_heap} {G : List Ent} (hinv : Inv lm head h G)
    {k : Int} (hk : k ≤ VAL_MAX) (v : Nat) {L : Nat} (hL1 : 1 ≤ L) (hLm : L ≤ lm) {fuel : Nat}
    (hfuel : h.length ≤ fuel) :
    tower_subset lm head h ∧
    (optimistic_find fuel h ⟨head⟩ k = some 0 ∨ optimistic_find fuel h ⟨head⟩ k = some 1) ∧
    (optimistic_find fuel h ⟨head⟩ k = some 0 →
      ∃ ps ss hl h1 h5,
        optimistic_search fuel h ⟨head⟩ k = some (-1, ps, ss) ∧
        validate_loop insert_valid ps ss L 0 none (-1) h = some (true, hl, h1) ∧
        optimistic_insert fuel h ⟨head⟩ k v L = some (1, h5) ∧
        (∀ j, j ≤ L → ∃ hj,
          insert_splice h1.length ps ss j 0 (h1 ++ [sl_new_simple_node k v L]) = some hj ∧
          tower_subset lm head hj ∧
          insert_splice h1.length ps ss (L - j) j hj =
            insert_splice h1.length ps ss L 0 (h1 ++ [sl_new_simple_node k v L]) ∧
          (j < L → ∃ s hj1, ss[j]? = some s ∧
            store_next hj h1.length j (some s) = some hj1 ∧ tower_subset lm head hj1)) ∧
        tower_subset lm head h5 ∧
        (level_chain h5 0 (h5.length + 1) (some head)).isSome = true ∧
        full_towers head h5) ∧
    (optimistic_find fuel h ⟨head⟩ k = some 1 →
      ∃ (found : Int) (ps ss : List Nat) (nd T : Nat) (h2 : sl_heap) (hl : Int)
          (h3 h6 : sl_heap),
        optimistic_search fuel h ⟨head⟩ k = some (found, ps, ss) ∧
        delete_mark h none false (-1) found ss = some (Sum.inr (some nd, (T : Int), h2)) ∧
        validate_loop delete_valid ps ss T 0 none (-1) h2 = some (true, hl, h3) ∧
        optimistic_delete fuel h ⟨head⟩ k = some (1, h6) ∧
        (∀ j, j ≤ T → ∃ hj,
          delete_unlink nd ps j T h3 = some hj ∧
          tower_subset lm head hj ∧
          delete_unlink nd ps (T - j) (T - j) hj = delete_unlink nd ps T T h3) ∧
        tower_subset lm head h6 ∧
        (level_chain h6 0 (h6.length + 1) (some head)).isSome = true ∧
        full_towers head h6) := by
  refine ⟨hinv.shape.towers, ?_⟩
  rcases lt_or_eq_of_le hk with hk | rfl
  · rcases hinv.shape.key_cases hk with
      ⟨lo, hi, rfl, ha, habs⟩ | ⟨lo, hi, a, v0, L0, rfl, ha, hhi⟩
    · have hf := (ha.find_absent habs (ha.fuel_ok hfuel)).1
      refine ⟨Or.inl hf, ?_, ?_⟩
      · intro _
        obtain ⟨hl, h1, hval, hst⟩ := hinv.insert_stores ha habs v hLm
        obtain ⟨h5, hins, hinv5, _⟩ := hinv.insert_absent ha habs v hL1 hLm (ha.fuel_ok hfuel)
        have hsearch := ha.search_spec (ha.fuel_ok hfuel)
        rw [found_spec_absent habs] at hsearch
        have hc := hinv5.shape.chain_eq (i := 0) (by omega) (le_refl _)
        exact ⟨_, _, hl, h1, h5, hsearch, hval, hins, hst, hinv5.shape.towers, by simp [hc],
          hinv5.towers_full⟩
      · intro h1
        rw [hf] at h1
        simp at h1
    · have hf := (hinv.find_present ha hk (ha.fuel_ok hfuel)).1
      refine ⟨Or.inr hf, ?_, ?_⟩
      · intro h0
        rw [hf] at h0
        simp at h0
      · intro _
        obtain ⟨_, _, _, _, hL01, _, _⟩ := hinv.live ⟨a, k, v0, L0⟩ (by simp)
        obtain ⟨_, _, _, _, _, hL0m⟩ := hinv.shape.ents ⟨a, k, v0, L0⟩ (by simp)
        simp only at hL01 hL0m
        have hL0 : 1 ≤ L0 := hL01 hk
        obtain ⟨hB, hl, h3, hmark, hval, hst⟩ := hinv.delete_stores ha hhi hk
        obtain ⟨h6, hdel, hinv6, _⟩ := hinv.delete_present ha hhi hk (ha.fuel_ok hfuel)
        have hsearch := ha.search_spec (ha.fuel_ok hfuel)
        rw [found_spec_present (e := ⟨a, k, v0, L0⟩) rfl hL0m] at hsearch
        have hc := hinv6.shape.chain_eq (i := 0) (by omega) (le_refl _)
        exact ⟨_, _, _, a, L0, hB, hl, h3, h6, hsearch, hmark, hval, hdel, hst,
          hinv6.shape.towers, by simp [hc], hinv6.towers_full⟩
  · obtain ⟨lo, v0, rfl, ha⟩ := hinv.shape.tail_around
    have hlm : 1 ≤ lm := by omega
    have hf := hinv.find_top ha hlm (ha.fuel_ok hfuel)
    refine ⟨Or.inr hf, ?_, ?_⟩
    · intro h0
      rw [hf] at h0
      simp at h0
    · intro _
      obtain ⟨hB, hl, h3, hmark, hval, hr3, hrun⟩ := hinv.delete_run ha hlm (ha.fuel_ok hfuel)
      have hc3 := (TailCut.start ha hinv.live).keep hr3
      obtain ⟨h4, hunl, hr4, hc4⟩ := TailCut.unlink lm lm h3 (le_refl _) (le_refl _) hc3
      rw [Nat.sub_self] at hc4
      obtain ⟨h6, hdel, hr6, _⟩ := hrun h4 hunl hr4
      have hc6 := hc4.keep hr6
      have hsearch := ha.search_spec (ha.fuel_ok hfuel)
      rw [found_spec_present (e := ⟨0, VAL_MAX, v0, lm⟩) rfl (le_refl _)] at hsearch
      have hc := hc6.chain (i := 0) (by omega) (le_refl _)
      refine ⟨_, _, _, 0, lm, hB, hl, h3, h6, hsearch, hmark, hval, hdel, ?_, hc6.subset,
        by simp [hc], hc6.full⟩
      intro j hj
      obtain ⟨hj1, hrunj, _, hcj⟩ := TailCut.unlink j lm h3 hj (le_refl _) hc3
      refine ⟨hj1, hrunj, hcj.subset, ?_⟩
      have hadd := delete_unlink_add 0 ((List.range lm).map (fun i => lastD (lvl i lo) head))
        j (lm - j) lm h3
      rw [hrunj] at hadd
      have hjL : j + (lm - j) = lm := by omega
      rw [hjL] at hadd
      simpa using hadd.symm

/-- C9. Single-threaded, on every heap reachable from a fresh map, for every
key up to `LONG_MAX` (every `long`, the tail key included) and every tower
height `L` in `[1, levelmax]`: tower subset holds before the call, and
`optimistic_find` returns `0` or `1`.  If it returns `0`, `optimistic_insert`
runs its splice loop and returns `1`; after every number `j ≤ L` of completed
iterations of that loop (bottom-up), and also after the first of the two
stores of iteration `j` (`new_node->next[j] = succs[j]`), the chain of every
level `i + 1` from the head is a subsequence of the chain of level `i`.  If it
returns `1`, `optimistic_delete` runs its unlink loop and returns `1`; after
every number `j ≤ toplevel` of stores of that loop (top-down) the same holds.
In both cases the remaining iterations applied to the intermediate heap give
the heap of the whole loop, and after the call tower subset holds, the
level-`0` chain exists, and every node on it is on the chain of every level
below its `toplevel`.  (When the key is present `optimistic_insert` returns
`0` without a store, and so does `optimistic_delete` when it is absent.) -/
theorem tower_subset_at_every_store (lm : Nat) (log : List (sl_call × Int)) (h : sl_heap)
    (hr : Reachable lm log h) (k : Int) (hk : k ≤ VAL_MAX) (v L : Nat) (hL1 : 1 ≤ L)
    (hLm : L ≤ lm) (fuel : Nat) (hfuel : h.length ≤ fuel) :
    tower_subset lm (sl_set_new lm).1.head h ∧
    (optimistic_find fuel h (sl_set_new lm).1 k = some 0 ∨
      optimistic_find fuel h (sl_set_new lm).1 k = some 1) ∧
    (optimistic_find fuel h (sl_set_new lm).1 k = some 0 →
      ∃ ps ss hl h1 h5,
        optimistic_search fuel h (sl_set_new lm).1 k = some (-1, ps, ss) ∧
        validate_loop insert_valid ps ss L 0 none (-1) h = some (true, hl, h1) ∧
        optimistic_insert fuel h (sl_set_new lm).1 k v L = some (1, h5) ∧
        (∀ j, j ≤ L → ∃ hj,
          insert_splice h1.length ps ss j 0 (h1 ++ [sl_new_simple_node k v L]) = some hj ∧
          tower_subset lm (sl_set_new lm).1.head hj ∧
          insert_splice h1.length ps ss (L - j) j hj =
            insert_splice h1.length ps ss L 0 (h1 ++ [sl_new_simple_node k v L]) ∧
          (j < L → ∃ s hj1, ss[j]? = some s ∧
            store_next hj h1.length j (some s) = some hj1 ∧
            tower_subset lm (sl_set_new lm).1.head hj1)) ∧
        tower_subset lm (sl_set_new lm).1.head h5 ∧
        (level_chain h5 0 (h5.length + 1) (some (sl_set_new lm).1.head)).isSome = true ∧
        full_towers (sl_set_new lm).1.head h5) ∧
    (optimistic_find fuel h (sl_set_new lm).1 k = some 1 →
      ∃ (found : Int) (ps ss : List Nat) (nd T : Nat) (h2 : sl_heap) (hl : Int)
          (h3 h6 : sl_heap),
        optimistic_search fuel h (sl_set_new lm).1 k = some (found, ps, ss) ∧
        delete_mark h none false (-1) found ss = some (Sum.inr (some nd, (T : Int), h2)) ∧
        validate_loop delete_valid ps ss T 0 none (-1) h2 = some (true, hl, h3) ∧
        optimistic_delete fuel h (sl_set_new lm).1 k = some (1, h6) ∧
        (∀ j, j ≤ T → ∃ hj,
          delete_unlink nd ps j T h3 = some hj ∧
          tower_subset lm (sl_set_new lm).1.head hj ∧
          delete_unlink nd ps (T - j) (T - j) hj = delete_unlink nd ps T T h3) ∧
        tower_subset lm (sl_set_new lm).1.head h6 ∧
        (level_chain h6 0 (h6.length + 1) (some (sl_set_new lm).1.head)).isSome = true ∧
        full_towers (sl_set_new lm).1.head h6) := by
  obtain ⟨G, hinv, _⟩ := hr.inv
  exact hinv.stores_tower hk v hL1 hLm hfuel

theorem tower_subset_at_every_store_witness :
    Reachable 2 [(sl_call.insert 5 7 2, 1)] one_key_heap ∧ (3 : Int) ≤ VAL_MAX ∧ 1 ≤ 1 ∧
      1 ≤ 2 ∧ one_key_heap.length ≤ 3 ∧
      (tower_subset 2 (sl_set_new 2).1.head one_key_heap ∧
      (optimistic_find 3 one_key_heap (sl_set_new 2).1 3 = some 0 ∨
        optimistic_find 3 one_key_heap (sl_set_new 2).1 3 = some 1) ∧
      (optimistic_find 3 one_key_heap (sl_set_new 2).1 3 = some 0 →
        ∃ ps ss hl h1 h5,
          optimistic_search 3 one_key_heap (sl_set_new 2).1 3 = some (-1, ps, ss) ∧
          validate_loop insert_valid ps ss 1 0 none (-1) one_key_heap = some (true, hl, h1) ∧
          optimistic_insert 3 one_key_heap (sl_set_new 2).1 3 4 1 = some (1, h5) ∧
          (∀ j, j ≤ 1 → ∃ hj,
            insert_splice h1.length ps ss j 0 (h1 ++ [sl_new_simple_node 3 4 1]) = some hj ∧
            tower_subset 2 (sl_set_new 2).1.head hj ∧
            insert_splice h1.length ps ss (1 - j) j hj =
              insert_splice h1.length ps ss 1 0 (h1 ++ [sl_new_simple_node 3 4 1]) ∧
            (j < 1 → ∃ s hj1, ss[j]? = some s ∧
              store_next hj h1.length j (some s) = some hj1 ∧
              tower_subset 2 (sl_set_new 2).1.head hj1)) ∧
          tower_subset 2 (sl_set_new 2).1.head h5 ∧
          (level_chain h5 0 (h5.length + 1) (some (sl_set_new 2).1.head)).isSome = true ∧
          full_towers (sl_set_new 2).1.head h5) ∧
      (optimistic_find 3 one_key_heap (sl_set_new 2).1 3 = some 1 →
        ∃ (found : Int) (ps ss : List Nat) (nd T : Nat) (h2 : sl_heap) (hl : Int)
            (h3 h6 : sl_heap),
          optimistic_search 3 one_key_heap (sl_set_new 2).1 3 = some (found, ps, ss) ∧
          delete_mark one_key_heap none false (-1) found ss =
            some (Sum.inr (some nd, (T : Int), h2)) ∧
          validate_loop delete_valid ps ss T 0 none (-1) h2 = some (true, hl, h3) ∧
          optimistic_delete 3 one_key_heap (sl_set_new 2).1 3 = some (1, h6) ∧
          (∀ j, j ≤ T → ∃ hj,
            delete_unlink nd ps j T h3 = some hj ∧
            tower_subset 2 (sl_set_new 2).1.head hj ∧
            delete_unlink nd ps (T - j) (T - j) hj = delete_unlink nd ps T T h3) ∧
          tower_subset 2 (sl_set_new 2).1.head h6 ∧
          (level_chain h6 0 (h6.length + 1) (some (sl_set_new 2).1.head)).isSome = true ∧
          full_towers (sl_set_new 2).1.head h6)) :=
  ⟨one_key_heap_reachable, by decide, by decide, by decide, by decide,
    tower_subset_at_every_store 2 _ one_key_heap one_key_heap_reachable 3 (by decide) 4 1
      (by decide) (by decide) 3 (by decide)⟩

/-! ## Delete undoes insert -/

theorem Around.with_key {lm head : Nat} {h h1 : sl_heap} {k : Int} {lo hi : List Ent}
    (ha : Around lm head h k lo hi) (e : Ent) (hek : e.key = k)
    (hs : Shape lm head h1 (lo ++ e :: hi)) : Around lm head h1 k lo (e :: hi) := by
  refine ⟨hs, ha.below, ?_, ?_⟩
  · intro x hx
    rcases List.mem_cons.mp hx with rfl | hx
    · omega
    · exact ha.above x hx
  · obtain ⟨hi0, t, hhi, ht⟩ := ha.last
    exact ⟨e :: hi0, t, by rw [hhi]; rfl, ht⟩

theorem Inv.insert_delete_cycle {lm head : Nat} {h : sl_heap} {k : Int} {lo hi : List Ent}
    (hinv : Inv lm head h (lo ++ hi)) (ha : Around lm head h k lo hi)
    (habs : ∀ e ∈ hi, k < e.key) (hk : k < VAL_MAX) (a b : Nat) {L M : Nat}
    (hL1 : 1 ≤ L) (hLm : L ≤ lm) (hM1 : 1 ≤ M) (hMm : M ≤ lm) {fuel : Nat}
    (hfuel : h.length + 2 ≤ fuel) :
    ∃ h1 h2 h3,
      optimistic_insert fuel h ⟨head⟩ k a L = some (1, h1) ∧
      optimistic_delete fuel h1 ⟨head⟩ k = some (1, h2) ∧
      (∀ i, i < lm → ∃ c,
        level_chain h i (h.length + 1) (some head) = some (head :: c) ∧
        level_chain h2 i (h2.length + 1) (some head) = some (head :: c) ∧
        c.getLast? = some 0 ∧
        ∀ x ∈ c, ∃ n n2, h[x]? = some n ∧ h2[x]? = some n2 ∧ n2.key = n.key ∧
          n2.val = n.val ∧ n2.toplevel = n.toplevel) ∧
      optimistic_delete fuel h2 ⟨head⟩ k = some (0, h2) ∧
      optimistic_insert fuel h2 ⟨head⟩ k b M = some (1, h3) ∧
      optimistic_get fuel h3 ⟨head⟩ k = some b := by
  have hf0 := ha.fuel_ok (by omega : h.length ≤ fuel)
  obtain ⟨h1, hins, hinv1, hlen1⟩ := hinv.insert_absent ha habs a hL1 hLm hf0
  have ha1 := ha.with_key ⟨h.length, k, a, L⟩ rfl hinv1.shape
  obtain ⟨h2, hdel, hinv2, hlen2⟩ := hinv1.delete_present ha1 ha.last_split hk hf0
  have ha2 : Around lm head h2 k lo hi := ⟨hinv2.shape, ha.below, ha.above, ha.last⟩
  have hfind2 := (ha2.find_absent habs hf0).1
  have hdel2 := delete_of_find_zero hfind2 (by omega)
  obtain ⟨h3, hins3, hinv3, hlen3⟩ := hinv2.insert_absent ha2 habs b hM1 hMm hf0
  have ha3 := ha2.with_key ⟨h2.length, k, b, M⟩ rfl hinv3.shape
  have hget := (hinv3.find_present ha3 hk hf0).2
  refine ⟨h1, h2, h3, hins, hdel, ?_, hdel2, hins3, hget⟩
  intro i hilt
  refine ⟨lvl i (lo ++ hi), hinv.shape.chain_eq hilt (le_refl _),
    hinv2.shape.chain_eq hilt (le_refl _), ?_, ?_⟩
  · obtain ⟨c, hc⟩ := hinv.shape.lvl_tail hilt
    rw [hc]
    simp
  · intro x hx
    obtain ⟨e, he, _, rfl⟩ := mem_lvl.mp hx
    obtain ⟨n, hn, hk1, hv1, _⟩ := hinv.shape.ents e he
    obtain ⟨n2, hn2, hk2, hv2, _⟩ := hinv2.shape.ents e he
    obtain ⟨n', hn', ht1, _⟩ := hinv.live e he
    obtain ⟨n2', hn2', ht2, _⟩ := hinv2.live e he
    rw [hn] at hn'
    rw [hn2] at hn2'
    obtain rfl : n = n' := by simpa using hn'
    obtain rfl : n2 = n2' := by simpa using hn2'
    exact ⟨n, n2, hn, hn2, by rw [hk1, hk2], by rw [hv1, hv2], by rw [ht1, ht2]⟩

/-- C10. Delete undoes insert.  Single-threaded, on every heap reachable from a
fresh map in which `optimistic_find` does not see the key `k` (strictly below
the tail key), and for all tower heights `L` and `M` in `[1, levelmax]`:
`optimistic_insert` of `k` with value `a` returns `1`; the following
`optimistic_delete` of `k` returns `1`, and at every level the chain of
addresses from the head to the tail (address `0`) is then the chain that
existed before the insert, its nodes holding the same key, value and height;
a second `optimistic_delete` of `k` returns `0` and leaves the heap as it is;
and a following `optimistic_insert` of `k` with value `b` returns `1`, after
which `optimistic_get` returns `b`. -/
theorem delete_undoes_insert (lm : Nat) (log : List (sl_call × Int)) (h : sl_heap)
    (hr : Reachable lm log h) (k : Int) (hk : k < VAL_MAX) (a b L M : Nat)
    (hL1 : 1 ≤ L) (hLm : L ≤ lm) (hM1 : 1 ≤ M) (hMm : M ≤ lm) (fuel : Nat)
    (hfuel : h.length + 2 ≤ fuel)
    (habs : optimistic_find fuel h (sl_set_new lm).1 k = some 0) :
    ∃ h1 h2 h3,
      optimistic_insert fuel h (sl_set_new lm).1 k a L = some (1, h1) ∧
      optimistic_delete fuel h1 (sl_set_new lm).1 k = some (1, h2) ∧
      (∀ i, i < lm → ∃ c,
        level_chain h i (h.length + 1) (some (sl_set_new lm).1.head) =
          some ((sl_set_new lm).1.head :: c) ∧
        level_chain h2 i (h2.length + 1) (some (sl_set_new lm).1.head) =
          some ((sl_set_new lm).1.head :: c) ∧
        c.getLast? = some 0 ∧
        ∀ x ∈ c, ∃ n n2, h[x]? = some n ∧ h2[x]? = some n2 ∧ n2.key = n.key ∧
          n2.val = n.val ∧ n2.toplevel = n.toplevel) ∧
      optimistic_delete fuel h2 (sl_set_new lm).1 k = some (0, h2) ∧
      optimistic_insert fuel h2 (sl_set_new lm).1 k b M = some (1, h3) ∧
      optimistic_get fuel h3 (sl_set_new lm).1 k = some b := by
  obtain ⟨G, hinv, _⟩ := hr.inv
  rcases hinv.shape.key_cases hk with ⟨lo, hi, rfl, ha, hab⟩ | ⟨lo, hi, x, v0, L0, rfl, ha, _⟩
  · exact hinv.insert_delete_cycle ha hab hk a b hL1 hLm hM1 hMm hfuel
  · have hf := (hinv.find_present ha hk (ha.fuel_ok (by omega : h.length ≤ fuel))).1
    have hf0 : optimistic_find fuel h ⟨1⟩ k = some 0 := habs
    rw [hf] at hf0
    simp at hf0

theorem delete_undoes_insert_witness :
    Reachable 2 [] (sl_set_new 2).2 ∧ (5 : Int) < VAL_MAX ∧ 1 ≤ 2 ∧ 2 ≤ 2 ∧ 1 ≤ 1 ∧ 1 ≤ 2 ∧
      (sl_set_new 2).2.length + 2 ≤ 4 ∧
      optimistic_find 4 (sl_set_new 2).2 (sl_set_new 2).1 5 = some 0 ∧
      ∃ h1 h2 h3,
        optimistic_insert 4 (sl_set_new 2).2 (sl_set_new 2).1 5 7 2 = some (1, h1) ∧
        optimistic_delete 4 h1 (sl_set_new 2).1 5 = some (1, h2) ∧
        (∀ i, i < 2 → ∃ c,
          level_chain (sl_set_new 2).2 i ((sl_set_new 2).2.length + 1)
            (some (sl_set_new 2).1.head) = some ((sl_set_new 2).1.head :: c) ∧
          level_chain h2 i (h2.length + 1) (some (sl_set_new 2).1.head) =
            some ((sl_set_new 2).1.head :: c) ∧
          c.getLast? = some 0 ∧
          ∀ x ∈ c, ∃ n n2, (sl_set_new 2).2[x]? = some n ∧ h2[x]? = some n2 ∧
            n2.key = n.key ∧ n2.val = n.val ∧ n2.toplevel = n.toplevel) ∧
        optimistic_delete 4 h2 (sl_set_new 2).1 5 = some (0, h2) ∧
        optimistic_insert 4 h2 (sl_set_new 2).1 5 9 1 = some (1, h3) ∧
        optimistic_get 4 h3 (sl_set_new 2).1 5 = some 9 :=
  ⟨Reachable.fresh, by decide, by decide, by decide, by decide, by decide, by decide,
    by decide,
    delete_undoes_insert 2 [] (sl_set_new 2).2 Reachable.fresh 5 (by decide) 7 9 2 1
      (by decide) (by decide) (by decide) (by decide) 4 (by decide) (by decide)⟩

/-! ## The logged operations compute what the plain ones compute -/

theorem search_scan_log_fst (h : sl_heap) (k : Int) (i : Nat) :
    ∀ (fuel p : Nat) (c : Option Nat),
      (search_scan_log h k i fuel p c).map Prod.fst = search_scan h k i fuel p c := by
  intro fuel
  induction fuel with
  | zero => intro p c; rfl
  | succ fuel ih =>
    intro p c
    cases c with
    | none => rfl
    | some c =>
      cases hc : h[c]? with
      | none => simp [search_scan_log, search_scan, hc]
      | some n =>
        by_cases hk : k > n.key
        · cases hnx : n.next[i]? with
          | none => simp [search_scan_log, search_scan, hc, hk, hnx]
          | some nx =>
            have := ih c nx
            cases hr : search_scan_log h k i fuel c nx with
            | none =>
              rw [hr] at this
              simp [search_scan_log, search_scan, hc, hk, hnx, hr, ← this]
            | some r =>
              rw [hr] at this
              simp [search_scan_log, search_scan, hc, hk, hnx, hr, ← this]
        · simp [search_scan_log, search_scan, hc, hk]

theorem search_levels_log_fst (h : sl_heap) (k : Int) (fuel : Nat) :
    ∀ (n p : Nat) (found : Int),
      (search_levels_log h k fuel n p found).map Prod.fst = search_levels h k fuel n p found := by
  intro n
  induction n with
  | zero => intro p found; rfl
  | succ n ih =>
    intro p found
    cases hp : h[p]? with
    | none => simp [search_levels_log, search_levels, hp]
    | some pn =>
      cases hnx : pn.next[n]? with
      | none => simp [search_levels_log, search_levels, hp, hnx]
      | some c0 =>
        have hsc := search_scan_log_fst h k n fuel p c0
        cases hr : search_scan_log h k n fuel p c0 with
        | none =>
          rw [hr] at hsc
          simp [search_levels_log, search_levels, hp, hnx, hr, ← hsc]
        | some r =>
          obtain ⟨⟨p1, c1⟩, l1⟩ := r
          rw [hr] at hsc
          cases hc : h[c1]? with
          | none => simp [search_levels_log, search_levels, hp, hnx, hr, ← hsc, hc]
          | some cn =>
            have hrec := ih p1 (if found = -1 ∧ k = cn.key then (n : Int) else found)
            cases hr2 : search_levels_log h k fuel n p1
                (if found = -1 ∧ k = cn.key then (n : Int) else found) with
            | none =>
              rw [hr2] at hrec
              simp [search_levels_log, search_levels, hp, hnx, hr, ← hsc, hc, hr2, ← hrec]
            | some r2 =>
              obtain ⟨⟨f, ps, ss⟩, l2⟩ := r2
              rw [hr2] at hrec
              simp [search_levels_log, search_levels, hp, hnx, hr, ← hsc, hc, hr2, ← hrec]

theorem optimistic_search_log_fst (fuel : Nat) (h : sl_heap) (m : sl_map) (k : Int) :
    (optimistic_search_log fuel h m k).map Prod.fst = optimistic_search fuel h m k := by
  cases hhd : h[m.head]? with
  | none => simp [optimistic_search_log, optimistic_search, hhd]
  | some hd =>
    have := search_levels_log_fst h k fuel hd.toplevel m.head (-1)
    cases hr : search_levels_log h k fuel hd.toplevel m.head (-1) with
    | none =>
      rw [hr] at this
      simp [optimistic_search_log, optimistic_search, hhd, hr, ← this]
    | some r =>
      rw [hr] at this
      simp [optimistic_search_log, optimistic_search, hhd, hr, ← this]

theorem optimistic_find_log_fst (fuel : Nat) (h : sl_heap) (m : sl_map) (k : Int) :
    (optimistic_find_log fuel h m k).map Prod.fst = optimistic_find fuel h m k := by
  have := optimistic_search_log_fst fuel h m k
  cases hr : optimistic_search_log fuel h m k with
  | none =>
    rw [hr] at this
    simp [optimistic_find_log, optimistic_find, hr, ← this]
  | some r =>
    obtain ⟨⟨f, ps, ss⟩, l⟩ := r
    rw [hr] at this
    by_cases hf : f = -1
    · simp [optimistic_find_log, optimistic_find, hr, ← this, hf]
    · cases hs : ss[f.toNat]? with
      | none => simp [optimistic_find_log, optimistic_find, hr, ← this, hf, hs]
      | some a =>
        cases ha : h[a]? with
        | none => simp [optimistic_find_log, optimistic_find, hr, ← this, hf, hs, ha]
        | some n => simp [optimistic_find_log, optimistic_find, hr, ← this, hf, hs, ha]

theorem optimistic_get_log_fst (fuel : Nat) (h : sl_heap) (m : sl_map) (k : Int) :
    (optimistic_get_log fuel h m k).map Prod.fst = optimistic_get fuel h m k := by
  have := optimistic_search_log_fst fuel h m k
  cases hr : optimistic_search_log fuel h m k with
  | none =>
    rw [hr] at this
    simp [optimistic_get_log, optimistic_get, hr, ← this]
  | some r =>
    obtain ⟨⟨f, ps, ss⟩, l⟩ := r
    rw [hr] at this
    by_cases hf : f = -1
    · simp [optimistic_get_log, optimistic_get, hr, ← this, hf]
    · cases hs : ss[f.toNat]? with
      | none => simp [optimistic_get_log, optimistic_get, hr, ← this, hf, hs]
      | some a =>
        cases ha : h[a]? with
        | none => simp [optimistic_get_log, optimistic_get, hr, ← this, hf, hs, ha]
        | some n => simp [optimistic_get_log, optimistic_get, hr, ← this, hf, hs, ha]

/-! ## Reading a log: appends and steps that do not count -/

theorem locked_by_append (l1 l2 : List sl_event) :
    locked_by (l1 ++ l2) = locked_by l1 ++ locked_by l2 := by
  induction l1 with
  | nil => rfl
  | cons e l ih => cases e <;> simp [locked_by, ih]

theorem released_by_append (l1 l2 : List sl_event) :
    released_by (l1 ++ l2) = released_by l1 ++ released_by l2 := by
  induction l1 with
  | nil => rfl
  | cons e l ih => cases e <;> simp [released_by, ih]

theorem stores_of_append (l1 l2 : List sl_event) :
    stores_of (l1 ++ l2) = stores_of l1 ++ stores_of l2 := by
  induction l1 with
  | nil => rfl
  | cons e l ih => cases e <;> simp [stores_of, ih]

theorem backoff_steps_append (l1 l2 : List sl_event) :
    backoff_steps (l1 ++ l2) = backoff_steps l1 ++ backoff_steps l2 := by
  induction l1 with
  | nil => rfl
  | cons e l ih => cases e <;> simp [backoff_steps, ih]

theorem run_log_append (l1 l2 : List sl_event) :
    ∀ h, run_log h (l1 ++ l2) = (run_log h l1).bind (fun h1 => run_log h1 l2) := by
  induction l1 with
  | nil => intro h; rfl
  | cons e l ih =>
    intro h
    cases he : run_event h e with
    | none => simp [run_log, he]
    | some h1 => simp [run_log, he, ih]

theorem held_after_append (l1 l2 : List sl_event) :
    ∀ H, held_after H (l1 ++ l2) = (held_after H l1).bind (fun H1 => held_after H1 l2) := by
  induction l1 with
  | nil => intro H; rfl
  | cons e l ih =>
    intro H
    cases e with
    | lock a =>
      by_cases ha : a ∈ H
      · simp [held_after, ha]
      · simp [held_after, ha, ih]
    | unlock a =>
      by_cases ha : a ∈ H
      · simp [held_after, ha, ih]
      · simp [held_after, ha]
    | _ => simp [held_after, ih]

theorem locked_by_eq_nil {l : List sl_event} (hl : ∀ e ∈ l, ∀ a, e ≠ sl_event.lock a) :
    locked_by l = [] := by
  induction l with
  | nil => rfl
  | cons e l ih =>
    have ih' := ih (fun x hx => hl x (List.mem_cons_of_mem _ hx))
    have he := hl e (List.mem_cons_self _ _)
    cases e <;> simp_all [locked_by]

theorem released_by_eq_nil {l : List sl_event} (hl : ∀ e ∈ l, ∀ a, e ≠ sl_event.unlock a) :
    released_by l = [] := by
  induction l with
  | nil => rfl
  | cons e l ih =>
    have ih' := ih (fun x hx => hl x (List.mem_cons_of_mem _ hx))
    have he := hl e (List.mem_cons_self _ _)
    cases e <;> simp_all [released_by]

theorem stores_of_eq_nil {l : List sl_event}
    (hl : ∀ e ∈ l, (∀ a i v, e ≠ sl_event.next a i v) ∧ (∀ a, e ≠ sl_event.marked a) ∧
      ∀ a, e ≠ sl_event.fullylinked a) : stores_of l = [] := by
  induction l with
  | nil => rfl
  | cons e l ih =>
    have ih' := ih (fun x hx => hl x (List.mem_cons_of_mem _ hx))
    have he := hl e (List.mem_cons_self _ _)
    cases e <;> simp_all [stores_of]

theorem backoff_steps_eq_nil {l : List sl_event}
    (hl : ∀ e ∈ l, (∀ b, e ≠ sl_event.invalid b) ∧ ∀ s n, e ≠ sl_event.sleep s n) :
    backoff_steps l = [] := by
  induction l with
  | nil => rfl
  | cons e l ih =>
    have ih' := ih (fun x hx => hl x (List.mem_cons_of_mem _ hx))
    have he := hl e (List.mem_cons_self _ _)
    cases e <;> simp_all [backoff_steps]

/-- A log of reads and calls of the search changes neither the heap nor the
locks held. -/
theorem run_log_of_reads {l : List sl_event}
    (hl : ∀ e ∈ l, e = sl_event.search ∨ ∃ a, e = sl_event.read a) (h : sl_heap)
    (H : List Nat) : run_log h l = some h ∧ held_after H l = some H := by
  induction l with
  | nil => exact ⟨rfl, rfl⟩
  | cons e l ih =>
    have ih' := ih (fun x hx => hl x (List.mem_cons_of_mem _ hx))
    rcases hl e (List.mem_cons_self _ _) with rfl | ⟨a, rfl⟩
    · simpa [run_log, run_event, held_after] using ih'
    · simpa [run_log, run_event, held_after] using ih'

/-! ## The log of the search and of the lookups -/

theorem search_scan_log_reads (h : sl_heap) (k : Int) (i : Nat) :
    ∀ (fuel p : Nat) (c : Option Nat) (r : Nat × Nat) (l : List sl_event),
      search_scan_log h k i fuel p c = some (r, l) → ∀ e ∈ l, ∃ a, e = sl_event.read a := by
  intro fuel
  induction fuel with
  | zero => intro p c r l hr; simp [search_scan_log] at hr
  | succ fuel ih =>
    intro p c r l hr
    cases c with
    | none => simp [search_scan_log] at hr
    | some c =>
      cases hc : h[c]? with
      | none => simp [search_scan_log, hc] at hr
      | some n =>
        by_cases hk : k > n.key
        · cases hnx : n.next[i]? with
          | none => simp [search_scan_log, hc, hk, hnx] at hr
          | some nx =>
            cases hrec : search_scan_log h k i fuel c nx with
            | none => simp [search_scan_log, hc, hk, hnx, hrec] at hr
            | some r1 =>
              obtain ⟨r1, l1⟩ := r1
              simp only [search_scan_log, hc, hk, hnx, hrec, if_true, Option.some.injEq,
                Prod.mk.injEq] at hr
              obtain ⟨_, rfl⟩ := hr
              intro e he
              simp only [List.mem_cons] at he
              rcases he with rfl | rfl | he
              · exact ⟨c, rfl⟩
              · exact ⟨c, rfl⟩
              · exact ih c nx r1 l1 hrec e he
        · simp only [search_scan_log, hc, hk, if_false, Option.some.injEq, Prod.mk.injEq] at hr
          obtain ⟨_, rfl⟩ := hr
          intro e he
          simp only [List.mem_singleton] at he
          exact ⟨c, he⟩

theorem search_levels_log_reads (h : sl_heap) (k : Int) (fuel : Nat) :
    ∀ (n p : Nat) (found : Int) (r : Int × List Nat × List Nat) (l : List sl_event),
      search_levels_log h k fuel n p found = some (r, l) →
      ∀ e ∈ l, ∃ a, e = sl_event.read a := by
  intro n
  induction n with
  | zero =>
    intro p found r l hr
    simp only [search_levels_log, Option.some.injEq, Prod.mk.injEq] at hr
    obtain ⟨_, rfl⟩ := hr
    simp
  | succ n ih =>
    intro p found r l hr
    cases hp : h[p]? with
    | none => simp [search_levels_log, hp] at hr
    | some pn =>
      cases hnx : pn.next[n]? with
      | none => simp [search_levels_log, hp, hnx] at hr
      | some c0 =>
        cases hsc : search_scan_log h k n fuel p c0 with
        | none => simp [search_levels_log, hp, hnx, hsc] at hr
        | some r1 =>
          obtain ⟨⟨p1, c1⟩, l1⟩ := r1
          cases hc : h[c1]? with
          | none => simp [search_levels_log, hp, hnx, hsc, hc] at hr
          | some cn =>
            cases hrec : search_levels_log h k fuel n p1
                (if found = -1 ∧ k = cn.key then (n : Int) else found) with
            | none => simp [search_levels_log, hp, hnx, hsc, hc, hrec] at hr
            | some r2 =>
              obtain ⟨⟨f, ps, ss⟩, l2⟩ := r2
              simp only [search_levels_log, hp, hnx, hsc, hc, hrec, Option.some.injEq,
                Prod.mk.injEq] at hr
              obtain ⟨_, rfl⟩ := hr
              intro e he
              simp only [List.mem_cons, List.mem_append] at he
              rcases he with ((rfl | he) | he) | he
              · exact ⟨p, rfl⟩
              · exact search_scan_log_reads h k n fuel p c0 _ l1 hsc e he
              · by_cases hf : found = -1
                · rw [if_pos hf] at he
                  exact ⟨c1, by simpa using he⟩
                · rw [if_neg hf] at he
                  simp at he
              · exact ih _ _ _ l2 hrec e he

theorem optimistic_search_log_shape {fuel : Nat} {h : sl_heap} {m : sl_map} {k : Int}
    {r : Int × List Nat × List Nat} {l : List sl_event}
    (hs : optimistic_search_log fuel h m k = some (r, l)) :
    ∃ l1, l = sl_event.search :: l1 ∧ ∀ e ∈ l1, ∃ a, e = sl_event.read a := by
  cases hhd : h[m.head]? with
  | none => simp [optimistic_search_log, hhd] at hs
  | some hd =>
    cases hr : search_levels_log h k fuel hd.toplevel m.head (-1) with
    | none => simp [optimistic_search_log, hhd, hr] at hs
    | some r1 =>
      obtain ⟨r1, l1⟩ := r1
      simp only [optimistic_search_log, hhd, hr, Option.some.injEq, Prod.mk.injEq] at hs
      obtain ⟨_, rfl⟩ := hs
      refine ⟨_, rfl, ?_⟩
      intro e he
      rcases List.mem_cons.mp he with rfl | he
      · exact ⟨m.head, rfl⟩
      · exact search_levels_log_reads h k fuel _ _ _ _ l1 hr e he

theorem optimistic_search_log_reads {fuel : Nat} {h : sl_heap} {m : sl_map} {k : Int}
    {r : Int × List Nat × List Nat} {l : List sl_event}
    (hs : optimistic_search_log fuel h m k = some (r, l)) :
    ∀ e ∈ l, e = sl_event.search ∨ ∃ a, e = sl_event.read a := by
  obtain ⟨l1, rfl, hl1⟩ := optimistic_search_log_shape hs
  intro e he
  rcases List.mem_cons.mp he with rfl | he
  · exact Or.inl rfl
  · exact Or.inr (hl1 e he)

theorem optimistic_find_log_reads {fuel : Nat} {h : sl_heap} {m : sl_map} {k : Int}
    {r : Int} {l : List sl_event} (hf : optimistic_find_log fuel h m k = some (r, l)) :
    ∀ e ∈ l, e = sl_event.search ∨ ∃ a, e = sl_event.read a := by
  cases hr : optimistic_search_log fuel h m k with
  | none => simp [optimistic_find_log, hr] at hf
  | some r1 =>
    obtain ⟨⟨f, ps, ss⟩, l1⟩ := r1
    have hl1 := optimistic_search_log_reads hr
    by_cases hfo : f = -1
    · simp only [optimistic_find_log, hr, hfo, ne_eq, not_true_eq_false, if_false,
        Option.some.injEq, Prod.mk.injEq] at hf
      obtain ⟨_, rfl⟩ := hf
      exact hl1
    · cases hs : ss[f.toNat]? with
      | none => simp [optimistic_find_log, hr, hfo, hs] at hf
      | some a =>
        cases ha : h[a]? with
        | none => simp [optimistic_find_log, hr, hfo, hs, ha] at hf
        | some n =>
          simp only [optimistic_find_log, hr, hfo, hs, ha, ne_eq, not_false_eq_true, if_true,
            Option.some.injEq, Prod.mk.injEq] at hf
          obtain ⟨_, rfl⟩ := hf
          intro e he
          simp only [List.mem_append, List.mem_cons] at he
          rcases he with he | rfl | he
          · exact hl1 e he
          · exact Or.inr ⟨a, rfl⟩
          · by_cases hfl : n.fullylinked = true
            · rw [if_pos hfl] at he
              exact Or.inr ⟨a, by simpa using he⟩
            · rw [if_neg hfl] at he
              simp at he

theorem optimistic_get_log_reads {fuel : Nat} {h : sl_heap} {m : sl_map} {k : Int}
    {r : Nat} {l : List sl_event} (hf : optimistic_get_log fuel h m k = some (r, l)) :
    ∀ e ∈ l, e = sl_event.search ∨ ∃ a, e = sl_event.read a := by
  cases hr : optimistic_search_log fuel h m k with
  | none => simp [optimistic_get_log, hr] at hf
  | some r1 =>
    obtain ⟨⟨f, ps, ss⟩, l1⟩ := r1
    have hl1 := optimistic_search_log_reads hr
    by_cases hfo : f = -1
    · simp only [optimistic_get_log, hr, hfo, ne_eq, not_true_eq_false, if_false,
        Option.some.injEq, Prod.mk.injEq] at hf
      obtain ⟨_, rfl⟩ := hf
      exact hl1
    · cases hs : ss[f.toNat]? with
      | none => simp [optimistic_get_log, hr, hfo, hs] at hf
      | some a =>
        cases ha : h[a]? with
        | none => simp [optimistic_get_log, hr, hfo, hs, ha] at hf
        | some n =>
          simp only [optimistic_get_log, hr, hfo, hs, ha, ne_eq, not_false_eq_true, if_true,
            Option.some.injEq, Prod.mk.injEq] at hf
          obtain ⟨_, rfl⟩ := hf
          intro e he
          simp only [List.mem_append, List.mem_cons] at he
          rcases he with he | rfl | he
          · exact hl1 e he
          · exact Or.inr ⟨a, rfl⟩
          · by_cases hfl : n.fullylinked = true
            · rw [if_pos hfl] at he
              rcases List.mem_cons.mp he with rfl | he
              · exact Or.inr ⟨a, rfl⟩
              · by_cases hmk : (!n.marked) = true
                · rw [if_pos hmk] at he
                  exact Or.inr ⟨a, by simpa using he⟩
                · rw [if_neg hmk] at he
                  simp at he
            · rw [if_neg hfl] at he
              simp at he

/-! ## Lookups, sentinel keys and sleep intervals -/

theorem reads_no_effect {l : List sl_event}
    (hl : ∀ e ∈ l, e = sl_event.search ∨ ∃ a, e = sl_event.read a) (h : sl_heap) :
    locked_by l = [] ∧ released_by l = [] ∧ stores_of l = [] ∧ backoff_steps l = [] ∧
      run_log h l = some h := by
  refine ⟨locked_by_eq_nil ?_, released_by_eq_nil ?_, stores_of_eq_nil ?_,
    backoff_steps_eq_nil ?_, (run_log_of_reads hl h []).1⟩
  · intro e he a hea
    rcases hl e he with rfl | ⟨b, rfl⟩ <;> simp at hea
  · intro e he a hea
    rcases hl e he with rfl | ⟨b, rfl⟩ <;> simp at hea
  · intro e he
    rcases hl e he with rfl | ⟨b, rfl⟩ <;> simp
  · intro e he
    rcases hl e he with rfl | ⟨b, rfl⟩ <;> simp

/-- C11. Lookups are read-only.  For every heap, map and key (and every fuel):
`optimistic_find` and `optimistic_get` return what their logged versions
return, and every step in the log of a lookup that returns is the call of
`optimistic_search` or a read of a field of a node.  So no lock is taken or
released, no field (`next`, `marked`, `fullylinked`) is stored to, and the heap
after the steps of the log is the heap before them, node for node and field
for field (key, val, toplevel, next, marked, fullylinked, lock). -/
theorem lookups_read_only (fuel : Nat) (h : sl_heap) (m : sl_map) (k : Int) :
    (optimistic_find_log fuel h m k).map Prod.fst = optimistic_find fuel h m k ∧
    (optimistic_get_log fuel h m k).map Prod.fst = optimistic_get fuel h m k ∧
    (∀ r l, optimistic_find_log fuel h m k = some (r, l) →
      (∀ e ∈ l, e = sl_event.search ∨ ∃ a, e = sl_event.read a) ∧
      locked_by l = [] ∧ released_by l = [] ∧ stores_of l = [] ∧ run_log h l = some h) ∧
    (∀ r l, optimistic_get_log fuel h m k = some (r, l) →
      (∀ e ∈ l, e = sl_event.search ∨ ∃ a, e = sl_event.read a) ∧
      locked_by l = [] ∧ released_by l = [] ∧ stores_of l = [] ∧ run_log h l = some h) := by
  refine ⟨optimistic_find_log_fst fuel h m k, optimistic_get_log_fst fuel h m k, ?_, ?_⟩
  · intro r l hf
    have hl := optimistic_find_log_reads hf
    obtain ⟨h1, h2, h3, _, h5⟩ := reads_no_effect hl h
    exact ⟨hl, h1, h2, h3, h5⟩
  · intro r l hf
    have hl := optimistic_get_log_reads hf
    obtain ⟨h1, h2, h3, _, h5⟩ := reads_no_effect hl h
    exact ⟨hl, h1, h2, h3, h5⟩

/-- C17, evaluated on the constants of `skiplist-lock-map.h`: `VAL_MIN` and
`VAL_MAX` are both `LONG_MAX`, so the head sentinel key is not below the tail
sentinel key and is not below any key (`0` for one), while `VAL_MAX` is above
every other `long`. -/
theorem sentinel_keys_coincide :
    VAL_MIN = LONG_MAX ∧ VAL_MAX = LONG_MAX ∧ ¬ VAL_MIN < VAL_MAX ∧ ¬ VAL_MIN < 0 ∧
      (∀ k : Int, ¬ VAL_MIN < k ∨ LONG_MAX < k) ∧
      (∀ k : Int, k ≤ LONG_MAX → k ≠ LONG_MAX → k < VAL_MAX) := by
  refine ⟨rfl, rfl, by decide, by decide, ?_, ?_⟩
  · intro k
    by_cases hk : LONG_MAX < k
    · exact Or.inr hk
    · exact Or.inl hk
  · intro k hk hne
    exact lt_of_le_of_ne hk hne

/-- C20, evaluated at `backoff = 8192`, the first value of the counter above
the threshold: `optimistic_insert` computes `tv_sec = 1` and
`tv_nsec = 3192000000`, which is above `999999999`, and passes them to
`nanosleep` (the log of a call with fourteen failed validations on
`contended_heap` has that step); `optimistic_delete` computes `tv_nsec = 0`
for every value of the counter. -/
theorem insert_timeout_out_of_range :
    insert_timeout 8192 = (1, 3192000000) ∧ ¬ (insert_timeout 8192).2 ≤ 999999999 ∧
      sl_event.sleep 1 3192000000 ∈ (optimistic_insert_log 15 contended_heap ⟨1⟩ 3 9 1).2 ∧
      (∀ b, (delete_timeout b).2 = 0) ∧ delete_timeout 8192 = (1, 0) := by
  refine ⟨by decide, by decide, by decide, ?_, by decide⟩
  intro b
  simp only [delete_timeout]
  omega

/-! ## The logged loops of insert and delete -/

theorem unlock_levels_loop_log_fst (nodes : List Nat) :
    ∀ (n i : Nat) (old : Option Nat) (h : sl_heap),
      (unlock_levels_loop_log nodes n i old h).map Prod.fst =
        unlock_levels_loop nodes n i old h := by
  intro n
  induction n with
  | zero => intro i old h; rfl
  | succ n ih =>
    intro i old h
    cases ha : nodes[i]? with
    | none => simp [unlock_levels_loop_log, unlock_levels_loop, ha]
    | some a =>
      by_cases ho : old = some a
      · simp [unlock_levels_loop_log, unlock_levels_loop, ha, ho, ih]
      · cases hu : UNLOCK h a with
        | none => simp [unlock_levels_loop_log, unlock_levels_loop, ha, ho, hu]
        | some h1 =>
          have := ih (i + 1) (some a) h1
          cases hr : unlock_levels_loop_log nodes n (i + 1) (some a) h1 with
          | none =>
            rw [hr] at this
            simp [unlock_levels_loop_log, unlock_levels_loop, ha, ho, hu, hr, ← this]
          | some r =>
            rw [hr] at this
            simp [unlock_levels_loop_log, unlock_levels_loop, ha, ho, hu, hr, ← this]

theorem unlock_levels_log_fst (h : sl_heap) (nodes : List Nat) (hl : Int) :
    (unlock_levels_log h nodes hl).map Prod.fst = unlock_levels h nodes hl :=
  unlock_levels_loop_log_fst nodes _ _ _ _

theorem insert_valid_log_fst (h : sl_heap) (p s i : Nat) :
    (insert_valid_log h p s i).map Prod.fst = insert_valid h p s i := by
  unfold insert_valid_log insert_valid
  cases h[p]? with
  | none => rfl
  | some pn =>
    by_cases hm : pn.marked = true
    · simp [hm]
    · cases h[s]? with
      | none => simp [hm]
      | some sn =>
        by_cases hsm : sn.marked = true
        · simp [hm, hsm]
        · cases hnx : pn.next[i]? <;> simp [hm, hsm, hnx]

theorem delete_valid_log_fst (h : sl_heap) (p s i : Nat) :
    (delete_valid_log h p s i).map Prod.fst = delete_valid h p s i := by
  unfold delete_valid_log delete_valid
  cases h[p]? with
  | none => rfl
  | some pn =>
    by_cases hm : pn.marked = true
    · simp [hm]
    · cases hnx : pn.next[i]? <;> simp [hm, hnx]

theorem validate_loop_log_fst
    (va : sl_heap → Nat → Nat → Nat → Option (Bool × List sl_event))
    (vb : sl_heap → Nat → Nat → Nat → Option Bool)
    (hv : ∀ h p s i, (va h p s i).map Prod.fst = vb h p s i) (preds succs : List Nat) :
    ∀ (n i : Nat) (prev : Option Nat) (hl : Int) (h : sl_heap),
      (validate_loop_log va preds succs n i prev hl h).map Prod.fst =
        validate_loop vb preds succs n i prev hl h := by
  intro n
  induction n with
  | zero => intro i prev hl h; rfl
  | succ n ih =>
    intro i prev hl h
    cases hp : preds[i]? with
    | none => simp [validate_loop_log, validate_loop, hp]
    | some p =>
      cases hs : succs[i]? with
      | none => simp [validate_loop_log, validate_loop, hp, hs]
      | some s =>
        by_cases hpp : prev = some p
        · have hvv := hv h p s i
          cases hva : va h p s i with
          | none =>
            rw [hva] at hvv
            simp [validate_loop_log, validate_loop, hp, hs, hpp, hva, ← hvv]
          | some r =>
            obtain ⟨b, l2⟩ := r
            rw [hva] at hvv
            cases b with
            | false => simp [validate_loop_log, validate_loop, hp, hs, hpp, hva, ← hvv]
            | true =>
              have := ih (i + 1) (some p) hl h
              cases hr : validate_loop_log va preds succs n (i + 1) (some p) hl h with
              | none =>
                rw [hr] at this
                simp [validate_loop_log, validate_loop, hp, hs, hpp, hva, ← hvv, hr, ← this]
              | some r3 =>
                rw [hr] at this
                simp [validate_loop_log, validate_loop, hp, hs, hpp, hva, ← hvv, hr, ← this]
        · cases hlk : LOCK h p with
          | none => simp [validate_loop_log, validate_loop, hp, hs, hpp, hlk]
          | some h1 =>
            have hvv := hv h1 p s i
            cases hva : va h1 p s i with
            | none =>
              rw [hva] at hvv
              simp [validate_loop_log, validate_loop, hp, hs, hpp, hlk, hva, ← hvv]
            | some r =>
              obtain ⟨b, l2⟩ := r
              rw [hva] at hvv
              cases b with
              | false =>
                simp [validate_loop_log, validate_loop, hp, hs, hpp, hlk, hva, ← hvv]
              | true =>
                have := ih (i + 1) (some p) (i : Int) h1
                cases hr : validate_loop_log va preds succs n (i + 1) (some p) (i : Int) h1 with
                | none =>
                  rw [hr] at this
                  simp [validate_loop_log, validate_loop, hp, hs, hpp, hlk, hva, ← hvv, hr,
                    ← this]
                | some r3 =>
                  rw [hr] at this
                  simp [validate_loop_log, validate_loop, hp, hs, hpp, hlk, hva, ← hvv, hr,
                    ← this]

theorem insert_splice_log_fst (a : Nat) (preds succs : List Nat) :
    ∀ (n i : Nat) (h : sl_heap),
      (insert_splice_log a preds succs n i h).map Prod.fst = insert_splice a preds succs n i h := by
  intro n
  induction n with
  | zero => intro i h; rfl
  | succ n ih =>
    intro i h
    cases hp : preds[i]? with
    | none => simp [insert_splice_log, insert_splice, hp]
    | some p =>
      cases hs : succs[i]? with
      | none => simp [insert_splice_log, insert_splice, hp, hs]
      | some s =>
        cases h1 : store_next h a i (some s) with
        | none => simp [insert_splice_log, insert_splice, hp, hs, h1]
        | some h1' =>
          cases h2 : store_next h1' p i (some a) with
          | none => simp [insert_splice_log, insert_splice, hp, hs, h1, h2]
          | some h2' =>
            have := ih (i + 1) h2'
            cases hr : insert_splice_log a preds succs n (i + 1) h2' with
            | none =>
              rw [hr] at this
              simp [insert_splice_log, insert_splice, hp, hs, h1, h2, hr, ← this]
            | some r =>
              rw [hr] at this
              simp [insert_splice_log, insert_splice, hp, hs, h1, h2, hr, ← this]

theorem delete_unlink_log_fst (nd : Nat) (preds : List Nat) :
    ∀ (n u : Nat) (h : sl_heap),
      (delete_unlink_log nd preds n u h).map Prod.fst = delete_unlink nd preds n u h := by
  intro n
  induction n with
  | zero => intro u h; cases u <;> rfl
  | succ n ih =>
    intro u h
    cases u with
    | zero => rfl
    | succ u =>
      cases hp : preds[u]? with
      | none => simp [delete_unlink_log, delete_unlink, hp]
      | some p =>
        cases hn : h[nd]? with
        | none => simp [delete_unlink_log, delete_unlink, hp, hn]
        | some ndn =>
          cases hv : ndn.next[u]? with
          | none => simp [delete_unlink_log, delete_unlink, hp, hn, hv]
          | some v =>
            cases h1 : store_next h p u v with
            | none => simp [delete_unlink_log, delete_unlink, hp, hn, hv, h1]
            | some h1' =>
              have := ih u h1'
              cases hr : delete_unlink_log nd preds n u h1' with
              | none =>
                rw [hr] at this
                simp [delete_unlink_log, delete_unlink, hp, hn, hv, h1, hr, ← this]
              | some r =>
                rw [hr] at this
                simp [delete_unlink_log, delete_unlink, hp, hn, hv, h1, hr, ← this]

theorem delete_cond_log_fst (h : sl_heap) (im : Bool) (found : Int) (succs : List Nat) :
    (delete_cond_log h im found succs).map Prod.fst = delete_cond h im found succs := by
  unfold delete_cond_log delete_cond
  cases im with
  | true => simp
  | false =>
    by_cases hf : found = -1
    · simp [hf]
    · cases succs[found.toNat]? with
      | none => simp [hf]
      | some a => cases ha : h[a]? <;> simp [hf, ha]

theorem delete_mark_log_fst (h : sl_heap) (nt : Option Nat) (im : Bool) (tl found : Int)
    (succs : List Nat) :
    (delete_mark_log h nt im tl found succs).map Prod.fst =
      delete_mark h nt im tl found succs := by
  cases im with
  | true => simp [delete_mark_log, delete_mark]
  | false =>
    cases hs : succs[found.toNat]? with
    | none => simp [delete_mark_log, delete_mark, hs]
    | some a =>
      cases hlk : LOCK h a with
      | none => simp [delete_mark_log, delete_mark, hs, hlk]
      | some h1 =>
        cases hn : h1[a]? with
        | none => simp [delete_mark_log, delete_mark, hs, hlk, hn]
        | some nd =>
          by_cases hm : nd.marked = true
          · cases hu : UNLOCK h1 a <;> simp [delete_mark_log, delete_mark, hs, hlk, hn, hm, hu]
          · cases hu : set_marked h1 a <;>
              simp [delete_mark_log, delete_mark, hs, hlk, hn, hm, hu]

theorem log_some_fst {α β : Type} {x : Option (α × β)} {y : Option α}
    (hxy : x.map Prod.fst = y) {a : α} {b : β} (hx : x = some (a, b)) : y = some a := by
  rw [← hxy, hx]; rfl

theorem log_none_fst {α β : Type} {x : Option (α × β)} {y : Option α}
    (hxy : x.map Prod.fst = y) (hx : x = none) : y = none := by
  rw [← hxy, hx]; rfl

theorem optimistic_insert_loop_log_fst (m : sl_map) (k : Int) (v L : Nat) :
    ∀ (fuel b : Nat) (h : sl_heap),
      (optimistic_insert_loop_log m k v L fuel b h).1 = optimistic_insert_loop m k v L fuel b h := by
  intro fuel
  induction fuel with
  | zero => intro b h; rfl
  | succ fuel ih =>
    intro b h
    cases hr : optimistic_search_log (fuel + 1) h m k with
    | none =>
      have hs := log_none_fst (optimistic_search_log_fst _ h m k) hr
      simp [optimistic_insert_loop_log, optimistic_insert_loop, hr, hs]
    | some r =>
      obtain ⟨⟨f, ps, ss⟩, l0⟩ := r
      have hs := log_some_fst (optimistic_search_log_fst _ h m k) hr
      by_cases hf : f = -1
      · subst hf
        cases hv : validate_loop_log insert_valid_log ps ss L 0 none (-1) h with
        | none =>
          have hv' := log_none_fst
            (validate_loop_log_fst _ _ insert_valid_log_fst ps ss L 0 none (-1) h) hv
          simp [optimistic_insert_loop_log, optimistic_insert_loop, hr, hs, hv, hv']
        | some rv =>
          obtain ⟨⟨vb, hl, h1⟩, l1⟩ := rv
          have hv' := log_some_fst
            (validate_loop_log_fst _ _ insert_valid_log_fst ps ss L 0 none (-1) h) hv
          cases vb with
          | false =>
            cases hu : unlock_levels_log h1 ps hl with
            | none =>
              have hu' := log_none_fst (unlock_levels_log_fst h1 ps hl) hu
              simp [optimistic_insert_loop_log, optimistic_insert_loop, hr, hs, hv, hv', hu, hu']
            | some ru =>
              obtain ⟨h2, l2⟩ := ru
              have hu' := log_some_fst (unlock_levels_log_fst h1 ps hl) hu
              simp [optimistic_insert_loop_log, optimistic_insert_loop, hr, hs, hv, hv', hu, hu',
                ih]
          | true =>
            cases hsp : insert_splice_log h1.length ps ss L 0
                (h1 ++ [sl_new_simple_node k v L]) with
            | none =>
              have hsp' := log_none_fst (insert_splice_log_fst _ ps ss L 0 _) hsp
              simp [optimistic_insert_loop_log, optimistic_insert_loop, hr, hs, hv, hv', hsp,
                hsp']
            | some rs =>
              obtain ⟨h3, l3⟩ := rs
              have hsp' := log_some_fst (insert_splice_log_fst _ ps ss L 0 _) hsp
              cases hfl : set_fullylinked h3 h1.length with
              | none =>
                simp [optimistic_insert_loop_log, optimistic_insert_loop, hr, hs, hv, hv', hsp,
                  hsp', hfl]
              | some h4 =>
                cases hu : unlock_levels_log h4 ps hl with
                | none =>
                  have hu' := log_none_fst (unlock_levels_log_fst h4 ps hl) hu
                  simp [optimistic_insert_loop_log, optimistic_insert_loop, hr, hs, hv, hv', hsp,
                    hsp', hfl, hu, hu']
                | some ru =>
                  obtain ⟨h5, l5⟩ := ru
                  have hu' := log_some_fst (unlock_levels_log_fst h4 ps hl) hu
                  simp [optimistic_insert_loop_log, optimistic_insert_loop, hr, hs, hv, hv', hsp,
                    hsp', hfl, hu, hu']
      · cases hss : ss[f.toNat]? with
        | none => simp [optimistic_insert_loop_log, optimistic_insert_loop, hr, hs, hf, hss]
        | some nf =>
          cases hn : h[nf]? with
          | none => simp [optimistic_insert_loop_log, optimistic_insert_loop, hr, hs, hf, hss, hn]
          | some node =>
            by_cases hm : node.marked = true
            · simp [optimistic_insert_loop_log, optimistic_insert_loop, hr, hs, hf, hss, hn, hm,
                ih]
            · by_cases hfl : node.fullylinked = true
              · simp [optimistic_insert_loop_log, optimistic_insert_loop, hr, hs, hf, hss, hn, hm,
                  hfl]
              · simp [optimistic_insert_loop_log, optimistic_insert_loop, hr, hs, hf, hss, hn, hm,
                  hfl]

theorem optimistic_insert_log_fst (fuel : Nat) (h : sl_heap) (m : sl_map) (k : Int)
    (v L : Nat) :
    (optimistic_insert_log fuel h m k v L).1 = optimistic_insert fuel h m k v L :=
  optimistic_insert_loop_log_fst m k v L fuel 1 h

theorem optimistic_delete_loop_log_fst (m : sl_map) (k : Int) :
    ∀ (fuel : Nat) (nt : Option Nat) (im : Bool) (tl : Int) (b : Nat) (h : sl_heap),
      (optimistic_delete_loop_log m k fuel nt im tl b h).1 =
        optimistic_delete_loop m k fuel nt im tl b h := by
  intro fuel
  induction fuel with
  | zero => intro nt im tl b h; rfl
  | succ fuel ih =>
    intro nt im tl b h
    cases hr : optimistic_search_log (fuel + 1) h m k with
    | none =>
      have hs := log_none_fst (optimistic_search_log_fst _ h m k) hr
      simp [optimistic_delete_loop_log, optimistic_delete_loop, hr, hs]
    | some r =>
      obtain ⟨⟨f, ps, ss⟩, l0⟩ := r
      have hs := log_some_fst (optimistic_search_log_fst _ h m k) hr
      cases hc : delete_cond_log h im f ss with
      | none =>
        have hc' := log_none_fst (delete_cond_log_fst h im f ss) hc
        simp [optimistic_delete_loop_log, optimistic_delete_loop, hr, hs, hc, hc']
      | some rc =>
        obtain ⟨cb, lc⟩ := rc
        have hc' := log_some_fst (delete_cond_log_fst h im f ss) hc
        cases cb with
        | false => simp [optimistic_delete_loop_log, optimistic_delete_loop, hr, hs, hc, hc']
        | true =>
          cases hmk : delete_mark_log h nt im tl f ss with
          | none =>
            have hmk' := log_none_fst (delete_mark_log_fst h nt im tl f ss) hmk
            simp [optimistic_delete_loop_log, optimistic_delete_loop, hr, hs, hc, hc', hmk, hmk']
          | some rm =>
            obtain ⟨res, lk⟩ := rm
            have hmk' := log_some_fst (delete_mark_log_fst h nt im tl f ss) hmk
            cases res with
            | inl h2 =>
              simp [optimistic_delete_loop_log, optimistic_delete_loop, hr, hs, hc, hc', hmk,
                hmk']
            | inr tr =>
              obtain ⟨nd, tl1, h2⟩ := tr
              cases nd with
              | none =>
                simp [optimistic_delete_loop_log, optimistic_delete_loop, hr, hs, hc, hc', hmk,
                  hmk']
              | some nd =>
                cases hv : validate_loop_log delete_valid_log ps ss tl1.toNat 0 none (-1) h2 with
                | none =>
                  have hv' := log_none_fst
                    (validate_loop_log_fst _ _ delete_valid_log_fst ps ss _ 0 none (-1) h2) hv
                  simp [optimistic_delete_loop_log, optimistic_delete_loop, hr, hs, hc, hc', hmk,
                    hmk', hv, hv']
                | some rv =>
                  obtain ⟨⟨vb, hl, h3⟩, l1⟩ := rv
                  have hv' := log_some_fst
                    (validate_loop_log_fst _ _ delete_valid_log_fst ps ss _ 0 none (-1) h2) hv
                  cases vb with
                  | false =>
                    cases hu : unlock_levels_log h3 ps hl with
                    | none =>
                      have hu' := log_none_fst (unlock_levels_log_fst h3 ps hl) hu
                      simp [optimistic_delete_loop_log, optimistic_delete_loop, hr, hs, hc, hc',
                        hmk, hmk', hv, hv', hu, hu']
                    | some ru =>
                      obtain ⟨h4, l2⟩ := ru
                      have hu' := log_some_fst (unlock_levels_log_fst h3 ps hl) hu
                      simp [optimistic_delete_loop_log, optimistic_delete_loop, hr, hs, hc, hc',
                        hmk, hmk', hv, hv', hu, hu', ih]
                  | true =>
                    cases hul : delete_unlink_log nd ps tl1.toNat tl1.toNat h3 with
                    | none =>
                      have hul' := log_none_fst (delete_unlink_log_fst nd ps _ _ h3) hul
                      simp [optimistic_delete_loop_log, optimistic_delete_loop, hr, hs, hc, hc',
                        hmk, hmk', hv, hv', hul, hul']
                    | some rl =>
                      obtain ⟨h4, l3⟩ := rl
                      have hul' := log_some_fst (delete_unlink_log_fst nd ps _ _ h3) hul
                      cases hun : UNLOCK h4 nd with
                      | none =>
                        simp [optimistic_delete_loop_log, optimistic_delete_loop, hr, hs, hc,
                          hc', hmk, hmk', hv, hv', hul, hul', hun]
                      | some h5 =>
                        cases hu : unlock_levels_log h5 ps hl with
                        | none =>
                          have hu' := log_none_fst (unlock_levels_log_fst h5 ps hl) hu
                          simp [optimistic_delete_loop_log, optimistic_delete_loop, hr, hs, hc,
                            hc', hmk, hmk', hv, hv', hul, hul', hun, hu, hu']
                        | some ru =>
                          obtain ⟨h6, l6⟩ := ru
                          have hu' := log_some_fst (unlock_levels_log_fst h5 ps hl) hu
                          simp [optimistic_delete_loop_log, optimistic_delete_loop, hr, hs, hc,
                            hc', hmk, hmk', hv, hv', hul, hul', hun, hu, hu']

theorem optimistic_delete_log_fst (fuel : Nat) (h : sl_heap) (m : sl_map) (k : Int) :
    (optimistic_delete_log fuel h m k).1 = optimistic_delete fuel h m k :=
  optimistic_delete_loop_log_fst m k fuel none false (-1) 1 h

/-! ## What kind of steps each part of a call logs -/

theorem insert_valid_log_reads {h : sl_heap} {p s i : Nat} {b : Bool} {l : List sl_event}
    (hv : insert_valid_log h p s i = some (b, l)) : ∀ e ∈ l, ∃ a, e = sl_event.read a := by
  unfold insert_valid_log at hv
  cases hp : h[p]? with
  | none => simp [hp] at hv
  | some pn =>
    rw [hp] at hv
    by_cases hm : pn.marked = true
    · simp only [hm, if_true, Option.some.injEq, Prod.mk.injEq] at hv
      obtain ⟨_, rfl⟩ := hv
      simp
    · cases hs : h[s]? with
      | none => simp [hm, hs] at hv
      | some sn =>
        by_cases hsm : sn.marked = true
        · simp only [hm, hs, hsm, if_true, if_false, Option.some.injEq, Prod.mk.injEq] at hv
          obtain ⟨_, rfl⟩ := hv
          simp
        · cases hnx : pn.next[i]? with
          | none => simp [hm, hs, hsm, hnx] at hv
          | some nx =>
            simp only [hm, hs, hsm, hnx, if_false, Option.some.injEq, Prod.mk.injEq] at hv
            obtain ⟨_, rfl⟩ := hv
            simp

theorem delete_valid_log_reads {h : sl_heap} {p s i : Nat} {b : Bool} {l : List sl_event}
    (hv : delete_valid_log h p s i = some (b, l)) : ∀ e ∈ l, ∃ a, e = sl_event.read a := by
  unfold delete_valid_log at hv
  cases hp : h[p]? with
  | none => simp [hp] at hv
  | some pn =>
    rw [hp] at hv
    by_cases hm : pn.marked = true
    · simp only [hm, if_true, Option.some.injEq, Prod.mk.injEq] at hv
      obtain ⟨_, rfl⟩ := hv
      simp
    · cases hnx : pn.next[i]? with
      | none => simp [hm, hnx] at hv
      | some nx =>
        simp only [hm, hnx, if_false, Option.some.injEq, Prod.mk.injEq] at hv
        obtain ⟨_, rfl⟩ := hv
        simp

theorem unlock_levels_loop_log_kind (nodes : List Nat) :
    ∀ (n i : Nat) (old : Option Nat) (h h1 : sl_heap) (l : List sl_event),
      unlock_levels_loop_log nodes n i old h = some (h1, l) →
      ∀ e ∈ l, ∃ a, e = sl_event.unlock a := by
  intro n
  induction n with
  | zero =>
    intro i old h h1 l hr
    simp only [unlock_levels_loop_log, Option.some.injEq, Prod.mk.injEq] at hr
    obtain ⟨_, rfl⟩ := hr
    simp
  | succ n ih =>
    intro i old h h1 l hr
    cases ha : nodes[i]? with
    | none => simp [unlock_levels_loop_log, ha] at hr
    | some a =>
      by_cases ho : old = some a
      · simp only [unlock_levels_loop_log, ha, ho, ne_eq, not_true_eq_false, if_false] at hr
        exact ih _ _ _ _ _ hr
      · cases hu : UNLOCK h a with
        | none => simp [unlock_levels_loop_log, ha, ho, hu] at hr
        | some h2 =>
          cases hrec : unlock_levels_loop_log nodes n (i + 1) (some a) h2 with
          | none => simp [unlock_levels_loop_log, ha, ho, hu, hrec] at hr
          | some r =>
            obtain ⟨h3, l3⟩ := r
            simp only [unlock_levels_loop_log, ha, ho, hu, hrec, ne_eq, not_false_eq_true,
              if_true, Option.some.injEq, Prod.mk.injEq] at hr
            obtain ⟨_, rfl⟩ := hr
            intro e he
            rcases List.mem_cons.mp he with rfl | he
            · exact ⟨a, rfl⟩
            · exact ih _ _ _ _ _ hrec e he

theorem insert_splice_log_kind (a : Nat) (preds succs : List Nat) :
    ∀ (n i : Nat) (h h1 : sl_heap) (l : List sl_event),
      insert_splice_log a preds succs n i h = some (h1, l) →
      ∀ e ∈ l, ∃ x j v, e = sl_event.next x j v := by
  intro n
  induction n with
  | zero =>
    intro i h h1 l hr
    simp only [insert_splice_log, Option.some.injEq, Prod.mk.injEq] at hr
    obtain ⟨_, rfl⟩ := hr
    simp
  | succ n ih =>
    intro i h h1 l hr
    cases hp : preds[i]? with
    | none => simp [insert_splice_log, hp] at hr
    | some p =>
      cases hs : succs[i]? with
      | none => simp [insert_splice_log, hp, hs] at hr
      | some s =>
        cases hs1 : store_next h a i (some s) with
        | none => simp [insert_splice_log, hp, hs, hs1] at hr
        | some h1' =>
          cases hs2 : store_next h1' p i (some a) with
          | none => simp [insert_splice_log, hp, hs, hs1, hs2] at hr
          | some h2' =>
            cases hrec : insert_splice_log a preds succs n (i + 1) h2' with
            | none => simp [insert_splice_log, hp, hs, hs1, hs2, hrec] at hr
            | some r =>
              obtain ⟨h3, l3⟩ := r
              simp only [insert_splice_log, hp, hs, hs1, hs2, hrec, Option.some.injEq,
                Prod.mk.injEq] at hr
              obtain ⟨_, rfl⟩ := hr
              intro e he
              simp only [List.mem_cons] at he
              rcases he with rfl | rfl | he
              · exact ⟨_, _, _, rfl⟩
              · exact ⟨_, _, _, rfl⟩
              · exact ih _ _ _ _ hrec e he

theorem delete_unlink_log_kind (nd : Nat) (preds : List Nat) :
    ∀ (n u : Nat) (h h1 : sl_heap) (l : List sl_event),
      delete_unlink_log nd preds n u h = some (h1, l) →
      ∀ e ∈ l, (∃ a, e = sl_event.read a) ∨ ∃ x j v, e = sl_event.next x j v := by
  intro n
  induction n with
  | zero =>
    intro u h h1 l hr
    cases u <;>
    · simp only [delete_unlink_log, Option.some.injEq, Prod.mk.injEq] at hr
      obtain ⟨_, rfl⟩ := hr
      simp
  | succ n ih =>
    intro u h h1 l hr
    cases u with
    | zero =>
      simp only [delete_unlink_log, Option.some.injEq, Prod.mk.injEq] at hr
      obtain ⟨_, rfl⟩ := hr
      simp
    | succ u =>
      cases hp : preds[u]? with
      | none => simp [delete_unlink_log, hp] at hr
      | some p =>
        cases hn : h[nd]? with
        | none => simp [delete_unlink_log, hp, hn] at hr
        | some ndn =>
          cases hv : ndn.next[u]? with
          | none => simp [delete_unlink_log, hp, hn, hv] at hr
          | some v =>
            cases hs1 : store_next h p u v with
            | none => simp [delete_unlink_log, hp, hn, hv, hs1] at hr
            | some h1' =>
              cases hrec : delete_unlink_log nd preds n u h1' with
              | none => simp [delete_unlink_log, hp, hn, hv, hs1, hrec] at hr
              | some r =>
                obtain ⟨h3, l3⟩ := r
                simp only [delete_unlink_log, hp, hn, hv, hs1, hrec, Option.some.injEq,
                  Prod.mk.injEq] at hr
                obtain ⟨_, rfl⟩ := hr
                intro e he
                simp only [List.mem_cons] at he
                rcases he with rfl | rfl | he
                · exact Or.inl ⟨_, rfl⟩
                · exact Or.inr ⟨_, _, _, rfl⟩
                · exact ih _ _ _ _ hrec e he

theorem delete_cond_log_reads {h : sl_heap} {im : Bool} {found : Int} {succs : List Nat}
    {b : Bool} {l : List sl_event} (hc : delete_cond_log h im found succs = some (b, l)) :
    ∀ e ∈ l, ∃ a, e = sl_event.read a := by
  unfold delete_cond_log at hc
  cases im with
  | true =>
    simp only [if_true, Option.some.injEq, Prod.mk.injEq] at hc
    obtain ⟨_, rfl⟩ := hc
    simp
  | false =>
    by_cases hf : found = -1
    · simp only [hf, Bool.false_eq_true, if_false, ne_eq, not_true_eq_false,
        Option.some.injEq, Prod.mk.injEq] at hc
      obtain ⟨_, rfl⟩ := hc
      simp
    · cases hs : succs[found.toNat]? with
      | none => simp [hf, hs] at hc
      | some a =>
        cases hn : h[a]? with
        | none => simp [hf, hs, hn] at hc
        | some n =>
          simp only [hf, hs, hn, Bool.false_eq_true, if_false, ne_eq, not_false_eq_true,
            if_true, Option.some.injEq, Prod.mk.injEq] at hc
          obtain ⟨_, rfl⟩ := hc
          intro e he
          rcases List.mem_cons.mp he with rfl | he
          · exact ⟨a, rfl⟩
          · by_cases hfl : n.fullylinked = true
            · rw [if_pos hfl] at he
              rcases List.mem_cons.mp he with rfl | he
              · exact ⟨a, rfl⟩
              · by_cases ht : (n.toplevel : Int) - 1 = found
                · rw [if_pos ht] at he
                  exact ⟨a, by simpa using he⟩
                · rw [if_neg ht] at he
                  simp at he
            · rw [if_neg hfl] at he
              simp at he

/-- The log of `delete_mark`: nothing on a later pass, and on the first pass the
lock of the victim, two reads and the mark (or the release). -/
theorem delete_mark_log_shape {h : sl_heap} {nt : Option Nat} {im : Bool} {tl found : Int}
    {succs : List Nat} {res : sl_heap ⊕ (Option Nat × Int × sl_heap)} {l : List sl_event}
    (hm : delete_mark_log h nt im tl found succs = some (res, l)) :
    (im = true ∧ l = [] ∧ res = Sum.inr (nt, tl, h)) ∨
    (im = false ∧ ∃ a, succs[found.toNat]? = some a ∧
      ((∃ h2, res = Sum.inl h2 ∧
          l = [sl_event.lock a, sl_event.read a, sl_event.read a, sl_event.unlock a]) ∨
       (∃ t h2, res = Sum.inr (some a, t, h2) ∧
          l = [sl_event.lock a, sl_event.read a, sl_event.read a, sl_event.marked a]))) := by
  unfold delete_mark_log at hm
  cases im with
  | true =>
    simp only [Bool.not_true, Bool.false_eq_true, if_false, Option.some.injEq,
      Prod.mk.injEq] at hm
    exact Or.inl ⟨rfl, hm.2.symm, hm.1.symm⟩
  | false =>
    right
    refine ⟨rfl, ?_⟩
    cases hs : succs[found.toNat]? with
    | none => simp [hs] at hm
    | some a =>
      refine ⟨a, rfl, ?_⟩
      cases hlk : LOCK h a with
      | none => simp [hs, hlk] at hm
      | some h1 =>
        cases hn : h1[a]? with
        | none => simp [hs, hlk, hn] at hm
        | some nd =>
          by_cases hmk : nd.marked = true
          · cases hu : UNLOCK h1 a with
            | none => simp [hs, hlk, hn, hmk, hu] at hm
            | some h2 =>
              simp only [hs, hlk, hn, hmk, hu, Bool.not_false, if_true, Option.map_some',
                Option.some.injEq, Prod.mk.injEq] at hm
              exact Or.inl ⟨h2, hm.1.symm, hm.2.symm⟩
          · cases hu : set_marked h1 a with
            | none => simp [hs, hlk, hn, hmk, hu] at hm
            | some h2 =>
              simp only [hs, hlk, hn, hmk, hu, Bool.not_false, if_true, if_false,
                Bool.false_eq_true, Option.map_some', Option.some.injEq, Prod.mk.injEq] at hm
              exact Or.inr ⟨_, h2, hm.1.symm, hm.2.symm⟩

theorem validate_loop_log_kind
    (va : sl_heap → Nat → Nat → Nat → Option (Bool × List sl_event))
    (hva : ∀ h p s i b l, va h p s i = some (b, l) → ∀ e ∈ l, ∃ a, e = sl_event.read a)
    (preds succs : List Nat) :
    ∀ (n i : Nat) (prev : Option Nat) (hl : Int) (h : sl_heap)
      (r : Bool × Int × sl_heap) (l : List sl_event),
      validate_loop_log va preds succs n i prev hl h = some (r, l) →
      ∀ e ∈ l, (∃ a, e = sl_event.read a) ∨ ∃ a, e = sl_event.lock a := by
  intro n
  induction n with
  | zero =>
    intro i prev hl h r l hr
    simp only [validate_loop_log, Option.some.injEq, Prod.mk.injEq] at hr
    obtain ⟨_, rfl⟩ := hr
    simp
  | succ n ih =>
    intro i prev hl h r l hr
    cases hp : preds[i]? with
    | none => simp [validate_loop_log, hp] at hr
    | some p =>
      cases hs : succs[i]? with
      | none => simp [validate_loop_log, hp, hs] at hr
      | some s =>
        by_cases hpp : prev = some p
        · cases hv : va h p s i with
          | none => simp [validate_loop_log, hp, hs, hpp, hv] at hr
          | some rv =>
            obtain ⟨b, l2⟩ := rv
            have hl2 := hva _ _ _ _ _ _ hv
            cases b with
            | false =>
              simp only [validate_loop_log, hp, hs, hpp, hv, ne_eq, not_true_eq_false, if_false,
                Option.some.injEq, Prod.mk.injEq, List.nil_append] at hr
              obtain ⟨_, rfl⟩ := hr
              exact fun e he => Or.inl (hl2 e he)
            | true =>
              cases hrec : validate_loop_log va preds succs n (i + 1) (some p) hl h with
              | none => simp [validate_loop_log, hp, hs, hpp, hv, hrec] at hr
              | some r3 =>
                obtain ⟨r3, l3⟩ := r3
                simp only [validate_loop_log, hp, hs, hpp, hv, hrec, ne_eq, not_true_eq_false,
                  if_false, Option.some.injEq, Prod.mk.injEq, List.nil_append] at hr
                obtain ⟨_, rfl⟩ := hr
                intro e he
                rcases List.mem_append.mp he with he | he
                · exact Or.inl (hl2 e he)
                · exact ih _ _ _ _ _ _ hrec e he
        · cases hlk : LOCK h p with
          | none => simp [validate_loop_log, hp, hs, hpp, hlk] at hr
          | some h1 =>
            cases hv : va h1 p s i with
            | none => simp [validate_loop_log, hp, hs, hpp, hlk, hv] at hr
            | some rv =>
              obtain ⟨b, l2⟩ := rv
              have hl2 := hva _ _ _ _ _ _ hv
              cases b with
              | false =>
                simp only [validate_loop_log, hp, hs, hpp, hlk, hv, ne_eq, not_false_eq_true,
                  if_true, Option.map_some', Option.some.injEq, Prod.mk.injEq] at hr
                obtain ⟨_, rfl⟩ := hr
                intro e he
                rcases List.mem_append.mp he with he | he
                · exact Or.inr ⟨p, by simpa using he⟩
                · exact Or.inl (hl2 e he)
              | true =>
                cases hrec : validate_loop_log va preds succs n (i + 1) (some p) (i : Int) h1 with
                | none => simp [validate_loop_log, hp, hs, hpp, hlk, hv, hrec] at hr
                | some r3 =>
                  obtain ⟨r3, l3⟩ := r3
                  simp only [validate_loop_log, hp, hs, hpp, hlk, hv, hrec, ne_eq,
                    not_false_eq_true, if_true, Option.map_some', Option.some.injEq,
                    Prod.mk.injEq] at hr
                  obtain ⟨_, rfl⟩ := hr
                  intro e he
                  rcases List.mem_append.mp he with he | he
                  · rcases List.mem_append.mp he with he | he
                    · exact Or.inr ⟨p, by simpa using he⟩
                    · exact Or.inl (hl2 e he)
                  · exact ih _ _ _ _ _ _ hrec e he

/-! ## The backoff counter -/

theorem backoff_steps_of_search {fuel : Nat} {h : sl_heap} {m : sl_map} {k : Int}
    {r : Int × List Nat × List Nat} {l : List sl_event}
    (hs : optimistic_search_log fuel h m k = some (r, l)) : backoff_steps l = [] :=
  (reads_no_effect (optimistic_search_log_reads hs) h).2.2.2.1

theorem backoff_steps_of_reads {l : List sl_event} (hl : ∀ e ∈ l, ∃ a, e = sl_event.read a) :
    backoff_steps l = [] := by
  refine backoff_steps_eq_nil ?_
  intro e he
  obtain ⟨a, rfl⟩ := hl e he
  simp

theorem backoff_steps_of_validate
    {va : sl_heap → Nat → Nat → Nat → Option (Bool × List sl_event)}
    (hva : ∀ h p s i b l, va h p s i = some (b, l) → ∀ e ∈ l, ∃ a, e = sl_event.read a)
    {preds succs : List Nat} {n i : Nat} {prev : Option Nat} {hl : Int} {h : sl_heap}
    {r : Bool × Int × sl_heap} {l : List sl_event}
    (hv : validate_loop_log va preds succs n i prev hl h = some (r, l)) :
    backoff_steps l = [] := by
  refine backoff_steps_eq_nil ?_
  intro e he
  rcases validate_loop_log_kind va hva preds succs n i prev hl h r l hv e he with
    ⟨a, rfl⟩ | ⟨a, rfl⟩ <;> simp

theorem backoff_steps_of_unlock {h : sl_heap} {nodes : List Nat} {hl : Int} {h1 : sl_heap}
    {l : List sl_event} (hu : unlock_levels_log h nodes hl = some (h1, l)) :
    backoff_steps l = [] := by
  refine backoff_steps_eq_nil ?_
  intro e he
  obtain ⟨a, rfl⟩ := unlock_levels_loop_log_kind nodes _ _ _ _ _ _ hu e he
  simp

theorem backoff_steps_of_splice {a : Nat} {preds succs : List Nat} {n i : Nat}
    {h h1 : sl_heap} {l : List sl_event}
    (hs : insert_splice_log a preds succs n i h = some (h1, l)) : backoff_steps l = [] := by
  refine backoff_steps_eq_nil ?_
  intro e he
  obtain ⟨x, j, v, rfl⟩ := insert_splice_log_kind a preds succs n i h h1 l hs e he
  simp

theorem backoff_steps_of_unlink {nd : Nat} {preds : List Nat} {n u : Nat}
    {h h1 : sl_heap} {l : List sl_event}
    (hs : delete_unlink_log nd preds n u h = some (h1, l)) : backoff_steps l = [] := by
  refine backoff_steps_eq_nil ?_
  intro e he
  rcases delete_unlink_log_kind nd preds n u h h1 l hs e he with ⟨a, rfl⟩ | ⟨x, j, v, rfl⟩ <;>
    simp

theorem backoff_steps_of_mark {h : sl_heap} {nt : Option Nat} {im : Bool} {tl found : Int}
    {succs : List Nat} {res : sl_heap ⊕ (Option Nat × Int × sl_heap)} {l : List sl_event}
    (hm : delete_mark_log h nt im tl found succs = some (res, l)) : backoff_steps l = [] := by
  rcases delete_mark_log_shape hm with ⟨_, rfl, _⟩ | ⟨_, a, _, ⟨_, _, rfl⟩ | ⟨_, _, _, rfl⟩⟩ <;>
    rfl

theorem range_flatMap_succ {α : Type} (f : Nat → List α) (n : Nat) :
    (List.range (n + 1)).flatMap f = f 0 ++ (List.range n).flatMap (fun j => f (j + 1)) := by
  rw [List.range_succ_eq_map, List.flatMap_cons, List.flatMap_map]

theorem doubled_backoff (b j : Nat) :
    (b * 2 % 4294967296) * 2 ^ j % 4294967296 = b * 2 ^ (j + 1) % 4294967296 := by
  rw [Nat.mul_mod, Nat.mod_mod, ← Nat.mul_mod, pow_succ]
  congr 1
  ring

theorem backoff_above_threshold (j : Nat) :
    (2 ^ j % 4294967296 = if j < 32 then 2 ^ j else 0) ∧
      (2 ^ j % 4294967296 > 5000 ↔ 13 ≤ j ∧ j ≤ 31) := by
  by_cases hj : j < 32
  · rw [if_pos hj]
    interval_cases j <;> simp
  · rw [if_neg hj]
    have h32 : (2 : Nat) ^ j % 4294967296 = 0 := by
      obtain ⟨d, rfl⟩ : ∃ d, j = 32 + d := ⟨j - 32, by omega⟩
      rw [pow_add]
      norm_num
    rw [h32]
    constructor
    · rfl
    · constructor
      · intro h0; omega
      · intro h0; omega

theorem insert_backoff_steps (m : sl_map) (k : Int) (v L : Nat) :
    ∀ (fuel b : Nat) (h : sl_heap), b < 4294967296 →
      ∃ n, backoff_steps (optimistic_insert_loop_log m k v L fuel b h).2 =
        (List.range n).flatMap (fun j =>
          sl_event.invalid (b * 2 ^ j % 4294967296) ::
            (if b * 2 ^ j % 4294967296 > 5000 then
              [sl_event.sleep (insert_timeout (b * 2 ^ j % 4294967296)).1
                (insert_timeout (b * 2 ^ j % 4294967296)).2]
             else [])) := by
  intro fuel
  induction fuel with
  | zero => intro b h _; exact ⟨0, rfl⟩
  | succ fuel ih =>
    intro b h hb
    cases hr : optimistic_search_log (fuel + 1) h m k with
    | none => exact ⟨0, by simp [optimistic_insert_loop_log, hr, backoff_steps]⟩
    | some r =>
      obtain ⟨⟨f, ps, ss⟩, l0⟩ := r
      have h0 := backoff_steps_of_search hr
      by_cases hf : f = -1
      · subst hf
        cases hv : validate_loop_log insert_valid_log ps ss L 0 none (-1) h with
        | none => exact ⟨0, by simp [optimistic_insert_loop_log, hr, hv, h0]⟩
        | some rv =>
          obtain ⟨⟨vb, hl, h1⟩, l1⟩ := rv
          have h1' := backoff_steps_of_validate
            (fun _ _ _ _ _ _ hx => insert_valid_log_reads hx) hv
          cases vb with
          | false =>
            cases hu : unlock_levels_log h1 ps hl with
            | none =>
              exact ⟨0, by simp [optimistic_insert_loop_log, hr, hv, hu, h0, h1',
                backoff_steps_append]⟩
            | some ru =>
              obtain ⟨h2, l2⟩ := ru
              have h2' := backoff_steps_of_unlock hu
              obtain ⟨n, hn⟩ := ih (b * 2 % 4294967296) h2 (Nat.mod_lt _ (by norm_num))
              refine ⟨n + 1, ?_⟩
              have hlog : (optimistic_insert_loop_log m k v L (fuel + 1) b h).2 =
                  l0 ++ l1 ++ l2 ++ ([sl_event.invalid b] ++
                    (if b > 5000 then
                      [sl_event.sleep (insert_timeout b).1 (insert_timeout b).2]
                     else []) ++
                    (optimistic_insert_loop_log m k v L fuel (b * 2 % 4294967296) h2).2) := by
                simp [optimistic_insert_loop_log, hr, hv, hu]
              rw [hlog, range_flatMap_succ]
              simp only [backoff_steps_append, h0, h1', h2', hn, List.nil_append, pow_zero,
                Nat.mul_one, Nat.mod_eq_of_lt hb, doubled_backoff]
              by_cases hb5 : b > 5000
              · simp [hb5, backoff_steps]
              · simp [hb5, backoff_steps]
          | true =>
            cases hsp : insert_splice_log h1.length ps ss L 0
                (h1 ++ [sl_new_simple_node k v L]) with
            | none =>
              exact ⟨0, by simp [optimistic_insert_loop_log, hr, hv, hsp, h0, h1',
                backoff_steps_append, backoff_steps]⟩
            | some rs =>
              obtain ⟨h3, l3⟩ := rs
              have h3' := backoff_steps_of_splice hsp
              cases hfl : set_fullylinked h3 h1.length with
              | none =>
                exact ⟨0, by simp [optimistic_insert_loop_log, hr, hv, hsp, hfl, h0, h1', h3',
                  backoff_steps_append, backoff_steps]⟩
              | some h4 =>
                cases hu : unlock_levels_log h4 ps hl with
                | none =>
                  exact ⟨0, by simp [optimistic_insert_loop_log, hr, hv, hsp, hfl, hu, h0, h1',
                    h3', backoff_steps_append, backoff_steps]⟩
                | some ru =>
                  obtain ⟨h5, l5⟩ := ru
                  have h5' := backoff_steps_of_unlock hu
                  exact ⟨0, by simp [optimistic_insert_loop_log, hr, hv, hsp, hfl, hu, h0, h1',
                    h3', h5', backoff_steps_append, backoff_steps]⟩
      · cases hss : ss[f.toNat]? with
        | none => exact ⟨0, by simp [optimistic_insert_loop_log, hr, hf, hss, h0]⟩
        | some nf =>
          cases hn : h[nf]? with
          | none => exact ⟨0, by simp [optimistic_insert_loop_log, hr, hf, hss, hn, h0]⟩
          | some node =>
            by_cases hm : node.marked = true
            · obtain ⟨n, hn'⟩ := ih b h hb
              exact ⟨n, by simp [optimistic_insert_loop_log, hr, hf, hss, hn, hm, h0,
                backoff_steps_append, backoff_steps, hn']⟩
            · by_cases hfl : node.fullylinked = true
              · exact ⟨0, by simp [optimistic_insert_loop_log, hr, hf, hss, hn, hm, hfl, h0,
                  backoff_steps_append, backoff_steps]⟩
              · exact ⟨0, by simp [optimistic_insert_loop_log, hr, hf, hss, hn, hm, hfl, h0,
                  backoff_steps_append, backoff_steps]⟩

theorem delete_backoff_steps (m : sl_map) (k : Int) :
    ∀ (fuel : Nat) (nt : Option Nat) (im : Bool) (tl : Int) (b : Nat) (h : sl_heap),
      b < 4294967296 →
      ∃ n, backoff_steps (optimistic_delete_loop_log m k fuel nt im tl b h).2 =
        (List.range n).flatMap (fun j =>
          sl_event.invalid (b * 2 ^ j % 4294967296) ::
            (if b * 2 ^ j % 4294967296 > 5000 then
              [sl_event.sleep (delete_timeout (b * 2 ^ j % 4294967296)).1
                (delete_timeout (b * 2 ^ j % 4294967296)).2]
             else [])) := by
  intro fuel
  induction fuel with
  | zero => intro nt im tl b h _; exact ⟨0, rfl⟩
  | succ fuel ih =>
    intro nt im tl b h hb
    cases hr : optimistic_search_log (fuel + 1) h m k with
    | none => exact ⟨0, by simp [optimistic_delete_loop_log, hr, backoff_steps]⟩
    | some r =>
      obtain ⟨⟨f, ps, ss⟩, l0⟩ := r
      have h0 := backoff_steps_of_search hr
      cases hc : delete_cond_log h im f ss with
      | none => exact ⟨0, by simp [optimistic_delete_loop_log, hr, hc, h0]⟩
      | some rc =>
        obtain ⟨cb, lc⟩ := rc
        have hc' := backoff_steps_of_reads (delete_cond_log_reads hc)
        cases cb with
        | false =>
          exact ⟨0, by simp [optimistic_delete_loop_log, hr, hc, h0, hc', backoff_steps_append]⟩
        | true =>
          cases hmk : delete_mark_log h nt im tl f ss with
          | none =>
            exact ⟨0, by simp [optimistic_delete_loop_log, hr, hc, hmk, h0, hc',
              backoff_steps_append]⟩
          | some rm =>
            obtain ⟨res, lk⟩ := rm
            have hk' := backoff_steps_of_mark hmk
            cases res with
            | inl h2 =>
              exact ⟨0, by simp [optimistic_delete_loop_log, hr, hc, hmk, h0, hc', hk',
                backoff_steps_append]⟩
            | inr tr =>
              obtain ⟨nd, tl1, h2⟩ := tr
              cases nd with
              | none =>
                exact ⟨0, by simp [optimistic_delete_loop_log, hr, hc, hmk, h0, hc', hk',
                  backoff_steps_append]⟩
              | some nd =>
                cases hv : validate_loop_log delete_valid_log ps ss tl1.toNat 0 none (-1) h2 with
                | none =>
                  exact ⟨0, by simp [optimistic_delete_loop_log, hr, hc, hmk, hv, h0, hc', hk',
                    backoff_steps_append]⟩
                | some rv =>
                  obtain ⟨⟨vb, hl, h3⟩, l1⟩ := rv
                  have h1' := backoff_steps_of_validate
                    (fun _ _ _ _ _ _ hx => delete_valid_log_reads hx) hv
                  cases vb with
                  | false =>
                    cases hu : unlock_levels_log h3 ps hl with
                    | none =>
                      exact ⟨0, by simp [optimistic_delete_loop_log, hr, hc, hmk, hv, hu, h0,
                        hc', hk', h1', backoff_steps_append]⟩
                    | some ru =>
                      obtain ⟨h4, l2⟩ := ru
                      have h2' := backoff_steps_of_unlock hu
                      obtain ⟨n, hn⟩ := ih (some nd) true tl1 (b * 2 % 4294967296) h4
                        (Nat.mod_lt _ (by norm_num))
                      refine ⟨n + 1, ?_⟩
                      have hlog : (optimistic_delete_loop_log m k (fuel + 1) nt im tl b h).2 =
                          l0 ++ lc ++ lk ++ l1 ++ l2 ++ ([sl_event.invalid b] ++
                            (if b > 5000 then
                              [sl_event.sleep (delete_timeout b).1 (delete_timeout b).2]
                             else []) ++
                            (optimistic_delete_loop_log m k fuel (some nd) true tl1
                              (b * 2 % 4294967296) h4).2) := by
                        simp [optimistic_delete_loop_log, hr, hc, hmk, hv, hu]
                      rw [hlog, range_flatMap_succ]
                      simp only [backoff_steps_append, h0, hc', hk', h1', h2', hn,
                        List.nil_append, pow_zero, Nat.mul_one, Nat.mod_eq_of_lt hb,
                        doubled_backoff]
                      by_cases hb5 : b > 5000
                      · simp [hb5, backoff_steps]
                      · simp [hb5, backoff_steps]
                  | true =>
                    cases hul : delete_unlink_log nd ps tl1.toNat tl1.toNat h3 with
                    | none =>
                      exact ⟨0, by simp [optimistic_delete_loop_log, hr, hc, hmk, hv, hul, h0,
                        hc', hk', h1', backoff_steps_append]⟩
                    | some rl =>
                      obtain ⟨h4, l3⟩ := rl
                      have h3' := backoff_steps_of_unlink hul
                      cases hun : UNLOCK h4 nd with
                      | none =>
                        exact ⟨0, by simp [optimistic_delete_loop_log, hr, hc, hmk, hv, hul, hun,
                          h0, hc', hk', h1', h3', backoff_steps_append]⟩
                      | some h5 =>
                        cases hu : unlock_levels_log h5 ps hl with
                        | none =>
                          exact ⟨0, by simp [optimistic_delete_loop_log, hr, hc, hmk, hv, hul,
                            hun, hu, h0, hc', hk', h1', h3', backoff_steps_append,
                            backoff_steps]⟩
                        | some ru =>
                          obtain ⟨h6, l6⟩ := ru
                          have h6' := backoff_steps_of_unlock hu
                          exact ⟨0, by simp [optimistic_delete_loop_log, hr, hc, hmk, hv, hul,
                            hun, hu, h0, hc', hk', h1', h3', h6', backoff_steps_append,
                            backoff_steps]⟩

/-- On `contended_heap` every attempt of `optimistic_insert(map, 3, v)` fails
its validation and leaves the heap as it was: with fuel `n` the log has `n`
failed validations. -/
theorem contended_insert_retries :
    ∀ (n b : Nat), b < 4294967296 →
      (optimistic_insert_loop_log ⟨1⟩ 3 9 1 n b contended_heap).1 = none ∧
      backoff_steps (optimistic_insert_loop_log ⟨1⟩ 3 9 1 n b contended_heap).2 =
        (List.range n).flatMap (fun j =>
          sl_event.invalid (b * 2 ^ j % 4294967296) ::
            (if b * 2 ^ j % 4294967296 > 5000 then
              [sl_event.sleep (insert_timeout (b * 2 ^ j % 4294967296)).1
                (insert_timeout (b * 2 ^ j % 4294967296)).2]
             else [])) := by
  intro n
  induction n with
  | zero => intro b _; exact ⟨rfl, rfl⟩
  | succ n ih =>
    intro b hb
    have hs : optimistic_search_log (n + 1) contended_heap ⟨1⟩ 3 =
        some ((-1, [1], [2]), [sl_event.search, sl_event.read 1, sl_event.read 1,
          sl_event.read 2, sl_event.read 2]) := by
      simp [optimistic_search_log, search_levels_log, search_scan_log, contended_heap]
    have hv : validate_loop_log insert_valid_log [1] [2] 1 0 none (-1) contended_heap =
        some ((false, 0, contended_heap.set 1 ⟨VAL_MIN, 0, 1, [some 2], false, true, true⟩),
          [sl_event.lock 1, sl_event.read 1, sl_event.read 2]) := by
      decide
    have hu : unlock_levels_log
        (contended_heap.set 1 ⟨VAL_MIN, 0, 1, [some 2], false, true, true⟩) [1] 0 =
        some (contended_heap, [sl_event.unlock 1]) := by
      decide
    obtain ⟨ih1, ih2⟩ := ih (b * 2 % 4294967296) (Nat.mod_lt _ (by norm_num))
    have hlog : optimistic_insert_loop_log ⟨1⟩ 3 9 1 (n + 1) b contended_heap =
        ((optimistic_insert_loop_log ⟨1⟩ 3 9 1 n (b * 2 % 4294967296) contended_heap).1,
          [sl_event.search, sl_event.read 1, sl_event.read 1, sl_event.read 2,
            sl_event.read 2, sl_event.lock 1, sl_event.read 1, sl_event.read 2,
            sl_event.unlock 1] ++ ([sl_event.invalid b] ++
            (if b > 5000 then [sl_event.sleep (insert_timeout b).1 (insert_timeout b).2]
             else []) ++
            (optimistic_insert_loop_log ⟨1⟩ 3 9 1 n (b * 2 % 4294967296) contended_heap).2)) := by
      simp [optimistic_insert_loop_log, hs, hv, hu]
    rw [hlog]
    refine ⟨ih1, ?_⟩
    rw [range_flatMap_succ]
    simp only [backoff_steps_append, ih2, pow_zero, Nat.mul_one, Nat.mod_eq_of_lt hb,
      doubled_backoff]
    by_cases hb5 : b > 5000
    · simp [hb5, backoff_steps]
    · simp [hb5, backoff_steps]

/-- C16, as stated, fails at the 33rd failed validation of one call.  On
`contended_heap` (the successor of the head is being deleted by another
thread) `optimistic_insert(map, 3, v)` fails its validation at every attempt;
the last six backoff steps of the first 34 attempts are: counter `2^30` and a
sleep, counter `2^31` and a sleep, then counter `0` (not `2^32`) twice, with no
sleep although the counter had exceeded `5000` before. -/
theorem backoff_wraps_to_zero :
    (optimistic_insert_log 34 contended_heap ⟨1⟩ 3 9 1).1 = none ∧
      (backoff_steps (optimistic_insert_log 34 contended_heap ⟨1⟩ 3 9 1).2).length = 53 ∧
      (backoff_steps (optimistic_insert_log 34 contended_heap ⟨1⟩ 3 9 1).2).drop 47 =
        [sl_event.invalid 1073741824, sl_event.sleep 214748 1824000000,
         sl_event.invalid 2147483648, sl_event.sleep 429496 3648000000,
         sl_event.invalid 0, sl_event.invalid 0] := by
  decide

/-- C16, amended.  For every heap, key and fuel, the backoff steps in the log
of a call of `optimistic_insert` or `optimistic_delete` are, for some number
`n` of failed validations, the steps `j = 0, …, n-1` in which the branch
`if (!valid)` is entered with the counter `2^j mod 2^32` and `nanosleep` is
called exactly when that value exceeds `5000`.  The counter is `2^j` for
`j < 32` and `0` from then on, so it exceeds `5000` exactly for `13 ≤ j ≤ 31`.
There is no retry cap: on `contended_heap` a call with fuel `n` goes through
`n` failed validations, for every `n`. -/
theorem backoff_doubles_modulo (fuel : Nat) (h : sl_heap) (m : sl_map) (k : Int)
    (v L : Nat) :
    (∃ n, backoff_steps (optimistic_insert_log fuel h m k v L).2 =
      (List.range n).flatMap (fun j =>
        sl_event.invalid (2 ^ j % 4294967296) ::
          (if 2 ^ j % 4294967296 > 5000 then
            [sl_event.sleep (insert_timeout (2 ^ j % 4294967296)).1
              (insert_timeout (2 ^ j % 4294967296)).2]
           else []))) ∧
    (∃ n, backoff_steps (optimistic_delete_log fuel h m k).2 =
      (List.range n).flatMap (fun j =>
        sl_event.invalid (2 ^ j % 4294967296) ::
          (if 2 ^ j % 4294967296 > 5000 then
            [sl_event.sleep (delete_timeout (2 ^ j % 4294967296)).1
              (delete_timeout (2 ^ j % 4294967296)).2]
           else []))) ∧
    (∀ j : Nat, 2 ^ j % 4294967296 = if j < 32 then 2 ^ j else 0) ∧
    (∀ j : Nat, 2 ^ j % 4294967296 > 5000 ↔ 13 ≤ j ∧ j ≤ 31) ∧
    (∀ n, backoff_steps (optimistic_insert_log n contended_heap ⟨1⟩ 3 9 1).2 =
      (List.range n).flatMap (fun j =>
        sl_event.invalid (2 ^ j % 4294967296) ::
          (if 2 ^ j % 4294967296 > 5000 then
            [sl_event.sleep (insert_timeout (2 ^ j % 4294967296)).1
              (insert_timeout (2 ^ j % 4294967296)).2]
           else []))) := by
  refine ⟨?_, ?_, fun j => (backoff_above_threshold j).1,
    fun j => (backoff_above_threshold j).2, ?_⟩
  · obtain ⟨n, hn⟩ := insert_backoff_steps m k v L fuel 1 h (by norm_num)
    exact ⟨n, by simpa [optimistic_insert_log] using hn⟩
  · obtain ⟨n, hn⟩ := delete_backoff_steps m k fuel none false (-1) 1 h (by norm_num)
    exact ⟨n, by simpa [optimistic_delete_log] using hn⟩
  · intro n
    have := (contended_insert_retries n 1 (by norm_num)).2
    simpa [optimistic_insert_log] using this

/-! ## Locks taken by the validation loop and released by `unlock_levels` -/

theorem LOCK_inv {h h1 : sl_heap} {a : Nat} (hl : LOCK h a = some h1) :
    ∃ n, h[a]? = some n ∧ n.lock = false ∧ h1 = h.set a { n with lock := true } := by
  unfold LOCK at hl
  cases hn : h[a]? with
  | none => simp [hn] at hl
  | some n =>
    rw [hn] at hl
    by_cases hk : n.lock = true
    · simp [hk] at hl
    · simp only [hk, if_false, Option.some.injEq, Bool.false_eq_true] at hl
      exact ⟨n, rfl, by simpa using hk, hl.symm⟩

theorem UNLOCK_inv {h h1 : sl_heap} {a : Nat} (hl : UNLOCK h a = some h1) :
    ∃ n, h[a]? = some n ∧ n.lock = true ∧ h1 = h.set a { n with lock := false } := by
  unfold UNLOCK at hl
  cases hn : h[a]? with
  | none => simp [hn] at hl
  | some n =>
    rw [hn] at hl
    by_cases hk : n.lock = true
    · simp only [hk, if_true, Option.some.injEq] at hl
      exact ⟨n, rfl, hk, hl.symm⟩
    · simp [hk] at hl

theorem set_self_eq {h : sl_heap} {a : Nat} {n : sl_node} (hn : h[a]? = some n) :
    h.set a n = h := by
  apply List.ext_getElem?
  intro b
  by_cases hb : b = a
  · subst hb
    rw [set_get_self hn, hn]
  · rw [set_get_ne hb]

theorem UNLOCK_of_LOCK {h h1 : sl_heap} {a : Nat} (hl : LOCK h a = some h1) :
    UNLOCK h1 a = some h := by
  obtain ⟨n, hn, hfree, rfl⟩ := LOCK_inv hl
  rw [UNLOCK_eq (set_get_self hn _) rfl, List.set_set]
  have : ({ ({ n with lock := true } : sl_node) with lock := false } : sl_node) = n := by
    cases n
    simp only at hfree
    subst hfree
    rfl
  rw [this, set_self_eq hn]

theorem UNLOCK_swap {h hb hab : sl_heap} {a b : Nat} (hne : a ≠ b)
    (h1 : UNLOCK h b = some hb) (h2 : UNLOCK hb a = some hab) :
    ∃ ha, UNLOCK h a = some ha ∧ UNLOCK ha b = some hab := by
  obtain ⟨nb, hnb, hbl, rfl⟩ := UNLOCK_inv h1
  obtain ⟨na, hna, hal, rfl⟩ := UNLOCK_inv h2
  rw [set_get_ne hne] at hna
  refine ⟨_, UNLOCK_eq hna hal, ?_⟩
  have hnb' : (h.set a { na with lock := false })[b]? = some nb := by
    rw [set_get_ne (Ne.symm hne)]; exact hnb
  rw [UNLOCK_eq hnb' hbl, List.set_comm _ _ _ hne]

theorem unlock_all_push {a : Nat} :
    ∀ (ls : List Nat) (h1 hm h : sl_heap), a ∉ ls →
      ls.foldlM UNLOCK h1 = some hm → UNLOCK hm a = some h →
      ∃ h2, UNLOCK h1 a = some h2 ∧ ls.foldlM UNLOCK h2 = some h := by
  intro ls
  induction ls with
  | nil =>
    intro h1 hm h _ hf hu
    simp only [List.foldlM_nil, pure, Option.some.injEq] at hf
    subst hf
    exact ⟨h, hu, rfl⟩
  | cons b ls ih =>
    intro h1 hm h hnot hf hu
    rw [List.foldlM_cons] at hf
    cases hb : UNLOCK h1 b with
    | none => simp [hb] at hf
    | some hb1 =>
      rw [hb] at hf
      simp only [Option.some_bind, bind] at hf
      have hab : a ≠ b := fun hh => hnot (hh ▸ List.mem_cons_self _ _)
      obtain ⟨h2, hu2, hf2⟩ := ih hb1 hm h
        (fun hh => hnot (List.mem_cons_of_mem _ hh)) hf hu
      obtain ⟨ha, hua, hub⟩ := UNLOCK_swap hab hb hu2
      refine ⟨ha, hua, ?_⟩
      rw [List.foldlM_cons, hub]
      exact hf2

theorem drop_of_get {P : List Nat} {i p : Nat} (hp : P[i]? = some p) :
    P.drop i = p :: P.drop (i + 1) := by
  obtain ⟨hlt, rfl⟩ := List.getElem?_eq_some.mp hp
  exact List.drop_eq_getElem_cons hlt

/-- The nodes locked by the validation loop: every one was free, they are
pairwise distinct, and releasing them in the order in which they were taken
gives the heap back. -/
theorem validate_loop_log_heap
    (va : sl_heap → Nat → Nat → Nat → Option (Bool × List sl_event))
    (hva : ∀ h p s i b l, va h p s i = some (b, l) → ∀ e ∈ l, ∃ a, e = sl_event.read a)
    (preds succs : List Nat) :
    ∀ (n i : Nat) (prev : Option Nat) (hl : Int) (h : sl_heap)
      (r : Bool × Int × sl_heap) (l : List sl_event),
      validate_loop_log va preds succs n i prev hl h = some (r, l) →
      (locked_by l).foldlM UNLOCK r.2.2 = some h ∧
      (∀ a ∈ locked_by l, ∃ nd, h[a]? = some nd ∧ nd.lock = false) ∧
      (locked_by l).Nodup ∧ released_by l = [] := by
  intro n
  induction n with
  | zero =>
    intro i prev hl h r l hr
    simp only [validate_loop_log, Option.some.injEq, Prod.mk.injEq] at hr
    obtain ⟨rfl, rfl⟩ := hr
    exact ⟨rfl, by simp [locked_by], by simp [locked_by], rfl⟩
  | succ n ih =>
    intro i prev hl h r l hr
    have hrel : released_by l = [] := by
      refine released_by_eq_nil ?_
      intro e he a hea
      rcases validate_loop_log_kind va hva preds succs _ i prev hl h r l hr e he with
        ⟨b, rfl⟩ | ⟨b, rfl⟩ <;> simp at hea
    cases hp : preds[i]? with
    | none => simp [validate_loop_log, hp] at hr
    | some p =>
      cases hs : succs[i]? with
      | none => simp [validate_loop_log, hp, hs] at hr
      | some s =>
        by_cases hpp : prev = some p
        · cases hv : va h p s i with
          | none => simp [validate_loop_log, hp, hs, hpp, hv] at hr
          | some rv =>
            obtain ⟨b, l2⟩ := rv
            have hl2 := locked_by_eq_nil (l := l2) (fun e he a hea => by
              obtain ⟨x, rfl⟩ := hva _ _ _ _ _ _ hv e he
              simp at hea)
            cases b with
            | false =>
              simp only [validate_loop_log, hp, hs, hpp, hv, ne_eq, not_true_eq_false, if_false,
                Option.some.injEq, Prod.mk.injEq, List.nil_append] at hr
              obtain ⟨rfl, rfl⟩ := hr
              rw [hl2]
              exact ⟨rfl, by simp, by simp, hrel⟩
            | true =>
              cases hrec : validate_loop_log va preds succs n (i + 1) (some p) hl h with
              | none => simp [validate_loop_log, hp, hs, hpp, hv, hrec] at hr
              | some r3 =>
                obtain ⟨r3, l3⟩ := r3
                simp only [validate_loop_log, hp, hs, hpp, hv, hrec, ne_eq, not_true_eq_false,
                  if_false, Option.some.injEq, Prod.mk.injEq, List.nil_append] at hr
                obtain ⟨rfl, rfl⟩ := hr
                obtain ⟨a1, a2, a3, _⟩ := ih _ _ _ _ _ _ hrec
                rw [locked_by_append, hl2, List.nil_append]
                exact ⟨a1, a2, a3, hrel⟩
        · cases hlk : LOCK h p with
          | none => simp [validate_loop_log, hp, hs, hpp, hlk] at hr
          | some h1 =>
            obtain ⟨np, hnp, hfree, hh1⟩ := LOCK_inv hlk
            cases hv : va h1 p s i with
            | none => simp [validate_loop_log, hp, hs, hpp, hlk, hv] at hr
            | some rv =>
              obtain ⟨b, l2⟩ := rv
              have hl2 := locked_by_eq_nil (l := l2) (fun e he a hea => by
                obtain ⟨x, rfl⟩ := hva _ _ _ _ _ _ hv e he
                simp at hea)
              cases b with
              | false =>
                simp only [validate_loop_log, hp, hs, hpp, hlk, hv, ne_eq, not_false_eq_true,
                  if_true, Option.map_some', Option.some.injEq, Prod.mk.injEq] at hr
                obtain ⟨rfl, rfl⟩ := hr
                rw [locked_by_append, hl2]
                refine ⟨?_, ?_, by simp [locked_by], hrel⟩
                · simp [locked_by, UNLOCK_of_LOCK hlk]
                · intro a ha
                  simp only [locked_by, List.append_nil, List.mem_singleton] at ha
                  subst ha
                  exact ⟨np, hnp, hfree⟩
              | true =>
                cases hrec : validate_loop_log va preds succs n (i + 1) (some p) (i : Int) h1 with
                | none => simp [validate_loop_log, hp, hs, hpp, hlk, hv, hrec] at hr
                | some r3 =>
                  obtain ⟨r3, l3⟩ := r3
                  simp only [validate_loop_log, hp, hs, hpp, hlk, hv, hrec, ne_eq,
                    not_false_eq_true, if_true, Option.map_some', Option.some.injEq,
                    Prod.mk.injEq] at hr
                  obtain ⟨rfl, rfl⟩ := hr
                  obtain ⟨a1, a2, a3, _⟩ := ih _ _ _ _ _ _ hrec
                  have hnot : p ∉ locked_by l3 := by
                    intro hmem
                    obtain ⟨nd, hnd, hndl⟩ := a2 p hmem
                    rw [hh1, set_get_self hnp] at hnd
                    obtain rfl : _ = nd := by simpa using hnd
                    simp at hndl
                  have hlb : locked_by ([sl_event.lock p] ++ l2 ++ l3) = p :: locked_by l3 := by
                    rw [locked_by_append, locked_by_append, hl2]
                    rfl
                  rw [hlb]
                  refine ⟨?_, ?_, List.nodup_cons.mpr ⟨hnot, a3⟩, hrel⟩
                  · obtain ⟨h2, hu2, hf2⟩ := unlock_all_push _ _ _ _ hnot a1 (UNLOCK_of_LOCK hlk)
                    rw [List.foldlM_cons, hu2]
                    exact hf2
                  · intro a ha
                    rcases List.mem_cons.mp ha with rfl | ha
                    · exact ⟨np, hnp, hfree⟩
                    · obtain ⟨nd, hnd, hndl⟩ := a2 a ha
                      have hap : a ≠ p := fun hh => hnot (hh ▸ ha)
                      rw [hh1, set_get_ne hap] at hnd
                      exact ⟨nd, hnd, hndl⟩

theorem lock_seq_cons_same (p : Nat) (X : List Nat) :
    lock_seq (some p) (p :: X) = lock_seq (some p) X := by
  simp [lock_seq]

theorem lock_seq_cons_new {prev : Option Nat} {p : Nat} (hne : prev ≠ some p) (X : List Nat) :
    lock_seq prev (p :: X) = p :: lock_seq (some p) X := by
  simp [lock_seq, hne]

/-- The nodes locked by the validation loop are the entries of `preds`, from
level `i` on, that differ from the entry before them, and `highest_locked` is
the level of the last one. -/
theorem validate_loop_log_seq
    (va : sl_heap → Nat → Nat → Nat → Option (Bool × List sl_event))
    (hva : ∀ h p s i b l, va h p s i = some (b, l) → ∀ e ∈ l, ∃ a, e = sl_event.read a)
    (preds succs : List Nat) :
    ∀ (n i : Nat) (prev : Option Nat) (hl : Int) (h : sl_heap)
      (r : Bool × Int × sl_heap) (l : List sl_event),
      validate_loop_log va preds succs n i prev hl h = some (r, l) →
      ∃ m, m ≤ n ∧ (0 < m → i + m ≤ preds.length) ∧ (r.1 = true → m = n) ∧
        locked_by l = lock_seq prev ((preds.drop i).take m) ∧
        ((r.2.1 = hl ∧ locked_by l = []) ∨
          ∃ j : Nat, r.2.1 = (j : Int) ∧ i ≤ j ∧ j < i + m ∧
            locked_by l = lock_seq prev ((preds.drop i).take (j + 1 - i))) := by
  intro n
  induction n with
  | zero =>
    intro i prev hl h r l hr
    simp only [validate_loop_log, Option.some.injEq, Prod.mk.injEq] at hr
    obtain ⟨rfl, rfl⟩ := hr
    exact ⟨0, le_refl _, by simp, fun _ => rfl, by simp [locked_by, lock_seq],
      Or.inl ⟨rfl, rfl⟩⟩
  | succ n ih =>
    intro i prev hl h r l hr
    cases hp : preds[i]? with
    | none => simp [validate_loop_log, hp] at hr
    | some p =>
      have hilt : i < preds.length := (List.getElem?_eq_some.mp hp).1
      have hdrop := drop_of_get hp
      cases hs : succs[i]? with
      | none => simp [validate_loop_log, hp, hs] at hr
      | some s =>
        by_cases hpp : prev = some p
        · cases hv : va h p s i with
          | none => simp [validate_loop_log, hp, hs, hpp, hv] at hr
          | some rv =>
            obtain ⟨b, l2⟩ := rv
            have hl2 := locked_by_eq_nil (l := l2) (fun e he a hea => by
              obtain ⟨x, rfl⟩ := hva _ _ _ _ _ _ hv e he
              simp at hea)
            cases b with
            | false =>
              simp only [validate_loop_log, hp, hs, hpp, hv, ne_eq, not_true_eq_false, if_false,
                Option.some.injEq, Prod.mk.injEq, List.nil_append] at hr
              obtain ⟨rfl, rfl⟩ := hr
              refine ⟨1, by omega, fun _ => by omega, by simp, ?_, Or.inl ⟨rfl, hl2⟩⟩
              rw [hl2, hdrop, hpp]
              simp [lock_seq]
            | true =>
              cases hrec : validate_loop_log va preds succs n (i + 1) (some p) hl h with
              | none => simp [validate_loop_log, hp, hs, hpp, hv, hrec] at hr
              | some r3 =>
                obtain ⟨r3, l3⟩ := r3
                simp only [validate_loop_log, hp, hs, hpp, hv, hrec, ne_eq, not_true_eq_false,
                  if_false, Option.some.injEq, Prod.mk.injEq, List.nil_append] at hr
                obtain ⟨rfl, rfl⟩ := hr
                obtain ⟨m, hm, hlen, hfull, hseq, hhl⟩ := ih _ _ _ _ _ _ hrec
                have hlb : locked_by (l2 ++ l3) = locked_by l3 := by
                  rw [locked_by_append, hl2, List.nil_append]
                refine ⟨m + 1, by omega, fun _ => ?_, fun hh => by rw [hfull hh], ?_, ?_⟩
                · by_cases hm0 : 0 < m
                  · have := hlen hm0
                    omega
                  · omega
                · rw [hlb, hseq, hdrop, hpp, List.take_succ_cons, lock_seq_cons_same]
                · rcases hhl with ⟨h1, h2⟩ | ⟨j, hj, hij, hjm, hjs⟩
                  · exact Or.inl ⟨h1, by rw [hlb, h2]⟩
                  · refine Or.inr ⟨j, hj, by omega, by omega, ?_⟩
                    have hji : j + 1 - i = (j + 1 - (i + 1)) + 1 := by omega
                    rw [hlb, hjs, hdrop, hpp, hji, List.take_succ_cons, lock_seq_cons_same]
        · cases hlk : LOCK h p with
          | none => simp [validate_loop_log, hp, hs, hpp, hlk] at hr
          | some h1 =>
            cases hv : va h1 p s i with
            | none => simp [validate_loop_log, hp, hs, hpp, hlk, hv] at hr
            | some rv =>
              obtain ⟨b, l2⟩ := rv
              have hl2 := locked_by_eq_nil (l := l2) (fun e he a hea => by
                obtain ⟨x, rfl⟩ := hva _ _ _ _ _ _ hv e he
                simp at hea)
              cases b with
              | false =>
                simp only [validate_loop_log, hp, hs, hpp, hlk, hv, ne_eq, not_false_eq_true,
                  if_true, Option.map_some', Option.some.injEq, Prod.mk.injEq] at hr
                obtain ⟨rfl, rfl⟩ := hr
                have hlb : locked_by ([sl_event.lock p] ++ l2) = [p] := by
                  rw [locked_by_append, hl2]; rfl
                have hone : lock_seq prev ((preds.drop i).take 1) = [p] := by
                  rw [hdrop]
                  simp [lock_seq, hpp]
                refine ⟨1, by omega, fun _ => by omega, by simp, by rw [hlb, hone],
                  Or.inr ⟨i, rfl, le_refl _, by omega, ?_⟩⟩
                rw [hlb, Nat.add_sub_cancel_left, hone]
              | true =>
                cases hrec : validate_loop_log va preds succs n (i + 1) (some p) (i : Int) h1 with
                | none => simp [validate_loop_log, hp, hs, hpp, hlk, hv, hrec] at hr
                | some r3 =>
                  obtain ⟨r3, l3⟩ := r3
                  simp only [validate_loop_log, hp, hs, hpp, hlk, hv, hrec, ne_eq,
                    not_false_eq_true, if_true, Option.map_some', Option.some.injEq,
                    Prod.mk.injEq] at hr
                  obtain ⟨rfl, rfl⟩ := hr
                  obtain ⟨m, hm, hlen, hfull, hseq, hhl⟩ := ih _ _ _ _ _ _ hrec
                  have hlb : locked_by ([sl_event.lock p] ++ l2 ++ l3) = p :: locked_by l3 := by
                    rw [locked_by_append, locked_by_append, hl2]
                    rfl
                  refine ⟨m + 1, by omega, fun _ => ?_, fun hh => by rw [hfull hh], ?_, ?_⟩
                  · by_cases hm0 : 0 < m
                    · have := hlen hm0
                      omega
                    · omega
                  · rw [hlb, hseq, hdrop, List.take_succ_cons, lock_seq_cons_new hpp]
                  · rcases hhl with ⟨h1', h2⟩ | ⟨j, hj, hij, hjm, hjs⟩
                    · refine Or.inr ⟨i, h1', le_refl _, by omega, ?_⟩
                      rw [hlb, h2, Nat.add_sub_cancel_left, hdrop]
                      simp [lock_seq, hpp]
                    · refine Or.inr ⟨j, hj, by omega, by omega, ?_⟩
                      have hji : j + 1 - i = (j + 1 - (i + 1)) + 1 := by omega
                      rw [hlb, hjs, hdrop, hji, List.take_succ_cons, lock_seq_cons_new hpp]

theorem unlock_levels_loop_log_seq (nodes : List Nat) :
    ∀ (n i : Nat) (old : Option Nat) (h h1 : sl_heap) (l : List sl_event),
      unlock_levels_loop_log nodes n i old h = some (h1, l) →
      released_by l = lock_seq old ((nodes.drop i).take n) ∧ locked_by l = [] := by
  intro n
  induction n with
  | zero =>
    intro i old h h1 l hr
    simp only [unlock_levels_loop_log, Option.some.injEq, Prod.mk.injEq] at hr
    obtain ⟨_, rfl⟩ := hr
    simp [released_by, locked_by, lock_seq]
  | succ n ih =>
    intro i old h h1 l hr
    cases ha : nodes[i]? with
    | none => simp [unlock_levels_loop_log, ha] at hr
    | some a =>
      have hdrop := drop_of_get ha
      by_cases ho : old = some a
      · simp only [unlock_levels_loop_log, ha, ho, ne_eq, not_true_eq_false, if_false] at hr
        obtain ⟨h1', h2'⟩ := ih _ _ _ _ _ hr
        refine ⟨?_, h2'⟩
        rw [h1', hdrop, ho, List.take_succ_cons, lock_seq_cons_same]
      · cases hu : UNLOCK h a with
        | none => simp [unlock_levels_loop_log, ha, ho, hu] at hr
        | some h2 =>
          cases hrec : unlock_levels_loop_log nodes n (i + 1) (some a) h2 with
          | none => simp [unlock_levels_loop_log, ha, ho, hu, hrec] at hr
          | some r =>
            obtain ⟨h3, l3⟩ := r
            simp only [unlock_levels_loop_log, ha, ho, hu, hrec, ne_eq, not_false_eq_true,
              if_true, Option.some.injEq, Prod.mk.injEq] at hr
            obtain ⟨_, rfl⟩ := hr
            obtain ⟨h1', h2'⟩ := ih _ _ _ _ _ hrec
            refine ⟨?_, by simpa [locked_by] using h2'⟩
            rw [hdrop, List.take_succ_cons, lock_seq_cons_new ho, ← h1']
            rfl

theorem unlock_levels_loop_log_run (nodes : List Nat) :
    ∀ (n i : Nat) (old : Option Nat) (h hfin : sl_heap), i + n ≤ nodes.length →
      (lock_seq old ((nodes.drop i).take n)).foldlM UNLOCK h = some hfin →
      ∃ l, unlock_levels_loop_log nodes n i old h = some (hfin, l) := by
  intro n
  induction n with
  | zero =>
    intro i old h hfin _ hf
    simp only [List.take_zero, lock_seq, List.foldlM_nil, pure, Option.some.injEq] at hf
    subst hf
    exact ⟨[], rfl⟩
  | succ n ih =>
    intro i old h hfin hlen hf
    have hilt : i < nodes.length := by omega
    have ha : nodes[i]? = some nodes[i] := List.getElem?_eq_getElem hilt
    have hdrop := drop_of_get ha
    rw [hdrop, List.take_succ_cons] at hf
    by_cases ho : old = some nodes[i]
    · rw [ho, lock_seq_cons_same] at hf
      obtain ⟨l, hl⟩ := ih (i + 1) (some nodes[i]) h hfin (by omega) hf
      exact ⟨l, by simp [unlock_levels_loop_log, ha, ho, hl]⟩
    · rw [lock_seq_cons_new ho, List.foldlM_cons] at hf
      cases hu : UNLOCK h nodes[i] with
      | none => simp [hu] at hf
      | some h2 =>
        rw [hu] at hf
        obtain ⟨l, hl⟩ := ih (i + 1) (some nodes[i]) h2 hfin (by omega) hf
        exact ⟨sl_event.unlock nodes[i] :: l, by simp [unlock_levels_loop_log, ha, ho, hu, hl]⟩

/-- Lock balance of one attempt: when the validation loop stops, with success
or with a failure, `unlock_levels(preds, highest_locked)` returns, releases
the nodes that the loop locked in the order in which they were locked, each
one once, and gives back the heap from which the loop started. -/
theorem validate_then_unlock
    (va : sl_heap → Nat → Nat → Nat → Option (Bool × List sl_event))
    (hva : ∀ h p s i b l, va h p s i = some (b, l) → ∀ e ∈ l, ∃ a, e = sl_event.read a)
    {preds succs : List Nat} {n : Nat} {h : sl_heap} {v : Bool} {hl : Int} {h1 : sl_heap}
    {l1 : List sl_event}
    (hr : validate_loop_log va preds succs n 0 none (-1) h = some ((v, hl, h1), l1)) :
    (∃ l2, unlock_levels_log h1 preds hl = some (h, l2)) ∧
    (∀ hx hy l3, unlock_levels_log hx preds hl = some (hy, l3) →
      released_by l3 = locked_by l1 ∧ locked_by l3 = []) ∧
    (locked_by l1).Nodup ∧ released_by l1 = [] ∧
    (v = true → locked_by l1 = lock_seq none (preds.take n)) := by
  obtain ⟨hfold, _, hnodup, hrel⟩ := validate_loop_log_heap va hva preds succs _ _ _ _ _ _ _ hr
  obtain ⟨m, hm, hlen, hfull, hseq, hhl⟩ :=
    validate_loop_log_seq va hva preds succs _ _ _ _ _ _ _ hr
  simp only [List.drop_zero, Nat.zero_add, Nat.sub_zero] at hseq hhl hlen
  have hkey : locked_by l1 = lock_seq none (preds.take (hl + 1).toNat) ∧
      (hl + 1).toNat ≤ preds.length := by
    rcases hhl with ⟨h1', h2'⟩ | ⟨j, hj, _, hjm, hjs⟩
    · have h1'' : hl = -1 := h1'
      rw [h1'', h2']
      simp [lock_seq]
    · have hj' : hl = (j : Int) := hj
      have hpos := hlen (by omega)
      rw [hj', hjs]
      have : ((j : Int) + 1).toNat = j + 1 := by omega
      rw [this]
      exact ⟨rfl, by omega⟩
  refine ⟨?_, ?_, hnodup, hrel, ?_⟩
  · simp only at hfold
    rw [hkey.1] at hfold
    obtain ⟨l2, hl2⟩ := unlock_levels_loop_log_run preds (hl + 1).toNat 0 none h1 h
      (by omega) (by simpa using hfold)
    exact ⟨l2, hl2⟩
  · intro hx hy l3 hu
    obtain ⟨a1, a2⟩ := unlock_levels_loop_log_seq preds _ _ _ _ _ _ hu
    rw [a1, hkey.1]
    simp [a2]
  · intro hv
    rw [hseq, hfull hv]

/-! ## The log of a call that returns at its first attempt -/

theorem log_of_fst {α β : Type} {x : Option (α × β)} {y : Option α}
    (hxy : x.map Prod.fst = y) {a : α} (hy : y = some a) : ∃ b, x = some (a, b) := by
  cases x with
  | none => rw [← hxy] at hy; simp at hy
  | some r =>
    obtain ⟨a1, b⟩ := r
    rw [← hxy] at hy
    simp only [Option.map_some', Option.some.injEq] at hy
    exact ⟨b, by rw [hy]⟩

/-- The log of an insert whose search does not find the key and whose
validation succeeds. -/
theorem insert_log_run {m : sl_map} {k : Int} {v L f b : Nat} {h : sl_heap}
    {ps ss : List Nat} {l0 l1 : List sl_event} {hl : Int} {h1 : sl_heap}
    {rh : Int × sl_heap}
    (hs : optimistic_search_log (f + 1) h m k = some ((-1, ps, ss), l0))
    (hv : validate_loop_log insert_valid_log ps ss L 0 none (-1) h = some ((true, hl, h1), l1))
    (hres : (optimistic_insert_loop_log m k v L (f + 1) b h).1 = some rh) :
    ∃ h3 l3 h4 h5 l5,
      insert_splice_log h1.length ps ss L 0 (h1 ++ [sl_new_simple_node k v L]) = some (h3, l3) ∧
      set_fullylinked h3 h1.length = some h4 ∧
      unlock_levels_log h4 ps hl = some (h5, l5) ∧
      optimistic_insert_loop_log m k v L (f + 1) b h =
        (some (1, h5), l0 ++ l1 ++ sl_event.alloc h1.length k v L :: l3 ++
          sl_event.fullylinked h1.length :: l5) := by
  cases hsp : insert_splice_log h1.length ps ss L 0 (h1 ++ [sl_new_simple_node k v L]) with
  | none => simp [optimistic_insert_loop_log, hs, hv, hsp] at hres
  | some rs =>
    obtain ⟨h3, l3⟩ := rs
    cases hfl : set_fullylinked h3 h1.length with
    | none => simp [optimistic_insert_loop_log, hs, hv, hsp, hfl] at hres
    | some h4 =>
      cases hu : unlock_levels_log h4 ps hl with
      | none => simp [optimistic_insert_loop_log, hs, hv, hsp, hfl, hu] at hres
      | some ru =>
        obtain ⟨h5, l5⟩ := ru
        exact ⟨h3, l3, h4, h5, l5, rfl, hfl, hu,
          by simp [optimistic_insert_loop_log, hs, hv, hsp, hfl, hu]⟩

/-- The log of an insert whose search finds a visible node with the key. -/
theorem insert_log_found {m : sl_map} {k : Int} {v L fuel : Nat} {h : sl_heap}
    (hf : optimistic_find fuel h m k = some 1) :
    ∃ r l0 a, optimistic_search_log fuel h m k = some (r, l0) ∧
      optimistic_insert_log fuel h m k v L =
        (some (0, h), l0 ++ [sl_event.read a, sl_event.read a]) := by
  obtain ⟨found, ps, ss, a, n, hs, hfound, hss, hn, hfl, hmk⟩ := find_one_iff hf
  obtain ⟨l0, hsl⟩ := log_of_fst (optimistic_search_log_fst fuel h m k) hs
  cases fuel with
  | zero => exact absurd (search_zero_fuel hs) hfound
  | succ f =>
    exact ⟨_, l0, a, hsl, by
      simp [optimistic_insert_log, optimistic_insert_loop_log, hsl, hfound, hss, hn, hfl, hmk]⟩

/-- The log of a delete whose search does not find a visible node with the
key. -/
theorem delete_log_absent {m : sl_map} {k : Int} {fuel : Nat} {h : sl_heap}
    (hf : optimistic_find fuel h m k = some 0) (hfuel : 0 < fuel) :
    ∃ r l0 lc, optimistic_search_log fuel h m k = some (r, l0) ∧
      (∀ e ∈ lc, ∃ a, e = sl_event.read a) ∧
      optimistic_delete_log fuel h m k = (some (0, h), l0 ++ lc) := by
  obtain ⟨f, rfl⟩ : ∃ f, fuel = f + 1 := ⟨fuel - 1, by omega⟩
  have hdel := delete_of_find_zero hf hfuel
  cases hsl : optimistic_search_log (f + 1) h m k with
  | none =>
    have := log_none_fst (optimistic_search_log_fst _ h m k) hsl
    simp [optimistic_find, this] at hf
  | some r =>
    obtain ⟨⟨found, ps, ss⟩, l0⟩ := r
    have hs := log_some_fst (optimistic_search_log_fst _ h m k) hsl
    cases hc : delete_cond_log h false found ss with
    | none =>
      have hc' := log_none_fst (delete_cond_log_fst h false found ss) hc
      simp [optimistic_delete, optimistic_delete_loop, hs, hc'] at hdel
    | some rc =>
      obtain ⟨cb, lc⟩ := rc
      have hc' := log_some_fst (delete_cond_log_fst h false found ss) hc
      cases cb with
      | false =>
        exact ⟨_, l0, lc, rfl, delete_cond_log_reads hc, by
          simp [optimistic_delete_log, optimistic_delete_loop_log, hsl, hc]⟩
      | true =>
        exfalso
        unfold optimistic_find at hf
        rw [hs] at hf
        unfold delete_cond at hc'
        by_cases hfo : found = -1
        · simp [hfo] at hc'
        · simp only [hfo, ne_eq, not_false_eq_true, if_true, Bool.false_eq_true,
            if_false] at hf hc'
          cases hss : ss[found.toNat]? with
          | none => simp [hss] at hf
          | some a =>
            rw [hss] at hf hc'
            simp only at hf hc'
            cases hn : h[a]? with
            | none => simp [hn] at hf
            | some n =>
              rw [hn] at hf hc'
              simp only [Option.some.injEq] at hf hc'
              unfold ok_to_delete at hc'
              simp only [Bool.and_eq_true, Bool.not_eq_true', beq_iff_eq] at hc'
              simp [hc'.1, hc'.2.2] at hf

/-- The log of a delete whose search finds the key, whose victim gets marked
and whose validation succeeds. -/
theorem delete_log_run {m : sl_map} {k : Int} {f b : Nat} {h : sl_heap} {found : Int}
    {ps ss : List Nat} {l0 lk l1 : List sl_event} {nd : Nat} {tl : Int} {h2 : sl_heap}
    {hl : Int} {h3 h6 : sl_heap}
    (hs : optimistic_search_log (f + 1) h m k = some ((found, ps, ss), l0))
    (hm : delete_mark_log h none false (-1) found ss = some (Sum.inr (some nd, tl, h2), lk))
    (hv : validate_loop_log delete_valid_log ps ss tl.toNat 0 none (-1) h2 =
      some ((true, hl, h3), l1))
    (hres : (optimistic_delete_loop_log m k (f + 1) none false (-1) b h).1 = some (1, h6)) :
    ∃ lc l3 h4 h5 l6,
      (∀ e ∈ lc, ∃ a, e = sl_event.read a) ∧
      delete_unlink_log nd ps tl.toNat tl.toNat h3 = some (h4, l3) ∧
      UNLOCK h4 nd = some h5 ∧
      unlock_levels_log h5 ps hl = some (h6, l6) ∧
      optimistic_delete_loop_log m k (f + 1) none false (-1) b h =
        (some (1, h6), l0 ++ lc ++ lk ++ l1 ++ l3 ++ sl_event.unlock nd :: l6) := by
  cases hc : delete_cond_log h false found ss with
  | none => simp [optimistic_delete_loop_log, hs, hc] at hres
  | some rc =>
    obtain ⟨cb, lc⟩ := rc
    cases cb with
    | false => simp [optimistic_delete_loop_log, hs, hc] at hres
    | true =>
      cases hul : delete_unlink_log nd ps tl.toNat tl.toNat h3 with
      | none => simp [optimistic_delete_loop_log, hs, hc, hm, hv, hul] at hres
      | some rl =>
        obtain ⟨h4, l3⟩ := rl
        cases hun : UNLOCK h4 nd with
        | none => simp [optimistic_delete_loop_log, hs, hc, hm, hv, hul, hun] at hres
        | some h5 =>
          cases hu : unlock_levels_log h5 ps hl with
          | none => simp [optimistic_delete_loop_log, hs, hc, hm, hv, hul, hun, hu] at hres
          | some ru =>
            obtain ⟨h6', l6⟩ := ru
            have hh : h6' = h6 := by
              simpa [optimistic_delete_loop_log, hs, hc, hm, hv, hul, hun, hu] using hres
            subst hh
            exact ⟨lc, l3, h4, h5, l6, delete_cond_log_reads hc, rfl, hun, hu, by
              simp [optimistic_delete_loop_log, hs, hc, hm, hv, hul, hun, hu]⟩

/-! ## The locks held along a log -/

theorem held_after_quiet {l : List sl_event} (hl : locked_by l = []) (hr : released_by l = [])
    (H : List Nat) : held_after H l = some H := by
  induction l with
  | nil => rfl
  | cons e l ih =>
    cases e <;> simp_all [locked_by, released_by, held_after]

theorem held_after_locks {l : List sl_event} (hr : released_by l = []) :
    ∀ H, (H ++ locked_by l).Nodup → held_after H l = some (H ++ locked_by l) := by
  induction l with
  | nil => intro H _; simp [locked_by, held_after]
  | cons e l ih =>
    intro H hnd
    cases e with
    | lock a =>
      simp only [locked_by] at hnd ⊢
      have ha : a ∉ H := by
        intro hmem
        rw [List.nodup_append] at hnd
        exact hnd.2.2 hmem (List.mem_cons_self _ _)
      have hr' : released_by l = [] := by simpa [released_by] using hr
      have := ih hr' (H ++ [a]) (by simpa [List.append_assoc] using hnd)
      simp [held_after, ha, this]
    | unlock a => simp [released_by] at hr
    | search => exact ih (by simpa [released_by] using hr) H (by simpa [locked_by] using hnd)
    | read a => exact ih (by simpa [released_by] using hr) H (by simpa [locked_by] using hnd)
    | alloc a k v t =>
      exact ih (by simpa [released_by] using hr) H (by simpa [locked_by] using hnd)
    | next a i v => exact ih (by simpa [released_by] using hr) H (by simpa [locked_by] using hnd)
    | marked a => exact ih (by simpa [released_by] using hr) H (by simpa [locked_by] using hnd)
    | fullylinked a =>
      exact ih (by simpa [released_by] using hr) H (by simpa [locked_by] using hnd)
    | invalid b => exact ih (by simpa [released_by] using hr) H (by simpa [locked_by] using hnd)
    | sleep s n => exact ih (by simpa [released_by] using hr) H (by simpa [locked_by] using hnd)

theorem held_after_unlocks {l : List sl_event} (hl : locked_by l = []) :
    ∀ H, H.Perm (released_by l) → held_after H l = some [] := by
  induction l with
  | nil =>
    intro H hp
    simp only [released_by] at hp
    simp [held_after, hp.eq_nil]
  | cons e l ih =>
    intro H hp
    cases e with
    | lock a => simp [locked_by] at hl
    | unlock a =>
      simp only [released_by] at hp
      have ha : a ∈ H := hp.mem_iff.mpr (List.mem_cons_self _ _)
      have hp2 : (H.erase a).Perm (released_by l) :=
        (List.perm_cons a).mp ((List.perm_cons_erase ha).symm.trans hp)
      have := ih (by simpa [locked_by] using hl) (H.erase a) hp2
      simp [held_after, ha, this]
    | search => exact ih (by simpa [locked_by] using hl) H (by simpa [released_by] using hp)
    | read a => exact ih (by simpa [locked_by] using hl) H (by simpa [released_by] using hp)
    | alloc a k v t =>
      exact ih (by simpa [locked_by] using hl) H (by simpa [released_by] using hp)
    | next a i v => exact ih (by simpa [locked_by] using hl) H (by simpa [released_by] using hp)
    | marked a => exact ih (by simpa [locked_by] using hl) H (by simpa [released_by] using hp)
    | fullylinked a =>
      exact ih (by simpa [locked_by] using hl) H (by simpa [released_by] using hp)
    | invalid b => exact ih (by simpa [locked_by] using hl) H (by simpa [released_by] using hp)
    | sleep s n => exact ih (by simpa [locked_by] using hl) H (by simpa [released_by] using hp)

/-! ## The logs of insert and delete on a well-formed list -/

/-- The log of the insert of an absent key. -/
theorem Inv.insert_log_absent {lm head : Nat} {h : sl_heap} {k : Int} {lo hi : List Ent}
    (hinv : Inv lm head h (lo ++ hi)) (ha : Around lm head h k lo hi)
    (habs : ∀ e ∈ hi, k < e.key) (v : Nat) {L : Nat} (hL1 : 1 ≤ L) (hLm : L ≤ lm)
    {fuel : Nat} (hfuel : lo.length < fuel) :
    ∃ hl h1 h5 l0 l1 l3 l5,
      optimistic_search_log fuel h ⟨head⟩ k =
        some ((-1, (List.range lm).map (fun i => lastD (lvl i lo) head),
          (List.range lm).map (fun i => firstD (lvl i hi) 0)), l0) ∧
      validate_loop_log insert_valid_log ((List.range lm).map (fun i => lastD (lvl i lo) head))
        ((List.range lm).map (fun i => firstD (lvl i hi) 0)) L 0 none (-1) h =
        some ((true, hl, h1), l1) ∧
      h1.length = h.length ∧
      (∃ h3, insert_splice_log h1.length ((List.range lm).map (fun i => lastD (lvl i lo) head))
        ((List.range lm).map (fun i => firstD (lvl i hi) 0)) L 0
        (h1 ++ [sl_new_simple_node k v L]) = some (h3, l3)) ∧
      (∃ h4, unlock_levels_log h4 ((List.range lm).map (fun i => lastD (lvl i lo) head)) hl =
        some (h5, l5)) ∧
      optimistic_insert_log fuel h ⟨head⟩ k v L =
        (some (1, h5), l0 ++ l1 ++ sl_event.alloc h1.length k v L :: l3 ++
          sl_event.fullylinked h1.length :: l5) ∧
      Inv lm head h5 (lo ++ ⟨h.length, k, v, L⟩ :: hi) := by
  obtain ⟨f, rfl⟩ : ∃ f, fuel = f + 1 := ⟨fuel - 1, by omega⟩
  have hsearch := ha.search_spec hfuel
  rw [found_spec_absent habs] at hsearch
  obtain ⟨l0, hs0⟩ := log_of_fst (optimistic_search_log_fst _ h ⟨head⟩ k) hsearch
  obtain ⟨hl, h1, hval, hr1⟩ := hinv.insert_validate ha hLm
  obtain ⟨l1, hv1⟩ := log_of_fst
    (validate_loop_log_fst insert_valid_log insert_valid insert_valid_log_fst _ _ L 0 none (-1) h)
    hval
  obtain ⟨h5, hins, hinv5, _⟩ := hinv.insert_absent ha habs v hL1 hLm hfuel
  have hres : (optimistic_insert_loop_log ⟨head⟩ k v L (f + 1) 1 h).1 = some (1, h5) := by
    rw [optimistic_insert_loop_log_fst]
    exact hins
  obtain ⟨h3, l3, h4, h5', l5, hspl, _, hunl, hlog⟩ := insert_log_run hs0 hv1 hres
  have h55 : h5' = h5 := by
    rw [hlog] at hres
    simpa using hres
  subst h55
  exact ⟨hl, h1, h5', l0, l1, l3, l5, hs0, hv1, hr1.1, ⟨h3, hspl⟩, ⟨h4, hunl⟩, hlog, hinv5⟩

/-- The log of the delete of a present key, given that the unlink loop runs. -/
theorem Inv.delete_log_present {lm head : Nat} {h : sl_heap} {k : Int} {lo hi : List Ent}
    {a v L : Nat} (hinv : Inv lm head h (lo ++ ⟨a, k, v, L⟩ :: hi))
    (ha : Around lm head h k lo (⟨a, k, v, L⟩ :: hi)) (hL1 : 1 ≤ L)
    (hU : ∀ h3, HRel (fun _ => same_struct) h h3 →
      ∃ h4, delete_unlink a ((List.range lm).map (fun i => lastD (lvl i lo) head)) L L h3 =
        some h4 ∧ HRel (fun _ => same_but_next) h3 h4)
    {fuel : Nat} (hfuel : lo.length < fuel) :
    ∃ hB hl h3 h6 l0 lc l1 l3 l6,
      optimistic_search_log fuel h ⟨head⟩ k =
        some (((L : Int) - 1, (List.range lm).map (fun i => lastD (lvl i lo) head),
          (List.range lm).map (fun i => firstD (lvl i ((⟨a, k, v, L⟩ : Ent) :: hi)) 0)), l0) ∧
      (∀ e ∈ lc, ∃ x, e = sl_event.read x) ∧
      delete_mark h none false (-1) ((L : Int) - 1)
        ((List.range lm).map (fun i => firstD (lvl i ((⟨a, k, v, L⟩ : Ent) :: hi)) 0)) =
        some (Sum.inr (some a, (L : Int), hB)) ∧
      validate_loop_log delete_valid_log ((List.range lm).map (fun i => lastD (lvl i lo) head))
        ((List.range lm).map (fun i => firstD (lvl i ((⟨a, k, v, L⟩ : Ent) :: hi)) 0))
        L 0 none (-1) hB = some ((true, hl, h3), l1) ∧
      (∃ h4, delete_unlink_log a ((List.range lm).map (fun i => lastD (lvl i lo) head)) L L h3 =
        some (h4, l3)) ∧
      (∃ h5, unlock_levels_log h5 ((List.range lm).map (fun i => lastD (lvl i lo) head)) hl =
        some (h6, l6)) ∧
      optimistic_delete_log fuel h ⟨head⟩ k =
        (some (1, h6), l0 ++ lc ++
          [sl_event.lock a, sl_event.read a, sl_event.read a, sl_event.marked a] ++ l1 ++ l3 ++
          sl_event.unlock a :: l6) ∧
      LocksAre (fun _ => False) h6 := by
  obtain ⟨f, rfl⟩ : ∃ f, fuel = f + 1 := ⟨fuel - 1, by omega⟩
  obtain ⟨_, _, _, _, _, hLm⟩ := hinv.shape.ents ⟨a, k, v, L⟩ (by simp)
  simp only at hLm
  have hsearch := ha.search_spec hfuel
  rw [found_spec_present (e := ⟨a, k, v, L⟩) rfl hLm] at hsearch
  simp only at hsearch
  obtain ⟨l0, hs0⟩ := log_of_fst (optimistic_search_log_fst _ h ⟨head⟩ k) hsearch
  obtain ⟨hB, hl, h3, hmark, hval, hr3, hrun⟩ := hinv.delete_run ha hL1 hfuel
  obtain ⟨lk, hmk⟩ := log_of_fst (delete_mark_log_fst h none false (-1) _ _) hmark
  obtain ⟨l1, hv1⟩ := log_of_fst
    (validate_loop_log_fst delete_valid_log delete_valid delete_valid_log_fst _ _ L 0 none (-1) hB)
    hval
  obtain ⟨h4, hunl, hr4⟩ := hU h3 hr3
  obtain ⟨h6, hdel, _, hfree6⟩ := hrun h4 hunl hr4
  have hres : (optimistic_delete_loop_log ⟨head⟩ k (f + 1) none false (-1) 1 h).1 =
      some (1, h6) := by
    rw [optimistic_delete_loop_log_fst]
    exact hdel
  have hLnat : ((L : Int)).toNat = L := by omega
  have hv1' : validate_loop_log delete_valid_log
      ((List.range lm).map (fun i => lastD (lvl i lo) head))
      ((List.range lm).map (fun i => firstD (lvl i ((⟨a, k, v, L⟩ : Ent) :: hi)) 0))
      ((L : Int)).toNat 0 none (-1) hB = some ((true, hl, h3), l1) := by
    rw [hLnat]; exact hv1
  obtain ⟨lc, l3, h4', h5, l6, hlc, hul, _, hu6, hlog⟩ := delete_log_run hs0 hmk hv1' hres
  rw [hLnat] at hul
  have hlk : lk = [sl_event.lock a, sl_event.read a, sl_event.read a, sl_event.marked a] := by
    rcases delete_mark_log_shape hmk with ⟨him, _⟩ | ⟨_, a1, _, hcase⟩
    · simp at him
    · rcases hcase with ⟨h2, hres2, _⟩ | ⟨t, h2, hres2, hl2⟩
      · simp at hres2
      · simp only [Sum.inr.injEq, Prod.mk.injEq, Option.some.injEq] at hres2
        rw [hl2, ← hres2.1]
  subst hlk
  exact ⟨hB, hl, h3, h6, l0, lc, l1, l3, l6, hs0, hlc, hmark, hv1, ⟨h4', hul⟩, ⟨h5, hu6⟩, hlog,
    hfree6⟩

/-! ## The stores of the splice loop and the order of the predecessors -/

theorem insert_splice_log_exact (a : Nat) (preds succs : List Nat) :
    ∀ (n i : Nat) (h h1 : sl_heap) (l : List sl_event),
      insert_splice_log a preds succs n i h = some (h1, l) →
      l = (List.range n).flatMap (fun j =>
        [sl_event.next a (i + j) succs[i + j]?,
          sl_event.next (preds.getD (i + j) 0) (i + j) (some a)]) := by
  intro n
  induction n with
  | zero =>
    intro i h h1 l hr
    simp only [insert_splice_log, Option.some.injEq, Prod.mk.injEq] at hr
    simp [← hr.2]
  | succ n ih =>
    intro i h h1 l hr
    unfold insert_splice_log at hr
    cases hp : preds[i]? with
    | none => simp [hp] at hr
    | some p =>
      cases hs : succs[i]? with
      | none => simp [hp, hs] at hr
      | some s =>
        simp only [hp, hs] at hr
        cases h1s : store_next h a i (some s) with
        | none => simp [h1s] at hr
        | some hA =>
          simp only [h1s] at hr
          cases h2s : store_next hA p i (some a) with
          | none => simp [h2s] at hr
          | some hB =>
            simp only [h2s] at hr
            cases hrec : insert_splice_log a preds succs n (i + 1) hB with
            | none => simp [hrec] at hr
            | some r =>
              obtain ⟨h3, l3⟩ := r
              simp only [hrec, Option.some.injEq, Prod.mk.injEq] at hr
              have hl3 := ih (i + 1) hB h3 l3 hrec
              rw [range_flatMap_succ, ← hr.2, hl3]
              have hpd : preds.getD i 0 = p := by
                rw [List.getD_eq_getElem?_getD, hp]; rfl
              simp only [Nat.add_zero, hs, hpd, List.cons_append, List.nil_append]
              congr 2
              apply List.flatMap_congr
              intro j _
              have : i + 1 + j = i + (j + 1) := by omega
              rw [this]

theorem lock_seq_sublist : ∀ (l : List Nat) (prev : Option Nat), List.Sublist (lock_seq prev l) l := by
  intro l
  induction l with
  | nil => intro prev; exact List.Sublist.refl _
  | cons a l ih =>
    intro prev
    unfold lock_seq
    by_cases hp : prev ≠ some a
    · rw [if_pos hp]
      exact (ih (some a)).cons₂ a
    · rw [if_neg hp]
      exact (ih (some a)).cons a

theorem lastD_sublist_order {X Y : List Nat} (hs : List.Sublist Y X) :
    ∀ d, lastD Y d = lastD X d ∨ List.Sublist [lastD Y d, lastD X d] (d :: X) := by
  induction hs with
  | slnil => intro d; exact Or.inl rfl
  | @cons Y X a _ ih =>
    intro d
    cases X with
    | nil =>
      have hY : Y = [] := by
        cases Y with
        | nil => rfl
        | cons y Y => rename_i hsub; cases hsub
      subst hY
      right
      simp
    | cons x X =>
      have hl : lastD (a :: x :: X) d = lastD (x :: X) d := by simp
      rw [hl]
      rcases ih d with h1 | h1
      · exact Or.inl h1
      · right
        exact h1.trans ((List.sublist_cons_self a (x :: X)).cons₂ d)
  | @cons₂ Y X a _ ih =>
    intro d
    simp only [lastD_cons]
    rcases ih a with h1 | h1
    · exact Or.inl h1
    · exact Or.inr (h1.cons d)

theorem lvl_sublist_le {i j : Nat} (hij : i ≤ j) (G : List Ent) :
    List.Sublist (lvl j G) (lvl i G) := by
  induction j, hij using Nat.le_induction with
  | base => exact List.Sublist.refl _
  | succ j _ ih => exact (lvl_sublist_succ j G).trans ih

/-- The level-`0` chain of a well-formed list, and the order of the
predecessors of a key along it: the predecessor of a higher level is the same
node or comes strictly earlier. -/
theorem Shape.pred_order {lm head : Nat} {h : sl_heap} {lo hi : List Ent}
    (hs : Shape lm head h (lo ++ hi)) (hlm : 1 ≤ lm) :
    level_chain h 0 (h.length + 1) (some head) = some (head :: (lvl 0 lo ++ lvl 0 hi)) ∧
    (head :: (lvl 0 lo ++ lvl 0 hi)).Nodup ∧
    ((List.range lm).map (fun i => lastD (lvl i lo) head)).Pairwise
      (fun x y => x = y ∨ List.Sublist [y, x] (head :: (lvl 0 lo ++ lvl 0 hi))) ∧
    ∀ p ∈ (List.range lm).map (fun i => lastD (lvl i lo) head),
      ∀ a ∈ lvl 0 hi, List.Sublist [p, a] (head :: (lvl 0 lo ++ lvl 0 hi)) := by
  have hc := hs.chain_eq (i := 0) (by omega) (le_refl _)
  rw [lvl_append] at hc
  refine ⟨hc, ?_, ?_, ?_⟩
  · have hsub : List.Sublist (head :: (lvl 0 lo ++ lvl 0 hi))
        (head :: (lo ++ hi).map Ent.addr) := by
      apply List.Sublist.cons₂
      rw [← lvl_append]
      unfold lvl
      exact (List.filter_sublist _).map _
    exact hs.nodup.sublist hsub
  · rw [List.pairwise_map]
    refine (List.pairwise_lt_range lm).imp ?_
    intro i j hij
    rcases lastD_sublist_order (lvl_sublist_le (le_of_lt hij) lo) head with h1 | h1
    · exact Or.inl h1.symm
    · right
      refine h1.trans (List.Sublist.cons₂ head ?_)
      exact (lvl_sublist_le (Nat.zero_le i) lo).trans (List.sublist_append_left _ _)
  · intro p hp a ha
    obtain ⟨i, _, rfl⟩ := List.mem_map.mp hp
    have hp0 : lastD (lvl i lo) head ∈ head :: lvl 0 lo := by
      rcases List.mem_cons.mp (lastD_mem (lvl i lo) head) with h1 | h1
      · rw [h1]; exact List.mem_cons_self _ _
      · exact List.mem_cons_of_mem _ ((lvl_sublist_le (Nat.zero_le i) lo).subset h1)
    have h1 : List.Sublist [lastD (lvl i lo) head] (head :: lvl 0 lo) :=
      List.singleton_sublist.mpr hp0
    have h2 : List.Sublist [a] (lvl 0 hi) := List.singleton_sublist.mpr ha
    have := h1.append h2
    simpa using this

/-! ## What the parts of a log contain -/

theorem count_search_eq_zero {l : List sl_event} (hl : ∀ e ∈ l, e ≠ sl_event.search) :
    List.count sl_event.search l = 0 :=
  List.count_eq_zero.mpr (fun hmem => hl _ hmem rfl)

theorem facts_of_reads {l : List sl_event} (hl : ∀ e ∈ l, ∃ a, e = sl_event.read a) :
    List.count sl_event.search l = 0 ∧ locked_by l = [] ∧ released_by l = [] ∧
      stores_of l = [] ∧ backoff_steps l = [] := by
  refine ⟨count_search_eq_zero ?_, locked_by_eq_nil ?_, released_by_eq_nil ?_,
    stores_of_eq_nil ?_, backoff_steps_eq_nil ?_⟩ <;>
  · intro e he
    obtain ⟨a, rfl⟩ := hl e he
    simp

theorem facts_of_search {l : List sl_event}
    (hl : ∃ l1, l = sl_event.search :: l1 ∧ ∀ e ∈ l1, ∃ a, e = sl_event.read a) :
    List.count sl_event.search l = 1 ∧ locked_by l = [] ∧ released_by l = [] ∧
      stores_of l = [] ∧ backoff_steps l = [] := by
  obtain ⟨l1, rfl, hl1⟩ := hl
  obtain ⟨h1, h2, h3, h4, h5⟩ := facts_of_reads hl1
  simp [locked_by, released_by, stores_of, backoff_steps, h1, h2, h3, h4, h5]

theorem facts_of_validate {l : List sl_event}
    (hl : ∀ e ∈ l, (∃ a, e = sl_event.read a) ∨ ∃ a, e = sl_event.lock a) :
    List.count sl_event.search l = 0 ∧ released_by l = [] ∧
      stores_of l = [] ∧ backoff_steps l = [] := by
  refine ⟨count_search_eq_zero ?_, released_by_eq_nil ?_,
    stores_of_eq_nil ?_, backoff_steps_eq_nil ?_⟩ <;>
  · intro e he
    rcases hl e he with ⟨a, rfl⟩ | ⟨a, rfl⟩ <;> simp

theorem facts_of_next {l : List sl_event}
    (hl : ∀ e ∈ l, (∃ a, e = sl_event.read a) ∨ ∃ x j v, e = sl_event.next x j v) :
    List.count sl_event.search l = 0 ∧ locked_by l = [] ∧ released_by l = [] ∧
      backoff_steps l = [] := by
  refine ⟨count_search_eq_zero ?_, locked_by_eq_nil ?_, released_by_eq_nil ?_,
    backoff_steps_eq_nil ?_⟩ <;>
  · intro e he
    rcases hl e he with ⟨a, rfl⟩ | ⟨x, j, v, rfl⟩ <;> simp

theorem stores_of_next {l : List sl_event} (hl : ∀ e ∈ l, ∃ x j v, e = sl_event.next x j v) :
    stores_of l = l := by
  induction l with
  | nil => rfl
  | cons e l ih =>
    obtain ⟨x, j, v, rfl⟩ := hl e (List.mem_cons_self _ _)
    simp [stores_of, ih (fun e he => hl e (List.mem_cons_of_mem _ he))]

theorem facts_of_unlock {l : List sl_event} (hl : ∀ e ∈ l, ∃ a, e = sl_event.unlock a) :
    List.count sl_event.search l = 0 ∧ locked_by l = [] ∧
      stores_of l = [] ∧ backoff_steps l = [] := by
  refine ⟨count_search_eq_zero ?_, locked_by_eq_nil ?_,
    stores_of_eq_nil ?_, backoff_steps_eq_nil ?_⟩ <;>
  · intro e he
    obtain ⟨a, rfl⟩ := hl e he
    simp

/-! ## The two cases of a key on a well-formed list -/

theorem Inv.key_split {lm head : Nat} {h : sl_heap} {G : List Ent} (hinv : Inv lm head h G)
    {k : Int} (hk : k ≤ VAL_MAX) (hlm : 1 ≤ lm) :
    (∃ lo hi, G = lo ++ hi ∧ Around lm head h k lo hi ∧ ∀ e ∈ hi, k < e.key) ∨
    (∃ lo hi a v T, G = lo ++ ⟨a, k, v, T⟩ :: hi ∧
      Around lm head h k lo (⟨a, k, v, T⟩ :: hi) ∧ 1 ≤ T ∧ T ≤ lm ∧
      ∀ h3, HRel (fun _ => same_struct) h h3 →
        ∃ h4, delete_unlink a ((List.range lm).map (fun i => lastD (lvl i lo) head)) T T h3 =
          some h4 ∧ HRel (fun _ => same_but_next) h3 h4) := by
  rcases lt_or_eq_of_le hk with hk | rfl
  · rcases hinv.shape.key_cases hk with
      ⟨lo, hi, rfl, ha, habs⟩ | ⟨lo, hi, a, v0, L0, rfl, ha, hhi⟩
    · exact Or.inl ⟨lo, hi, rfl, ha, habs⟩
    · right
      obtain ⟨_, _, _, _, hL01, _, _⟩ := hinv.live ⟨a, k, v0, L0⟩ (by simp)
      obtain ⟨_, _, _, _, _, hL0m⟩ := hinv.shape.ents ⟨a, k, v0, L0⟩ (by simp)
      simp only at hL01 hL0m
      refine ⟨lo, hi, a, v0, L0, rfl, ha, hL01 hk, hL0m, ?_⟩
      intro h3 hr3
      obtain ⟨h4, hunl, hr4, _⟩ := delete_unlink_ok (a := a) (k := k) (v := v0) hhi L0 L0 h3
        (le_refl _) (hinv.shape.of_struct hr3)
      exact ⟨h4, hunl, hr4⟩
  · right
    obtain ⟨lo, v0, rfl, ha⟩ := hinv.shape.tail_around
    refine ⟨lo, [], 0, v0, lm, rfl, ha, hlm, le_refl _, ?_⟩
    intro h3 hr3
    have hc3 := (TailCut.start ha hinv.live).keep hr3
    obtain ⟨h4, hunl, hr4, _⟩ := TailCut.unlink lm lm h3 (le_refl _) (le_refl _) hc3
    exact ⟨h4, hunl, hr4⟩

/-! ## The log of an insert on a well-formed list -/

theorem Inv.insert_log_facts {lm head : Nat} {h : sl_heap} {G : List Ent}
    (hinv : Inv lm head h G) {k : Int} (hk : k ≤ VAL_MAX) (v : Nat) {L : Nat} (hL1 : 1 ≤ L)
    (hLm : L ≤ lm) {fuel : Nat} (hfuel : h.length ≤ fuel) :
    ∃ lo hi found l0 r h5 log,
      G = lo ++ hi ∧
      optimistic_search_log fuel h ⟨head⟩ k =
        some ((found, (List.range lm).map (fun i => lastD (lvl i lo) head),
          (List.range lm).map (fun i => firstD (lvl i hi) 0)), l0) ∧
      optimistic_insert_log fuel h ⟨head⟩ k v L = (some (r, h5), log) ∧
      LocksAre (fun _ => False) h5 ∧
      List.count sl_event.search log = 1 ∧ backoff_steps log = [] ∧
      held_after [] log = some [] ∧ (locked_by log).Nodup ∧
      ((r = 0 ∧ optimistic_find fuel h ⟨head⟩ k = some 1 ∧ h5 = h ∧ locked_by log = [] ∧
          stores_of log = [] ∧ ∃ a, log = l0 ++ [sl_event.read a, sl_event.read a]) ∨
       (r = 1 ∧ optimistic_find fuel h ⟨head⟩ k = some 0 ∧ found = -1 ∧
          locked_by log =
            lock_seq none (((List.range lm).map (fun i => lastD (lvl i lo) head)).take L) ∧
          stores_of log = (List.range L).flatMap (fun j =>
              [sl_event.next h.length j
                  ((List.range lm).map (fun i => firstD (lvl i hi) 0))[j]?,
                sl_event.next
                  (((List.range lm).map (fun i => lastD (lvl i lo) head)).getD j 0) j
                  (some h.length)]) ++ [sl_event.fullylinked h.length] ∧
          ∃ hl h1 l1, validate_loop_log insert_valid_log
            ((List.range lm).map (fun i => lastD (lvl i lo) head))
            ((List.range lm).map (fun i => firstD (lvl i hi) 0)) L 0 none (-1) h =
            some ((true, hl, h1), l1))) := by
  have hlm : 1 ≤ lm := by omega
  rcases hinv.key_split hk hlm with ⟨lo, hi, rfl, ha, habs⟩ | ⟨lo, hi, a, v0, T, rfl, ha, hT1, _, _⟩
  · -- the key is absent
    have hf := (ha.find_absent habs (ha.fuel_ok hfuel)).1
    obtain ⟨hl, h1, h5, l0, l1, l3, l5, hs0, hv1, hlen, ⟨h3, hspl⟩, ⟨h4, hunl⟩, hlog, hinv5⟩ :=
      hinv.insert_log_absent ha habs v hL1 hLm (ha.fuel_ok hfuel)
    obtain ⟨c0, k0, r0, s0, b0⟩ := facts_of_search (optimistic_search_log_shape hs0)
    have hkind1 := validate_loop_log_kind insert_valid_log
      (fun _ _ _ _ _ _ hv => insert_valid_log_reads hv) _ _ _ _ _ _ _ _ _ hv1
    obtain ⟨c1, r1, s1, b1⟩ := facts_of_validate hkind1
    obtain ⟨_, hrel, hnd1, _, hseq⟩ := validate_then_unlock insert_valid_log
      (fun _ _ _ _ _ _ hv => insert_valid_log_reads hv) hv1
    have hkind3 := insert_splice_log_kind _ _ _ _ _ _ _ _ hspl
    obtain ⟨c3, k3, r3, b3⟩ := facts_of_next (fun e he => Or.inr (hkind3 e he))
    have s3 := stores_of_next hkind3
    have hkind5 := unlock_levels_loop_log_kind _ _ _ _ _ _ _ hunl
    obtain ⟨c5, k5, s5, b5⟩ := facts_of_unlock hkind5
    obtain ⟨r5, _⟩ := hrel _ _ _ hunl
    have hexact := insert_splice_log_exact _ _ _ _ _ _ _ _ hspl
    have hlocked : locked_by (l0 ++ l1 ++ sl_event.alloc h1.length k v L :: l3 ++
        sl_event.fullylinked h1.length :: l5) = locked_by l1 := by
      simp [locked_by_append, locked_by, k0, k3, k5]
    have hheld : held_after [] (l0 ++ l1 ++ sl_event.alloc h1.length k v L :: l3 ++
        sl_event.fullylinked h1.length :: l5) = some [] := by
      have e0 : held_after [] l0 = some [] := held_after_quiet k0 r0 []
      have e1 : held_after [] l1 = some (locked_by l1) := by
        simpa using held_after_locks r1 [] (by simpa using hnd1)
      have e3 : held_after (locked_by l1) (sl_event.alloc h1.length k v L :: l3) =
          some (locked_by l1) :=
        held_after_quiet (by simp [locked_by, k3]) (by simp [released_by, r3]) _
      have e5 : held_after (locked_by l1) (sl_event.fullylinked h1.length :: l5) = some [] :=
        held_after_unlocks (by simp [locked_by, k5]) _ (by simp [released_by, r5])
      have e01 : held_after [] (l0 ++ l1) = some (locked_by l1) := by
        rw [held_after_append, e0]; exact e1
      have e013 : held_after [] (l0 ++ l1 ++ sl_event.alloc h1.length k v L :: l3) =
          some (locked_by l1) := by
        rw [held_after_append, e01]; exact e3
      rw [held_after_append, e013]; exact e5
    refine ⟨lo, hi, -1, l0, 1, h5, _, rfl, hs0, hlog, hinv5.free, ?_, ?_, hheld, ?_, Or.inr
      ⟨rfl, hf, rfl, ?_, ?_, hl, h1, l1, hv1⟩⟩
    · simp [List.count_append, List.count_cons, c0, c1, c3, c5]
    · simp [backoff_steps_append, backoff_steps, b0, b1, b3, b5]
    · rw [hlocked]; exact hnd1
    · rw [hlocked]; exact hseq rfl
    · simp only [stores_of_append, stores_of, s0, s1, s3, s5, List.nil_append, hlen]
      rw [hexact, hlen]
      simp
  · -- the key is present
    have hf := hinv.find_top ha hT1 (ha.fuel_ok hfuel)
    have hsearch := ha.search_spec (ha.fuel_ok hfuel)
    obtain ⟨l0, hs0⟩ := log_of_fst (optimistic_search_log_fst _ h ⟨head⟩ k) hsearch
    obtain ⟨r, l0', x, hs0', hlog⟩ := insert_log_found (v := v) (L := L) hf
    rw [hs0] at hs0'
    simp only [Option.some.injEq, Prod.mk.injEq] at hs0'
    obtain ⟨_, rfl⟩ := hs0'
    obtain ⟨c0, k0, r0, s0, b0⟩ := facts_of_search (optimistic_search_log_shape hs0)
    have hlocked : locked_by (l0 ++ [sl_event.read x, sl_event.read x]) = [] := by
      simp [locked_by_append, locked_by, k0]
    refine ⟨lo, _, _, l0, 0, h, _, rfl, hs0, hlog, hinv.free, ?_, ?_, ?_, ?_, Or.inl
      ⟨rfl, hf, rfl, hlocked, ?_, x, rfl⟩⟩
    · simp [List.count_append, List.count_cons, c0]
    · simp [backoff_steps_append, backoff_steps, b0]
    · exact held_after_quiet hlocked (by simp [released_by_append, released_by, r0]) []
    · rw [hlocked]; exact List.nodup_nil
    · simp [stores_of_append, stores_of, s0]

/-! ## The log of a delete on a well-formed list -/

theorem Inv.delete_log_facts {lm head : Nat} {h : sl_heap} {G : List Ent}
    (hinv : Inv lm head h G) {k : Int} (hk : k ≤ VAL_MAX) (hlm : 1 ≤ lm) {fuel : Nat}
    (hfuel : h.length ≤ fuel) :
    ∃ lo hi found l0 r h6 log,
      G = lo ++ hi ∧
      optimistic_search_log fuel h ⟨head⟩ k =
        some ((found, (List.range lm).map (fun i => lastD (lvl i lo) head),
          (List.range lm).map (fun i => firstD (lvl i hi) 0)), l0) ∧
      optimistic_delete_log fuel h ⟨head⟩ k = (some (r, h6), log) ∧
      LocksAre (fun _ => False) h6 ∧
      List.count sl_event.search log = 1 ∧ backoff_steps log = [] ∧
      held_after [] log = some [] ∧ (locked_by log).Nodup ∧
      ((r = 0 ∧ optimistic_find fuel h ⟨head⟩ k = some 0 ∧ h6 = h ∧ locked_by log = [] ∧
          stores_of log = []) ∨
       (r = 1 ∧ optimistic_find fuel h ⟨head⟩ k = some 1 ∧
          ∃ (a T : Nat) (hB : sl_heap) (hl : Int) (h3 : sl_heap) (l1 : List sl_event),
            1 ≤ T ∧ found = (T : Int) - 1 ∧ a ∈ lvl 0 hi ∧
            ((List.range lm).map (fun i => firstD (lvl i hi) 0))[T - 1]? = some a ∧
            delete_mark h none false (-1) found
              ((List.range lm).map (fun i => firstD (lvl i hi) 0)) =
              some (Sum.inr (some a, (T : Int), hB)) ∧
            validate_loop_log delete_valid_log
              ((List.range lm).map (fun i => lastD (lvl i lo) head))
              ((List.range lm).map (fun i => firstD (lvl i hi) 0)) T 0 none (-1) hB =
              some ((true, hl, h3), l1) ∧
            locked_by log = a :: lock_seq none
              (((List.range lm).map (fun i => lastD (lvl i lo) head)).take T))) := by
  rcases hinv.key_split hk hlm with ⟨lo, hi, rfl, ha, habs⟩ | ⟨lo, hi, a, v0, T, rfl, ha, hT1, hTm, hU⟩
  · -- the key is absent
    have hf := (ha.find_absent habs (ha.fuel_ok hfuel)).1
    have hsearch := ha.search_spec (ha.fuel_ok hfuel)
    obtain ⟨l0, hs0⟩ := log_of_fst (optimistic_search_log_fst _ h ⟨head⟩ k) hsearch
    have hfuel0 : 0 < fuel := by have := ha.fuel_ok hfuel; omega
    obtain ⟨r, l0', lc, hs0', hlc, hlog⟩ := delete_log_absent hf hfuel0
    rw [hs0] at hs0'
    simp only [Option.some.injEq, Prod.mk.injEq] at hs0'
    obtain ⟨_, rfl⟩ := hs0'
    obtain ⟨c0, k0, r0, s0, b0⟩ := facts_of_search (optimistic_search_log_shape hs0)
    obtain ⟨cc, kc, rc, sc, bc⟩ := facts_of_reads hlc
    have hlocked : locked_by (l0 ++ lc) = [] := by simp [locked_by_append, k0, kc]
    refine ⟨lo, hi, _, l0, 0, h, _, rfl, hs0, hlog, hinv.free, ?_, ?_, ?_, ?_, Or.inl
      ⟨rfl, hf, rfl, hlocked, ?_⟩⟩
    · simp [List.count_append, c0, cc]
    · simp [backoff_steps_append, b0, bc]
    · exact held_after_quiet hlocked (by simp [released_by_append, r0, rc]) []
    · rw [hlocked]; exact List.nodup_nil
    · simp [stores_of_append, s0, sc]
  · -- the key is present
    have hf := hinv.find_top ha hT1 (ha.fuel_ok hfuel)
    obtain ⟨hB, hl, h3, h6, l0, lc, l1, l3, l6, hs0, hlc, hmark, hv1, ⟨h4, hul⟩, ⟨h5, hu6⟩,
      hlog, hfree6⟩ := hinv.delete_log_present ha hT1 hU (ha.fuel_ok hfuel)
    obtain ⟨c0, k0, r0, s0, b0⟩ := facts_of_search (optimistic_search_log_shape hs0)
    obtain ⟨cc, kc, rc, sc, bc⟩ := facts_of_reads hlc
    have hkind1 := validate_loop_log_kind delete_valid_log
      (fun _ _ _ _ _ _ hv => delete_valid_log_reads hv) _ _ _ _ _ _ _ _ _ hv1
    obtain ⟨c1, r1, s1, b1⟩ := facts_of_validate hkind1
    obtain ⟨_, hrel, hnd1, _, hseq⟩ := validate_then_unlock delete_valid_log
      (fun _ _ _ _ _ _ hv => delete_valid_log_reads hv) hv1
    have hkind3 := delete_unlink_log_kind _ _ _ _ _ _ _ hul
    obtain ⟨c3, k3, r3, b3⟩ := facts_of_next hkind3
    have hkind6 := unlock_levels_loop_log_kind _ _ _ _ _ _ _ hu6
    obtain ⟨c6, k6, s6, b6⟩ := facts_of_unlock hkind6
    obtain ⟨r6, _⟩ := hrel _ _ _ hu6
    have hseq1 := hseq rfl
    have ha1 : a ∉ locked_by l1 := by
      intro hmem
      rw [hseq1] at hmem
      have hmem2 := (List.take_sublist _ _).subset ((lock_seq_sublist _ _).subset hmem)
      obtain ⟨j, hj, hja⟩ := List.mem_map.mp hmem2
      exact (pred_facts hinv.shape (List.mem_range.mp hj)).1 hja
    have hnd : (a :: locked_by l1).Nodup := List.nodup_cons.mpr ⟨ha1, hnd1⟩
    have hlocked : locked_by (l0 ++ lc ++
        [sl_event.lock a, sl_event.read a, sl_event.read a, sl_event.marked a] ++ l1 ++ l3 ++
        sl_event.unlock a :: l6) = a :: locked_by l1 := by
      simp [locked_by_append, locked_by, k0, kc, k3, k6]
    have hheld : held_after [] (l0 ++ lc ++
        [sl_event.lock a, sl_event.read a, sl_event.read a, sl_event.marked a] ++ l1 ++ l3 ++
        sl_event.unlock a :: l6) = some [] := by
      have e0 : held_after [] l0 = some [] := held_after_quiet k0 r0 []
      have ec : held_after [] lc = some [] := held_after_quiet kc rc []
      have ek : held_after []
          [sl_event.lock a, sl_event.read a, sl_event.read a, sl_event.marked a] = some [a] := by
        simp [held_after]
      have e1 : held_after [a] l1 = some (a :: locked_by l1) := by
        simpa using held_after_locks r1 [a] (by simpa using hnd)
      have e3 : held_after (a :: locked_by l1) l3 = some (a :: locked_by l1) :=
        held_after_quiet k3 r3 _
      have e6 : held_after (a :: locked_by l1) (sl_event.unlock a :: l6) = some [] :=
        held_after_unlocks (by simp [locked_by, k6]) _ (by simp [released_by, r6])
      have e0c : held_after [] (l0 ++ lc) = some [] := by
        rw [held_after_append, e0]; exact ec
      have e0k : held_after [] (l0 ++ lc ++
          [sl_event.lock a, sl_event.read a, sl_event.read a, sl_event.marked a]) = some [a] := by
        rw [held_after_append, e0c]; exact ek
      have e01 : held_after [] (l0 ++ lc ++
          [sl_event.lock a, sl_event.read a, sl_event.read a, sl_event.marked a] ++ l1) =
          some (a :: locked_by l1) := by
        rw [held_after_append, e0k]; exact e1
      have e013 : held_after [] (l0 ++ lc ++
          [sl_event.lock a, sl_event.read a, sl_event.read a, sl_event.marked a] ++ l1 ++ l3) =
          some (a :: locked_by l1) := by
        rw [held_after_append, e01]; exact e3
      rw [held_after_append, e013]; exact e6
    have hSa : ((List.range lm).map
        (fun i => firstD (lvl i ((⟨a, k, v0, T⟩ : Ent) :: hi)) 0))[T - 1]? = some a := by
      rw [getElem?_range_map _ (by omega), lvl_first_self (by simp; omega)]
    have hmem0 : a ∈ lvl 0 ((⟨a, k, v0, T⟩ : Ent) :: hi) := by
      rw [lvl_cons, if_pos (by simpa using hT1)]
      exact List.mem_cons_self _ _
    refine ⟨lo, _, _, l0, 1, h6, _, rfl, hs0, hlog, hfree6, ?_, ?_, hheld, ?_, Or.inr
      ⟨rfl, hf, a, T, hB, hl, h3, l1, hT1, rfl, hmem0, hSa, hmark, hv1, ?_⟩⟩
    · simp [List.count_append, List.count_cons, c0, cc, c1, c3, c6]
    · simp [backoff_steps_append, backoff_steps, b0, bc, b1, b3, b6]
    · rw [hlocked]; exact hnd
    · rw [hlocked, hseq1]

/-! ## Lock balance -/

theorem LocksAre.none_held {h : sl_heap} (hf : LocksAre (fun _ => False) h) :
    ∀ (a : Nat) (n : sl_node), h[a]? = some n → n.lock = false := by
  intro a n hn
  cases hlk : n.lock with
  | false => rfl
  | true => exact ((hf a n hn).mp hlk).elim

theorem validate_unlock_balance
    (va : sl_heap → Nat → Nat → Nat → Option (Bool × List sl_event))
    (hva : ∀ h p s i b l, va h p s i = some (b, l) → ∀ e ∈ l, ∃ a, e = sl_event.read a)
    {preds succs : List Nat} {n : Nat} {h : sl_heap} {v : Bool} {hl : Int} {h1 : sl_heap}
    {l1 : List sl_event}
    (hr : validate_loop_log va preds succs n 0 none (-1) h = some ((v, hl, h1), l1)) :
    (locked_by l1).Nodup ∧ released_by l1 = [] ∧
      (v = true → locked_by l1 = lock_seq none (preds.take n)) ∧
      ∃ l2, unlock_levels_log h1 preds hl = some (h, l2) ∧
        released_by l2 = locked_by l1 ∧ locked_by l2 = [] ∧
        held_after [] (l1 ++ l2) = some [] := by
  obtain ⟨⟨l2, hu⟩, hrel, hnd, hr1, hseq⟩ := validate_then_unlock va hva hr
  obtain ⟨hr2, hk2⟩ := hrel _ _ _ hu
  refine ⟨hnd, hr1, hseq, l2, hu, hr2, hk2, ?_⟩
  have e1 : held_after [] l1 = some (locked_by l1) := by
    simpa using held_after_locks hr1 [] (by simpa using hnd)
  have e2 : held_after (locked_by l1) l2 = some [] :=
    held_after_unlocks hk2 _ (by rw [hr2])
  rw [held_after_append, e1]; exact e2

/-! ## Lock order -/

theorem lock_seq_levels : ∀ (l : List Nat) (prev : Option Nat),
    ∃ js : List Nat, js.Pairwise (fun i j => i < j) ∧ (∀ j ∈ js, j < l.length) ∧
      lock_seq prev l = js.map (fun j => l.getD j 0) := by
  intro l
  induction l with
  | nil => intro prev; exact ⟨[], List.Pairwise.nil, by simp, rfl⟩
  | cons a l ih =>
    intro prev
    obtain ⟨js, hpw, hlt, hseq⟩ := ih (some a)
    have hpw1 : (js.map (fun j => j + 1)).Pairwise (fun i j => i < j) := by
      rw [List.pairwise_map]
      exact hpw.imp (fun hij => by omega)
    have hmap : (js.map (fun j => j + 1)).map (fun j => (a :: l).getD j 0) =
        js.map (fun j => l.getD j 0) := by
      rw [List.map_map]
      apply List.map_congr_left
      intro j _
      simp
    have hlt1 : ∀ j ∈ js.map (fun j => j + 1), j < (a :: l).length := by
      intro j hj
      obtain ⟨i, hi, rfl⟩ := List.mem_map.mp hj
      have := hlt i hi
      simp
      omega
    unfold lock_seq
    by_cases hp : prev ≠ some a
    · rw [if_pos hp]
      refine ⟨0 :: js.map (fun j => j + 1), ?_, ?_, ?_⟩
      · rw [List.pairwise_cons]
        refine ⟨?_, hpw1⟩
        intro j hj
        obtain ⟨i, _, rfl⟩ := List.mem_map.mp hj
        omega
      · intro j hj
        rcases List.mem_cons.mp hj with rfl | hj
        · simp
        · exact hlt1 j hj
      · rw [List.map_cons, hmap, hseq]
        simp
    · rw [if_neg hp]
      exact ⟨js.map (fun j => j + 1), hpw1, hlt1, by rw [hmap, hseq]⟩

theorem lock_seq_take_levels (ps : List Nat) (n : Nat) :
    ∃ js : List Nat, js.Pairwise (fun i j => i < j) ∧ (∀ j ∈ js, j < n) ∧
      lock_seq none (ps.take n) = js.map (fun j => ps.getD j 0) := by
  obtain ⟨js, hpw, hlt, hseq⟩ := lock_seq_levels (ps.take n) none
  have hlt1 : ∀ j ∈ js, j < n := by
    intro j hj
    have := hlt j hj
    rw [List.length_take] at this
    omega
  refine ⟨js, hpw, hlt1, ?_⟩
  rw [hseq]
  apply List.map_congr_left
  intro j hj
  rw [List.getD_eq_getElem?_getD, List.getD_eq_getElem?_getD, List.getElem?_take_of_lt (hlt1 j hj)]

theorem pairwise_lock_seq {c0 : List Nat} {ps : List Nat}
    (hpw : ps.Pairwise (fun x y => x = y ∨ List.Sublist [y, x] c0)) (n : Nat)
    (hnd : (lock_seq none (ps.take n)).Nodup) :
    (lock_seq none (ps.take n)).Pairwise (fun x y => List.Sublist [y, x] c0) := by
  have h1 := hpw.sublist ((lock_seq_sublist (ps.take n) none).trans (List.take_sublist n ps))
  have h2 : (lock_seq none (ps.take n)).Pairwise (fun x y => x ≠ y) := hnd
  exact (h1.and h2).imp (fun hh => hh.1.resolve_left hh.2)

/-- C19. Global lock order.  On every heap reachable from a fresh map, for every
key up to `LONG_MAX` and every tower height `L` in `[1, levelmax]`, the search
returns arrays `preds` and `succs`, the level-`0` chain from the head exists and
has no repetition, and: `optimistic_insert` returns `0` having locked nothing,
or returns `1` having locked, in this order, the entries of `preds[0..L-1]` that
differ from the entry before them, which are entries `preds[j]` at strictly
increasing levels `j < L`; `optimistic_delete` returns `0` having locked
nothing, or returns `1` having locked first the node `nd` it marks and then the
entries of `preds[0..T-1]` (`T` the tower height of `nd`) that differ from the
entry before them, at strictly increasing levels `j < T`.  In both operations
every node locked lies strictly before every node locked earlier in the same
call on the level-`0` chain. -/
theorem lock_order (lm : Nat) (log : List (sl_call × Int)) (h : sl_heap)
    (hr : Reachable lm log h) (k : Int) (hk : k ≤ VAL_MAX) (v L : Nat) (hL1 : 1 ≤ L)
    (hLm : L ≤ lm) (fuel : Nat) (hfuel : h.length ≤ fuel) :
    ∃ found ps ss c0,
      optimistic_search fuel h (sl_set_new lm).1 k = some (found, ps, ss) ∧
      level_chain h 0 (h.length + 1) (some (sl_set_new lm).1.head) = some c0 ∧ c0.Nodup ∧
      (∃ r h5 l, optimistic_insert_log fuel h (sl_set_new lm).1 k v L = (some (r, h5), l) ∧
        ((r = 0 ∧ locked_by l = []) ∨
          (r = 1 ∧ locked_by l = lock_seq none (ps.take L) ∧
            ∃ js : List Nat, js.Pairwise (fun i j => i < j) ∧ (∀ j ∈ js, j < L) ∧
              locked_by l = js.map (fun j => ps.getD j 0))) ∧
        (locked_by l).Pairwise (fun x y => List.Sublist [y, x] c0)) ∧
      (∃ r h6 l, optimistic_delete_log fuel h (sl_set_new lm).1 k = (some (r, h6), l) ∧
        ((r = 0 ∧ locked_by l = []) ∨
          (r = 1 ∧ ∃ (nd T : Nat) (hB : sl_heap),
            delete_mark h none false (-1) found ss = some (Sum.inr (some nd, (T : Int), hB)) ∧
            locked_by l = nd :: lock_seq none (ps.take T) ∧
            ∃ js : List Nat, js.Pairwise (fun i j => i < j) ∧ (∀ j ∈ js, j < T) ∧
              locked_by l = nd :: js.map (fun j => ps.getD j 0))) ∧
        (locked_by l).Pairwise (fun x y => List.Sublist [y, x] c0)) := by
  obtain ⟨G, hinv, _⟩ := hr.inv
  have hlm : 1 ≤ lm := by omega
  have hhead : (sl_set_new lm).1 = ⟨1⟩ := rfl
  rw [hhead]
  obtain ⟨lo, hi, found, l0, r, h5, l, hG, hs0, hlog, _, _, _, _, hnd, hcase⟩ :=
    hinv.insert_log_facts hk v hL1 hLm hfuel
  obtain ⟨lo1, hi1, found1, l01, r1, h6, l1, hG1, hs1, hlog1, _, _, _, _, hnd1, hcase1⟩ :=
    hinv.delete_log_facts hk hlm hfuel
  rw [hs0] at hs1
  simp only [Option.some.injEq, Prod.mk.injEq] at hs1
  obtain ⟨⟨hfe, hpe, hse⟩, _⟩ := hs1
  have hshape : Shape lm 1 h (lo ++ hi) := hG ▸ hinv.shape
  have hshape1 : Shape lm 1 h (lo1 ++ hi1) := hG1 ▸ hinv.shape
  obtain ⟨hc, hcnd, hpw, _⟩ := hshape.pred_order hlm
  obtain ⟨hc1, _, _, hbefore⟩ := hshape1.pred_order hlm
  have hceq : (1 :: (lvl 0 lo1 ++ lvl 0 hi1)) = 1 :: (lvl 0 lo ++ lvl 0 hi) := by
    rw [hc] at hc1
    simpa using hc1.symm
  rw [hceq] at hbefore
  have hsearch := log_some_fst (optimistic_search_log_fst fuel h ⟨1⟩ k) hs0
  refine ⟨found, _, _, _, hsearch, hc, hcnd, ⟨r, h5, l, hlog, ?_, ?_⟩,
    ⟨r1, h6, l1, hlog1, ?_, ?_⟩⟩
  · rcases hcase with ⟨hr0, _, _, hk0, _⟩ | ⟨hr1, _, _, hseq, _⟩
    · exact Or.inl ⟨hr0, hk0⟩
    · obtain ⟨js, hjs, hlt, hmap⟩ := lock_seq_take_levels
        ((List.range lm).map (fun i => lastD (lvl i lo) 1)) L
      exact Or.inr ⟨hr1, hseq, js, hjs, hlt, hseq.trans hmap⟩
  · rcases hcase with ⟨_, _, _, hk0, _⟩ | ⟨_, _, _, hseq, _⟩
    · rw [hk0]; exact List.Pairwise.nil
    · rw [hseq]
      rw [hseq] at hnd
      exact pairwise_lock_seq hpw L hnd
  · rcases hcase1 with ⟨hr0, _, _, hk0, _⟩ | ⟨hr1', _, a, T, hB, hl, h3, l1', _, _, _, _, hmark, _, hseq⟩
    · exact Or.inl ⟨hr0, hk0⟩
    · rw [← hpe] at hseq
      rw [← hfe, ← hse] at hmark
      obtain ⟨js, hjs, hlt, hmap⟩ := lock_seq_take_levels
        ((List.range lm).map (fun i => lastD (lvl i lo) 1)) T
      exact Or.inr ⟨hr1', a, T, hB, hmark, hseq, js, hjs, hlt, by rw [hseq, hmap]⟩
  · rcases hcase1 with ⟨_, _, _, hk0, _⟩ | ⟨_, _, a, T, hB, hl, h3, l1', _, _, hmem, _, _, _, hseq⟩
    · rw [hk0]; exact List.Pairwise.nil
    · rw [hseq] at hnd1 ⊢
      rw [← hpe] at hnd1 ⊢
      rw [List.pairwise_cons]
      refine ⟨?_, pairwise_lock_seq hpw T (List.nodup_cons.mp hnd1).2⟩
      intro p hp
      have hp2 := (List.take_sublist _ _).subset ((lock_seq_sublist _ _).subset hp)
      rw [hpe] at hp2
      exact hbefore p hp2 a hmem

theorem lock_order_witness :
    Reachable 2 [(sl_call.insert 5 7 2, 1)] one_key_heap ∧
    (5 : Int) ≤ VAL_MAX ∧
    1 ≤ 1 ∧
    1 ≤ 2 ∧
    one_key_heap.length ≤ 3 ∧
    (∃ found ps ss c0,
        optimistic_search 3 one_key_heap (sl_set_new 2).1 5 = some (found, ps, ss) ∧
        level_chain one_key_heap 0 (one_key_heap.length + 1) (some (sl_set_new 2).1.head) = some c0 ∧ c0.Nodup ∧
        (∃ r h5 l, optimistic_insert_log 3 one_key_heap (sl_set_new 2).1 5 4 1 = (some (r, h5), l) ∧
          ((r = 0 ∧ locked_by l = []) ∨
            (r = 1 ∧ locked_by l = lock_seq none (ps.take 1) ∧
              ∃ js : List Nat, js.Pairwise (fun i j => i < j) ∧ (∀ j ∈ js, j < 1) ∧
                locked_by l = js.map (fun j => ps.getD j 0))) ∧
          (locked_by l).Pairwise (fun x y => List.Sublist [y, x] c0)) ∧
        (∃ r h6 l, optimistic_delete_log 3 one_key_heap (sl_set_new 2).1 5 = (some (r, h6), l) ∧
          ((r = 0 ∧ locked_by l = []) ∨
            (r = 1 ∧ ∃ (nd T : Nat) (hB : sl_heap),
              delete_mark one_key_heap none false (-1) found ss = some (Sum.inr (some nd, (T : Int), hB)) ∧
              locked_by l = nd :: lock_seq none (ps.take T) ∧
              ∃ js : List Nat, js.Pairwise (fun i j => i < j) ∧ (∀ j ∈ js, j < T) ∧
                locked_by l = nd :: js.map (fun j => ps.getD j 0))) ∧
          (locked_by l).Pairwise (fun x y => List.Sublist [y, x] c0))) :=
  ⟨one_key_heap_reachable, by decide, by decide, by decide, by decide,
    lock_order 2 _ one_key_heap one_key_heap_reachable 5 (by decide) 4 1 (by decide) (by decide) 3
      (by decide)⟩

/-- C18. Single-threaded termination without retry.  On every heap reachable
from a fresh map, for every key strictly below the tail key `LONG_MAX` and
every tower height `L` in `[1, levelmax]`, with fuel for as many steps as the
heap has nodes: `optimistic_search` returns; `optimistic_insert` returns, its
log holds exactly one search and no step of the backoff branch, and it either
returns `0` on a node found unmarked and fully linked (the loop
`while (!node_found->fullylinked)` ends at its first test, after the two reads
of the node), or returns `1` after a validation loop that succeeds at all `L`
levels at the first attempt; `optimistic_delete` returns, its log holds exactly
one search and no step of the backoff branch, and it either returns `0` without
taking a lock, or returns `1` after marking the node found and after a
validation loop that succeeds at all levels of its tower at the first
attempt. -/
theorem no_retry_single_threaded (lm : Nat) (log : List (sl_call × Int)) (h : sl_heap)
    (hr : Reachable lm log h) (k : Int) (hk : k < VAL_MAX) (v L : Nat) (hL1 : 1 ≤ L)
    (hLm : L ≤ lm) (fuel : Nat) (hfuel : h.length ≤ fuel) :
    ∃ found ps ss l0,
      optimistic_search_log fuel h (sl_set_new lm).1 k = some ((found, ps, ss), l0) ∧
      optimistic_search fuel h (sl_set_new lm).1 k = some (found, ps, ss) ∧
      (∃ r h5 l, optimistic_insert_log fuel h (sl_set_new lm).1 k v L = (some (r, h5), l) ∧
        optimistic_insert fuel h (sl_set_new lm).1 k v L = some (r, h5) ∧
        List.count sl_event.search l = 1 ∧ backoff_steps l = [] ∧
        ((r = 0 ∧ found ≠ -1 ∧
            (∃ (a : Nat) (nd : sl_node), ss[found.toNat]? = some a ∧ h[a]? = some nd ∧
              nd.marked = false ∧ nd.fullylinked = true) ∧
            ∃ x, l = l0 ++ [sl_event.read x, sl_event.read x]) ∨
          (r = 1 ∧ found = -1 ∧
            ∃ hl h1, validate_loop insert_valid ps ss L 0 none (-1) h = some (true, hl, h1)))) ∧
      (∃ r h6 l, optimistic_delete_log fuel h (sl_set_new lm).1 k = (some (r, h6), l) ∧
        optimistic_delete fuel h (sl_set_new lm).1 k = some (r, h6) ∧
        List.count sl_event.search l = 1 ∧ backoff_steps l = [] ∧
        ((r = 0 ∧ optimistic_find fuel h (sl_set_new lm).1 k = some 0 ∧ locked_by l = []) ∨
          (r = 1 ∧ ∃ (nd T : Nat) (hB : sl_heap) (hl : Int) (h3 : sl_heap),
            delete_mark h none false (-1) found ss = some (Sum.inr (some nd, (T : Int), hB)) ∧
            validate_loop delete_valid ps ss T 0 none (-1) hB = some (true, hl, h3)))) := by
  obtain ⟨G, hinv, _⟩ := hr.inv
  have hlm : 1 ≤ lm := by omega
  have hhead : (sl_set_new lm).1 = ⟨1⟩ := rfl
  rw [hhead]
  obtain ⟨lo, hi, found, l0, r, h5, l, hG, hs0, hlog, _, hc, hb, _, _, hcase⟩ :=
    hinv.insert_log_facts (le_of_lt hk) v hL1 hLm hfuel
  obtain ⟨lo1, hi1, found1, l01, r1, h6, l1, hG1, hs1, hlog1, _, hc1, hb1, _, _, hcase1⟩ :=
    hinv.delete_log_facts (le_of_lt hk) hlm hfuel
  rw [hs0] at hs1
  simp only [Option.some.injEq, Prod.mk.injEq] at hs1
  obtain ⟨⟨hfe, hpe, hse⟩, _⟩ := hs1
  have hsearch := log_some_fst (optimistic_search_log_fst fuel h ⟨1⟩ k) hs0
  have hins : optimistic_insert fuel h ⟨1⟩ k v L = some (r, h5) := by
    rw [← optimistic_insert_log_fst, hlog]
  have hdel : optimistic_delete fuel h ⟨1⟩ k = some (r1, h6) := by
    rw [← optimistic_delete_log_fst, hlog1]
  refine ⟨found, _, _, l0, hs0, hsearch, ⟨r, h5, l, hlog, hins, hc, hb, ?_⟩,
    ⟨r1, h6, l1, hlog1, hdel, hc1, hb1, ?_⟩⟩
  · rcases hcase with ⟨hr0, hf, _, _, _, x, hx⟩ | ⟨hr1, _, hfound, _, _, hl, h1, l1', hv⟩
    · left
      obtain ⟨found', ps', ss', a, n, hs', hne, hss, hn, hfl, hmk⟩ := find_one_iff hf
      rw [hsearch] at hs'
      simp only [Option.some.injEq, Prod.mk.injEq] at hs'
      obtain ⟨rfl, _, rfl⟩ := hs'
      exact ⟨hr0, hne, ⟨a, n, hss, hn, hmk, hfl⟩, x, hx⟩
    · right
      exact ⟨hr1, hfound, hl, h1, log_some_fst
        (validate_loop_log_fst insert_valid_log insert_valid insert_valid_log_fst _ _ L 0 none
          (-1) h) hv⟩
  · rcases hcase1 with ⟨hr0, hf, _, hk0, _⟩ | ⟨hr1', _, a, T, hB, hl, h3, l1', _, _, _, _, hmark, hv, _⟩
    · exact Or.inl ⟨hr0, hf, hk0⟩
    · right
      rw [← hfe, ← hse] at hmark
      rw [← hpe, ← hse] at hv
      exact ⟨hr1', a, T, hB, hl, h3, hmark, log_some_fst
        (validate_loop_log_fst delete_valid_log delete_valid delete_valid_log_fst _ _ T 0 none
          (-1) hB) hv⟩

theorem no_retry_single_threaded_witness :
    Reachable 2 [(sl_call.insert 5 7 2, 1)] one_key_heap ∧
    (3 : Int) < VAL_MAX ∧
    1 ≤ 1 ∧
    1 ≤ 2 ∧
    one_key_heap.length ≤ 3 ∧
    (∃ found ps ss l0,
        optimistic_search_log 3 one_key_heap (sl_set_new 2).1 3 = some ((found, ps, ss), l0) ∧
        optimistic_search 3 one_key_heap (sl_set_new 2).1 3 = some (found, ps, ss) ∧
        (∃ r h5 l, optimistic_insert_log 3 one_key_heap (sl_set_new 2).1 3 4 1 = (some (r, h5), l) ∧
          optimistic_insert 3 one_key_heap (sl_set_new 2).1 3 4 1 = some (r, h5) ∧
          List.count sl_event.search l = 1 ∧ backoff_steps l = [] ∧
          ((r = 0 ∧ found ≠ -1 ∧
              (∃ (a : Nat) (nd : sl_node), ss[found.toNat]? = some a ∧ one_key_heap[a]? = some nd ∧
                nd.marked = false ∧ nd.fullylinked = true) ∧
              ∃ x, l = l0 ++ [sl_event.read x, sl_event.read x]) ∨
            (r = 1 ∧ found = -1 ∧
              ∃ hl h1, validate_loop insert_valid ps ss 1 0 none (-1) one_key_heap = some (true, hl, h1)))) ∧
        (∃ r h6 l, optimistic_delete_log 3 one_key_heap (sl_set_new 2).1 3 = (some (r, h6), l) ∧
          optimistic_delete 3 one_key_heap (sl_set_new 2).1 3 = some (r, h6) ∧
          List.count sl_event.search l = 1 ∧ backoff_steps l = [] ∧
          ((r = 0 ∧ optimistic_find 3 one_key_heap (sl_set_new 2).1 3 = some 0 ∧ locked_by l = []) ∨
            (r = 1 ∧ ∃ (nd T : Nat) (hB : sl_heap) (hl : Int) (h3 : sl_heap),
              delete_mark one_key_heap none false (-1) found ss = some (Sum.inr (some nd, (T : Int), hB)) ∧
              validate_loop delete_valid ps ss T 0 none (-1) hB = some (true, hl, h3))))) :=
  ⟨one_key_heap_reachable, by decide, by decide, by decide, by decide,
    no_retry_single_threaded 2 _ one_key_heap one_key_heap_reachable 3 (by decide) 4 1 (by decide)
      (by decide) 3 (by decide)⟩

/-! ## The order of the stores of an insert -/

theorem insert_loop_stores (m : sl_map) (k : Int) (v L : Nat) :
    ∀ (fuel b : Nat) (h : sl_heap) (r : Int) (h5 : sl_heap),
      (optimistic_insert_loop_log m k v L fuel b h).1 = some (r, h5) →
      (r = 0 ∧ h5 = h ∧ stores_of (optimistic_insert_loop_log m k v L fuel b h).2 = []) ∨
      (r = 1 ∧ ∃ (g : Nat) (ps ss : List Nat) (l0 : List sl_event) (a : Nat),
        optimistic_search_log g h m k = some ((-1, ps, ss), l0) ∧
        sl_event.alloc a k v L ∈ (optimistic_insert_loop_log m k v L fuel b h).2 ∧
        stores_of (optimistic_insert_loop_log m k v L fuel b h).2 =
          (List.range L).flatMap (fun j =>
            [sl_event.next a j ss[j]?, sl_event.next (ps.getD j 0) j (some a)]) ++
          [sl_event.fullylinked a]) := by
  intro fuel
  induction fuel with
  | zero => intro b h r h5 hres; simp [optimistic_insert_loop_log] at hres
  | succ fuel ih =>
    intro b h r h5 hres
    cases hr : optimistic_search_log (fuel + 1) h m k with
    | none => simp [optimistic_insert_loop_log, hr] at hres
    | some rs =>
      obtain ⟨⟨f, ps, ss⟩, l0⟩ := rs
      obtain ⟨_, _, _, s0, _⟩ := facts_of_search (optimistic_search_log_shape hr)
      by_cases hf : f = -1
      · subst hf
        cases hv : validate_loop_log insert_valid_log ps ss L 0 none (-1) h with
        | none => simp [optimistic_insert_loop_log, hr, hv] at hres
        | some rv =>
          obtain ⟨⟨vb, hl, h1⟩, l1⟩ := rv
          obtain ⟨_, _, s1, _⟩ := facts_of_validate (validate_loop_log_kind insert_valid_log
            (fun _ _ _ _ _ _ hx => insert_valid_log_reads hx) _ _ _ _ _ _ _ _ _ hv)
          cases vb with
          | false =>
            cases hu : unlock_levels_log h1 ps hl with
            | none => simp [optimistic_insert_loop_log, hr, hv, hu] at hres
            | some ru =>
              obtain ⟨h2, l2⟩ := ru
              obtain ⟨_, _, s2, _⟩ := facts_of_unlock (unlock_levels_loop_log_kind _ _ _ _ _ _ _ hu)
              obtain ⟨⟨l2', hu'⟩, _⟩ := validate_then_unlock insert_valid_log
                (fun _ _ _ _ _ _ hx => insert_valid_log_reads hx) hv
              rw [hu] at hu'
              simp only [Option.some.injEq, Prod.mk.injEq] at hu'
              obtain ⟨rfl, _⟩ := hu'
              have hfst : (optimistic_insert_loop_log m k v L (fuel + 1) b h2).1 =
                  (optimistic_insert_loop_log m k v L fuel (b * 2 % 4294967296) h2).1 := by
                simp [optimistic_insert_loop_log, hr, hv, hu]
              have hlog : (optimistic_insert_loop_log m k v L (fuel + 1) b h2).2 =
                  l0 ++ l1 ++ l2 ++ ([sl_event.invalid b] ++
                    (if b > 5000 then
                      [sl_event.sleep (insert_timeout b).1 (insert_timeout b).2]
                     else []) ++
                    (optimistic_insert_loop_log m k v L fuel (b * 2 % 4294967296) h2).2) := by
                simp [optimistic_insert_loop_log, hr, hv, hu]
              rw [hfst] at hres
              have hst : stores_of (optimistic_insert_loop_log m k v L (fuel + 1) b h2).2 =
                  stores_of (optimistic_insert_loop_log m k v L fuel
                    (b * 2 % 4294967296) h2).2 := by
                rw [hlog]
                by_cases hb5 : b > 5000 <;>
                  simp [stores_of_append, s0, s1, s2, stores_of, hb5]
              rcases ih _ _ _ _ hres with ⟨h1', h2', h3'⟩ | ⟨h1', g, ps', ss', l0', a, hs', hal, hst'⟩
              · exact Or.inl ⟨h1', h2', hst.trans h3'⟩
              · refine Or.inr ⟨h1', g, ps', ss', l0', a, hs', ?_, hst.trans hst'⟩
                rw [hlog]
                simp only [List.mem_append]
                exact Or.inr (Or.inr hal)
          | true =>
            obtain ⟨h3, l3, h4, h5', l5, hsp, _, hu, hlog⟩ := insert_log_run hr hv hres
            obtain ⟨_, _, s5, _⟩ := facts_of_unlock (unlock_levels_loop_log_kind _ _ _ _ _ _ _ hu)
            have s3 := stores_of_next (insert_splice_log_kind _ _ _ _ _ _ _ _ hsp)
            have hexact := insert_splice_log_exact _ _ _ _ _ _ _ _ hsp
            rw [hlog] at hres ⊢
            simp only [Option.some.injEq, Prod.mk.injEq] at hres
            refine Or.inr ⟨hres.1.symm, fuel + 1, ps, ss, l0, h1.length, hr, by simp, ?_⟩
            simp only [stores_of_append, stores_of, s0, s1, s3, s5, List.nil_append]
            rw [hexact]
            simp
      · cases hss : ss[f.toNat]? with
        | none => simp [optimistic_insert_loop_log, hr, hf, hss] at hres
        | some nf =>
          cases hn : h[nf]? with
          | none => simp [optimistic_insert_loop_log, hr, hf, hss, hn] at hres
          | some node =>
            by_cases hm : node.marked = true
            · have hfst : (optimistic_insert_loop_log m k v L (fuel + 1) b h).1 =
                  (optimistic_insert_loop_log m k v L fuel b h).1 := by
                simp [optimistic_insert_loop_log, hr, hf, hss, hn, hm]
              have hlog : (optimistic_insert_loop_log m k v L (fuel + 1) b h).2 =
                  l0 ++ sl_event.read nf :: (optimistic_insert_loop_log m k v L fuel b h).2 := by
                simp [optimistic_insert_loop_log, hr, hf, hss, hn, hm]
              rw [hfst] at hres
              have hst : stores_of (optimistic_insert_loop_log m k v L (fuel + 1) b h).2 =
                  stores_of (optimistic_insert_loop_log m k v L fuel b h).2 := by
                rw [hlog]
                simp [stores_of_append, s0, stores_of]
              rcases ih _ _ _ _ hres with ⟨h1', h2', h3'⟩ | ⟨h1', g, ps', ss', l0', a, hs', hal, hst'⟩
              · exact Or.inl ⟨h1', h2', hst.trans h3'⟩
              · refine Or.inr ⟨h1', g, ps', ss', l0', a, hs', ?_, hst.trans hst'⟩
                rw [hlog]
                simp only [List.mem_append, List.mem_cons]
                exact Or.inr (Or.inr hal)
            · have hm' : node.marked = false := by simpa using hm
              by_cases hfl : node.fullylinked = true
              · have hres' : optimistic_insert_loop_log m k v L (fuel + 1) b h =
                    (some (0, h), l0 ++ [sl_event.read nf, sl_event.read nf]) := by
                  simp [optimistic_insert_loop_log, hr, hf, hss, hn, hm', hfl]
                rw [hres'] at hres ⊢
                simp only [Option.some.injEq, Prod.mk.injEq] at hres
                exact Or.inl ⟨hres.1.symm, hres.2.symm, by simp [stores_of_append, s0, stores_of]⟩
              · simp [optimistic_insert_loop_log, hr, hf, hss, hn, hm', hfl] at hres



/-! ## The search on a heap with sorted levels -/

theorem key_at_some {h : sl_heap} {a : Nat} {ka : Int} (hk : key_at h a = some ka) :
    ∃ n, h[a]? = some n ∧ n.key = ka := by
  unfold key_at at hk
  cases hn : h[a]? with
  | none => simp [hn] at hk
  | some n => exact ⟨n, rfl, by simpa [hn] using hk⟩

theorem key_at_of_node {h : sl_heap} {a : Nat} {n : sl_node} (hn : h[a]? = some n) :
    key_at h a = some n.key := by
  simp [key_at, hn]

theorem key_at_lt_length {h : sl_heap} {a : Nat} {ka : Int} (hk : key_at h a = some ka) :
    a < h.length := by
  obtain ⟨n, hn, _⟩ := key_at_some hk
  exact (List.getElem?_eq_some_iff.mp hn).1

theorem key_lt_keys {h : sl_heap} {a b : Nat} (hlt : key_lt h a b) :
    ∃ ka kb, key_at h a = some ka ∧ key_at h b = some kb ∧ ka < kb := by
  unfold key_lt at hlt
  cases ha : key_at h a with
  | none => simp [ha] at hlt
  | some ka =>
    cases hb : key_at h b with
    | none => simp [ha, hb] at hlt
    | some kb => exact ⟨ka, kb, rfl, rfl, by simpa [ha, hb] using hlt⟩

theorem chain_of_level_chain (h : sl_heap) (i : Nat) :
    ∀ (fuel : Nat) (a : Nat) (l : List Nat), level_chain h i fuel (some a) = some l →
      ∃ l1, l = a :: l1 ∧ List.Chain' (fun x y => next_at h x i = some (some y)) l := by
  intro fuel
  induction fuel with
  | zero => intro a l hl; simp [level_chain] at hl
  | succ fuel ih =>
    intro a l hl
    unfold level_chain at hl
    cases hn : h[a]? with
    | none => simp [hn] at hl
    | some n =>
      rw [hn] at hl
      simp only at hl
      cases hnx : n.next[i]? with
      | none => simp [hnx] at hl
      | some nx =>
        rw [hnx] at hl
        simp only at hl
        cases hrec : level_chain h i fuel nx with
        | none => simp [hrec] at hl
        | some l1 =>
          rw [hrec] at hl
          simp only [Option.map_some', Option.some.injEq] at hl
          subst hl
          refine ⟨l1, rfl, ?_⟩
          cases nx with
          | none =>
            cases fuel with
            | zero => simp [level_chain] at hrec
            | succ f =>
              simp only [level_chain, Option.some.injEq] at hrec
              subst hrec
              exact List.chain'_singleton a
          | some b =>
            obtain ⟨l2, rfl, hch⟩ := ih b l1 hrec
            rw [List.chain'_cons]
            exact ⟨by rw [next_at_eq hn, hnx], hch⟩

theorem chain_link_last {R : Nat → Nat → Prop} :
    ∀ (X : List Nat) (d s : Nat) (rest : List Nat),
      List.Chain' R (d :: (X ++ s :: rest)) → R (lastD X d) s := by
  intro X
  induction X with
  | nil =>
    intro d s rest hch
    exact (List.chain'_cons.mp hch).1
  | cons x X ih =>
    intro d s rest hch
    exact ih x s rest (List.chain'_cons.mp hch).2

/-- A level sorted by key that ends with the tail splits around a key that is
at most the tail key. -/
theorem chain_split_by_key {h : sl_heap} {k : Int} (htail : key_at h 0 = some VAL_MAX)
    (hk : k ≤ VAL_MAX) :
    ∀ c : List Nat, c.Pairwise (key_lt h) → c.getLast? = some 0 →
      ∃ X s R, c = X ++ s :: R ∧ (∀ x ∈ X, ∃ kx, key_at h x = some kx ∧ kx < k) ∧
        (∀ y ∈ s :: R, ∃ ky, key_at h y = some ky ∧ k ≤ ky) := by
  intro c
  induction c with
  | nil => intro _ hl; simp at hl
  | cons a c ih =>
    intro hpw hl
    cases c with
    | nil =>
      simp only [List.getLast?_singleton, Option.some.injEq] at hl
      subst hl
      exact ⟨[], 0, [], rfl, by simp, by simpa using ⟨VAL_MAX, htail, hk⟩⟩
    | cons b c =>
      rw [List.pairwise_cons] at hpw
      obtain ⟨ka, _, hka, _, _⟩ := key_lt_keys (hpw.1 b (List.mem_cons_self _ _))
      by_cases hlt : ka < k
      · obtain ⟨X, s, R, hc, hX, hR⟩ := ih hpw.2 (by simpa using hl)
        refine ⟨a :: X, s, R, by rw [hc]; rfl, ?_, hR⟩
        intro x hx
        rcases List.mem_cons.mp hx with rfl | hx
        · exact ⟨ka, hka, hlt⟩
        · exact hX x hx
      · refine ⟨[], a, b :: c, rfl, by simp, ?_⟩
        intro y hy
        rcases List.mem_cons.mp hy with rfl | hy
        · exact ⟨ka, hka, by omega⟩
        · obtain ⟨ka', ky, hka', hky, hlt'⟩ := key_lt_keys (hpw.1 y hy)
          rw [hka] at hka'
          simp only [Option.some.injEq] at hka'
          exact ⟨ky, hky, by omega⟩

theorem sorted_length_le {h : sl_heap} {c : List Nat} (hpw : c.Pairwise (key_lt h))
    (hall : ∀ x ∈ c, ∃ kx, key_at h x = some kx) : c.length ≤ h.length := by
  apply nodup_length_le
  · refine hpw.imp ?_
    intro a b hab heq
    subst heq
    obtain ⟨ka, kb, hka, hkb, hlt⟩ := key_lt_keys hab
    rw [hka] at hkb
    simp only [Option.some.injEq] at hkb
    omega
  · intro x hx
    obtain ⟨kx, hkx⟩ := hall x hx
    exact key_at_lt_length hkx

/-- The value `found` of the search on an arbitrary heap: the highest level
whose successor holds the key, or the initial value. -/
theorem search_levels_found (h : sl_heap) (k : Int) (fuel : Nat) :
    ∀ (n : Nat) (p : Nat) (found f : Int) (ps ss : List Nat),
      search_levels h k fuel n p found = some (f, ps, ss) →
      (found ≠ -1 → f = found) ∧
      (found = -1 →
        (f = -1 ∧ ∀ i, i < n → ∀ s c, ss[i]? = some s → h[s]? = some c → c.key ≠ k) ∨
        (∃ i : Nat, f = (i : Int) ∧ i < n ∧
          (∃ s c, ss[i]? = some s ∧ h[s]? = some c ∧ c.key = k) ∧
          ∀ j, i < j → j < n → ∀ s c, ss[j]? = some s → h[s]? = some c → c.key ≠ k)) := by
  intro n
  induction n with
  | zero =>
    intro p found f ps ss hr
    simp only [search_levels, Option.some.injEq, Prod.mk.injEq] at hr
    obtain ⟨rfl, _, rfl⟩ := hr
    exact ⟨fun _ => rfl, fun h1 => Or.inl ⟨h1, fun i hi => by omega⟩⟩
  | succ n ih =>
    intro p found f ps ss hr
    unfold search_levels at hr
    cases hp : h[p]? with
    | none => simp [hp] at hr
    | some pn =>
      rw [hp] at hr
      simp only at hr
      cases hnx : pn.next[n]? with
      | none => simp [hnx] at hr
      | some c0 =>
        rw [hnx] at hr
        simp only at hr
        cases hsc : search_scan h k n fuel p c0 with
        | none => simp [hsc] at hr
        | some pc =>
          obtain ⟨p1, c1⟩ := pc
          rw [hsc] at hr
          simp only at hr
          cases hc : h[c1]? with
          | none => simp [hc] at hr
          | some cn =>
            rw [hc] at hr
            simp only at hr
            cases hrec : search_levels h k fuel n p1
                (if found = -1 ∧ k = cn.key then (n : Int) else found) with
            | none => simp [hrec] at hr
            | some r1 =>
              obtain ⟨f1, ps1, ss1⟩ := r1
              rw [hrec] at hr
              simp only [Option.some.injEq, Prod.mk.injEq] at hr
              obtain ⟨rfl, _, rfl⟩ := hr
              obtain ⟨hlen, _⟩ := search_levels_post h k fuel _ _ _ _ _ _ hrec
              obtain ⟨ih1, ih2⟩ := ih _ _ _ _ _ hrec
              have hlast : (ss1 ++ [c1])[n]? = some c1 := by
                rw [← hlen]; exact List.getElem?_concat_length _ _
              have hlow : ∀ i, i < n → (ss1 ++ [c1])[i]? = ss1[i]? := fun i hi =>
                List.getElem?_append_left (by omega)
              refine ⟨?_, ?_⟩
              · intro hne
                have hcond : ¬ (found = -1 ∧ k = cn.key) := fun hh => hne hh.1
                rw [if_neg hcond] at ih1
                exact ih1 hne
              · intro hfound
                by_cases hkey : k = cn.key
                · rw [if_pos ⟨hfound, hkey⟩] at ih1
                  right
                  refine ⟨n, ih1 (by omega), by omega, ⟨c1, cn, hlast, hc, hkey.symm⟩, ?_⟩
                  intro j hj1 hj2
                  omega
                · have hcond : ¬ (found = -1 ∧ k = cn.key) := fun hh => hkey hh.2
                  rw [if_neg hcond] at ih2
                  have hn' : ∀ s c, (ss1 ++ [c1])[n]? = some s → h[s]? = some c → c.key ≠ k := by
                    intro s c hs hsc'
                    rw [hlast] at hs
                    simp only [Option.some.injEq] at hs
                    subst hs
                    rw [hc] at hsc'
                    simp only [Option.some.injEq] at hsc'
                    subst hsc'
                    exact fun hh => hkey hh.symm
                  rcases ih2 hfound with ⟨hf1, hall⟩ | ⟨i, hfi, hi, ⟨s, c, hs, hsc', hck⟩, hup⟩
                  · left
                    refine ⟨hf1, ?_⟩
                    intro i hi s c hs hsc'
                    rcases Nat.lt_succ_iff_lt_or_eq.mp hi with hi' | rfl
                    · rw [hlow i hi'] at hs
                      exact hall i hi' s c hs hsc'
                    · exact hn' s c hs hsc'
                  · right
                    refine ⟨i, hfi, by omega, ⟨s, c, by rw [hlow i hi]; exact hs, hsc', hck⟩, ?_⟩
                    intro j hj1 hj2 s' c' hs' hsc''
                    rcases Nat.lt_succ_iff_lt_or_eq.mp hj2 with hj' | rfl
                    · rw [hlow j hj'] at hs'
                      exact hup j hj1 hj' s' c' hs' hsc''
                    · exact hn' s' c' hs' hsc''

/-- The outer loop of the search on a heap with sorted levels and tower subset:
it returns, and at every level the predecessor is the last node of the chain
with a key below `k`. -/
theorem search_levels_sorted {lm head : Nat} {h : sl_heap} {k : Int} {fuel : Nat}
    (hsorted : sorted_levels lm head h) (htower : tower_subset lm head h)
    (htail : key_at h 0 = some VAL_MAX) (hk : k ≤ VAL_MAX) (hfuel : h.length ≤ fuel) :
    ∀ (n p : Nat) (found : Int), n ≤ lm →
      (p = head ∨ (n < lm ∧ ∃ c, level_chain h n (h.length + 1) (some head) = some (head :: c) ∧
        p ∈ c ∧ ∃ kp, key_at h p = some kp ∧ kp < k)) →
      ∃ f ps ss, search_levels h k fuel n p found = some (f, ps, ss) ∧
        ps.length = n ∧ ss.length = n ∧
        ∀ i, i < n → ∃ X s R,
          level_chain h i (h.length + 1) (some head) = some (head :: (X ++ s :: R)) ∧
          (∀ x ∈ X, ∃ kx, key_at h x = some kx ∧ kx < k) ∧
          (∀ y ∈ s :: R, ∃ ky, key_at h y = some ky ∧ k ≤ ky) ∧
          ps[i]? = some (lastD X head) ∧ ss[i]? = some s ∧
          next_at h (lastD X head) i = some (some s) := by
  intro n
  induction n with
  | zero =>
    intro p found _ _
    exact ⟨found, [], [], rfl, rfl, rfl, fun i hi => by omega⟩
  | succ n ih =>
    intro p found hn hp
    obtain ⟨c, hc, hpw, hlast⟩ := hsorted n (by omega)
    obtain ⟨X, s, R, hcs, hX, hR⟩ := chain_split_by_key htail hk c hpw hlast
    obtain ⟨_, _, hch⟩ := chain_of_level_chain h n _ _ _ hc
    rw [hcs] at hch
    have hkeys : ∀ x ∈ c, ∃ kx, key_at h x = some kx := by
      intro x hx
      rw [hcs] at hx
      rcases List.mem_append.mp hx with hx | hx
      · obtain ⟨kx, hkx, _⟩ := hX x hx
        exact ⟨kx, hkx⟩
      · obtain ⟨kx, hkx, _⟩ := hR x hx
        exact ⟨kx, hkx⟩
    have hlen := sorted_length_le hpw hkeys
    have hXlen : X.length < fuel := by
      rw [hcs] at hlen
      simp only [List.length_append, List.length_cons] at hlen
      omega
    -- the part of the level between the predecessor of the level above and `s`
    have hY : ∃ Y, List.Chain' (fun a b => next_at h a n = some (some b)) (p :: (Y ++ s :: R)) ∧
        lastD Y p = lastD X head ∧ Y.length ≤ X.length ∧ ∀ y ∈ Y, y ∈ X := by
      have hhead : p = head → ∃ Y,
          List.Chain' (fun a b => next_at h a n = some (some b)) (p :: (Y ++ s :: R)) ∧
          lastD Y p = lastD X head ∧ Y.length ≤ X.length ∧ ∀ y ∈ Y, y ∈ X := by
        intro hph
        subst hph
        exact ⟨X, hch, rfl, le_refl _, fun y hy => hy⟩
      rcases hp with hph | ⟨hn1, c1, hc1, hpc1, kp, hkp, hkpk⟩
      · exact hhead hph
      · obtain ⟨c0', c1', hc0', hc1', hsub⟩ := htower n hn1
        rw [hc] at hc0'
        rw [hc1] at hc1'
        simp only [Option.some.injEq] at hc0' hc1'
        subst hc0' hc1'
        have hpmem : p ∈ head :: c := hsub.subset (List.mem_cons_of_mem _ hpc1)
        rcases List.mem_cons.mp hpmem with hph | hpc
        · exact hhead hph
        · rw [hcs] at hpc
          rcases List.mem_append.mp hpc with hpX | hpR
          · obtain ⟨X1, Y, hXY⟩ := List.append_of_mem hpX
            refine ⟨Y, ?_, ?_, ?_, ?_⟩
            · have hch2 : List.Chain' (fun a b => next_at h a n = some (some b))
                  ((head :: X1) ++ (p :: (Y ++ s :: R))) := by
                rw [hXY] at hch
                simpa [List.append_assoc] using hch
              exact hch2.right_of_append
            · rw [hXY, lastD_append_cons]
            · rw [hXY]
              simp only [List.length_append, List.length_cons]
              omega
            · intro y hy
              rw [hXY]
              exact List.mem_append_right _ (List.mem_cons_of_mem _ hy)
          · obtain ⟨ky, hky, hkky⟩ := hR p hpR
            rw [hkp] at hky
            simp only [Option.some.injEq] at hky
            omega
    obtain ⟨Y, hchY, hlastY, hYlen, hYX⟩ := hY
    have hscan := search_scan_spec h k n Y p s R fuel hchY
      (fun y hy => by
        obtain ⟨ky, hky, hlt⟩ := hX y (hYX y hy)
        obtain ⟨ny, hny, hnk⟩ := key_at_some hky
        exact ⟨ny, hny, by omega⟩)
      (by
        obtain ⟨ks, hks, hle⟩ := hR s (List.mem_cons_self _ _)
        obtain ⟨ns, hns, hnk⟩ := key_at_some hks
        exact ⟨ns, hns, by omega⟩)
      (by omega)
    have hpnext : next_at h p n = some (some (firstD Y s)) := by
      cases Y with
      | nil => simpa using (List.chain'_cons.mp hchY).1
      | cons y Y => simpa using (List.chain'_cons.mp hchY).1
    obtain ⟨pn, hpn, hpnx⟩ := next_at_some hpnext
    obtain ⟨ks, hks, _⟩ := hR s (List.mem_cons_self _ _)
    obtain ⟨cn, hcn, _⟩ := key_at_some hks
    rw [hlastY] at hscan
    have hp1 : lastD X head = head ∨ (n < lm ∧ ∃ c,
        level_chain h n (h.length + 1) (some head) = some (head :: c) ∧
        lastD X head ∈ c ∧ ∃ kp, key_at h (lastD X head) = some kp ∧ kp < k) := by
      rcases List.mem_cons.mp (lastD_mem X head) with h1 | h1
      · exact Or.inl h1
      · exact Or.inr ⟨by omega, c, hc, by rw [hcs]; exact List.mem_append_left _ h1, hX _ h1⟩
    obtain ⟨f, ps, ss, hrec, hpl, hsl, hlev⟩ :=
      ih (lastD X head) (if found = -1 ∧ k = cn.key then (n : Int) else found) (by omega) hp1
    refine ⟨f, ps ++ [lastD X head], ss ++ [s], ?_, by simp [hpl], by simp [hsl], ?_⟩
    · simp [search_levels, hpn, hpnx, hscan, hcn, hrec]
    · intro i hi
      rcases Nat.lt_succ_iff_lt_or_eq.mp hi with hi' | rfl
      · obtain ⟨X', s', R', h1, h2, h3, h4, h5, h6⟩ := hlev i hi'
        refine ⟨X', s', R', h1, h2, h3, ?_, ?_, h6⟩
        · rw [List.getElem?_append_left (by omega)]; exact h4
        · rw [List.getElem?_append_left (by omega)]; exact h5
      · refine ⟨X, s, R, by rw [hc, hcs], hX, hR, ?_, ?_, chain_link_last X head s R hch⟩
        · rw [← hpl]; exact List.getElem?_concat_length _ _
        · rw [← hsl]; exact List.getElem?_concat_length _ _

theorem one_key_heap_sorted : sorted_levels 2 1 one_key_heap := by
  obtain ⟨G, hinv, _⟩ := one_key_heap_reachable.inv
  exact hinv.shape.levels_sorted

theorem one_key_heap_towers : tower_subset 2 1 one_key_heap := by
  obtain ⟨G, hinv, _⟩ := one_key_heap_reachable.inv
  exact hinv.shape.towers

/-- C13. Postcondition of `optimistic_search`.  On every heap whose head has
`lm` levels, whose levels below `lm` are sorted and end with the tail, which
has the tower-subset property and whose tail holds the key `LONG_MAX`, for
every key `k` up to `LONG_MAX` (every `long`) and with fuel for as many steps
as the heap has nodes: the search returns `found`, `preds` and `succs` with
`lm` entries each, and at every level `i < lm` the chain of the level from the
head is `head, X, s, R` where the nodes of `X` have keys below `k` and `s` and
the nodes of `R` have keys at least `k` (so `s` is the node at which the test
`key > curr->key` stopped), `preds[i]` is the last node of `head, X` (the head,
or a node with a key below `k`), `succs[i] = s = preds[i]->next[i]` and
`k ≤ succs[i]->key`.  The value `found` is the highest level `i` with
`succs[i]->key == k`, or `-1` when no level has such a successor. -/
theorem search_postcondition (lm : Nat) (m : sl_map) (h : sl_heap) (k : Int) (fuel : Nat)
    (hhd : ∃ hd, h[m.head]? = some hd ∧ hd.toplevel = lm)
    (hsorted : sorted_levels lm m.head h) (htower : tower_subset lm m.head h)
    (htail : key_at h 0 = some VAL_MAX) (hk : k ≤ VAL_MAX) (hfuel : h.length ≤ fuel) :
    ∃ found ps ss, optimistic_search fuel h m k = some (found, ps, ss) ∧
      ps.length = lm ∧ ss.length = lm ∧
      (∀ i, i < lm → ∃ X s R,
        level_chain h i (h.length + 1) (some m.head) = some (m.head :: (X ++ s :: R)) ∧
        (∀ x ∈ X, ∃ kx, key_at h x = some kx ∧ kx < k) ∧
        (∀ y ∈ s :: R, ∃ ky, key_at h y = some ky ∧ k ≤ ky) ∧
        ps[i]? = some (lastD X m.head) ∧ ss[i]? = some s ∧
        next_at h (lastD X m.head) i = some (some s) ∧
        (lastD X m.head = m.head ∨
          ∃ kp, key_at h (lastD X m.head) = some kp ∧ kp < k) ∧
        ∃ ks, key_at h s = some ks ∧ k ≤ ks) ∧
      ((found = -1 ∧ ∀ i, i < lm → ∀ s, ss[i]? = some s → key_at h s ≠ some k) ∨
        (∃ i : Nat, found = (i : Int) ∧ i < lm ∧
          (∃ s, ss[i]? = some s ∧ key_at h s = some k) ∧
          ∀ j, i < j → j < lm → ∀ s, ss[j]? = some s → key_at h s ≠ some k)) := by
  obtain ⟨hd, hhd1, hhd2⟩ := hhd
  obtain ⟨f, ps, ss, hrun, hpl, hsl, hlev⟩ :=
    search_levels_sorted hsorted htower htail hk hfuel lm m.head (-1) (le_refl _) (Or.inl rfl)
  have hsearch : optimistic_search fuel h m k = some (f, ps, ss) := by
    simp [optimistic_search, hhd1, hhd2, hrun]
  refine ⟨f, ps, ss, hsearch, hpl, hsl, ?_, ?_⟩
  · intro i hi
    obtain ⟨X, s, R, h1, h2, h3, h4, h5, h6⟩ := hlev i hi
    refine ⟨X, s, R, h1, h2, h3, h4, h5, h6, ?_, h3 s (List.mem_cons_self _ _)⟩
    rcases List.mem_cons.mp (lastD_mem X m.head) with hm | hm
    · exact Or.inl hm
    · exact Or.inr (h2 _ hm)
  · obtain ⟨_, hfound⟩ := search_levels_found h k fuel _ _ _ _ _ _ hrun
    rcases hfound rfl with ⟨hf, hall⟩ | ⟨i, hfi, hi, ⟨s, c, hs, hc, hck⟩, hup⟩
    · left
      refine ⟨hf, ?_⟩
      intro i hi s hs hkey
      obtain ⟨c, hc, hck⟩ := key_at_some hkey
      exact hall i hi s c hs hc hck
    · right
      refine ⟨i, hfi, hi, ⟨s, hs, by rw [key_at_of_node hc, hck]⟩, ?_⟩
      intro j hj1 hj2 s' hs' hkey
      obtain ⟨c', hc', hck'⟩ := key_at_some hkey
      exact hup j hj1 hj2 s' c' hs' hc' hck'

theorem search_postcondition_witness :
    (∃ hd, one_key_heap[(sl_set_new 2).1.head]? = some hd ∧ hd.toplevel = 2) ∧
    sorted_levels 2 (sl_set_new 2).1.head one_key_heap ∧
    tower_subset 2 (sl_set_new 2).1.head one_key_heap ∧
    key_at one_key_heap 0 = some VAL_MAX ∧
    (5 : Int) ≤ VAL_MAX ∧
    one_key_heap.length ≤ 3 ∧
    (∃ found ps ss, optimistic_search 3 one_key_heap (sl_set_new 2).1 5 = some (found, ps, ss) ∧
        ps.length = 2 ∧ ss.length = 2 ∧
        (∀ i, i < 2 → ∃ X s R,
          level_chain one_key_heap i (one_key_heap.length + 1) (some (sl_set_new 2).1.head) = some ((sl_set_new 2).1.head :: (X ++ s :: R)) ∧
          (∀ x ∈ X, ∃ kx, key_at one_key_heap x = some kx ∧ kx < 5) ∧
          (∀ y ∈ s :: R, ∃ ky, key_at one_key_heap y = some ky ∧ 5 ≤ ky) ∧
          ps[i]? = some (lastD X (sl_set_new 2).1.head) ∧ ss[i]? = some s ∧
          next_at one_key_heap (lastD X (sl_set_new 2).1.head) i = some (some s) ∧
          (lastD X (sl_set_new 2).1.head = (sl_set_new 2).1.head ∨
            ∃ kp, key_at one_key_heap (lastD X (sl_set_new 2).1.head) = some kp ∧ kp < 5) ∧
          ∃ ks, key_at one_key_heap s = some ks ∧ 5 ≤ ks) ∧
        ((found = -1 ∧ ∀ i, i < 2 → ∀ s, ss[i]? = some s → key_at one_key_heap s ≠ some 5) ∨
          (∃ i : Nat, found = (i : Int) ∧ i < 2 ∧
            (∃ s, ss[i]? = some s ∧ key_at one_key_heap s = some 5) ∧
            ∀ j, i < j → j < 2 → ∀ s, ss[j]? = some s → key_at one_key_heap s ≠ some 5))) :=
  ⟨⟨_, rfl, rfl⟩, one_key_heap_sorted, one_key_heap_towers, rfl, by decide, by decide,
    search_postcondition 2 (sl_set_new 2).1 one_key_heap 5 3 ⟨_, rfl, rfl⟩ one_key_heap_sorted
      one_key_heap_towers rfl (by decide) (by decide)⟩

/-! ## Replaying a log -/

theorem run_log_trans {h h1 h2 : sl_heap} {l1 l2 : List sl_event}
    (e1 : run_log h l1 = some h1) (e2 : run_log h1 l2 = some h2) :
    run_log h (l1 ++ l2) = some h2 := by
  rw [run_log_append, e1]; exact e2

theorem run_log_reads {l : List sl_event} (hl : ∀ e ∈ l, ∃ a, e = sl_event.read a)
    (h : sl_heap) : run_log h l = some h :=
  (run_log_of_reads (fun e he => Or.inr (hl e he)) h []).1

theorem optimistic_search_log_replay {fuel : Nat} {h : sl_heap} {m : sl_map} {k : Int}
    {r : Int × List Nat × List Nat} {l : List sl_event}
    (hs : optimistic_search_log fuel h m k = some (r, l)) : run_log h l = some h :=
  (run_log_of_reads (optimistic_search_log_reads hs) h []).1

theorem validate_loop_log_replay
    (va : sl_heap → Nat → Nat → Nat → Option (Bool × List sl_event))
    (hva : ∀ h p s i b l, va h p s i = some (b, l) → ∀ e ∈ l, ∃ a, e = sl_event.read a)
    (preds succs : List Nat) :
    ∀ (n i : Nat) (prev : Option Nat) (hl : Int) (h : sl_heap)
      (r : Bool × Int × sl_heap) (l : List sl_event),
      validate_loop_log va preds succs n i prev hl h = some (r, l) →
      run_log h l = some r.2.2 := by
  intro n
  induction n with
  | zero =>
    intro i prev hl h r l hr
    simp only [validate_loop_log, Option.some.injEq, Prod.mk.injEq] at hr
    obtain ⟨rfl, rfl⟩ := hr
    rfl
  | succ n ih =>
    intro i prev hl h r l hr
    unfold validate_loop_log at hr
    cases hp : preds[i]? with
    | none => simp [hp] at hr
    | some p =>
      cases hs : succs[i]? with
      | none => simp [hp, hs] at hr
      | some s =>
        simp only [hp, hs] at hr
        have hstep : ∀ (hA : sl_heap) (hlA : Int) (prevA : Option Nat) (lA : List sl_event),
            run_log h lA = some hA →
            (match va hA p s i with
              | none => none
              | some (true, l2) =>
                match validate_loop_log va preds succs n (i + 1) prevA hlA hA with
                | none => none
                | some (r, l3) => some (r, lA ++ l2 ++ l3)
              | some (false, l2) => some ((false, hlA, hA), lA ++ l2)) = some (r, l) →
            run_log h l = some r.2.2 := by
          intro hA hlA prevA lA hrunA hm
          cases hv : va hA p s i with
          | none => simp [hv] at hm
          | some vr =>
            obtain ⟨vb, l2⟩ := vr
            have h2 := run_log_reads (hva _ _ _ _ _ _ hv) hA
            cases vb with
            | false =>
              simp only [hv, Option.some.injEq, Prod.mk.injEq] at hm
              obtain ⟨rfl, rfl⟩ := hm
              exact run_log_trans hrunA h2
            | true =>
              simp only [hv] at hm
              cases hrec : validate_loop_log va preds succs n (i + 1) prevA hlA hA with
              | none => simp [hrec] at hm
              | some rr =>
                obtain ⟨r3, l3⟩ := rr
                simp only [hrec, Option.some.injEq, Prod.mk.injEq] at hm
                obtain ⟨rfl, rfl⟩ := hm
                exact run_log_trans (run_log_trans hrunA h2) (ih _ _ _ _ _ _ hrec)
        by_cases hne : prev ≠ some p
        · simp only [hne, ne_eq, not_false_eq_true, if_true] at hr
          cases hlk : LOCK h p with
          | none => simp [hlk] at hr
          | some hA =>
            simp only [hlk, Option.map_some'] at hr
            exact hstep hA (i : Int) (some p) [sl_event.lock p]
              (by simp [run_log, run_event, hlk]) hr
        · simp only [hne, if_false] at hr
          exact hstep h hl prev [] rfl hr

theorem unlock_levels_loop_log_replay (nodes : List Nat) :
    ∀ (n i : Nat) (old : Option Nat) (h h1 : sl_heap) (l : List sl_event),
      unlock_levels_loop_log nodes n i old h = some (h1, l) → run_log h l = some h1 := by
  intro n
  induction n with
  | zero =>
    intro i old h h1 l hr
    simp only [unlock_levels_loop_log, Option.some.injEq, Prod.mk.injEq] at hr
    obtain ⟨rfl, rfl⟩ := hr
    rfl
  | succ n ih =>
    intro i old h h1 l hr
    unfold unlock_levels_loop_log at hr
    cases hn : nodes[i]? with
    | none => simp [hn] at hr
    | some a =>
      simp only [hn] at hr
      by_cases hne : old ≠ some a
      · simp only [hne, ne_eq, not_false_eq_true, if_true] at hr
        cases hu : UNLOCK h a with
        | none => simp [hu] at hr
        | some hA =>
          simp only [hu] at hr
          cases hrec : unlock_levels_loop_log nodes n (i + 1) (some a) hA with
          | none => simp [hrec] at hr
          | some rr =>
            obtain ⟨h2, l2⟩ := rr
            simp only [hrec, Option.some.injEq, Prod.mk.injEq] at hr
            obtain ⟨rfl, rfl⟩ := hr
            have := ih _ _ _ _ _ hrec
            simp [run_log, run_event, hu, this]
      · simp only [hne, if_false] at hr
        exact ih _ _ _ _ _ hr

theorem insert_splice_log_replay (a : Nat) (preds succs : List Nat) :
    ∀ (n i : Nat) (h h1 : sl_heap) (l : List sl_event),
      insert_splice_log a preds succs n i h = some (h1, l) → run_log h l = some h1 := by
  intro n
  induction n with
  | zero =>
    intro i h h1 l hr
    simp only [insert_splice_log, Option.some.injEq, Prod.mk.injEq] at hr
    obtain ⟨rfl, rfl⟩ := hr
    rfl
  | succ n ih =>
    intro i h h1 l hr
    unfold insert_splice_log at hr
    cases hp : preds[i]? with
    | none => simp [hp] at hr
    | some p =>
      cases hs : succs[i]? with
      | none => simp [hp, hs] at hr
      | some s =>
        simp only [hp, hs] at hr
        cases h1s : store_next h a i (some s) with
        | none => simp [h1s] at hr
        | some hA =>
          simp only [h1s] at hr
          cases h2s : store_next hA p i (some a) with
          | none => simp [h2s] at hr
          | some hB =>
            simp only [h2s] at hr
            cases hrec : insert_splice_log a preds succs n (i + 1) hB with
            | none => simp [hrec] at hr
            | some rr =>
              obtain ⟨h3, l3⟩ := rr
              simp only [hrec, Option.some.injEq, Prod.mk.injEq] at hr
              obtain ⟨rfl, rfl⟩ := hr
              have := ih _ _ _ _ hrec
              simp [run_log, run_event, h1s, h2s, this]

theorem delete_unlink_log_replay (nd : Nat) (preds : List Nat) :
    ∀ (n u : Nat) (h h1 : sl_heap) (l : List sl_event),
      delete_unlink_log nd preds n u h = some (h1, l) → run_log h l = some h1 := by
  intro n
  induction n with
  | zero =>
    intro u h h1 l hr
    cases u <;>
    · simp only [delete_unlink_log, Option.some.injEq, Prod.mk.injEq] at hr
      obtain ⟨rfl, rfl⟩ := hr
      rfl
  | succ n ih =>
    intro u h h1 l hr
    cases u with
    | zero =>
      simp only [delete_unlink_log, Option.some.injEq, Prod.mk.injEq] at hr
      obtain ⟨rfl, rfl⟩ := hr
      rfl
    | succ u =>
      unfold delete_unlink_log at hr
      cases hp : preds[u]? with
      | none => simp [hp] at hr
      | some p =>
        cases hn : h[nd]? with
        | none => simp [hp, hn] at hr
        | some node =>
          simp only [hp, hn] at hr
          cases hnx : node.next[u]? with
          | none => simp [hnx] at hr
          | some v =>
            simp only [hnx] at hr
            cases hst : store_next h p u v with
            | none => simp [hst] at hr
            | some hA =>
              simp only [hst] at hr
              cases hrec : delete_unlink_log nd preds n u hA with
              | none => simp [hrec] at hr
              | some rr =>
                obtain ⟨h2, l2⟩ := rr
                simp only [hrec, Option.some.injEq, Prod.mk.injEq] at hr
                obtain ⟨rfl, rfl⟩ := hr
                have := ih _ _ _ _ hrec
                simp [run_log, run_event, hst, this]

theorem delete_mark_log_replay {h : sl_heap} {nt : Option Nat} {im : Bool} {tl found : Int}
    {succs : List Nat} {res : sl_heap ⊕ (Option Nat × Int × sl_heap)} {l : List sl_event}
    (hm : delete_mark_log h nt im tl found succs = some (res, l)) :
    run_log h l = some (match res with
      | Sum.inl h2 => h2
      | Sum.inr (_, _, h2) => h2) := by
  unfold delete_mark_log at hm
  cases im with
  | true =>
    simp only [Bool.not_true, Bool.false_eq_true, if_false, Option.some.injEq,
      Prod.mk.injEq] at hm
    obtain ⟨rfl, rfl⟩ := hm
    rfl
  | false =>
    simp only [Bool.not_false, if_true] at hm
    cases hs : succs[found.toNat]? with
    | none => simp [hs] at hm
    | some a =>
      simp only [hs] at hm
      cases hlk : LOCK h a with
      | none => simp [hlk] at hm
      | some hA =>
        simp only [hlk] at hm
        cases hn : hA[a]? with
        | none => simp [hn] at hm
        | some node =>
          simp only [hn] at hm
          by_cases hmk : node.marked = true
          · simp only [hmk, if_true] at hm
            cases hu : UNLOCK hA a with
            | none => simp [hu] at hm
            | some hB =>
              simp only [hu, Option.map_some', Option.some.injEq, Prod.mk.injEq] at hm
              obtain ⟨rfl, rfl⟩ := hm
              simp [run_log, run_event, hlk, hu]
          · simp only [hmk, Bool.false_eq_true, if_false] at hm
            cases hu : set_marked hA a with
            | none => simp [hu] at hm
            | some hB =>
              simp only [hu, Option.map_some', Option.some.injEq, Prod.mk.injEq] at hm
              obtain ⟨rfl, rfl⟩ := hm
              simp [run_log, run_event, hlk, hu]

/-- Replaying the log of an insert that returns gives the heap it returns. -/
theorem optimistic_insert_loop_log_replay (m : sl_map) (k : Int) (v L : Nat) :
    ∀ (fuel b : Nat) (h : sl_heap) (r : Int) (h5 : sl_heap),
      (optimistic_insert_loop_log m k v L fuel b h).1 = some (r, h5) →
      run_log h (optimistic_insert_loop_log m k v L fuel b h).2 = some h5 := by
  intro fuel
  induction fuel with
  | zero => intro b h r h5 hres; simp [optimistic_insert_loop_log] at hres
  | succ fuel ih =>
    intro b h r h5 hres
    cases hr : optimistic_search_log (fuel + 1) h m k with
    | none => simp [optimistic_insert_loop_log, hr] at hres
    | some rs =>
      obtain ⟨⟨f, ps, ss⟩, l0⟩ := rs
      have e0 := optimistic_search_log_replay hr
      by_cases hf : f = -1
      · subst hf
        cases hv : validate_loop_log insert_valid_log ps ss L 0 none (-1) h with
        | none => simp [optimistic_insert_loop_log, hr, hv] at hres
        | some rv =>
          obtain ⟨⟨vb, hl, h1⟩, l1⟩ := rv
          have e1 : run_log h l1 = some h1 := validate_loop_log_replay insert_valid_log
            (fun _ _ _ _ _ _ hx => insert_valid_log_reads hx) _ _ _ _ _ _ _ _ _ hv
          cases vb with
          | false =>
            cases hu : unlock_levels_log h1 ps hl with
            | none => simp [optimistic_insert_loop_log, hr, hv, hu] at hres
            | some ru =>
              obtain ⟨h2, l2⟩ := ru
              have e2 : run_log h1 l2 = some h2 := unlock_levels_loop_log_replay _ _ _ _ _ _ _ hu
              have hfst : (optimistic_insert_loop_log m k v L (fuel + 1) b h).1 =
                  (optimistic_insert_loop_log m k v L fuel (b * 2 % 4294967296) h2).1 := by
                simp [optimistic_insert_loop_log, hr, hv, hu]
              have hlog : (optimistic_insert_loop_log m k v L (fuel + 1) b h).2 =
                  l0 ++ l1 ++ l2 ++ (([sl_event.invalid b] ++
                    (if b > 5000 then
                      [sl_event.sleep (insert_timeout b).1 (insert_timeout b).2]
                     else [])) ++
                    (optimistic_insert_loop_log m k v L fuel (b * 2 % 4294967296) h2).2) := by
                simp [optimistic_insert_loop_log, hr, hv, hu]
              rw [hfst] at hres
              have erec := ih _ _ _ _ hres
              have eb : run_log h2 ([sl_event.invalid b] ++
                  (if b > 5000 then
                    [sl_event.sleep (insert_timeout b).1 (insert_timeout b).2]
                   else [])) = some h2 := by
                by_cases hb5 : b > 5000 <;> simp [hb5, run_log, run_event]
              rw [hlog]
              exact run_log_trans (run_log_trans (run_log_trans e0 e1) e2)
                (run_log_trans eb erec)
          | true =>
            obtain ⟨h3, l3, h4, h5', l5, hsp, hfl, hu, hlog⟩ := insert_log_run hr hv hres
            have e3 : run_log (h1 ++ [sl_new_simple_node k v L]) l3 = some h3 :=
              insert_splice_log_replay _ _ _ _ _ _ _ _ hsp
            have e5 : run_log h4 l5 = some h5' := unlock_levels_loop_log_replay _ _ _ _ _ _ _ hu
            rw [hlog] at hres ⊢
            simp only [Option.some.injEq, Prod.mk.injEq] at hres
            obtain ⟨_, rfl⟩ := hres
            have ea : run_log h1 (sl_event.alloc h1.length k v L :: l3) = some h3 := by
              simp [run_log, run_event, e3]
            have ef : run_log h3 (sl_event.fullylinked h1.length :: l5) = some h5' := by
              simp [run_log, run_event, hfl, e5]
            exact run_log_trans (run_log_trans (run_log_trans e0 e1) ea) ef
      · cases hss : ss[f.toNat]? with
        | none => simp [optimistic_insert_loop_log, hr, hf, hss] at hres
        | some nf =>
          cases hn : h[nf]? with
          | none => simp [optimistic_insert_loop_log, hr, hf, hss, hn] at hres
          | some node =>
            by_cases hm : node.marked = true
            · have hfst : (optimistic_insert_loop_log m k v L (fuel + 1) b h).1 =
                  (optimistic_insert_loop_log m k v L fuel b h).1 := by
                simp [optimistic_insert_loop_log, hr, hf, hss, hn, hm]
              have hlog : (optimistic_insert_loop_log m k v L (fuel + 1) b h).2 =
                  l0 ++ ([sl_event.read nf] ++
                    (optimistic_insert_loop_log m k v L fuel b h).2) := by
                simp [optimistic_insert_loop_log, hr, hf, hss, hn, hm]
              rw [hfst] at hres
              have erec := ih _ _ _ _ hres
              rw [hlog]
              exact run_log_trans e0 (run_log_trans (by simp [run_log, run_event]) erec)
            · have hm' : node.marked = false := by simpa using hm
              by_cases hfl : node.fullylinked = true
              · have hres' : optimistic_insert_loop_log m k v L (fuel + 1) b h =
                    (some (0, h), l0 ++ [sl_event.read nf, sl_event.read nf]) := by
                  simp [optimistic_insert_loop_log, hr, hf, hss, hn, hm', hfl]
                rw [hres'] at hres ⊢
                simp only [Option.some.injEq, Prod.mk.injEq] at hres
                obtain ⟨_, rfl⟩ := hres
                exact run_log_trans e0 (by simp [run_log, run_event])
              · simp [optimistic_insert_loop_log, hr, hf, hss, hn, hm', hfl] at hres

/-- Replaying the log of a delete that returns gives the heap it returns. -/
theorem optimistic_delete_loop_log_replay (m : sl_map) (k : Int) :
    ∀ (fuel : Nat) (nt : Option Nat) (im : Bool) (tl : Int) (b : Nat) (h : sl_heap)
      (r : Int) (h6 : sl_heap),
      (optimistic_delete_loop_log m k fuel nt im tl b h).1 = some (r, h6) →
      run_log h (optimistic_delete_loop_log m k fuel nt im tl b h).2 = some h6 := by
  intro fuel
  induction fuel with
  | zero => intro nt im tl b h r h6 hres; simp [optimistic_delete_loop_log] at hres
  | succ fuel ih =>
    intro nt im tl b h r h6 hres
    cases hr : optimistic_search_log (fuel + 1) h m k with
    | none => simp [optimistic_delete_loop_log, hr] at hres
    | some rs =>
      obtain ⟨⟨f, ps, ss⟩, l0⟩ := rs
      have e0 := optimistic_search_log_replay hr
      cases hc : delete_cond_log h im f ss with
      | none => simp [optimistic_delete_loop_log, hr, hc] at hres
      | some rc =>
        obtain ⟨cb, lc⟩ := rc
        have ec : run_log h lc = some h := run_log_reads (delete_cond_log_reads hc) h
        cases cb with
        | false =>
          have hres' : optimistic_delete_loop_log m k (fuel + 1) nt im tl b h =
              (some (0, h), l0 ++ lc) := by
            simp [optimistic_delete_loop_log, hr, hc]
          rw [hres'] at hres ⊢
          simp only [Option.some.injEq, Prod.mk.injEq] at hres
          obtain ⟨_, rfl⟩ := hres
          exact run_log_trans e0 ec
        | true =>
          cases hmk : delete_mark_log h nt im tl f ss with
          | none => simp [optimistic_delete_loop_log, hr, hc, hmk] at hres
          | some rm =>
            obtain ⟨res, lk⟩ := rm
            have ek := delete_mark_log_replay hmk
            cases res with
            | inl h2 =>
              have hres' : optimistic_delete_loop_log m k (fuel + 1) nt im tl b h =
                  (some (0, h2), l0 ++ lc ++ lk) := by
                simp [optimistic_delete_loop_log, hr, hc, hmk]
              rw [hres'] at hres ⊢
              simp only [Option.some.injEq, Prod.mk.injEq] at hres
              obtain ⟨_, rfl⟩ := hres
              exact run_log_trans (run_log_trans e0 ec) ek
            | inr tr =>
              obtain ⟨nd, tl1, h2⟩ := tr
              have ek' : run_log h lk = some h2 := ek
              cases nd with
              | none => simp [optimistic_delete_loop_log, hr, hc, hmk] at hres
              | some nd =>
                cases hv : validate_loop_log delete_valid_log ps ss tl1.toNat 0 none (-1) h2 with
                | none => simp [optimistic_delete_loop_log, hr, hc, hmk, hv] at hres
                | some rv =>
                  obtain ⟨⟨vb, hl, h3⟩, l1⟩ := rv
                  have e1 : run_log h2 l1 = some h3 := validate_loop_log_replay delete_valid_log
                    (fun _ _ _ _ _ _ hx => delete_valid_log_reads hx) _ _ _ _ _ _ _ _ _ hv
                  cases vb with
                  | false =>
                    cases hu : unlock_levels_log h3 ps hl with
                    | none => simp [optimistic_delete_loop_log, hr, hc, hmk, hv, hu] at hres
                    | some ru =>
                      obtain ⟨h4, l2⟩ := ru
                      have e2 : run_log h3 l2 = some h4 :=
                        unlock_levels_loop_log_replay _ _ _ _ _ _ _ hu
                      have hfst : (optimistic_delete_loop_log m k (fuel + 1) nt im tl b h).1 =
                          (optimistic_delete_loop_log m k fuel (some nd) true tl1
                            (b * 2 % 4294967296) h4).1 := by
                        simp [optimistic_delete_loop_log, hr, hc, hmk, hv, hu]
                      have hlog : (optimistic_delete_loop_log m k (fuel + 1) nt im tl b h).2 =
                          l0 ++ lc ++ lk ++ l1 ++ l2 ++ (([sl_event.invalid b] ++
                            (if b > 5000 then
                              [sl_event.sleep (delete_timeout b).1 (delete_timeout b).2]
                             else [])) ++
                            (optimistic_delete_loop_log m k fuel (some nd) true tl1
                              (b * 2 % 4294967296) h4).2) := by
                        simp [optimistic_delete_loop_log, hr, hc, hmk, hv, hu]
                      rw [hfst] at hres
                      have erec := ih _ _ _ _ _ _ _ hres
                      have eb : run_log h4 ([sl_event.invalid b] ++
                          (if b > 5000 then
                            [sl_event.sleep (delete_timeout b).1 (delete_timeout b).2]
                           else [])) = some h4 := by
                        by_cases hb5 : b > 5000 <;> simp [hb5, run_log, run_event]
                      rw [hlog]
                      exact run_log_trans (run_log_trans (run_log_trans (run_log_trans
                        (run_log_trans e0 ec) ek') e1) e2) (run_log_trans eb erec)
                  | true =>
                    cases hul : delete_unlink_log nd ps tl1.toNat tl1.toNat h3 with
                    | none => simp [optimistic_delete_loop_log, hr, hc, hmk, hv, hul] at hres
                    | some rl =>
                      obtain ⟨h4, l3⟩ := rl
                      have e3 : run_log h3 l3 = some h4 :=
                        delete_unlink_log_replay _ _ _ _ _ _ _ hul
                      cases hun : UNLOCK h4 nd with
                      | none =>
                        simp [optimistic_delete_loop_log, hr, hc, hmk, hv, hul, hun] at hres
                      | some h5 =>
                        cases hu : unlock_levels_log h5 ps hl with
                        | none =>
                          simp [optimistic_delete_loop_log, hr, hc, hmk, hv, hul, hun, hu] at hres
                        | some ru =>
                          obtain ⟨h6', l6⟩ := ru
                          have e6 : run_log h5 l6 = some h6' :=
                            unlock_levels_loop_log_replay _ _ _ _ _ _ _ hu
                          have hres' : optimistic_delete_loop_log m k (fuel + 1) nt im tl b h =
                              (some (1, h6'), l0 ++ lc ++ lk ++ l1 ++ l3 ++
                                sl_event.unlock nd :: l6) := by
                            simp [optimistic_delete_loop_log, hr, hc, hmk, hv, hul, hun, hu]
                          rw [hres'] at hres ⊢
                          simp only [Option.some.injEq, Prod.mk.injEq] at hres
                          obtain ⟨_, rfl⟩ := hres
                          have eu : run_log h4 (sl_event.unlock nd :: l6) = some h6' := by
                            simp [run_log, run_event, hun, e6]
                          exact run_log_trans (run_log_trans (run_log_trans (run_log_trans
                            (run_log_trans e0 ec) ek') e1) e3) eu

/-! ## Lock balance: the statement -/

/-- C14. Lock balance.  For every array `preds`, every array `succs`, every
number `n` of levels and every heap `h0`: when the validation loop of
`optimistic_insert` (resp. of `optimistic_delete`) stops on `h0`, with
validation failed at some level or passed at all `n` levels, it has locked
pairwise distinct nodes and released none, and `unlock_levels(preds,
highest_locked)` then returns, releases exactly the nodes the loop locked, each
once, locks none, and gives back the heap `h0`; along the two logs no lock is
taken twice and none is held at the end.  On every heap reachable from a fresh
map, for every key up to `LONG_MAX` and every tower height in `[1, levelmax]`,
`optimistic_insert` and `optimistic_delete` return `0` or `1`, along their logs
no step locks a node that is held or releases one that is not, no lock is held
at the end of the log, and no node of the resulting heap is locked; replaying
the steps of the log on the heap of the call gives the resulting heap, so the
log misses no lock step. -/
theorem lock_balance (preds succs : List Nat) (n : Nat) (h0 : sl_heap)
    (lm : Nat) (log : List (sl_call × Int)) (h : sl_heap) (hr : Reachable lm log h)
    (k : Int) (hk : k ≤ VAL_MAX) (v L : Nat) (hL1 : 1 ≤ L) (hLm : L ≤ lm) (fuel : Nat)
    (hfuel : h.length ≤ fuel) :
    (∀ valid hl h1 l1,
      validate_loop_log insert_valid_log preds succs n 0 none (-1) h0 =
        some ((valid, hl, h1), l1) →
      (locked_by l1).Nodup ∧ released_by l1 = [] ∧
      ∃ l2, unlock_levels_log h1 preds hl = some (h0, l2) ∧
        released_by l2 = locked_by l1 ∧ locked_by l2 = [] ∧
        held_after [] (l1 ++ l2) = some []) ∧
    (∀ valid hl h1 l1,
      validate_loop_log delete_valid_log preds succs n 0 none (-1) h0 =
        some ((valid, hl, h1), l1) →
      (locked_by l1).Nodup ∧ released_by l1 = [] ∧
      ∃ l2, unlock_levels_log h1 preds hl = some (h0, l2) ∧
        released_by l2 = locked_by l1 ∧ locked_by l2 = [] ∧
        held_after [] (l1 ++ l2) = some []) ∧
    (∃ r h5 l, optimistic_insert_log fuel h (sl_set_new lm).1 k v L = (some (r, h5), l) ∧
      (r = 0 ∨ r = 1) ∧ (locked_by l).Nodup ∧ held_after [] l = some [] ∧
      run_log h l = some h5 ∧
      ∀ (a : Nat) (nd : sl_node), h5[a]? = some nd → nd.lock = false) ∧
    (∃ r h6 l, optimistic_delete_log fuel h (sl_set_new lm).1 k = (some (r, h6), l) ∧
      (r = 0 ∨ r = 1) ∧ (locked_by l).Nodup ∧ held_after [] l = some [] ∧
      run_log h l = some h6 ∧
      ∀ (a : Nat) (nd : sl_node), h6[a]? = some nd → nd.lock = false) := by
  obtain ⟨G, hinv, _⟩ := hr.inv
  refine ⟨?_, ?_, ?_, ?_⟩
  · intro valid hl h1 l1 hv
    obtain ⟨h1', h2', _, h4'⟩ := validate_unlock_balance insert_valid_log
      (fun _ _ _ _ _ _ hv => insert_valid_log_reads hv) hv
    exact ⟨h1', h2', h4'⟩
  · intro valid hl h1 l1 hv
    obtain ⟨h1', h2', _, h4'⟩ := validate_unlock_balance delete_valid_log
      (fun _ _ _ _ _ _ hv => delete_valid_log_reads hv) hv
    exact ⟨h1', h2', h4'⟩
  · obtain ⟨lo, hi, found, l0, r, h5, l, _, _, hlog, hfree, _, _, hheld, hnd, hcase⟩ :=
      hinv.insert_log_facts hk v hL1 hLm hfuel
    have hrun : run_log h l = some h5 := by
      have h1 : (optimistic_insert_log fuel h ⟨1⟩ k v L).1 = some (r, h5) := by rw [hlog]
      have h2 : (optimistic_insert_log fuel h ⟨1⟩ k v L).2 = l := by rw [hlog]
      have h3 := optimistic_insert_loop_log_replay ⟨1⟩ k v L fuel 1 h r h5 h1
      exact h2 ▸ h3
    refine ⟨r, h5, l, hlog, ?_, hnd, hheld, hrun, hfree.none_held⟩
    rcases hcase with ⟨hr0, _⟩ | ⟨hr1, _⟩
    · exact Or.inl hr0
    · exact Or.inr hr1
  · obtain ⟨lo, hi, found, l0, r, h6, l, _, _, hlog, hfree, _, _, hheld, hnd, hcase⟩ :=
      hinv.delete_log_facts hk (by omega) hfuel
    have hrun : run_log h l = some h6 := by
      have h1 : (optimistic_delete_log fuel h ⟨1⟩ k).1 = some (r, h6) := by rw [hlog]
      have h2 : (optimistic_delete_log fuel h ⟨1⟩ k).2 = l := by rw [hlog]
      have h3 := optimistic_delete_loop_log_replay ⟨1⟩ k fuel none false (-1) 1 h r h6 h1
      exact h2 ▸ h3
    refine ⟨r, h6, l, hlog, ?_, hnd, hheld, hrun, hfree.none_held⟩
    rcases hcase with ⟨hr0, _⟩ | ⟨hr1, _⟩
    · exact Or.inl hr0
    · exact Or.inr hr1

theorem lock_balance_witness :
    Reachable 2 [(sl_call.insert 5 7 2, 1)] one_key_heap ∧
    (3 : Int) ≤ VAL_MAX ∧
    1 ≤ 1 ∧
    1 ≤ 2 ∧
    one_key_heap.length ≤ 3 ∧
    ((∀ valid hl h1 l1,
        validate_loop_log insert_valid_log [1, 1] [2, 2] 2 0 none (-1) one_key_heap =
          some ((valid, hl, h1), l1) →
        (locked_by l1).Nodup ∧ released_by l1 = [] ∧
        ∃ l2, unlock_levels_log h1 [1, 1] hl = some (one_key_heap, l2) ∧
          released_by l2 = locked_by l1 ∧ locked_by l2 = [] ∧
          held_after [] (l1 ++ l2) = some []) ∧
      (∀ valid hl h1 l1,
        validate_loop_log delete_valid_log [1, 1] [2, 2] 2 0 none (-1) one_key_heap =
          some ((valid, hl, h1), l1) →
        (locked_by l1).Nodup ∧ released_by l1 = [] ∧
        ∃ l2, unlock_levels_log h1 [1, 1] hl = some (one_key_heap, l2) ∧
          released_by l2 = locked_by l1 ∧ locked_by l2 = [] ∧
          held_after [] (l1 ++ l2) = some []) ∧
      (∃ r h5 l, optimistic_insert_log 3 one_key_heap (sl_set_new 2).1 3 4 1 = (some (r, h5), l) ∧
        (r = 0 ∨ r = 1) ∧ (locked_by l).Nodup ∧ held_after [] l = some [] ∧
        run_log one_key_heap l = some h5 ∧
        ∀ (a : Nat) (nd : sl_node), h5[a]? = some nd → nd.lock = false) ∧
      (∃ r h6 l, optimistic_delete_log 3 one_key_heap (sl_set_new 2).1 3 = (some (r, h6), l) ∧
        (r = 0 ∨ r = 1) ∧ (locked_by l).Nodup ∧ held_after [] l = some [] ∧
        run_log one_key_heap l = some h6 ∧
        ∀ (a : Nat) (nd : sl_node), h6[a]? = some nd → nd.lock = false)) :=
  ⟨one_key_heap_reachable, by decide, by decide, by decide, by decide,
    lock_balance [1, 1] [2, 2] 2 one_key_heap 2 _ one_key_heap one_key_heap_reachable 3
      (by decide) 4 1 (by decide) (by decide) 3 (by decide)⟩

/-! ## The order of the stores of an insert: the statement -/

/-- C15, counterexample.  `optimistic_insert(map, 5, 7)` with a tower of height
`2` on a fresh map of height `2` (tail at `0`, head at `1`, new node at `2`)
returns `1`, and its stores are, in order: `new_node->next[0] = tail`,
`head->next[0] = new_node`, `new_node->next[1] = tail`,
`head->next[1] = new_node`, `new_node->fullylinked = 1`.  The incoming link of
level `0` is written before the outgoing link of level `1`: the two stores
occur in this order in the log of the call. -/
theorem splice_interleaves_levels :
    (optimistic_insert_log 3 (sl_set_new 2).2 (sl_set_new 2).1 5 7 2).1 =
        some (1, one_key_heap) ∧
      stores_of (optimistic_insert_log 3 (sl_set_new 2).2 (sl_set_new 2).1 5 7 2).2 =
        [sl_event.next 2 0 (some 0), sl_event.next 1 0 (some 2),
          sl_event.next 2 1 (some 0), sl_event.next 1 1 (some 2),
          sl_event.fullylinked 2] ∧
      List.Sublist [sl_event.next 1 0 (some 2), sl_event.next 2 1 (some 0)]
        (optimistic_insert_log 3 (sl_set_new 2).2 (sl_set_new 2).1 5 7 2).2 := by
  decide

/-- C15, amended.  For every heap, key, value and tower height `L`, when
`optimistic_insert` returns `1` there are arrays `preds` and `succs` returned by
a search (with `found = -1`) on the heap of the call and a node `a` allocated
by the call such that the stores of the call are exactly, in this order: for
each level `j = 0, …, L - 1` in turn, first `new_node->next[j] = succs[j]` and
then `preds[j]->next[j] = new_node`; and last `new_node->fullylinked = 1`.  So
at every level the outgoing link is written before the incoming link of the
same level, the levels are spliced bottom-up one after the other, and
`fullylinked` is set after every level has been spliced.  Replaying the steps
of the log on the heap of the call gives the heap returned, so the log misses
no store. -/
theorem splice_order_per_level (fuel : Nat) (h : sl_heap) (m : sl_map) (k : Int) (v L : Nat)
    (h5 : sl_heap) (hret : (optimistic_insert_log fuel h m k v L).1 = some (1, h5)) :
    ∃ (g : Nat) (ps ss : List Nat) (l0 : List sl_event) (a : Nat),
      optimistic_search_log g h m k = some ((-1, ps, ss), l0) ∧
      sl_event.alloc a k v L ∈ (optimistic_insert_log fuel h m k v L).2 ∧
      stores_of (optimistic_insert_log fuel h m k v L).2 =
        (List.range L).flatMap (fun j =>
          [sl_event.next a j ss[j]?, sl_event.next (ps.getD j 0) j (some a)]) ++
        [sl_event.fullylinked a] ∧
      run_log h (optimistic_insert_log fuel h m k v L).2 = some h5 := by
  rcases insert_loop_stores m k v L fuel 1 h 1 h5 hret with ⟨h0, _⟩ | ⟨_, g, ps, ss, l0, a, h1, h2, h3⟩
  · exact absurd h0 (by decide)
  · exact ⟨g, ps, ss, l0, a, h1, h2, h3,
      optimistic_insert_loop_log_replay m k v L fuel 1 h 1 h5 hret⟩

theorem splice_order_per_level_witness :
    (optimistic_insert_log 3 (sl_set_new 2).2 (sl_set_new 2).1 5 7 2).1 = some (1, one_key_heap) ∧
    (∃ (g : Nat) (ps ss : List Nat) (l0 : List sl_event) (a : Nat),
        optimistic_search_log g (sl_set_new 2).2 (sl_set_new 2).1 5 = some ((-1, ps, ss), l0) ∧
        sl_event.alloc a 5 7 2 ∈ (optimistic_insert_log 3 (sl_set_new 2).2 (sl_set_new 2).1 5 7 2).2 ∧
        stores_of (optimistic_insert_log 3 (sl_set_new 2).2 (sl_set_new 2).1 5 7 2).2 =
          (List.range 2).flatMap (fun j =>
            [sl_event.next a j ss[j]?, sl_event.next (ps.getD j 0) j (some a)]) ++
          [sl_event.fullylinked a] ∧
        run_log (sl_set_new 2).2 (optimistic_insert_log 3 (sl_set_new 2).2 (sl_set_new 2).1 5 7 2).2 = some one_key_heap) :=
  ⟨by decide,
    splice_order_per_level 3 (sl_set_new 2).2 (sl_set_new 2).1 5 7 2 one_key_heap (by decide)⟩

end Synchrobench
